import Mathlib

/-!
# Segregated free-list allocator (`prj4/20201617/mm.c`)

A shallow embedding of the allocator of `mm.c` and a verification of its
contract.  Memory is a map from byte addresses to bytes; a word is four bytes,
little endian, and `size_t`, `unsigned int` and `char *` are 32 bits wide (the
allocator stores its list heads in `SEGLIST_CNT * sizeof(char * )` bytes and
lays the prologue out right behind them, which is only coherent with four-byte
pointers).  Arithmetic on `size_t` is taken modulo `2 ^ 32`; pointer arithmetic
is plain addition and subtraction of addresses.  `NULL` is the address `0`.

Loops that follow `NEXT` links take a fuel argument and yield `none` when the
fuel runs out before the loop of the C code would have ended.
-/

namespace MM

/-! ## Constants and macros -/

/-- Word and header/footer size in bytes (`WSIZE`). -/
def WSIZE : Nat := 4

/-- Double word size in bytes (`DSIZE`). -/
def DSIZE : Nat := 8

/-- Amount the heap is extended by (`CHUNKSIZE`, `1 << 10`). -/
def CHUNKSIZE : Nat := 1 <<< 10

/-- Number of segregated lists (`SEGLIST_CNT`). -/
def SEGLIST_CNT : Nat := 20

/-- Alignment unit (`ALIGNMENT`). -/
def ALIGNMENT : Nat := 8

/-- The value of `sizeof(char * )` on the 32-bit target. -/
def PTRSIZE : Nat := 4

/-- Number of values of a `size_t` or `unsigned int`. -/
def WORD : Nat := 2 ^ 32

/-- The `unsigned` value of the `int` constant `~0x7`. -/
def MASK : Nat := 0xFFFFFFF8

/-- Byte memory: the byte stored at each address. -/
abbrev Mem := Nat → Nat

/-- The macro `MAX(x, y)`. -/
def MAX (x y : Nat) : Nat := if x > y then x else y

/-- The macro `ALIGN(size)`, on `size_t`. -/
def ALIGN (size : Nat) : Nat := ((size + (ALIGNMENT - 1)) % WORD) &&& MASK

/-- The macro `PACK(size, alloc)`. -/
def PACK (size alloc : Nat) : Nat := size ||| alloc

/-- The macro `GET(p)`: the little-endian word at address `p`. -/
def GET (m : Mem) (p : Nat) : Nat :=
  m p % 256 + 256 * (m (p + 1) % 256) + 65536 * (m (p + 2) % 256)
    + 16777216 * (m (p + 3) % 256)

/-- The macro `PUT(p, val)`: store the low 32 bits of `val` at address `p`. -/
def PUT (m : Mem) (p val : Nat) : Mem := fun a =>
  if a = p then val % 256
  else if a = p + 1 then val / 256 % 256
  else if a = p + 2 then val / 65536 % 256
  else if a = p + 3 then val / 16777216 % 256
  else m a

/-- The macro `GET_SIZE(p)`. -/
def GET_SIZE (m : Mem) (p : Nat) : Nat := GET m p &&& MASK

/-- The macro `GET_ALLOC(p)`. -/
def GET_ALLOC (m : Mem) (p : Nat) : Nat := GET m p &&& 0x1

/-- The macro `HDRP(bp)`. -/
def HDRP (bp : Nat) : Nat := bp - WSIZE

/-- The macro `FTRP(bp)`. -/
def FTRP (m : Mem) (bp : Nat) : Nat := bp + GET_SIZE m (HDRP bp) - DSIZE

/-- The macro `NEXT_BLKP(bp)`. -/
def NEXT_BLKP (m : Mem) (bp : Nat) : Nat := bp + GET_SIZE m (bp - WSIZE)

/-- The macro `PREV_BLKP(bp)`. -/
def PREV_BLKP (m : Mem) (bp : Nat) : Nat := bp - GET_SIZE m (bp - DSIZE)

/-- The macro `PREV_PTR(bp)`. -/
def PREV_PTR (bp : Nat) : Nat := bp

/-- The macro `NEXT_PTR(bp)`. -/
def NEXT_PTR (bp : Nat) : Nat := bp + WSIZE

/-- The macro `PREV(bp)` read as a value. -/
def PREV (m : Mem) (bp : Nat) : Nat := GET m (PREV_PTR bp)

/-- The macro `NEXT(bp)` read as a value. -/
def NEXT (m : Mem) (bp : Nat) : Nat := GET m (NEXT_PTR bp)

/-- The library routine `memcpy(dst, src, n)` on non-overlapping ranges. -/
def memcpy (m : Mem) (dst src n : Nat) : Mem := fun a =>
  if dst ≤ a ∧ a < dst + n then m (src + (a - dst)) else m a

/-! ## State -/

/-- The state the allocator works on: the heap provider's region (`base`, the
bytes handed out so far `brk`, its capacity `limit`), the byte memory, and the
global `seg_free_lists`. -/
structure Heap where
  base : Nat
  brk : Nat
  limit : Nat
  mem : Mem
  seg_free_lists : Nat

/-- Modelled from the spec: the heap provider `mem_sbrk` (its source,
`memlib.c`, is not part of the files at hand).  It grows the region by exactly
`incr` bytes and returns the address of the start of the extension, or fails
(`none`, the sentinel `(void * )-1`) when the backing store cannot supply
them; its parameter is an `int`, so a request of `2 ^ 31` bytes or more is
negative and fails. -/
def mem_sbrk (s : Heap) (incr : Nat) : Option (Nat × Heap) :=
  if incr < 2 ^ 31 ∧ s.brk + incr ≤ s.limit then
    some (s.base + s.brk, { s with brk := s.brk + incr })
  else none

/-- Address of the list head `seg_free_lists[idx]`. -/
def headAddr (s : Heap) (idx : Nat) : Nat := s.seg_free_lists + PTRSIZE * idx

/-- The value `seg_free_lists[idx]`. -/
def getHead (s : Heap) (idx : Nat) : Nat := GET s.mem (headAddr s idx)

/-- The assignment `seg_free_lists[idx] = v`. -/
def setHead (s : Heap) (idx v : Nat) : Heap :=
  { s with mem := PUT s.mem (headAddr s idx) v }

/-- A store `PUT(p, val)` on the state. -/
def put (s : Heap) (p val : Nat) : Heap := { s with mem := PUT s.mem p val }

/-! ## The allocator -/

/-- The loop of `get_list_index`, with `n` bounding the iterations left. -/
def get_list_index_loop : Nat → Nat → Nat → Nat
  | 0, _, idx => idx
  | n + 1, size, idx =>
    if idx < SEGLIST_CNT - 1 ∧ size > 1 then get_list_index_loop n (size >>> 1) (idx + 1)
    else idx

/-- The function `get_list_index`: the loop leaves after at most
`SEGLIST_CNT - 1` rounds, each of which increments `idx`. -/
def get_list_index (size : Nat) : Nat := get_list_index_loop (SEGLIST_CNT - 1) size 0

/-- The `while` loop of `insert_node`: returns the final `(prev, curr)`. -/
def insert_walk (m : Mem) (size : Nat) : Nat → Nat → Nat → Option (Nat × Nat)
  | 0, _, _ => none
  | fuel + 1, curr, prev =>
    if curr ≠ 0 ∧ GET_SIZE m (HDRP curr) < size then
      insert_walk m size fuel (NEXT m curr) curr
    else some (prev, curr)

/-- The function `insert_node`. -/
def insert_node (fuel : Nat) (s : Heap) (bp size : Nat) : Option Heap :=
  let idx := get_list_index size
  match insert_walk s.mem size fuel (getHead s idx) 0 with
  | none => none
  | some (prev, curr) =>
    let s1 := put s (PREV_PTR bp) prev
    let s2 := put s1 (NEXT_PTR bp) curr
    let s3 := if prev ≠ 0 then put s2 (NEXT_PTR prev) bp else setHead s2 idx bp
    some (if curr ≠ 0 then put s3 (PREV_PTR curr) bp else s3)

/-- The function `delete_node`. -/
def delete_node (s : Heap) (bp : Nat) : Heap :=
  let size := GET_SIZE s.mem (HDRP bp)
  let idx := get_list_index size
  let prev := PREV s.mem bp
  let next := NEXT s.mem bp
  let s1 := if prev ≠ 0 then put s (NEXT_PTR prev) next else setHead s idx next
  if next ≠ 0 then put s1 (PREV_PTR next) prev else s1

/-- The function `coalesce`: returns the new state and the block pointer. -/
def coalesce (s : Heap) (bp : Nat) : Heap × Nat :=
  let prev_bp := PREV_BLKP s.mem bp
  let next_bp := NEXT_BLKP s.mem bp
  let prev_alloc := GET_ALLOC s.mem (HDRP (PREV_BLKP s.mem bp))
  let next_alloc := GET_ALLOC s.mem (HDRP (NEXT_BLKP s.mem bp))
  let size := GET_SIZE s.mem (HDRP bp)
  if prev_alloc ≠ 0 ∧ next_alloc ≠ 0 then (s, bp)
  else if prev_alloc ≠ 0 ∧ next_alloc = 0 then
    let s1 := delete_node s next_bp
    let size := (size + GET_SIZE s1.mem (HDRP next_bp)) % WORD
    let s2 := put s1 (HDRP bp) (PACK size 0)
    let s3 := put s2 (FTRP s2.mem bp) (PACK size 0)
    (s3, bp)
  else if prev_alloc = 0 ∧ next_alloc ≠ 0 then
    let s1 := delete_node s prev_bp
    let size := (size + GET_SIZE s1.mem (HDRP prev_bp)) % WORD
    let s2 := put s1 (FTRP s1.mem bp) (PACK size 0)
    let s3 := put s2 (HDRP (PREV_BLKP s2.mem bp)) (PACK size 0)
    (s3, prev_bp)
  else
    let s1 := delete_node s prev_bp
    let s2 := delete_node s1 next_bp
    let size := (size + (GET_SIZE s2.mem (HDRP prev_bp) + GET_SIZE s2.mem (HDRP next_bp)) % WORD)
      % WORD
    let s3 := put s2 (HDRP prev_bp) (PACK size 0)
    let s4 := put s3 (FTRP s3.mem next_bp) (PACK size 0)
    (s4, prev_bp)

/-- The function `extend_heap`: `none` when a list walk runs out of fuel,
otherwise the new state and the returned pointer (`0` for `NULL`). -/
def extend_heap (fuel : Nat) (s : Heap) (words : Nat) : Option (Heap × Nat) :=
  let size := if words % 2 ≠ 0 then ((words + 1) % WORD * WSIZE) % WORD
              else (words * WSIZE) % WORD
  match mem_sbrk s size with
  | none => some (s, 0)
  | some (bp, s0) =>
    let s1 := put s0 (HDRP bp) (PACK size 0)
    let s2 := put s1 (FTRP s1.mem bp) (PACK size 0)
    let s3 := put s2 (HDRP (NEXT_BLKP s2.mem bp)) (PACK 0 1)
    let (s4, coalesced_bp) := coalesce s3 bp
    match insert_node fuel s4 coalesced_bp (GET_SIZE s4.mem (HDRP coalesced_bp)) with
    | none => none
    | some s5 => some (s5, coalesced_bp)

/-- The loop that clears the list heads in `mm_init`, for `i` from
`SEGLIST_CNT - n` up. -/
def init_heads : Nat → Heap → Heap
  | 0, s => s
  | n + 1, s => init_heads n (setHead s (SEGLIST_CNT - (n + 1)) 0)

/-- The function `mm_init`: the new state and the returned `int`. -/
def mm_init (fuel : Nat) (s : Heap) : Option (Heap × Int) :=
  match mem_sbrk s ((SEGLIST_CNT + 4) * PTRSIZE) with
  | none => some (s, -1)
  | some (heap_start, s0) =>
    let s1 := { s0 with seg_free_lists := heap_start }
    let s2 := init_heads SEGLIST_CNT s1
    let heap_listp := heap_start + SEGLIST_CNT * PTRSIZE
    let s3 := put s2 heap_listp 0
    let s4 := put s3 (heap_listp + WSIZE) (PACK DSIZE 1)
    let s5 := put s4 (heap_listp + 2 * WSIZE) (PACK DSIZE 1)
    let s6 := put s5 (heap_listp + 3 * WSIZE) (PACK 0 1)
    match extend_heap fuel s6 (CHUNKSIZE / WSIZE) with
    | none => none
    | some (s7, p) => if p = 0 then some (s7, -1) else some (s7, 0)

/-- The inner `for` loop of `find_fit` over one list: `some 0` when the list
ends without a fit, `none` when the fuel runs out. -/
def find_fit_list (m : Mem) (asize : Nat) : Nat → Nat → Option Nat
  | 0, _ => none
  | fuel + 1, bp =>
    if bp = 0 then some 0
    else if GET_SIZE m (HDRP bp) ≥ asize then some bp
    else find_fit_list m asize fuel (NEXT m bp)

/-- The outer `for` loop of `find_fit`, with `n` lists left from index `i`. -/
def find_fit_from (fuel : Nat) (s : Heap) (asize : Nat) : Nat → Nat → Option Nat
  | 0, _ => some 0
  | n + 1, i =>
    match find_fit_list s.mem asize fuel (getHead s i) with
    | none => none
    | some bp => if bp ≠ 0 then some bp else find_fit_from fuel s asize n (i + 1)

/-- The function `find_fit`. -/
def find_fit (fuel : Nat) (s : Heap) (asize : Nat) : Option Nat :=
  let idx := get_list_index asize
  find_fit_from fuel s asize (SEGLIST_CNT - idx) idx

/-- The function `place`. -/
def place (fuel : Nat) (s : Heap) (bp asize : Nat) : Option (Heap × Nat) :=
  let ptr_size := GET_SIZE s.mem (HDRP bp)
  let remainder := (ptr_size + WORD - asize) % WORD
  let s1 := delete_node s bp
  if remainder < 2 * DSIZE then
    let s2 := put s1 (HDRP bp) (PACK ptr_size 1)
    let s3 := put s2 (FTRP s2.mem bp) (PACK ptr_size 1)
    some (s3, bp)
  else if remainder ≤ 340 then
    let s2 := put s1 (HDRP bp) (PACK remainder 0)
    let s3 := put s2 (FTRP s2.mem bp) (PACK remainder 0)
    let alloc_bp := NEXT_BLKP s3.mem bp
    let s4 := put s3 (HDRP alloc_bp) (PACK asize 1)
    let s5 := put s4 (FTRP s4.mem alloc_bp) (PACK asize 1)
    match insert_node fuel s5 bp remainder with
    | none => none
    | some s6 => some (s6, alloc_bp)
  else
    let s2 := put s1 (HDRP bp) (PACK asize 1)
    let s3 := put s2 (FTRP s2.mem bp) (PACK asize 1)
    let next_bp := NEXT_BLKP s3.mem bp
    let s4 := put s3 (HDRP next_bp) (PACK remainder 0)
    let s5 := put s4 (FTRP s4.mem next_bp) (PACK remainder 0)
    match insert_node fuel s5 next_bp remainder with
    | none => none
    | some s6 => some (s6, bp)

/-- The adjusted block size that `mm_malloc` and `mm_realloc` compute. -/
def adjust_size (size : Nat) : Nat :=
  if size ≤ DSIZE then 2 * DSIZE else ALIGN ((size + DSIZE) % WORD)

/-- The function `mm_malloc`: the new state and the returned pointer. -/
def mm_malloc (fuel : Nat) (s : Heap) (size : Nat) : Option (Heap × Nat) :=
  if size = 0 then some (s, 0)
  else
    let asize := adjust_size size
    match find_fit fuel s asize with
    | none => none
    | some bp =>
      if bp = 0 then
        let extend_bytes := MAX asize CHUNKSIZE
        match extend_heap fuel s (extend_bytes / WSIZE) with
        | none => none
        | some (s1, bp1) => if bp1 = 0 then some (s1, 0) else place fuel s1 bp1 asize
      else place fuel s bp asize

/-- The function `mm_free`. -/
def mm_free (fuel : Nat) (s : Heap) (bp : Nat) : Option Heap :=
  if bp = 0 then some s
  else
    let size := GET_SIZE s.mem (HDRP bp)
    let s1 := put s (HDRP bp) (PACK size 0)
    let s2 := put s1 (FTRP s1.mem bp) (PACK size 0)
    let (s3, merged_bp) := coalesce s2 bp
    insert_node fuel s3 merged_bp (GET_SIZE s3.mem (HDRP merged_bp))

/-- The function `mm_realloc`: the new state and the returned pointer. -/
def mm_realloc (fuel : Nat) (s : Heap) (bp size : Nat) : Option (Heap × Nat) :=
  if size = 0 then
    match mm_free fuel s bp with
    | none => none
    | some s1 => some (s1, 0)
  else if bp = 0 then mm_malloc fuel s size
  else
    let old_size := GET_SIZE s.mem (HDRP bp)
    let new_size := adjust_size size
    if new_size ≤ old_size then some (s, bp)
    else
      let next_bp := NEXT_BLKP s.mem bp
      let next_alloc := GET_ALLOC s.mem (HDRP next_bp)
      let next_size := if next_alloc ≠ 0 then 0 else GET_SIZE s.mem (HDRP next_bp)
      let total_size := (old_size + next_size) % WORD
      if next_alloc = 0 ∧ total_size ≥ new_size then
        let s1 := delete_node s next_bp
        let s2 := put s1 (HDRP bp) (PACK total_size 1)
        let s3 := put s2 (FTRP s2.mem bp) (PACK total_size 1)
        some (s3, bp)
      else
        match mm_malloc fuel s size with
        | none => none
        | some (s1, new_bp) =>
          if new_bp = 0 then some (s1, 0)
          else
            let copy_bytes := (old_size + WORD - DSIZE) % WORD
            let copy_bytes := if size < copy_bytes then size else copy_bytes
            let s2 := { s1 with mem := memcpy s1.mem new_bp bp copy_bytes }
            match mm_free fuel s2 bp with
            | none => none
            | some s3 => some (s3, new_bp)

/-! ## The abstract picture of a heap

The region after the prologue is a sequence of blocks; the specification
describes it by the list of their sizes and tags and the twenty free lists by
lists of `(payload address, size)` pairs. -/

/-- What a block is to the allocator: allocated, free and linked into its free
list, or free and (for the moment) in no list. -/
inductive Tag where
  | A
  | F
  | U
  deriving DecidableEq

/-- A block of the picture: its size in bytes and its tag. -/
abbrev Blk := Nat × Tag

/-- The allocated bit of a boundary tag. -/
def abit (t : Tag) : Nat := if t = Tag.A then 1 else 0

/-- Sum of the block sizes. -/
def total : List Blk → Nat
  | [] => 0
  | b :: t => b.1 + total t

/-- The blocks `bl` lie one after the other from payload address `bp` on, each
with a header and an equal footer that carry its size and allocated bit. -/
def Tiles (m : Mem) : Nat → List Blk → Prop
  | _, [] => True
  | bp, b :: t =>
    b.1 % 8 = 0 ∧ 16 ≤ b.1 ∧ GET m (bp - 4) = b.1 + abit b.2 ∧
      GET m (bp + b.1 - 8) = b.1 + abit b.2 ∧ Tiles m (bp + b.1) t

/-- The `(payload address, size)` pairs of the blocks tagged `F`. -/
def flist : Nat → List Blk → List (Nat × Nat)
  | _, [] => []
  | bp, b :: t => if b.2 = Tag.F then (bp, b.1) :: flist (bp + b.1) t else flist (bp + b.1) t

/-- The `(payload address, size)` pairs of the blocks tagged `A`. -/
def alist : Nat → List Blk → List (Nat × Nat)
  | _, [] => []
  | bp, b :: t => if b.2 = Tag.A then (bp, b.1) :: alist (bp + b.1) t else alist (bp + b.1) t

/-- The `(payload address, size)` pairs of all blocks. -/
def blist : Nat → List Blk → List (Nat × Nat)
  | _, [] => []
  | bp, b :: t => (bp, b.1) :: blist (bp + b.1) t

/-- Address of the first node of `l`, or `nxt` when `l` is empty. -/
def nextOf (l : List (Nat × Nat)) (nxt : Nat) : Nat :=
  match l with
  | [] => nxt
  | x :: _ => x.1

/-- Address of the last node of `l`, or `prev` when `l` is empty. -/
def lastOf (prev : Nat) : List (Nat × Nat) → Nat
  | [] => prev
  | x :: t => lastOf x.1 t

/-- The `PREV` and `NEXT` fields of the nodes of `l` link them in this order,
between the addresses `prev` and `nxt`. -/
def Links (m : Mem) : Nat → List (Nat × Nat) → Nat → Prop
  | _, [], _ => True
  | prev, x :: t, nxt => PREV m x.1 = prev ∧ NEXT m x.1 = nextOf t nxt ∧ Links m x.1 t nxt

/-- The free-list table at `base` holds, in list `i`, exactly the nodes `L i`:
doubly linked from the head, `NULL`-terminated, and these are the blocks of
`FB` whose size class is `i`, each once, in ascending order of size. -/
structure Lists (m : Mem) (base : Nat) (FB : List (Nat × Nat))
    (L : Nat → List (Nat × Nat)) : Prop where
  head : ∀ i, i < SEGLIST_CNT → GET m (base + 4 * i) = nextOf (L i) 0
  links : ∀ i, i < SEGLIST_CNT → Links m 0 (L i) 0
  mem_iff : ∀ i, i < SEGLIST_CNT → ∀ x, x ∈ L i ↔ x ∈ FB ∧ get_list_index x.2 = i
  nodup : ∀ i, i < SEGLIST_CNT → (L i).Nodup
  sorted : ∀ i, i < SEGLIST_CNT → (L i).Pairwise (fun x y => x.2 ≤ y.2)

/-- The nodes `FB` lie above the list heads, their addresses fit a pointer, and
the link fields of two different nodes do not overlap. -/
structure Sep (base : Nat) (FB : List (Nat × Nat)) : Prop where
  lo : ∀ x, x ∈ FB → base + 96 ≤ x.1
  hi : ∀ x, x ∈ FB → x.1 + 8 ≤ 2 ^ 32
  apart : ∀ x y, x ∈ FB → y ∈ FB → x = y ∨ x.1 + 8 ≤ y.1 ∨ y.1 + 8 ≤ x.1

/-- The address `w` of a word lies outside the link fields of the nodes `l`. -/
def FarFrom (w : Nat) (l : List (Nat × Nat)) : Prop :=
  ∀ y, y ∈ l → w + 4 ≤ y.1 ∨ y.1 + 8 ≤ w

/-- The state `s` represents the picture `(bl, L)`: list heads at the start of
the region, then padding and the prologue, then the blocks `bl`, then the
epilogue header in the last word; the free lists hold the blocks tagged `F`. -/
structure Rep (s : Heap) (bl : List Blk) (L : Nat → List (Nat × Nat)) : Prop where
  seg : s.seg_free_lists = s.base
  base_al : s.base % 8 = 0
  fits : s.base + s.limit ≤ 2 ^ 32
  brk_le : s.brk ≤ s.limit
  prol_hdr : GET s.mem (s.base + 84) = 9
  prol_ftr : GET s.mem (s.base + 88) = 9
  tiles : Tiles s.mem (s.base + 96) bl
  size : 96 + total bl = s.brk
  epi : GET s.mem (s.base + s.brk - 4) = 1
  lists : Lists s.mem s.base (flist (s.base + 96) bl) L

/-- The `(payload address, size)` pairs of the blocks that are not allocated. -/
def nlist : Nat → List Blk → List (Nat × Nat)
  | _, [] => []
  | bp, b :: t => if b.2 = Tag.A then nlist (bp + b.1) t else (bp, b.1) :: nlist (bp + b.1) t

/-- The byte at `a` belongs to the allocator: it lies in the table of list
heads, in a block that is not allocated (header and footer included), or in
the epilogue header or beyond it. -/
def Owned (s : Heap) (bl : List Blk) (a : Nat) : Prop :=
  (s.base ≤ a ∧ a < s.base + 80) ∨ s.base + s.brk ≤ a + 4 ∨
    ∃ y, y ∈ nlist (s.base + 96) bl ∧ y.1 ≤ a + 4 ∧ a + 4 < y.1 + y.2

/-- One step of the allocator from `(s, bl)` to `(s1, bl1)`: the region only
grows, bytes that do not belong to the allocator keep their value, and nothing
that belonged to the caller is taken over. -/
structure Step (s : Heap) (bl : List Blk) (s1 : Heap) (bl1 : List Blk) : Prop where
  base : s1.base = s.base
  limit : s1.limit = s.limit
  brk : s.brk ≤ s1.brk
  frame : ∀ a, ¬ Owned s bl a → s1.mem a = s.mem a
  owned : ∀ a, Owned s1 bl1 a → Owned s bl a

/-- Size of the block in front when it is a listed free block, else `0`. -/
def prevFree (pre : List Blk) : Nat :=
  match pre.getLast? with
  | some (sz, Tag.F) => sz
  | _ => 0

/-- The blocks in front that a merge leaves alone. -/
def preKeep (pre : List Blk) : List Blk :=
  match pre.getLast? with
  | some (_, Tag.F) => pre.dropLast
  | _ => pre

/-- Size of the block behind when it is a listed free block, else `0`. -/
def nextFree : List Blk → Nat
  | (sz, Tag.F) :: _ => sz
  | _ => 0

/-- The blocks behind that a merge leaves alone. -/
def postKeep : List Blk → List Blk
  | (_, Tag.F) :: t => t
  | l => l

/-- The table `L` without the node `x`. -/
def eraseL (L : Nat → List (Nat × Nat)) (x : Nat × Nat) : Nat → List (Nat × Nat) :=
  Function.update L (get_list_index x.2) ((L (get_list_index x.2)).erase x)

/-- The table `L` with the node `x` put in its place. -/
def insertL (L : Nat → List (Nat × Nat)) (x : Nat × Nat) : Nat → List (Nat × Nat) :=
  Function.update L (get_list_index x.2)
    ((L (get_list_index x.2)).takeWhile (fun y => decide (y.2 < x.2)) ++
      x :: (L (get_list_index x.2)).dropWhile (fun y => decide (y.2 < x.2)))

/-- The table after `coalesce` has unlinked the free neighbours of the block
of size `sz` at `bp`. -/
def coalesceL (L : Nat → List (Nat × Nat)) (bp : Nat) (pre : List Blk) (sz : Nat)
    (post : List Blk) : Nat → List (Nat × Nat) :=
  let L1 := if prevFree pre = 0 then L else eraseL L (bp - prevFree pre, prevFree pre)
  if nextFree post = 0 then L1 else eraseL L1 (bp + sz, nextFree post)

/-- The blocks after `place` has carved `asize` bytes out of the free block of
size `S` that follows `pre`. -/
def placeBlocks (pre : List Blk) (S asize : Nat) (post : List Blk) : List Blk :=
  if S - asize < 16 then pre ++ (S, Tag.A) :: post
  else if S - asize ≤ 340 then pre ++ (S - asize, Tag.F) :: (asize, Tag.A) :: post
  else pre ++ (asize, Tag.A) :: (S - asize, Tag.F) :: post

/-- The pointer `place` returns for the free block of size `S` at `bp`. -/
def placePtr (bp S asize : Nat) : Nat :=
  if S - asize < 16 then bp else if S - asize ≤ 340 then bp + (S - asize) else bp

/-- The size of the block `place` hands out. -/
def placeSize (S asize : Nat) : Nat := if S - asize < 16 then S else asize

/-- The free-list table after `place`. -/
def placeL (L : Nat → List (Nat × Nat)) (bp S asize : Nat) : Nat → List (Nat × Nat) :=
  if S - asize < 16 then eraseL L (bp, S)
  else if S - asize ≤ 340 then insertL (eraseL L (bp, S)) (bp, S - asize)
  else insertL (eraseL L (bp, S)) (bp + asize, S - asize)

/-- The first node with at least `asize` bytes in the `n` lists from index `i`
on, each list searched from its head. -/
def findFitL (L : Nat → List (Nat × Nat)) (asize : Nat) : Nat → Nat → Option (Nat × Nat)
  | 0, _ => none
  | n + 1, i =>
    match (L i).find? (fun y => decide (asize ≤ y.2)) with
    | some y => some y
    | none => findFitL L asize n (i + 1)

/-- The pointer for an optional node: its address, or `NULL`. -/
def ptrOf : Option (Nat × Nat) → Nat
  | none => 0
  | some y => y.1

/-- The number of bytes `extend_heap` asks the provider for. -/
def extSize (words : Nat) : Nat :=
  if words % 2 ≠ 0 then ((words + 1) % WORD * WSIZE) % WORD else (words * WSIZE) % WORD

/-- Between two calls every free block is in its list and no two neighbours
are both free. -/
def Stable (bl : List Blk) : Prop :=
  (∀ b, b ∈ bl → b.2 ≠ Tag.U) ∧ bl.Chain' (fun x y => x.2 = Tag.A ∨ y.2 = Tag.A)

/-- The list is empty or ends with an allocated block. -/
def endsA (l : List Blk) : Prop := ∀ x, x ∈ l.getLast? → x.2 = Tag.A

/-- The list is empty or starts with an allocated block. -/
def startsA (l : List Blk) : Prop := ∀ x, x ∈ l.head? → x.2 = Tag.A

/-- A request size whose adjusted size does not wrap around. -/
def InRange (size : Nat) : Prop := size + 16 ≤ WORD

/-- The node `y` is what the segregated search for `asize` bytes settles on
among the free blocks `FB`: it fits, no fitting block lies in a lower size
class, and no fitting block of its own class is smaller. -/
def BestFit (FB : List (Nat × Nat)) (asize : Nat) (y : Nat × Nat) : Prop :=
  y ∈ FB ∧ asize ≤ y.2 ∧
    ∀ z, z ∈ FB → asize ≤ z.2 →
      get_list_index y.2 < get_list_index z.2 ∨
        (get_list_index z.2 = get_list_index y.2 ∧ y.2 ≤ z.2)

/-- A well-formed heap between two calls: the state represents the picture
`bl` with some free-list table, every free block is listed and no two
neighbours are free. -/
def WF (s : Heap) (bl : List Blk) : Prop := Stable bl ∧ ∃ L, Rep s bl L

/-- What a successful allocation does to a well-formed heap: the pointer `q`
is not `NULL` and aligned, the new picture is stable, the caller's bytes are
left alone, and the allocated blocks are those there were plus the block of
size `S` at `q`, where no allocated block was before. -/
structure Allocated (s : Heap) (bl : List Blk) (s1 : Heap) (bl1 : List Blk) (q S : Nat) :
    Prop where
  ne : q ≠ 0
  al : q % 8 = 0
  stable : Stable bl1
  step : Step s bl s1 bl1
  mem : ∀ x, x ∈ alist (s.base + 96) bl1 ↔ x = (q, S) ∨ x ∈ alist (s.base + 96) bl
  fresh : ∀ x, x ∈ alist (s.base + 96) bl → x.1 ≠ q

/-- The number of bytes `mm_realloc` copies into the new block: the old
payload, or the requested size when that is less. -/
def copy_bytes (old size : Nat) : Nat :=
  if size < (old + WORD - DSIZE) % WORD then size else (old + WORD - DSIZE) % WORD

/-- A heap provider before `mm_init`: nothing handed out yet, an 8-byte
aligned base, and a region whose addresses fit 32 bits. -/
def Fresh (s : Heap) : Prop := s.brk = 0 ∧ s.base % 8 = 0 ∧ s.base + s.limit ≤ 2 ^ 32

/-- The states the allocator can be in, with the list of the pointers that
are live (handed out and not yet freed): after a successful `mm_init` on a
fresh provider, then after any `mm_malloc`, `mm_free` of a live pointer,
`mm_realloc` of a live pointer, or a store of the caller into the payload of a
live block.  The requests are those whose adjusted size does not wrap around.
The fuel covers the region, so no walk along a list runs out of it. -/
inductive Reach (fuel : Nat) : Heap → List Nat → Prop where
  | init {s0 s1 : Heap} : Fresh s0 → s0.limit ≤ fuel → mm_init fuel s0 = some (s1, 0) →
      Reach fuel s1 []
  | malloc {s s1 : Heap} {live : List Nat} {size q : Nat} : Reach fuel s live → 0 < size →
      InRange size → mm_malloc fuel s size = some (s1, q) →
      Reach fuel s1 (if q = 0 then live else q :: live)
  | free {s s1 : Heap} {live : List Nat} {p : Nat} : Reach fuel s live → p ∈ live →
      mm_free fuel s p = some s1 → Reach fuel s1 (live.erase p)
  | realloc {s s1 : Heap} {live : List Nat} {p size q : Nat} : Reach fuel s live → p ∈ live →
      0 < size → InRange size → mm_realloc fuel s p size = some (s1, q) →
      Reach fuel s1 (if q = 0 then live else q :: live.erase p)
  | write {s : Heap} {live : List Nat} {p a v : Nat} : Reach fuel s live → p ∈ live → p ≤ a →
      a + 8 < p + GET_SIZE s.mem (HDRP p) →
      Reach fuel { s with mem := Function.update s.mem a v } live

/-- What holds in every reachable state: the heap is well formed and its
allocated blocks are exactly the blocks at the live pointers. -/
def Inv (fuel : Nat) (s : Heap) (live : List Nat) : Prop :=
  s.limit ≤ fuel ∧ live.Nodup ∧
    ∃ bl, WF s bl ∧ (∀ p, p ∈ live → ∃ S, (p, S) ∈ alist (s.base + 96) bl) ∧
      ∀ x, x ∈ alist (s.base + 96) bl → x.1 ∈ live

/-- The state `mm_init` builds before it extends the heap. -/
def initState (s : Heap) : Heap :=
  put (put (put (put
    (init_heads SEGLIST_CNT { s with brk := s.brk + 96, seg_free_lists := s.base + s.brk })
    (s.base + s.brk + SEGLIST_CNT * PTRSIZE) 0)
    (s.base + s.brk + SEGLIST_CNT * PTRSIZE + WSIZE) (PACK DSIZE 1))
    (s.base + s.brk + SEGLIST_CNT * PTRSIZE + 2 * WSIZE) (PACK DSIZE 1))
    (s.base + s.brk + SEGLIST_CNT * PTRSIZE + 3 * WSIZE) (PACK 0 1)

/-! ## Concrete runs

A provider with its region at `0x10000000`, one megabyte of capacity and
zeroed memory, and runs of the allocator on it.  The stores of the caller in
these runs go to bytes of blocks `mm_malloc` has handed out, within the
requested size. -/

/-- A provider state before `mm_init`. -/
def heap0 : Heap := ⟨0x10000000, 0, 1 <<< 20, fun _ => 0, 0⟩

/-- A provider whose capacity is used up by `mm_init`. -/
def heap1 : Heap := ⟨0x10000000, 0, 1120, fun _ => 0, 0⟩

/-- Walking the heap from `bp` by the sizes in the headers, up to the first
header of size zero: the address reached. -/
def walk (m : Mem) : Nat → Nat → Option Nat
  | 0, _ => none
  | fuel + 1, bp => if GET_SIZE m (HDRP bp) = 0 then some bp else walk m fuel (NEXT_BLKP m bp)

/-- The run `x = mm_malloc(0xFFFFFFF8)`, stores of the caller at `x[0..8)` and `x[16..20)`,
`y = mm_malloc(1000)`, `z = mm_malloc(56)`: the pointers `x`, `y`, `z`. -/
def runMisaligned : Option (Nat × Nat × Nat) := do
  let (s1, _) ← mm_init 64 heap0
  let (s2, x) ← mm_malloc 64 s1 0xFFFFFFF8
  let s3 := put (put (put s2 x (s2.base + 20)) (x + 4) (x + 20)) (x + 16) 64
  let (s4, y) ← mm_malloc 64 s3 1000
  let (_, z) ← mm_malloc 64 s4 56
  pure (x, y, z)

/-- The run `a = mm_malloc(8)`, `x = mm_malloc(0xFFFFFFF8)`: the pointers and
the header and footer words of the block of `a` afterwards. -/
def runFooter : Option (Nat × Nat × Nat × Nat) := do
  let (s1, _) ← mm_init 64 heap0
  let (s2, a) ← mm_malloc 64 s1 8
  let (s3, x) ← mm_malloc 64 s2 0xFFFFFFF8
  pure (a, x, GET s3.mem (HDRP a), GET s3.mem (FTRP s3.mem a))

/-- The run `f = mm_malloc(8)`, `n = mm_malloc(8)`, `mm_free(f)`,
`x = mm_malloc(0xFFFFFFF8)`: the pointers `n` and `x`, the header word of the
block of `n`, where a walk from the first block ends, and the end of the
region. -/
def runTwice : Option (Nat × Nat × Nat × Option Nat × Nat) := do
  let (s1, _) ← mm_init 64 heap0
  let (s2, f) ← mm_malloc 64 s1 8
  let (s3, n) ← mm_malloc 64 s2 8
  let s4 ← mm_free 64 s3 f
  let (s5, x) ← mm_malloc 64 s4 0xFFFFFFF8
  pure (n, x, GET s5.mem (HDRP n), walk s5.mem 100 (s5.base + 96), s5.base + s5.brk)

/-- The run `a = mm_malloc(1)`, `p = mm_malloc(0xFFFFFFFF)`, `b = mm_malloc(1)`,
`mm_free(p)`: the pointers `p` and `b`, the header word of `p`, the block
after `p`, and the header word of `b` afterwards. -/
def runAdjacent : Option (Nat × Nat × Nat × Nat × Nat) := do
  let (s1, _) ← mm_init 64 heap0
  let (s2, _) ← mm_malloc 64 s1 1
  let (s3, p) ← mm_malloc 64 s2 0xFFFFFFFF
  let (s4, b) ← mm_malloc 64 s3 1
  let s5 ← mm_free 64 s4 p
  pure (p, b, GET s5.mem (HDRP p), NEXT_BLKP s5.mem p, GET s5.mem (HDRP b))

/-- The run `f = mm_malloc(8)`, `n = mm_malloc(8)`, `t = mm_malloc(504)`,
`c = mm_malloc(472)`, `mm_free(f)`, `mm_free(t)`, `x = mm_malloc(0xFFFFFFF8)`, a
store of the caller at `x[524..528)`, then `p = mm_malloc(504)`, `mm_free(p)`,
`q = mm_malloc(504)`: the pointers `x`, `p`, `q` and the size of the region
before and after the last call. -/
def runRoundTrip : Option (Nat × Nat × Nat × Nat × Nat) := do
  let (s1, _) ← mm_init 64 heap0
  let (s2, f) ← mm_malloc 64 s1 8
  let (s3, _) ← mm_malloc 64 s2 8
  let (s4, t) ← mm_malloc 64 s3 504
  let (s5, _) ← mm_malloc 64 s4 472
  let s6 ← mm_free 64 s5 f
  let s7 ← mm_free 64 s6 t
  let (s8, x) ← mm_malloc 64 s7 0xFFFFFFF8
  let s9 := put s8 (x + 524) 0xFFFFFE10
  let (s10, p) ← mm_malloc 64 s9 504
  let s11 ← mm_free 64 s10 p
  let (s12, q) ← mm_malloc 64 s11 504
  pure (x, p, q, s11.brk, s12.brk)

/-- The run `p = mm_malloc(100)`, a store of the caller at `p[4..8)`,
`x = mm_malloc(0xFFFFFFF8)`, a store of the caller at `x[0..4)`,
`q = mm_realloc(p, 200)`: the pointers `p`, `x`, `q`, the byte at `p + 4` before
the last call and the byte at `q + 4` after it. -/
def runRealloc : Option (Nat × Nat × Nat × Nat × Nat) := do
  let (s1, _) ← mm_init 64 heap0
  let (s2, p) ← mm_malloc 64 s1 100
  let s3 := put s2 (p + 4) 0xAAAAAAAA
  let (s4, x) ← mm_malloc 64 s3 0xFFFFFFF8
  let s5 := put s4 x p
  let (s6, q) ← mm_realloc 64 s5 p 200
  pure (p, x, q, s5.mem (p + 4), s6.mem (q + 4))

/-- The run `q = mm_malloc(100)` on the provider `heap1`: the pointer, and
whether the provider refuses the growth `mm_malloc` would ask for. -/
def runNoRoom : Option (Nat × Bool) := do
  let (s1, _) ← mm_init 64 heap1
  let (_, q) ← mm_malloc 64 s1 100
  pure (q, (mem_sbrk s1 (MAX (adjust_size 100) CHUNKSIZE)).isNone)

/-- The run `a = mm_malloc(100)`, `b = mm_malloc(200)`, `mm_free(a)`,
`c = mm_malloc(90)`, `mm_free(b)`, `mm_free(c)`: the sizes of the blocks of `a`
and `b` after the second call and the size of the block at `a` at the end. -/
def runScenario : Option (Nat × Nat × Nat) := do
  let (s1, _) ← mm_init 64 heap0
  let (s2, a) ← mm_malloc 64 s1 100
  let (s3, b) ← mm_malloc 64 s2 200
  let s4 ← mm_free 64 s3 a
  let (s5, c) ← mm_malloc 64 s4 90
  let s6 ← mm_free 64 s5 b
  let s7 ← mm_free 64 s6 c
  pure (GET_SIZE s3.mem (HDRP a), GET_SIZE s3.mem (HDRP b), GET_SIZE s7.mem (HDRP a))

/-- The run `x = mm_malloc(0xFFFFFFF8)`, `p = mm_malloc(1016)`, `mm_free(p)`: the
pointers, the header words of `p`, of the block before and of the block after
it before the last call, and the header word of `p` after it. -/
def runDouble : Option (Nat × Nat × Nat × Nat × Nat × Nat) := do
  let (s1, _) ← mm_init 64 heap0
  let (s2, x) ← mm_malloc 64 s1 0xFFFFFFF8
  let (s3, p) ← mm_malloc 64 s2 1016
  let s4 ← mm_free 64 s3 p
  pure (x, p, GET s3.mem (HDRP p), GET s3.mem (p - 8), GET s3.mem (HDRP (NEXT_BLKP s3.mem p)),
    GET s4.mem (HDRP p))

/-- The run `f = mm_malloc(8)`, `n = mm_malloc(8)`, `mm_free(f)`,
`x = mm_malloc(0xFFFFFFF8)`, a store of the caller at `x[12..16)`, then
`find_fit(2048)`: the pointer `x`, the result of `find_fit`, the head of list 9
and the size in the header of that node. -/
def runMiss : Option (Nat × Nat × Nat × Nat) := do
  let (s1, _) ← mm_init 64 heap0
  let (s2, f) ← mm_malloc 64 s1 8
  let (s3, _) ← mm_malloc 64 s2 8
  let s4 ← mm_free 64 s3 f
  let (s5, x) ← mm_malloc 64 s4 0xFFFFFFF8
  let s6 := put s5 (x + 12) 4096
  let r ← find_fit 64 s6 2048
  pure (x, r, getHead s6 9, GET_SIZE s6.mem (HDRP (getHead s6 9)))

/-- The run `mm_malloc(0xFFFFFFF8)` on the heap left by `mm_init`, split into
its two calls `bp = find_fit(asize)` and `place(bp, asize)`: the adjusted size,
`bp`, the size of the block of `bp`, the pointer `place` returns, the word in
its header afterwards, and the head of list 10 afterwards. -/
def runPlace : Option (Nat × Nat × Nat × Nat × Nat × Nat) := do
  let (s1, _) ← mm_init 64 heap0
  let bp ← find_fit 64 s1 (adjust_size 0xFFFFFFF8)
  let (s2, q) ← place 64 s1 bp (adjust_size 0xFFFFFFF8)
  pure (adjust_size 0xFFFFFFF8, bp, GET_SIZE s1.mem (HDRP bp), q, GET s2.mem (HDRP q),
    getHead s2 10)

/-- The heads of the twenty free lists. -/
def heads (s : Heap) : List Nat := (List.range SEGLIST_CNT).map (getHead s)

/-- The run `a = mm_malloc(1)`, `p = mm_malloc(0xFFFFFFFF)`, `b = mm_malloc(1)`,
`mm_free(p)`: the pointers `p` and `b`, the header words of `p` and `b` before
the last call, the header word of `b` after it and the `NEXT` fields of the
nodes at the heads of lists 3 and 9 after it; then the list heads before and
after the last call. -/
def runTable : Option (List Nat × List Nat × List Nat) := do
  let (s1, _) ← mm_init 64 heap0
  let (s2, _) ← mm_malloc 64 s1 1
  let (s3, p) ← mm_malloc 64 s2 0xFFFFFFFF
  let (s4, b) ← mm_malloc 64 s3 1
  let s5 ← mm_free 64 s4 p
  pure ([p, b, GET s4.mem (HDRP p), GET s4.mem (HDRP b), GET s5.mem (HDRP b),
    NEXT s5.mem (getHead s5 3), NEXT s5.mem (getHead s5 9)], heads s4, heads s5)

/-- The run `a = mm_malloc(100)`, a store of the caller at `a[4..8)`,
`x = mm_malloc(0xFFFFFFF8)`, a store of the caller at `x[0..4)`,
`y = mm_malloc(8)`: the pointers `a`, `x`, `y`, then the header word of `a` and
the byte at `a + 4` before the last call, then the same two after it. -/
def runPayload : Option (Nat × Nat × Nat × List Nat × List Nat) := do
  let (s1, _) ← mm_init 64 heap0
  let (s2, a) ← mm_malloc 64 s1 100
  let s3 := put s2 (a + 4) 0xAAAAAAAA
  let (s4, x) ← mm_malloc 64 s3 0xFFFFFFF8
  let s5 := put s4 x a
  let (s6, y) ← mm_malloc 64 s5 8
  pure (a, x, y, [GET s5.mem (HDRP a), s5.mem (a + 4)], [GET s6.mem (HDRP a), s6.mem (a + 4)])

/-- The run `f = mm_malloc(8)`, `n = mm_malloc(8)`, `g = mm_malloc(3008)`,
`e = mm_malloc(8)`, `mm_free(g)`, `mm_free(f)`, `x = mm_malloc(0xFFFFFFF8)`, a
store of the caller at `x[3044..3048)`, then `find_fit(600)`: the pointers `g`,
`e` and `x`, the heads of lists 9 and 11 before the store, the result of
`find_fit`, the size in its header, and the size in the header of the node at
the head of list 11. -/
def runNotBest : Option (List Nat) := do
  let (s1, _) ← mm_init 64 heap0
  let (s2, f) ← mm_malloc 64 s1 8
  let (s3, _) ← mm_malloc 64 s2 8
  let (s4, g) ← mm_malloc 64 s3 3008
  let (s5, e) ← mm_malloc 64 s4 8
  let s6 ← mm_free 64 s5 g
  let s7 ← mm_free 64 s6 f
  let (s8, x) ← mm_malloc 64 s7 0xFFFFFFF8
  let s9 := put s8 (x + 3044) 4096
  let r ← find_fit 64 s9 600
  pure [g, e, x, getHead s8 9, getHead s8 11, r, GET_SIZE s9.mem (HDRP r),
    GET_SIZE s9.mem (HDRP (getHead s9 11))]

/-! ## Words, tags and size classes -/

theorem and_MASK (x : Nat) (h : x < 2 ^ 32) : x &&& MASK = x - x % 8 := by
  have hx : x = 2 ^ 3 * (x / 8) + x % 8 := by omega
  have hm : MASK = 2 ^ 3 * (2 ^ 29 - 1) + 0 := by decide
  have hr : x - x % 8 = 2 ^ 3 * (x / 8) + 0 := by omega
  have hq : x / 8 < 2 ^ 29 := by omega
  apply Nat.eq_of_testBit_eq
  intro j
  rw [Nat.testBit_and, hr, hm]
  conv => lhs; arg 1; rw [hx]
  rw [Nat.testBit_mul_pow_two_add _ (by omega), Nat.testBit_mul_pow_two_add _ (by omega),
    Nat.testBit_mul_pow_two_add _ (by omega)]
  by_cases hj : j < 3
  · simp [hj]
  · simp only [hj, if_false, Nat.testBit_two_pow_sub_one]
    by_cases hj2 : j - 3 < 29
    · simp [hj2]
    · have : x / 8 < 2 ^ (j - 3) :=
        lt_of_lt_of_le hq (Nat.pow_le_pow_right (by omega) (by omega))
      simp [Nat.testBit_lt_two_pow this]

theorem PACK_eq (x a : Nat) (h : x % 8 = 0) (ha : a ≤ 1) : PACK x a = x + a := by
  have hx : x = 2 ^ 3 * (x / 8) := by omega
  unfold PACK
  rw [hx, ← Nat.mul_add_lt_is_or (by omega)]

theorem GET_lt (m : Mem) (p : Nat) : GET m p < 2 ^ 32 := by
  unfold GET
  omega

theorem GET_congr {m m1 : Mem} {p : Nat} (h : ∀ a, p ≤ a → a < p + 4 → m1 a = m a) :
    GET m1 p = GET m p := by
  unfold GET
  rw [h p (by omega) (by omega), h (p + 1) (by omega) (by omega),
    h (p + 2) (by omega) (by omega), h (p + 3) (by omega) (by omega)]

theorem PUT_other (m : Mem) (p v a : Nat) (h : a < p ∨ p + 4 ≤ a) : PUT m p v a = m a := by
  unfold PUT
  have h1 : a ≠ p := by omega
  have h2 : a ≠ p + 1 := by omega
  have h3 : a ≠ p + 2 := by omega
  have h4 : a ≠ p + 3 := by omega
  simp [h1, h2, h3, h4]

theorem GET_PUT_same (m : Mem) (p v : Nat) (h : v < 2 ^ 32) : GET (PUT m p v) p = v := by
  unfold GET PUT
  simp
  omega

theorem GET_PUT_ne (m : Mem) (p v q : Nat) (h : q + 4 ≤ p ∨ p + 4 ≤ q) :
    GET (PUT m p v) q = GET m q :=
  GET_congr (fun a h1 h2 => PUT_other m p v a (by omega))

theorem GET_SIZE_eq (m : Mem) (p : Nat) : GET_SIZE m p = GET m p - GET m p % 8 :=
  and_MASK _ (GET_lt m p)

theorem GET_ALLOC_eq (m : Mem) (p : Nat) : GET_ALLOC m p = GET m p % 2 :=
  Nat.and_one_is_mod _

theorem abit_le (t : Tag) : abit t ≤ 1 := by
  unfold abit
  split <;> omega

theorem abit_A : abit Tag.A = 1 := rfl
theorem abit_F : abit Tag.F = 0 := rfl
theorem abit_U : abit Tag.U = 0 := rfl

theorem abit_eq_one {t : Tag} : abit t = 1 ↔ t = Tag.A := by
  cases t <;> simp [abit]

theorem abit_eq_zero {t : Tag} : abit t = 0 ↔ t ≠ Tag.A := by
  cases t <;> simp [abit]

/-! ### `get_list_index` -/

theorem get_list_index_loop_ge (n size idx : Nat) : idx ≤ get_list_index_loop n size idx := by
  induction n generalizing size idx with
  | zero => simp [get_list_index_loop]
  | succ n ih =>
    unfold get_list_index_loop
    split
    · exact Nat.le_trans (Nat.le_succ idx) (ih _ _)
    · exact Nat.le_refl _

theorem get_list_index_loop_le (n size idx : Nat) (h : idx ≤ 19) :
    get_list_index_loop n size idx ≤ 19 := by
  induction n generalizing size idx with
  | zero => simpa [get_list_index_loop] using h
  | succ n ih =>
    unfold get_list_index_loop
    split
    · rename_i hc
      exact ih _ _ (by simp [SEGLIST_CNT] at hc; omega)
    · exact h

theorem get_list_index_lt (size : Nat) : get_list_index size < SEGLIST_CNT := by
  have := get_list_index_loop_le (SEGLIST_CNT - 1) size 0 (by omega)
  unfold get_list_index
  simp [SEGLIST_CNT] at *
  omega

theorem get_list_index_loop_mono (n a b idx : Nat) (h : a ≤ b) :
    get_list_index_loop n a idx ≤ get_list_index_loop n b idx := by
  induction n generalizing a b idx with
  | zero => simp [get_list_index_loop]
  | succ n ih =>
    unfold get_list_index_loop
    by_cases hi : idx < SEGLIST_CNT - 1
    · by_cases ha : a > 1
      · have hb : b > 1 := by omega
        simp only [hi, ha, hb, and_self, if_true]
        apply ih
        simp only [Nat.shiftRight_eq_div_pow]
        exact Nat.div_le_div_right h
      · by_cases hb : b > 1
        · simp only [hi, ha, hb, and_false, and_true, if_false, if_true]
          exact Nat.le_trans (Nat.le_succ idx) (get_list_index_loop_ge _ _ _)
        · simp [ha, hb]
    · simp [hi]

theorem get_list_index_mono {a b : Nat} (h : a ≤ b) : get_list_index a ≤ get_list_index b :=
  get_list_index_loop_mono _ _ _ _ h

/-! ## Tilings -/

theorem total_append (l1 l2 : List Blk) : total (l1 ++ l2) = total l1 + total l2 := by
  induction l1 with
  | nil => simp [total]
  | cons b t ih => simp [total, ih]; omega

theorem total_cons (b : Blk) (t : List Blk) : total (b :: t) = b.1 + total t := rfl

theorem total_nil : total [] = 0 := rfl

theorem Tiles_append (m : Mem) (bp : Nat) (l1 l2 : List Blk) :
    Tiles m bp (l1 ++ l2) ↔ Tiles m bp l1 ∧ Tiles m (bp + total l1) l2 := by
  induction l1 generalizing bp with
  | nil => simp [Tiles, total]
  | cons b t ih =>
    show (_ ∧ _ ∧ _ ∧ _ ∧ Tiles m (bp + b.1) (t ++ l2)) ↔
      (_ ∧ _ ∧ _ ∧ _ ∧ Tiles m (bp + b.1) t) ∧ Tiles m (bp + (b.1 + total t)) l2
    rw [ih, Nat.add_assoc]
    tauto

theorem Tiles_frame {m m1 : Mem} {bp : Nat} {bl : List Blk} (hbp : 4 ≤ bp)
    (h : Tiles m bp bl)
    (hf : ∀ a, bp - 4 ≤ a → a < bp + total bl - 4 → m1 a = m a) : Tiles m1 bp bl := by
  induction bl generalizing bp with
  | nil => trivial
  | cons b t ih =>
    obtain ⟨h8, h16, hh, hft, ht⟩ := h
    simp only [total] at hf
    refine ⟨h8, h16, ?_, ?_, ?_⟩
    · rw [← hh]
      exact GET_congr (fun a h1 h2 => hf a h1 (by omega))
    · rw [← hft]
      exact GET_congr (fun a h1 h2 => hf a (by omega) (by omega))
    · exact ih (by omega) ht (fun a h1 h2 => hf a (by omega) (by omega))

theorem Tiles_size {m : Mem} {bp : Nat} {bl : List Blk} (h : Tiles m bp bl) :
    ∀ b, b ∈ bl → b.1 % 8 = 0 ∧ 16 ≤ b.1 := by
  induction bl generalizing bp with
  | nil => simp
  | cons b t ih =>
    obtain ⟨h8, h16, -, -, ht⟩ := h
    intro c hc
    rcases List.mem_cons.1 hc with rfl | hc
    · exact ⟨h8, h16⟩
    · exact ih ht c hc

theorem Tiles_total_mod {m : Mem} {bp : Nat} {bl : List Blk} (h : Tiles m bp bl) :
    total bl % 8 = 0 := by
  induction bl generalizing bp with
  | nil => rfl
  | cons b t ih =>
    obtain ⟨h8, -, -, -, ht⟩ := h
    have := ih ht
    simp only [total]
    omega

theorem flist_append (bp : Nat) (l1 l2 : List Blk) :
    flist bp (l1 ++ l2) = flist bp l1 ++ flist (bp + total l1) l2 := by
  induction l1 generalizing bp with
  | nil => simp [flist, total]
  | cons b t ih =>
    show (if b.2 = Tag.F then (bp, b.1) :: flist (bp + b.1) (t ++ l2)
        else flist (bp + b.1) (t ++ l2)) =
      (if b.2 = Tag.F then (bp, b.1) :: flist (bp + b.1) t else flist (bp + b.1) t) ++
        flist (bp + (b.1 + total t)) l2
    rw [ih, Nat.add_assoc]
    split <;> simp

theorem alist_append (bp : Nat) (l1 l2 : List Blk) :
    alist bp (l1 ++ l2) = alist bp l1 ++ alist (bp + total l1) l2 := by
  induction l1 generalizing bp with
  | nil => simp [alist, total]
  | cons b t ih =>
    show (if b.2 = Tag.A then (bp, b.1) :: alist (bp + b.1) (t ++ l2)
        else alist (bp + b.1) (t ++ l2)) =
      (if b.2 = Tag.A then (bp, b.1) :: alist (bp + b.1) t else alist (bp + b.1) t) ++
        alist (bp + (b.1 + total t)) l2
    rw [ih, Nat.add_assoc]
    split <;> simp

theorem flist_eq_nil {bp : Nat} {bl : List Blk} (h : ∀ b, b ∈ bl → b.2 ≠ Tag.F) :
    flist bp bl = [] := by
  induction bl generalizing bp with
  | nil => rfl
  | cons b t ih =>
    have hb := h b (List.mem_cons_self _ _)
    simp only [flist, hb, if_false]
    exact ih (fun c hc => h c (List.mem_cons_of_mem _ hc))

theorem mem_flist {bp : Nat} {bl : List Blk} {x : Nat × Nat} :
    x ∈ flist bp bl ↔ ∃ pre post, bl = pre ++ (x.2, Tag.F) :: post ∧ x.1 = bp + total pre := by
  induction bl generalizing bp with
  | nil => simp [flist]
  | cons b t ih =>
    constructor
    · intro hx
      simp only [flist] at hx
      by_cases hb : b.2 = Tag.F
      · simp only [hb, if_true, List.mem_cons] at hx
        rcases hx with rfl | hx
        · exact ⟨[], t, by simp [← hb], by simp [total]⟩
        · obtain ⟨pre, post, h1, h2⟩ := ih.1 hx
          exact ⟨b :: pre, post, by simp [h1], by simp [total, h2]; omega⟩
      · simp only [hb, if_false] at hx
        obtain ⟨pre, post, h1, h2⟩ := ih.1 hx
        exact ⟨b :: pre, post, by simp [h1], by simp [total, h2]; omega⟩
    · rintro ⟨pre, post, h1, h2⟩
      cases pre with
      | nil =>
        simp only [List.nil_append, List.cons.injEq] at h1
        obtain ⟨rfl, rfl⟩ := h1
        simp only [total, Nat.add_zero] at h2
        simp [flist, ← h2]
      | cons c pre =>
        simp only [List.cons_append, List.cons.injEq] at h1
        obtain ⟨rfl, rfl⟩ := h1
        have : x ∈ flist (bp + b.1) (pre ++ (x.2, Tag.F) :: post) :=
          ih.2 ⟨pre, post, rfl, by simp [total] at h2; omega⟩
        simp only [flist]
        split
        · exact List.mem_cons_of_mem _ this
        · exact this

theorem mem_alist {bp : Nat} {bl : List Blk} {x : Nat × Nat} :
    x ∈ alist bp bl ↔ ∃ pre post, bl = pre ++ (x.2, Tag.A) :: post ∧ x.1 = bp + total pre := by
  induction bl generalizing bp with
  | nil => simp [alist]
  | cons b t ih =>
    constructor
    · intro hx
      simp only [alist] at hx
      by_cases hb : b.2 = Tag.A
      · simp only [hb, if_true, List.mem_cons] at hx
        rcases hx with rfl | hx
        · exact ⟨[], t, by simp [← hb], by simp [total]⟩
        · obtain ⟨pre, post, h1, h2⟩ := ih.1 hx
          exact ⟨b :: pre, post, by simp [h1], by simp [total, h2]; omega⟩
      · simp only [hb, if_false] at hx
        obtain ⟨pre, post, h1, h2⟩ := ih.1 hx
        exact ⟨b :: pre, post, by simp [h1], by simp [total, h2]; omega⟩
    · rintro ⟨pre, post, h1, h2⟩
      cases pre with
      | nil =>
        simp only [List.nil_append, List.cons.injEq] at h1
        obtain ⟨rfl, rfl⟩ := h1
        simp only [total, Nat.add_zero] at h2
        simp [alist, ← h2]
      | cons c pre =>
        simp only [List.cons_append, List.cons.injEq] at h1
        obtain ⟨rfl, rfl⟩ := h1
        have : x ∈ alist (bp + b.1) (pre ++ (x.2, Tag.A) :: post) :=
          ih.2 ⟨pre, post, rfl, by simp [total] at h2; omega⟩
        simp only [alist]
        split
        · exact List.mem_cons_of_mem _ this
        · exact this

/-- A free block of a tiling lies inside it and is at least 16 bytes long. -/
theorem flist_bounds {m : Mem} {bp : Nat} {bl : List Blk} (h : Tiles m bp bl)
    {x : Nat × Nat} (hx : x ∈ flist bp bl) :
    bp ≤ x.1 ∧ x.1 + x.2 ≤ bp + total bl ∧ 16 ≤ x.2 ∧ x.2 % 8 = 0 := by
  obtain ⟨pre, post, rfl, h2⟩ := mem_flist.1 hx
  have hs := Tiles_size h (x.2, Tag.F) (by simp)
  simp only [total_append, total_cons]
  simp at hs
  omega

/-- The header and footer of a free block of a tiling. -/
theorem flist_tags {m : Mem} {bp : Nat} {bl : List Blk} (h : Tiles m bp bl)
    {x : Nat × Nat} (hx : x ∈ flist bp bl) :
    GET m (x.1 - 4) = x.2 ∧ GET m (x.1 + x.2 - 8) = x.2 := by
  obtain ⟨pre, post, rfl, h2⟩ := mem_flist.1 hx
  obtain ⟨-, -, -, hh, hf, -⟩ := (Tiles_append m bp pre _).1 h
  simp only [abit_F, Nat.add_zero] at hh hf
  rw [h2]
  exact ⟨hh, hf⟩

/-- Free blocks of a tiling come in address order and do not overlap. -/
theorem flist_pairwise {m : Mem} {bp : Nat} {bl : List Blk} (h : Tiles m bp bl) :
    (flist bp bl).Pairwise (fun x y => x.1 + x.2 ≤ y.1) := by
  induction bl generalizing bp with
  | nil => simp [flist]
  | cons b t ih =>
    obtain ⟨h8, h16, -, -, ht⟩ := h
    simp only [flist]
    split
    · refine List.pairwise_cons.2 ⟨?_, ih ht⟩
      intro y hy
      have := flist_bounds ht hy
      simp only
      omega
    · exact ih ht

theorem pairwise_mem_cases {α : Type} {R : α → α → Prop} {l : List α} (hp : l.Pairwise R)
    {x y : α} (hx : x ∈ l) (hy : y ∈ l) : x = y ∨ R x y ∨ R y x := by
  induction l with
  | nil => simp at hx
  | cons z l ih =>
    rw [List.pairwise_cons] at hp
    rcases List.mem_cons.1 hx with rfl | hx1
    · rcases List.mem_cons.1 hy with rfl | hy1
      · exact Or.inl rfl
      · exact Or.inr (Or.inl (hp.1 y hy1))
    · rcases List.mem_cons.1 hy with rfl | hy1
      · exact Or.inr (Or.inr (hp.1 x hx1))
      · exact ih hp.2 hx1 hy1

/-- Two free blocks of a tiling are the same or their link fields lie apart. -/
theorem flist_sep {m : Mem} {bp : Nat} {bl : List Blk} (h : Tiles m bp bl)
    {x y : Nat × Nat} (hx : x ∈ flist bp bl) (hy : y ∈ flist bp bl) :
    x = y ∨ x.1 + 16 ≤ y.1 ∨ y.1 + 16 ≤ x.1 := by
  have hbx := flist_bounds h hx
  have hby := flist_bounds h hy
  rcases pairwise_mem_cases (flist_pairwise h) hx hy with h1 | h1 | h1
  · exact Or.inl h1
  · right; left; omega
  · right; right; omega

/-! ## Linked lists in memory -/

@[simp] theorem put_mem (s : Heap) (p v : Nat) : (put s p v).mem = PUT s.mem p v := rfl
@[simp] theorem put_base (s : Heap) (p v : Nat) : (put s p v).base = s.base := rfl
@[simp] theorem put_brk (s : Heap) (p v : Nat) : (put s p v).brk = s.brk := rfl
@[simp] theorem put_limit (s : Heap) (p v : Nat) : (put s p v).limit = s.limit := rfl
@[simp] theorem put_seg (s : Heap) (p v : Nat) :
    (put s p v).seg_free_lists = s.seg_free_lists := rfl
@[simp] theorem setHead_mem (s : Heap) (i v : Nat) :
    (setHead s i v).mem = PUT s.mem (s.seg_free_lists + 4 * i) v := rfl
@[simp] theorem setHead_base (s : Heap) (i v : Nat) : (setHead s i v).base = s.base := rfl
@[simp] theorem setHead_brk (s : Heap) (i v : Nat) : (setHead s i v).brk = s.brk := rfl
@[simp] theorem setHead_limit (s : Heap) (i v : Nat) : (setHead s i v).limit = s.limit := rfl
@[simp] theorem setHead_seg (s : Heap) (i v : Nat) :
    (setHead s i v).seg_free_lists = s.seg_free_lists := rfl
@[simp] theorem getHead_eq (s : Heap) (i : Nat) :
    getHead s i = GET s.mem (s.seg_free_lists + 4 * i) := rfl

theorem nextOf_append (l1 l2 : List (Nat × Nat)) (nxt : Nat) :
    nextOf (l1 ++ l2) nxt = nextOf l1 (nextOf l2 nxt) := by
  cases l1 <;> rfl

theorem lastOf_append (prev : Nat) (l1 l2 : List (Nat × Nat)) :
    lastOf prev (l1 ++ l2) = lastOf (lastOf prev l1) l2 := by
  induction l1 generalizing prev with
  | nil => rfl
  | cons x t ih => exact ih x.1

theorem lastOf_mem (prev : Nat) (l : List (Nat × Nat)) (h : l ≠ []) :
    ∃ y, y ∈ l ∧ lastOf prev l = y.1 := by
  induction l generalizing prev with
  | nil => exact absurd rfl h
  | cons x t ih =>
    cases t with
    | nil => exact ⟨x, by simp, rfl⟩
    | cons z t =>
      obtain ⟨y, hy, he⟩ := ih x.1 (by simp)
      exact ⟨y, List.mem_cons_of_mem _ hy, he⟩

theorem nextOf_mem (l : List (Nat × Nat)) (nxt : Nat) (h : l ≠ []) :
    ∃ y, y ∈ l ∧ nextOf l nxt = y.1 := by
  cases l with
  | nil => exact absurd rfl h
  | cons x t => exact ⟨x, by simp, rfl⟩

theorem Links_append (m : Mem) (prev : Nat) (l1 l2 : List (Nat × Nat)) (nxt : Nat) :
    Links m prev (l1 ++ l2) nxt ↔
      Links m prev l1 (nextOf l2 nxt) ∧ Links m (lastOf prev l1) l2 nxt := by
  induction l1 generalizing prev with
  | nil => simp [Links, lastOf]
  | cons x t ih =>
    show (_ ∧ NEXT m x.1 = nextOf (t ++ l2) nxt ∧ Links m x.1 (t ++ l2) nxt) ↔
      (_ ∧ NEXT m x.1 = nextOf t (nextOf l2 nxt) ∧ Links m x.1 t (nextOf l2 nxt)) ∧
        Links m (lastOf x.1 t) l2 nxt
    rw [ih, nextOf_append]
    tauto

theorem Links_put_far {m : Mem} {prev nxt : Nat} {l : List (Nat × Nat)}
    (h : Links m prev l nxt) (w v : Nat) (hw : FarFrom w l) :
    Links (PUT m w v) prev l nxt := by
  induction l generalizing prev with
  | nil => trivial
  | cons x t ih =>
    obtain ⟨h1, h2, h3⟩ := h
    have hx := hw x (List.mem_cons_self _ _)
    refine ⟨?_, ?_, ih h3 (fun y hy => hw y (List.mem_cons_of_mem _ hy))⟩
    · rw [← h1]
      exact GET_PUT_ne m w v _ (by simp only [PREV_PTR]; omega)
    · rw [← h2]
      exact GET_PUT_ne m w v _ (by simp only [NEXT_PTR, WSIZE]; omega)

theorem Links_congr {m m1 : Mem} {prev nxt : Nat} {l : List (Nat × Nat)}
    (h : Links m prev l nxt)
    (hf : ∀ y, y ∈ l → ∀ a, y.1 ≤ a → a < y.1 + 8 → m1 a = m a) :
    Links m1 prev l nxt := by
  induction l generalizing prev with
  | nil => trivial
  | cons x t ih =>
    obtain ⟨h1, h2, h3⟩ := h
    have hx := hf x (List.mem_cons_self _ _)
    refine ⟨?_, ?_, ih h3 (fun y hy => hf y (List.mem_cons_of_mem _ hy))⟩
    · rw [← h1]
      exact GET_congr (fun a ha hb => hx a (by simpa [PREV_PTR] using ha)
        (by simp only [PREV_PTR] at hb; omega))
    · rw [← h2]
      exact GET_congr (fun a ha hb => hx a (by simp only [NEXT_PTR, WSIZE] at ha; omega)
        (by simp only [NEXT_PTR, WSIZE] at hb; omega))

/-- Storing `v` in the `NEXT` field of the last node redirects the end of the list. -/
theorem Links_put_last {m : Mem} {prev nxt : Nat} {l : List (Nat × Nat)}
    (h : Links m prev l nxt) (hne : l ≠ [])
    (hp : l.Pairwise (fun a b => a.1 + 8 ≤ b.1 ∨ b.1 + 8 ≤ a.1)) (v : Nat) (hv : v < 2 ^ 32) :
    Links (PUT m (lastOf prev l + 4) v) prev l v := by
  induction l generalizing prev with
  | nil => exact absurd rfl hne
  | cons x t ih =>
    obtain ⟨h1, h2, h3⟩ := h
    rw [List.pairwise_cons] at hp
    cases t with
    | nil =>
      refine ⟨?_, ?_, trivial⟩
      · rw [← h1]
        exact GET_PUT_ne m _ v _ (by simp only [PREV_PTR, lastOf]; omega)
      · exact GET_PUT_same m _ v hv
    | cons z t =>
      obtain ⟨y, hy, he⟩ := lastOf_mem x.1 (z :: t) (by simp)
      have hxy := hp.1 y hy
      have ih1 := ih h3 (by simp) hp.2
      show Links (PUT m (lastOf x.1 (z :: t) + 4) v) prev (x :: z :: t) v
      rw [he] at ih1 ⊢
      refine ⟨?_, ?_, ih1⟩
      · show GET (PUT m (y.1 + 4) v) (PREV_PTR x.1) = prev
        rw [GET_PUT_ne m _ v _ (by simp only [PREV_PTR]; omega)]
        exact h1
      · show GET (PUT m (y.1 + 4) v) (NEXT_PTR x.1) = z.1
        rw [GET_PUT_ne m _ v _ (by simp only [NEXT_PTR, WSIZE]; omega)]
        exact h2

/-- Storing `v` in the `PREV` field of the first node redirects the start of the list. -/
theorem Links_put_first {m : Mem} {prev nxt : Nat} {x : Nat × Nat} {t : List (Nat × Nat)}
    (h : Links m prev (x :: t) nxt)
    (hp : (x :: t).Pairwise (fun a b => a.1 + 8 ≤ b.1 ∨ b.1 + 8 ≤ a.1)) (v : Nat)
    (hv : v < 2 ^ 32) :
    Links (PUT m x.1 v) v (x :: t) nxt := by
  obtain ⟨h1, h2, h3⟩ := h
  rw [List.pairwise_cons] at hp
  refine ⟨GET_PUT_same m _ v hv, ?_, ?_⟩
  · rw [← h2]
    exact GET_PUT_ne m _ v _ (by simp only [NEXT_PTR, WSIZE]; omega)
  · exact Links_put_far h3 _ _ (fun y hy => by have := hp.1 y hy; omega)

theorem Sep.pairwise {base : Nat} {FB : List (Nat × Nat)} (hS : Sep base FB)
    {l : List (Nat × Nat)} (hl : ∀ y, y ∈ l → y ∈ FB) (hn : l.Nodup) :
    l.Pairwise (fun a b => a.1 + 8 ≤ b.1 ∨ b.1 + 8 ≤ a.1) := by
  induction l with
  | nil => exact List.Pairwise.nil
  | cons x t ih =>
    rw [List.nodup_cons] at hn
    refine List.pairwise_cons.2 ⟨?_, ih (fun y hy => hl y (List.mem_cons_of_mem _ hy)) hn.2⟩
    intro y hy
    rcases hS.apart x y (hl x (List.mem_cons_self _ _)) (hl y (List.mem_cons_of_mem _ hy))
      with h | h
    · exact absurd (h ▸ hy) hn.1
    · exact h

theorem Sep.far {base : Nat} {FB : List (Nat × Nat)} (hS : Sep base FB)
    {l : List (Nat × Nat)} (hl : ∀ y, y ∈ l → y ∈ FB) {z : Nat × Nat} (hz : z ∈ FB)
    (hzl : z ∉ l) : FarFrom z.1 l ∧ FarFrom (z.1 + 4) l := by
  constructor <;> intro y hy
  · rcases hS.apart z y hz (hl y hy) with h | h
    · exact absurd (h ▸ hy) hzl
    · omega
  · rcases hS.apart z y hz (hl y hy) with h | h
    · exact absurd (h ▸ hy) hzl
    · omega

theorem Sep.far_head {base : Nat} {FB : List (Nat × Nat)} (hS : Sep base FB)
    {l : List (Nat × Nat)} (hl : ∀ y, y ∈ l → y ∈ FB) {i : Nat} (hi : i < SEGLIST_CNT) :
    FarFrom (base + 4 * i) l := by
  intro y hy
  have := hS.lo y (hl y hy)
  simp only [SEGLIST_CNT] at hi
  omega

/-! ## `delete_node` on the free-list table -/

theorem delete_node_mem (s : Heap) (bp : Nat) :
    (delete_node s bp).mem =
      (if GET s.mem (bp + 4) ≠ 0 then
        PUT (if GET s.mem bp ≠ 0 then PUT s.mem (GET s.mem bp + 4) (GET s.mem (bp + 4))
          else PUT s.mem (s.seg_free_lists + 4 * get_list_index (GET_SIZE s.mem (bp - 4)))
            (GET s.mem (bp + 4))) (GET s.mem (bp + 4)) (GET s.mem bp)
      else (if GET s.mem bp ≠ 0 then PUT s.mem (GET s.mem bp + 4) (GET s.mem (bp + 4))
          else PUT s.mem (s.seg_free_lists + 4 * get_list_index (GET_SIZE s.mem (bp - 4)))
            (GET s.mem (bp + 4)))) := by
  unfold delete_node
  simp only [PREV, NEXT, PREV_PTR, NEXT_PTR, WSIZE, HDRP]
  split_ifs <;> rfl

@[simp] theorem delete_node_base (s : Heap) (bp : Nat) : (delete_node s bp).base = s.base := by
  unfold delete_node
  simp only
  split_ifs <;> rfl

@[simp] theorem delete_node_brk (s : Heap) (bp : Nat) : (delete_node s bp).brk = s.brk := by
  unfold delete_node
  simp only
  split_ifs <;> rfl

@[simp] theorem delete_node_limit (s : Heap) (bp : Nat) :
    (delete_node s bp).limit = s.limit := by
  unfold delete_node
  simp only
  split_ifs <;> rfl

@[simp] theorem delete_node_seg (s : Heap) (bp : Nat) :
    (delete_node s bp).seg_free_lists = s.seg_free_lists := by
  unfold delete_node
  simp only
  split_ifs <;> rfl

theorem Lists.mem_FB {m : Mem} {base : Nat} {FB : List (Nat × Nat)}
    {L : Nat → List (Nat × Nat)} (hL : Lists m base FB L) {j : Nat} (hj : j < SEGLIST_CNT)
    {y : Nat × Nat} (hy : y ∈ L j) : y ∈ FB :=
  ((hL.mem_iff j hj y).1 hy).1

theorem Lists.mem_self {m : Mem} {base : Nat} {FB : List (Nat × Nat)}
    {L : Nat → List (Nat × Nat)} (hL : Lists m base FB L) {x : Nat × Nat} (hx : x ∈ FB) :
    x ∈ L (get_list_index x.2) :=
  (hL.mem_iff _ (get_list_index_lt _) x).2 ⟨hx, rfl⟩

/-- What `delete_node` does to the memory when the node `x` sits between `l1`
and `l2` in its list. -/
theorem delete_node_mem_split {s : Heap} {FB : List (Nat × Nat)}
    {L : Nat → List (Nat × Nat)} (hL : Lists s.mem s.seg_free_lists FB L)
    (hS : Sep s.seg_free_lists FB) {x : Nat × Nat} (hx : x ∈ FB)
    (hsz : GET_SIZE s.mem (HDRP x.1) = x.2) {l1 l2 : List (Nat × Nat)}
    (hsplit : L (get_list_index x.2) = l1 ++ x :: l2) :
    (delete_node s x.1).mem =
      (if l2 ≠ [] then
        PUT (if l1 ≠ [] then PUT s.mem (lastOf 0 l1 + 4) (nextOf l2 0)
          else PUT s.mem (s.seg_free_lists + 4 * get_list_index x.2) (nextOf l2 0))
          (nextOf l2 0) (lastOf 0 l1)
      else (if l1 ≠ [] then PUT s.mem (lastOf 0 l1 + 4) (nextOf l2 0)
          else PUT s.mem (s.seg_free_lists + 4 * get_list_index x.2) (nextOf l2 0))) := by
  have hi := get_list_index_lt x.2
  have hlk := hL.links _ hi
  rw [hsplit, Links_append] at hlk
  obtain ⟨-, hp, hn, -⟩ := hlk
  simp only [PREV, NEXT, PREV_PTR, NEXT_PTR, WSIZE] at hp hn
  have hsub : ∀ y, y ∈ L (get_list_index x.2) → y ∈ FB := fun y hy => hL.mem_FB hi hy
  have h1 : l1 ≠ [] ↔ GET s.mem x.1 ≠ 0 := by
    rw [hp]
    constructor
    · intro h
      obtain ⟨y, hy, he⟩ := lastOf_mem 0 l1 h
      have := hS.lo y (hsub y (by rw [hsplit]; simp [hy]))
      omega
    · intro h h0
      rw [h0] at h
      exact h rfl
  have h2 : l2 ≠ [] ↔ GET s.mem (x.1 + 4) ≠ 0 := by
    rw [hn]
    constructor
    · intro h
      obtain ⟨y, hy, he⟩ := nextOf_mem l2 0 h
      have := hS.lo y (hsub y (by rw [hsplit]; simp [hy]))
      omega
    · intro h h0
      rw [h0] at h
      exact h rfl
  rw [delete_node_mem]
  simp only [HDRP, WSIZE] at hsz
  rw [hsz, hp, hn]
  rw [← hp, ← hn]
  simp only [← h1, ← h2]

theorem erase_split {l1 l2 : List (Nat × Nat)} {x : Nat × Nat} (h : (l1 ++ x :: l2).Nodup) :
    (l1 ++ x :: l2).erase x = l1 ++ l2 := by
  have hx : x ∉ l1 := by
    intro hx
    have := List.nodup_append.1 h
    exact this.2.2 hx (List.mem_cons_self _ _) 
  rw [List.erase_append_right _ hx, List.erase_cons_head]

/-- Removing a node with `delete_node` leaves a well-formed table that holds
the other nodes. -/
theorem delete_node_lists {s : Heap} {FB : List (Nat × Nat)}
    {L : Nat → List (Nat × Nat)} (hL : Lists s.mem s.seg_free_lists FB L)
    (hS : Sep s.seg_free_lists FB) {x : Nat × Nat} (hx : x ∈ FB)
    (hsz : GET_SIZE s.mem (HDRP x.1) = x.2) {FB1 : List (Nat × Nat)}
    (hFB : ∀ y, y ∈ FB1 ↔ y ∈ FB ∧ y ≠ x) :
    Lists (delete_node s x.1).mem s.seg_free_lists FB1
      (Function.update L (get_list_index x.2) ((L (get_list_index x.2)).erase x)) := by
  have hi := get_list_index_lt x.2
  obtain ⟨l1, l2, hsplit⟩ := List.append_of_mem (hL.mem_self hx)
  have hnd := hL.nodup _ hi
  rw [hsplit] at hnd
  have hmem := delete_node_mem_split hL hS hx hsz hsplit
  have hsub : ∀ j, j < SEGLIST_CNT → ∀ y, y ∈ L j → y ∈ FB := fun j hj y hy => hL.mem_FB hj hy
  have hsub1 : ∀ y, y ∈ l1 → y ∈ FB := fun y hy => hsub _ hi y (by rw [hsplit]; simp [hy])
  have hsub2 : ∀ y, y ∈ l2 → y ∈ FB := fun y hy => hsub _ hi y (by rw [hsplit]; simp [hy])
  have hnd1 : l1.Nodup := (List.nodup_append.1 hnd).1
  have hnd2 : l2.Nodup := (List.nodup_cons.1 (List.nodup_append.1 hnd).2.1).2
  have hdisj : ∀ y, y ∈ l1 → y ∉ l2 := fun y h1 h2 =>
    (List.nodup_append.1 hnd).2.2 h1 (List.mem_cons_of_mem _ h2)
  have hlk := hL.links _ hi
  rw [hsplit, Links_append] at hlk
  obtain ⟨hk1, -, -, hk2⟩ := hlk
  have hlt : ∀ l : List (Nat × Nat), (∀ y, y ∈ l → y ∈ FB) → nextOf l 0 < 2 ^ 32 := by
    intro l hl
    cases l with
    | nil => simp [nextOf]
    | cons y t => have := hS.hi y (hl y (by simp)); simp only [nextOf]; omega
  have hlt2 : ∀ l : List (Nat × Nat), (∀ y, y ∈ l → y ∈ FB) → lastOf 0 l < 2 ^ 32 := by
    intro l hl
    by_cases h : l = []
    · subst h; simp [lastOf]
    · obtain ⟨y, hy, he⟩ := lastOf_mem 0 l h
      have := hS.hi y (hl y hy)
      omega
  have hxl1 : x ∉ l1 := fun h =>
    (List.nodup_append.1 hnd).2.2 h (List.mem_cons_self _ _)
  have hxl2 : x ∉ l2 := (List.nodup_cons.1 (List.nodup_append.1 hnd).2.1).1
  have hhead0 := hL.head _ hi
  rw [hsplit, nextOf_append] at hhead0
  have hp1 := hS.pairwise hsub1 hnd1
  have hp2 := hS.pairwise hsub2 hnd2
  -- the frame of the two stores
  have hframe : ∀ a, (a < s.seg_free_lists + 4 * get_list_index x.2 ∨
        s.seg_free_lists + 4 * get_list_index x.2 + 4 ≤ a) →
      (∀ z, z ∈ l1 ∨ z ∈ l2 → a < z.1 ∨ z.1 + 8 ≤ a) →
      (delete_node s x.1).mem a = s.mem a := by
    intro a ha hz
    rw [hmem]
    by_cases h1 : l1 = [] <;> by_cases h2 : l2 = []
    · simp only [h1, h2, ne_eq, not_true_eq_false, if_false]
      exact PUT_other _ _ _ _ ha
    · obtain ⟨y, hy, he⟩ := nextOf_mem l2 0 h2
      have := hz y (Or.inr hy)
      simp only [h1, h2, ne_eq, not_true_eq_false, not_false_eq_true, if_false, if_true]
      rw [PUT_other _ _ _ _ (by omega)]
      exact PUT_other _ _ _ _ ha
    · obtain ⟨y, hy, he⟩ := lastOf_mem 0 l1 h1
      have := hz y (Or.inl hy)
      simp only [h1, h2, ne_eq, not_true_eq_false, not_false_eq_true, if_false, if_true]
      exact PUT_other _ _ _ _ (by omega)
    · obtain ⟨y, hy, he⟩ := lastOf_mem 0 l1 h1
      obtain ⟨y2, hy2, he2⟩ := nextOf_mem l2 0 h2
      have := hz y (Or.inl hy)
      have := hz y2 (Or.inr hy2)
      simp only [h1, h2, ne_eq, not_true_eq_false, not_false_eq_true, if_false, if_true]
      rw [PUT_other _ _ _ _ (by omega)]
      exact PUT_other _ _ _ _ (by omega)
  -- the list the node was in
  have hown : GET (delete_node s x.1).mem (s.seg_free_lists + 4 * get_list_index x.2) =
        nextOf (l1 ++ l2) 0 ∧ Links (delete_node s x.1).mem 0 (l1 ++ l2) 0 := by
    rw [hmem, Links_append, nextOf_append]
    have hfh1 := hS.far_head hsub1 hi
    have hfh2 := hS.far_head hsub2 hi
    by_cases h1 : l1 = [] <;> by_cases h2 : l2 = []
    · subst h1 h2
      simp only [ne_eq, not_true_eq_false, if_false, nextOf, Links, and_self, and_true]
      exact GET_PUT_same _ _ _ (by omega)
    · subst h1
      obtain ⟨y, t, rfl⟩ := List.exists_cons_of_ne_nil h2
      simp only [ne_eq, not_true_eq_false, not_false_eq_true, if_false, if_true, nextOf, lastOf,
        Links, true_and, reduceCtorEq]
      have hy := hS.lo y (hsub2 y (by simp))
      have hy2 := hS.hi y (hsub2 y (by simp))
      simp only [SEGLIST_CNT] at hi
      refine ⟨?_, ?_⟩
      · rw [GET_PUT_ne _ _ _ _ (by omega)]
        exact GET_PUT_same _ _ _ (by omega)
      · exact Links_put_first (Links_put_far hk2 _ _ hfh2) hp2 0 (by omega)
    · subst h2
      simp only [ne_eq, not_true_eq_false, not_false_eq_true, if_false, if_true, h1, nextOf,
        Links, and_true]
      obtain ⟨y, hy, he⟩ := lastOf_mem 0 l1 h1
      have hy1 := hS.lo y (hsub1 y hy)
      simp only [SEGLIST_CNT] at hi
      refine ⟨?_, Links_put_last hk1 h1 hp1 0 (by omega)⟩
      rw [GET_PUT_ne _ _ _ _ (by omega)]
      obtain ⟨z, t, rfl⟩ := List.exists_cons_of_ne_nil h1
      exact hhead0
    · obtain ⟨y, hy, he⟩ := lastOf_mem 0 l1 h1
      obtain ⟨y2, t2, rfl⟩ := List.exists_cons_of_ne_nil h2
      have hy1 := hS.lo y (hsub1 y hy)
      have hy1h := hS.hi y (hsub1 y hy)
      have hy2 := hS.lo y2 (hsub2 y2 (by simp))
      have hy2h := hS.hi y2 (hsub2 y2 (by simp))
      have hyy2 : y ∉ y2 :: t2 := hdisj y hy
      have hy2l1 : y2 ∉ l1 := fun h => hdisj y2 h (by simp)
      simp only [ne_eq, not_false_eq_true, if_true, h1, nextOf, reduceCtorEq]
      simp only [SEGLIST_CNT] at hi
      refine ⟨?_, ?_, ?_⟩
      · rw [GET_PUT_ne _ _ _ _ (by omega), he, GET_PUT_ne _ _ _ _ (by omega)]
        obtain ⟨z, t, rfl⟩ := List.exists_cons_of_ne_nil h1
        exact hhead0
      · exact Links_put_far (Links_put_last hk1 h1 hp1 y2.1 (by omega)) _ _
          (hS.far hsub1 (hsub2 y2 (by simp)) hy2l1).1
      · rw [he]
        have := Links_put_far hk2 (y.1 + 4) y2.1 (hS.far hsub2 (hsub1 y hy) hyy2).2
        exact Links_put_first this hp2 y.1 (by omega)
  have herase : (L (get_list_index x.2)).erase x = l1 ++ l2 := by
    rw [hsplit]; exact erase_split hnd
  refine ⟨?_, ?_, ?_, ?_, ?_⟩
  · intro j hj
    by_cases hji : j = get_list_index x.2
    · subst hji
      rw [Function.update_same, herase]
      exact hown.1
    · rw [Function.update_noteq hji, ← hL.head j hj]
      apply GET_congr
      intro a ha1 ha2
      apply hframe a
      · simp only [SEGLIST_CNT] at hi hj; omega
      · intro z hz
        have hzFB : z ∈ FB := by rcases hz with h | h; exact hsub1 z h; exact hsub2 z h
        have := hS.lo z hzFB
        simp only [SEGLIST_CNT] at hj
        omega
  · intro j hj
    by_cases hji : j = get_list_index x.2
    · subst hji
      rw [Function.update_same, herase]
      exact hown.2
    · rw [Function.update_noteq hji]
      apply Links_congr (hL.links j hj)
      intro y hy a ha1 ha2
      have hyFB := hsub j hj y hy
      have hylo := hS.lo y hyFB
      apply hframe a
      · simp only [SEGLIST_CNT] at hi; omega
      · intro z hz
        have hzL : z ∈ L (get_list_index x.2) := by
          rw [hsplit]; rcases hz with h | h <;> simp [h]
        have hne : z ≠ y := by
          intro h
          subst h
          have h1 := ((hL.mem_iff _ hi z).1 hzL).2
          have h2 := ((hL.mem_iff j hj z).1 hy).2
          exact hji (by omega)
        rcases hS.apart z y (hsub _ hi z hzL) hyFB with h | h
        · exact absurd h hne
        · omega
  · intro j hj y
    by_cases hji : j = get_list_index x.2
    · subst hji
      rw [Function.update_same, hFB, List.Nodup.mem_erase_iff (hL.nodup _ hj),
        hL.mem_iff _ hj y]
      tauto
    · rw [Function.update_noteq hji, hL.mem_iff j hj y, hFB]
      constructor
      · rintro ⟨h1, h2⟩
        refine ⟨⟨h1, ?_⟩, h2⟩
        intro h
        subst h
        exact hji h2.symm
      · rintro ⟨⟨h1, -⟩, h2⟩
        exact ⟨h1, h2⟩
  · intro j hj
    by_cases hji : j = get_list_index x.2
    · subst hji
      rw [Function.update_same]
      exact (hL.nodup _ hj).erase x
    · rw [Function.update_noteq hji]
      exact hL.nodup j hj
  · intro j hj
    by_cases hji : j = get_list_index x.2
    · subst hji
      rw [Function.update_same]
      exact (hL.sorted _ hj).sublist (List.erase_sublist x _)
    · rw [Function.update_noteq hji]
      exact hL.sorted j hj

/-- The bytes `delete_node` may change are the list heads and the link fields
of the other nodes. -/
theorem delete_node_frame {s : Heap} {FB : List (Nat × Nat)}
    {L : Nat → List (Nat × Nat)} (hL : Lists s.mem s.seg_free_lists FB L)
    (hS : Sep s.seg_free_lists FB) {x : Nat × Nat} (hx : x ∈ FB)
    (hsz : GET_SIZE s.mem (HDRP x.1) = x.2) (a : Nat)
    (ha : a < s.seg_free_lists ∨ s.seg_free_lists + 80 ≤ a)
    (hz : ∀ z, z ∈ FB → z ≠ x → a < z.1 ∨ z.1 + 8 ≤ a) :
    (delete_node s x.1).mem a = s.mem a := by
  have hi := get_list_index_lt x.2
  obtain ⟨l1, l2, hsplit⟩ := List.append_of_mem (hL.mem_self hx)
  have hnd := hL.nodup _ hi
  rw [hsplit] at hnd
  have hxl1 : x ∉ l1 := fun h =>
    (List.nodup_append.1 hnd).2.2 h (List.mem_cons_self _ _)
  have hxl2 : x ∉ l2 := (List.nodup_cons.1 (List.nodup_append.1 hnd).2.1).1
  have hsub1 : ∀ y, y ∈ l1 → y ∈ FB := fun y hy => hL.mem_FB hi (by rw [hsplit]; simp [hy])
  have hsub2 : ∀ y, y ∈ l2 → y ∈ FB := fun y hy => hL.mem_FB hi (by rw [hsplit]; simp [hy])
  have hz1 : ∀ y, y ∈ l1 → a < y.1 ∨ y.1 + 8 ≤ a := fun y hy =>
    hz y (hsub1 y hy) (fun h => hxl1 (h ▸ hy))
  have hz2 : ∀ y, y ∈ l2 → a < y.1 ∨ y.1 + 8 ≤ a := fun y hy =>
    hz y (hsub2 y hy) (fun h => hxl2 (h ▸ hy))
  simp only [SEGLIST_CNT] at hi
  rw [delete_node_mem_split hL hS hx hsz hsplit]
  by_cases h1 : l1 = [] <;> by_cases h2 : l2 = []
  · simp only [h1, h2, ne_eq, not_true_eq_false, if_false]
    exact PUT_other _ _ _ _ (by omega)
  · obtain ⟨y, hy, he⟩ := nextOf_mem l2 0 h2
    have := hz2 y hy
    simp only [h1, h2, ne_eq, not_true_eq_false, not_false_eq_true, if_false, if_true]
    rw [PUT_other _ _ _ _ (by omega)]
    exact PUT_other _ _ _ _ (by omega)
  · obtain ⟨y, hy, he⟩ := lastOf_mem 0 l1 h1
    have := hz1 y hy
    simp only [h1, h2, ne_eq, not_true_eq_false, not_false_eq_true, if_false, if_true]
    exact PUT_other _ _ _ _ (by omega)
  · obtain ⟨y, hy, he⟩ := lastOf_mem 0 l1 h1
    obtain ⟨y2, hy2, he2⟩ := nextOf_mem l2 0 h2
    have := hz1 y hy
    have := hz2 y2 hy2
    simp only [h1, h2, ne_eq, not_true_eq_false, not_false_eq_true, if_false, if_true]
    rw [PUT_other _ _ _ _ (by omega)]
    exact PUT_other _ _ _ _ (by omega)

/-! ## `insert_node` on the free-list table -/

theorem insert_walk_spec {m : Mem} {size : Nat} {l : List (Nat × Nat)} {prev : Nat}
    (hk : Links m prev l 0) (hnz : ∀ y, y ∈ l → y.1 ≠ 0)
    (hsz : ∀ y, y ∈ l → GET_SIZE m (HDRP y.1) = y.2) (fuel : Nat) (hf : l.length < fuel) :
    insert_walk m size fuel (nextOf l 0) prev =
      some (lastOf prev (l.takeWhile (fun y => decide (y.2 < size))),
        nextOf (l.dropWhile (fun y => decide (y.2 < size))) 0) := by
  induction l generalizing prev fuel with
  | nil =>
    obtain ⟨f, rfl⟩ : ∃ f, fuel = f + 1 := ⟨fuel - 1, by simp at hf; omega⟩
    simp [insert_walk, nextOf, lastOf]
  | cons y t ih =>
    obtain ⟨f, rfl⟩ : ∃ f, fuel = f + 1 := ⟨fuel - 1, by simp at hf; omega⟩
    obtain ⟨-, h2, h3⟩ := hk
    have hy := hnz y (List.mem_cons_self _ _)
    have hs := hsz y (List.mem_cons_self _ _)
    simp only [insert_walk, nextOf, hs]
    by_cases hlt : y.2 < size
    · simp only [hy, ne_eq, not_false_eq_true, hlt, and_self, if_true, h2,
        List.takeWhile_cons, List.dropWhile_cons, decide_True, lastOf]
      exact ih h3 (fun z hz => hnz z (List.mem_cons_of_mem _ hz))
        (fun z hz => hsz z (List.mem_cons_of_mem _ hz)) f (by simp at hf; omega)
    · simp [hlt, List.takeWhile_cons, List.dropWhile_cons, lastOf, nextOf]

theorem dropWhile_ge {n : Nat} {l : List (Nat × Nat)}
    (hs : l.Pairwise (fun x y => x.2 ≤ y.2)) :
    ∀ y, y ∈ l.dropWhile (fun y => decide (y.2 < n)) → n ≤ y.2 := by
  induction l with
  | nil => simp
  | cons z t ih =>
    rw [List.pairwise_cons] at hs
    intro y hy
    by_cases hlt : z.2 < n
    · simp only [List.dropWhile_cons, hlt, decide_True, if_true] at hy
      exact ih hs.2 y hy
    · simp only [List.dropWhile_cons, hlt, decide_False, Bool.false_eq_true, if_false] at hy
      rcases List.mem_cons.1 hy with rfl | hy
      · omega
      · have := hs.1 y hy
        omega

theorem takeWhile_lt {size : Nat} {l : List (Nat × Nat)} :
    ∀ y, y ∈ l.takeWhile (fun y => decide (y.2 < size)) → y.2 < size := by
  intro y hy
  have := List.mem_takeWhile_imp hy
  simpa using this

theorem Sep.mono {base : Nat} {FB FB1 : List (Nat × Nat)} (hS : Sep base FB)
    (h : ∀ y, y ∈ FB1 → y ∈ FB) : Sep base FB1 :=
  ⟨fun x hx => hS.lo x (h x hx), fun x hx => hS.hi x (h x hx),
    fun x y hx hy => hS.apart x y (h x hx) (h y hy)⟩

theorem nodup_length_le {l FB : List (Nat × Nat)} (hn : l.Nodup) (h : ∀ y, y ∈ l → y ∈ FB) :
    l.length ≤ FB.length :=
  (List.Nodup.subperm hn h).length_le

/-- Inserting an unlisted node with `insert_node` leaves a well-formed table
that holds it too, before the first node of its class that is not smaller. -/
theorem insert_node_lists {s : Heap} {FB : List (Nat × Nat)}
    {L : Nat → List (Nat × Nat)} (hL : Lists s.mem s.seg_free_lists FB L)
    {x : Nat × Nat} (hS : Sep s.seg_free_lists (x :: FB)) (hx : x ∉ FB)
    (hsz : ∀ y, y ∈ FB → GET_SIZE s.mem (HDRP y.1) = y.2) {fuel : Nat}
    (hf : FB.length < fuel) {FB1 : List (Nat × Nat)} (hFB : ∀ y, y ∈ FB1 ↔ y = x ∨ y ∈ FB) :
    ∃ s1, insert_node fuel s x.1 x.2 = some s1 ∧ s1.base = s.base ∧ s1.brk = s.brk ∧
      s1.limit = s.limit ∧ s1.seg_free_lists = s.seg_free_lists ∧
      Lists s1.mem s.seg_free_lists FB1
        (Function.update L (get_list_index x.2)
          ((L (get_list_index x.2)).takeWhile (fun y => decide (y.2 < x.2)) ++
            x :: (L (get_list_index x.2)).dropWhile (fun y => decide (y.2 < x.2)))) ∧
      (∀ a, (a < s.seg_free_lists ∨ s.seg_free_lists + 80 ≤ a) →
        (∀ z, z ∈ x :: FB → a < z.1 ∨ z.1 + 8 ≤ a) → s1.mem a = s.mem a) := by
  have hi := get_list_index_lt x.2
  have hSF : Sep s.seg_free_lists FB := hS.mono (fun y hy => List.mem_cons_of_mem _ hy)
  have hsubL : ∀ j, j < SEGLIST_CNT → ∀ y, y ∈ L j → y ∈ FB := fun j hj y hy => hL.mem_FB hj hy
  generalize hl1 : (L (get_list_index x.2)).takeWhile (fun y => decide (y.2 < x.2)) = l1
  generalize hl2 : (L (get_list_index x.2)).dropWhile (fun y => decide (y.2 < x.2)) = l2
  have hsplit : L (get_list_index x.2) = l1 ++ l2 := by
    rw [← hl1, ← hl2, List.takeWhile_append_dropWhile]
  have hsub1 : ∀ y, y ∈ l1 → y ∈ FB := fun y hy => hsubL _ hi y (by rw [hsplit]; simp [hy])
  have hsub2 : ∀ y, y ∈ l2 → y ∈ FB := fun y hy => hsubL _ hi y (by rw [hsplit]; simp [hy])
  have hnd := hL.nodup _ hi
  rw [hsplit] at hnd
  have hnd1 : l1.Nodup := (List.nodup_append.1 hnd).1
  have hnd2 : l2.Nodup := (List.nodup_append.1 hnd).2.1
  have hdisj : ∀ y, y ∈ l1 → y ∉ l2 := fun y h1 h2 => (List.nodup_append.1 hnd).2.2 h1 h2
  have hxl1 : x ∉ l1 := fun h => hx (hsub1 x h)
  have hxl2 : x ∉ l2 := fun h => hx (hsub2 x h)
  have hxFB : x ∈ x :: FB := List.mem_cons_self _ _
  have hxlo := hS.lo x hxFB
  have hxhi := hS.hi x hxFB
  -- the walk
  have hwalk : insert_walk s.mem x.2 fuel (getHead s (get_list_index x.2)) 0 =
      some (lastOf 0 l1, nextOf l2 0) := by
    rw [getHead_eq, hL.head _ hi, ← hl1, ← hl2]
    refine insert_walk_spec (hL.links _ hi) ?_ (fun y hy => hsz y (hsubL _ hi y hy)) fuel ?_
    · intro y hy
      have := hSF.lo y (hsubL _ hi y hy)
      omega
    · exact lt_of_le_of_lt (nodup_length_le (hL.nodup _ hi) (hsubL _ hi)) hf
  have hlk := hL.links _ hi
  rw [hsplit, Links_append] at hlk
  obtain ⟨hk1, hk2⟩ := hlk
  have hhead0 := hL.head _ hi
  rw [hsplit, nextOf_append] at hhead0
  have hp1 := hSF.pairwise hsub1 hnd1
  have hp2 := hSF.pairwise hsub2 hnd2
  have hfx : ∀ l : List (Nat × Nat), (∀ y, y ∈ l → y ∈ FB) →
      FarFrom x.1 l ∧ FarFrom (x.1 + 4) l := fun l hl =>
    hS.far (fun y hy => List.mem_cons_of_mem _ (hl y hy)) hxFB
      (fun h => hx (hl x h))
  have hn1 : l1 ≠ [] ↔ lastOf 0 l1 ≠ 0 := by
    constructor
    · intro h
      obtain ⟨y, hy, he⟩ := lastOf_mem 0 l1 h
      have := hSF.lo y (hsub1 y hy)
      omega
    · intro h h0
      rw [h0] at h
      exact h rfl
  have hn2 : l2 ≠ [] ↔ nextOf l2 0 ≠ 0 := by
    constructor
    · intro h
      obtain ⟨y, hy, he⟩ := nextOf_mem l2 0 h
      have := hSF.lo y (hsub2 y hy)
      omega
    · intro h h0
      rw [h0] at h
      exact h rfl
  have hlast : lastOf 0 l1 < 2 ^ 32 := by
    by_cases h : l1 = []
    · subst h; simp [lastOf]
    · obtain ⟨y, hy, he⟩ := lastOf_mem 0 l1 h
      have := hSF.hi y (hsub1 y hy)
      omega
  have hnext : nextOf l2 0 < 2 ^ 32 := by
    by_cases h : l2 = []
    · subst h; simp [nextOf]
    · obtain ⟨y, hy, he⟩ := nextOf_mem l2 0 h
      have := hSF.hi y (hsub2 y hy)
      omega
  -- the memory after the stores
  obtain ⟨m2, hm2⟩ : ∃ m2, m2 = PUT (PUT s.mem x.1 (lastOf 0 l1)) (x.1 + 4) (nextOf l2 0) :=
    ⟨_, rfl⟩
  obtain ⟨m3, hm3⟩ : ∃ m3, m3 = if l1 ≠ [] then PUT m2 (lastOf 0 l1 + 4) x.1
      else PUT m2 (s.seg_free_lists + 4 * get_list_index x.2) x.1 := ⟨_, rfl⟩
  obtain ⟨m4, hm4⟩ : ∃ m4, m4 = if l2 ≠ [] then PUT m3 (nextOf l2 0) x.1 else m3 := ⟨_, rfl⟩
  have hres : insert_node fuel s x.1 x.2 = some { s with mem := m4 } := by
    unfold insert_node
    simp only [hwalk, PREV_PTR, NEXT_PTR, WSIZE]
    by_cases h1 : l1 = [] <;> by_cases h2 : l2 = []
    · have e1 : lastOf 0 l1 = 0 := by rw [h1]; rfl
      have e2 : nextOf l2 0 = 0 := by rw [h2]; rfl
      simp only [e1, e2, ne_eq, not_true_eq_false, if_false]
      rw [hm4, hm3, hm2]
      simp only [h1, h2, e1, e2, ne_eq, not_true_eq_false, if_false]
      rfl
    · have e1 : lastOf 0 l1 = 0 := by rw [h1]; rfl
      have e2 := hn2.1 h2
      simp only [e1, e2, ne_eq, not_true_eq_false, not_false_eq_true, if_false, if_true]
      rw [hm4, hm3, hm2]
      simp only [h1, h2, e1, ne_eq, not_true_eq_false, not_false_eq_true, if_false, if_true]
      rfl
    · have e1 := hn1.1 h1
      have e2 : nextOf l2 0 = 0 := by rw [h2]; rfl
      simp only [e1, e2, ne_eq, not_true_eq_false, not_false_eq_true, if_false, if_true]
      rw [hm4, hm3, hm2]
      simp only [h1, h2, e2, ne_eq, not_true_eq_false, not_false_eq_true, if_false, if_true]
      rfl
    · have e1 := hn1.1 h1
      have e2 := hn2.1 h2
      simp only [e1, e2, ne_eq, not_true_eq_false, not_false_eq_true, if_false, if_true]
      rw [hm4, hm3, hm2]
      simp only [h1, h2, ne_eq, not_true_eq_false, not_false_eq_true, if_false, if_true]
      rfl
  have hi20 : get_list_index x.2 < 20 := hi
  have hframe : ∀ a, (a < s.seg_free_lists + 4 * get_list_index x.2 ∨
        s.seg_free_lists + 4 * get_list_index x.2 + 4 ≤ a) → (a < x.1 ∨ x.1 + 8 ≤ a) →
      (∀ z, z ∈ l1 ∨ z ∈ l2 → a < z.1 ∨ z.1 + 8 ≤ a) → m4 a = s.mem a := by
    intro a ha hax hz
    have e2 : m2 a = s.mem a := by
      rw [hm2, PUT_other _ _ _ _ (by omega), PUT_other _ _ _ _ (by omega)]
    have e3 : m3 a = s.mem a := by
      rw [hm3]
      by_cases h1 : l1 = []
      · simp only [h1, ne_eq, not_true_eq_false, if_false]
        rw [PUT_other _ _ _ _ ha, e2]
      · obtain ⟨y, hy, he⟩ := lastOf_mem 0 l1 h1
        have := hz y (Or.inl hy)
        simp only [h1, ne_eq, not_false_eq_true, if_true]
        rw [PUT_other _ _ _ _ (by omega), e2]
    rw [hm4]
    by_cases h2 : l2 = []
    · simp only [h2, ne_eq, not_true_eq_false, if_false]
      exact e3
    · obtain ⟨y, hy, he⟩ := nextOf_mem l2 0 h2
      have := hz y (Or.inr hy)
      simp only [h2, ne_eq, not_false_eq_true, if_true]
      rw [PUT_other _ _ _ _ (by omega), e3]
  -- the words of the new node and of its neighbours
  have hG3 : ∀ q, (q = x.1 ∨ q = x.1 + 4) → GET m3 q = GET m2 q := by
    intro q hq
    rw [hm3]
    by_cases h1 : l1 = []
    · simp only [h1, ne_eq, not_true_eq_false, if_false]
      exact GET_PUT_ne _ _ _ _ (by omega)
    · obtain ⟨y, hy, he⟩ := lastOf_mem 0 l1 h1
      have := (hfx l1 hsub1).1 y hy
      have := (hfx l1 hsub1).2 y hy
      simp only [h1, ne_eq, not_false_eq_true, if_true]
      exact GET_PUT_ne _ _ _ _ (by omega)
  have hG4 : ∀ q, (q = x.1 ∨ q = x.1 + 4) → GET m4 q = GET m3 q := by
    intro q hq
    rw [hm4]
    by_cases h2 : l2 = []
    · simp only [h2, ne_eq, not_true_eq_false, if_false]
    · obtain ⟨y, hy, he⟩ := nextOf_mem l2 0 h2
      have := (hfx l2 hsub2).1 y hy
      have := (hfx l2 hsub2).2 y hy
      simp only [h2, ne_eq, not_false_eq_true, if_true]
      exact GET_PUT_ne _ _ _ _ (by omega)
  have hP : PREV m4 x.1 = lastOf 0 l1 := by
    show GET m4 x.1 = _
    rw [hG4 _ (Or.inl rfl), hG3 _ (Or.inl rfl), hm2, GET_PUT_ne _ _ _ _ (by omega)]
    exact GET_PUT_same _ _ _ hlast
  have hN : NEXT m4 x.1 = nextOf l2 0 := by
    show GET m4 (x.1 + 4) = _
    rw [hG4 _ (Or.inr rfl), hG3 _ (Or.inr rfl), hm2]
    exact GET_PUT_same _ _ _ hnext
  have hK1 : Links m4 0 l1 x.1 := by
    by_cases h1 : l1 = []
    · subst h1; trivial
    · have a2 : Links m2 0 l1 (nextOf l2 0) := by
        rw [hm2]
        exact Links_put_far (Links_put_far hk1 _ _ (hfx l1 hsub1).1) _ _ (hfx l1 hsub1).2
      have a3 : Links m3 0 l1 x.1 := by
        rw [hm3]
        simp only [h1, ne_eq, not_false_eq_true, if_true]
        exact Links_put_last a2 h1 hp1 x.1 (by omega)
      rw [hm4]
      by_cases h2 : l2 = []
      · simp only [h2, ne_eq, not_true_eq_false, if_false]
        exact a3
      · obtain ⟨y, hy, he⟩ := nextOf_mem l2 0 h2
        simp only [h2, ne_eq, not_false_eq_true, if_true]
        rw [he]
        exact Links_put_far a3 _ _ (hSF.far hsub1 (hsub2 y hy) (fun h => hdisj y h hy)).1
  have hK2 : Links m4 x.1 l2 0 := by
    by_cases h2 : l2 = []
    · subst h2; trivial
    · have a2 : Links m2 (lastOf 0 l1) l2 0 := by
        rw [hm2]
        exact Links_put_far (Links_put_far hk2 _ _ (hfx l2 hsub2).1) _ _ (hfx l2 hsub2).2
      have a3 : Links m3 (lastOf 0 l1) l2 0 := by
        rw [hm3]
        by_cases h1 : l1 = []
        · simp only [h1, ne_eq, not_true_eq_false, if_false]
          rw [h1] at a2
          exact Links_put_far a2 _ _ (hSF.far_head hsub2 hi)
        · obtain ⟨y, hy, he⟩ := lastOf_mem 0 l1 h1
          simp only [h1, ne_eq, not_false_eq_true, if_true]
          rw [he] at a2 ⊢
          exact Links_put_far a2 _ _ (hSF.far hsub2 (hsub1 y hy) (hdisj y hy)).2
      rw [hm4]
      simp only [h2, ne_eq, not_false_eq_true, if_true]
      obtain ⟨y, t, rfl⟩ := List.exists_cons_of_ne_nil h2
      exact Links_put_first a3 hp2 x.1 (by omega)
  have hH : GET m4 (s.seg_free_lists + 4 * get_list_index x.2) = nextOf l1 x.1 := by
    have e4 : GET m4 (s.seg_free_lists + 4 * get_list_index x.2) =
        GET m3 (s.seg_free_lists + 4 * get_list_index x.2) := by
      rw [hm4]
      by_cases h2 : l2 = []
      · simp only [h2, ne_eq, not_true_eq_false, if_false]
      · obtain ⟨y, hy, he⟩ := nextOf_mem l2 0 h2
        have := hSF.lo y (hsub2 y hy)
        simp only [h2, ne_eq, not_false_eq_true, if_true]
        exact GET_PUT_ne _ _ _ _ (by omega)
    rw [e4, hm3]
    by_cases h1 : l1 = []
    · simp only [h1, ne_eq, not_true_eq_false, if_false, nextOf]
      exact GET_PUT_same _ _ _ (by omega)
    · obtain ⟨y, hy, he⟩ := lastOf_mem 0 l1 h1
      have := hSF.lo y (hsub1 y hy)
      simp only [h1, ne_eq, not_false_eq_true, if_true]
      rw [GET_PUT_ne _ _ _ _ (by omega), hm2, GET_PUT_ne _ _ _ _ (by omega),
        GET_PUT_ne _ _ _ _ (by omega), hhead0]
      obtain ⟨z, t, rfl⟩ := List.exists_cons_of_ne_nil h1
      rfl
  refine ⟨_, hres, rfl, rfl, rfl, rfl, ⟨?_, ?_, ?_, ?_, ?_⟩, ?_⟩
  · intro j hj
    by_cases hji : j = get_list_index x.2
    · subst hji
      rw [Function.update_same, nextOf_append]
      exact hH
    · rw [Function.update_noteq hji, ← hL.head j hj]
      apply GET_congr
      intro a ha1 ha2
      have hj20 : j < 20 := hj
      apply hframe a (by omega) (by omega)
      intro z hz
      have hzFB : z ∈ FB := by rcases hz with h | h; exact hsub1 z h; exact hsub2 z h
      have := hSF.lo z hzFB
      omega
  · intro j hj
    by_cases hji : j = get_list_index x.2
    · subst hji
      rw [Function.update_same, Links_append]
      exact ⟨hK1, hP, hN, hK2⟩
    · rw [Function.update_noteq hji]
      apply Links_congr (hL.links j hj)
      intro y hy a ha1 ha2
      have hyFB := hsubL j hj y hy
      have hylo := hSF.lo y hyFB
      have hyx : x ≠ y := fun h => hx (h ▸ hyFB)
      apply hframe a (by omega)
      · rcases hS.apart x y hxFB (List.mem_cons_of_mem _ hyFB) with h | h
        · exact absurd h hyx
        · omega
      · intro z hz
        have hzL : z ∈ L (get_list_index x.2) := by
          rw [hsplit]; rcases hz with h | h <;> simp [h]
        have hne : z ≠ y := by
          intro h
          subst h
          have h1 := ((hL.mem_iff _ hi z).1 hzL).2
          have h2 := ((hL.mem_iff j hj z).1 hy).2
          exact hji (by omega)
        rcases hSF.apart z y (hsubL _ hi z hzL) hyFB with h | h
        · exact absurd h hne
        · omega
  · intro j hj y
    by_cases hji : j = get_list_index x.2
    · subst hji
      rw [Function.update_same, hFB]
      have := hL.mem_iff _ hj y
      rw [hsplit] at this
      simp only [List.mem_append, List.mem_cons] at this ⊢
      constructor
      · rintro (h | rfl | h)
        · exact ⟨Or.inr (this.1 (Or.inl h)).1, (this.1 (Or.inl h)).2⟩
        · exact ⟨Or.inl rfl, rfl⟩
        · exact ⟨Or.inr (this.1 (Or.inr h)).1, (this.1 (Or.inr h)).2⟩
      · rintro ⟨rfl | h, h2⟩
        · exact Or.inr (Or.inl rfl)
        · rcases this.2 ⟨h, h2⟩ with h | h
          · exact Or.inl h
          · exact Or.inr (Or.inr h)
    · rw [Function.update_noteq hji, hL.mem_iff j hj y, hFB]
      constructor
      · rintro ⟨h1, h2⟩
        exact ⟨Or.inr h1, h2⟩
      · rintro ⟨rfl | h1, h2⟩
        · exact absurd h2.symm hji
        · exact ⟨h1, h2⟩
  · intro j hj
    by_cases hji : j = get_list_index x.2
    · subst hji
      rw [Function.update_same]
      rw [List.nodup_append] at hnd ⊢
      refine ⟨hnd.1, List.nodup_cons.2 ⟨hxl2, hnd.2.1⟩, ?_⟩
      intro a ha hb
      rcases List.mem_cons.1 hb with rfl | hb
      · exact hxl1 ha
      · exact hnd.2.2 ha hb
    · rw [Function.update_noteq hji]
      exact hL.nodup j hj
  · intro j hj
    by_cases hji : j = get_list_index x.2
    · subst hji
      rw [Function.update_same]
      have hs := hL.sorted _ hj
      have hge := dropWhile_ge (n := x.2) hs
      rw [hl2] at hge
      have hlt : ∀ y, y ∈ l1 → y.2 < x.2 := by
        intro y hy
        rw [← hl1] at hy
        exact takeWhile_lt y hy
      rw [hsplit, List.pairwise_append] at hs
      rw [List.pairwise_append]
      refine ⟨hs.1, List.pairwise_cons.2 ⟨hge, hs.2.1⟩, ?_⟩
      intro a ha b hb
      rcases List.mem_cons.1 hb with rfl | hb
      · exact Nat.le_of_lt (hlt a ha)
      · exact hs.2.2 a ha b hb
    · rw [Function.update_noteq hji]
      exact hL.sorted j hj
  · intro a ha hz
    have hax := hz x hxFB
    apply hframe a (by omega) hax
    intro z hz1
    have hzFB : z ∈ FB := by rcases hz1 with h | h; exact hsub1 z h; exact hsub2 z h
    exact hz z (List.mem_cons_of_mem _ hzFB)

/-! ## Blocks of a tiling and the frame of list operations -/

theorem blist_append (bp : Nat) (l1 l2 : List Blk) :
    blist bp (l1 ++ l2) = blist bp l1 ++ blist (bp + total l1) l2 := by
  induction l1 generalizing bp with
  | nil => simp [blist, total]
  | cons b t ih =>
    show (bp, b.1) :: blist (bp + b.1) (t ++ l2) =
      ((bp, b.1) :: blist (bp + b.1) t) ++ blist (bp + (b.1 + total t)) l2
    rw [ih, Nat.add_assoc]
    rfl

theorem flist_sub_blist {bp : Nat} {bl : List Blk} {x : Nat × Nat} (h : x ∈ flist bp bl) :
    x ∈ blist bp bl := by
  induction bl generalizing bp with
  | nil => simp [flist] at h
  | cons b t ih =>
    simp only [flist] at h
    simp only [blist]
    split at h
    · rcases List.mem_cons.1 h with rfl | h
      · exact List.mem_cons_self _ _
      · exact List.mem_cons_of_mem _ (ih h)
    · exact List.mem_cons_of_mem _ (ih h)

theorem alist_sub_blist {bp : Nat} {bl : List Blk} {x : Nat × Nat} (h : x ∈ alist bp bl) :
    x ∈ blist bp bl := by
  induction bl generalizing bp with
  | nil => simp [alist] at h
  | cons b t ih =>
    simp only [alist] at h
    simp only [blist]
    split at h
    · rcases List.mem_cons.1 h with rfl | h
      · exact List.mem_cons_self _ _
      · exact List.mem_cons_of_mem _ (ih h)
    · exact List.mem_cons_of_mem _ (ih h)

theorem mem_blist_mid (bp : Nat) (pre post : List Blk) (b : Blk) :
    (bp + total pre, b.1) ∈ blist bp (pre ++ b :: post) := by
  rw [blist_append]
  exact List.mem_append_right _ (List.mem_cons_self _ _)

theorem blist_bounds {m : Mem} {bp : Nat} {bl : List Blk} (h : Tiles m bp bl)
    {x : Nat × Nat} (hx : x ∈ blist bp bl) :
    bp ≤ x.1 ∧ x.1 + x.2 ≤ bp + total bl ∧ 16 ≤ x.2 ∧ x.2 % 8 = 0 := by
  induction bl generalizing bp with
  | nil => simp [blist] at hx
  | cons b t ih =>
    obtain ⟨h8, h16, -, -, ht⟩ := h
    simp only [blist] at hx
    simp only [total]
    rcases List.mem_cons.1 hx with rfl | hx
    · simp only
      omega
    · have := ih ht hx
      omega

theorem blist_pairwise {m : Mem} {bp : Nat} {bl : List Blk} (h : Tiles m bp bl) :
    (blist bp bl).Pairwise (fun x y => x.1 + x.2 ≤ y.1) := by
  induction bl generalizing bp with
  | nil => simp [blist]
  | cons b t ih =>
    obtain ⟨h8, h16, -, -, ht⟩ := h
    simp only [blist]
    refine List.pairwise_cons.2 ⟨?_, ih ht⟩
    intro y hy
    have := blist_bounds ht hy
    simp only
    omega

theorem blist_sep {m : Mem} {bp : Nat} {bl : List Blk} (h : Tiles m bp bl)
    {x y : Nat × Nat} (hx : x ∈ blist bp bl) (hy : y ∈ blist bp bl) :
    x = y ∨ x.1 + x.2 ≤ y.1 ∨ y.1 + y.2 ≤ x.1 :=
  pairwise_mem_cases (blist_pairwise h) hx hy

theorem blist_retag (bp : Nat) (pre post : List Blk) (sz : Nat) (t1 t2 : Tag) :
    blist bp (pre ++ (sz, t1) :: post) = blist bp (pre ++ (sz, t2) :: post) := by
  rw [blist_append, blist_append]
  rfl

theorem total_retag (pre post : List Blk) (sz : Nat) (t1 t2 : Tag) :
    total (pre ++ (sz, t1) :: post) = total (pre ++ (sz, t2) :: post) := by
  rw [total_append, total_append]
  rfl

theorem Tiles_retag {m : Mem} {bp : Nat} {pre post : List Blk} {sz : Nat} {t1 t2 : Tag}
    (h : Tiles m bp (pre ++ (sz, t1) :: post)) (ht : abit t1 = abit t2) :
    Tiles m bp (pre ++ (sz, t2) :: post) := by
  rw [Tiles_append] at h ⊢
  obtain ⟨h1, h8, h16, hh, hf, h2⟩ := h
  exact ⟨h1, h8, h16, ht ▸ hh, ht ▸ hf, h2⟩

/-- A tiling only reads boundary tags: it survives any change of memory that
is confined to the link fields of its blocks and to addresses below it. -/
theorem Tiles_frame_links {m m1 : Mem} {bp : Nat} {bl : List Blk} (hbp : 4 ≤ bp)
    (h : Tiles m bp bl)
    (hf : ∀ a, bp - 4 ≤ a → (∀ y, y ∈ blist bp bl → a < y.1 ∨ y.1 + 8 ≤ a) → m1 a = m a) :
    Tiles m1 bp bl := by
  induction bl generalizing bp with
  | nil => trivial
  | cons b t ih =>
    have hb := fun y (hy : y ∈ blist (bp + b.1) t) => blist_bounds h.2.2.2.2 hy
    obtain ⟨h8, h16, hh, hft, ht⟩ := h
    refine ⟨h8, h16, ?_, ?_, ?_⟩
    · rw [← hh]
      refine GET_congr (fun a h1 h2 => hf a h1 ?_)
      intro y hy
      simp only [blist] at hy
      rcases List.mem_cons.1 hy with rfl | hy
      · simp only; omega
      · have := hb y hy; omega
    · rw [← hft]
      refine GET_congr (fun a h1 h2 => hf a (by omega) ?_)
      intro y hy
      simp only [blist] at hy
      rcases List.mem_cons.1 hy with rfl | hy
      · simp only; omega
      · have := hb y hy; omega
    · refine ih (by omega) ht (fun a h1 h2 => hf a (by omega) ?_)
      intro y hy
      simp only [blist] at hy
      rcases List.mem_cons.1 hy with rfl | hy
      · simp only; omega
      · exact h2 y hy

theorem Rep.bounds {s : Heap} {bl : List Blk} {L : Nat → List (Nat × Nat)} (h : Rep s bl L)
    {x : Nat × Nat} (hx : x ∈ blist (s.base + 96) bl) :
    s.base + 96 ≤ x.1 ∧ x.1 + x.2 ≤ s.base + s.brk ∧ 16 ≤ x.2 ∧ x.2 % 8 = 0 ∧
      x.1 + x.2 ≤ 2 ^ 32 := by
  have := blist_bounds h.tiles hx
  have := h.size
  have := h.fits
  have := h.brk_le
  omega

/-- Any blocks of the picture are separated nodes. -/
theorem Rep.sep {s : Heap} {bl : List Blk} {L : Nat → List (Nat × Nat)} (h : Rep s bl L)
    {FB : List (Nat × Nat)} (hFB : ∀ y, y ∈ FB → y ∈ blist (s.base + 96) bl) :
    Sep s.base FB := by
  refine ⟨fun x hx => (h.bounds (hFB x hx)).1, fun x hx => ?_, fun x y hx hy => ?_⟩
  · have := h.bounds (hFB x hx); omega
  · have h1 := h.bounds (hFB x hx)
    have h2 := h.bounds (hFB y hy)
    rcases blist_sep h.tiles (hFB x hx) (hFB y hy) with h3 | h3 | h3
    · exact Or.inl h3
    · right; left; omega
    · right; right; omega

theorem Rep.hdr {s : Heap} {bl : List Blk} {L : Nat → List (Nat × Nat)} (h : Rep s bl L) :
    ∀ y, y ∈ flist (s.base + 96) bl → GET_SIZE s.mem (HDRP y.1) = y.2 := by
  intro y hy
  have h1 := (flist_tags h.tiles hy).1
  have h2 := flist_bounds h.tiles hy
  rw [GET_SIZE_eq]
  simp only [HDRP, WSIZE]
  rw [h1]
  omega

theorem flist_nodup {m : Mem} {bp : Nat} {bl : List Blk} (h : Tiles m bp bl) :
    (flist bp bl).Nodup := by
  have hp := flist_pairwise h
  have hb : ∀ x, x ∈ flist bp bl → 16 ≤ x.2 := fun x hx => (flist_bounds h hx).2.2.1
  revert hp hb
  generalize flist bp bl = l
  intro hp hb
  induction l with
  | nil => exact List.nodup_nil
  | cons x t ih =>
    rw [List.pairwise_cons] at hp
    refine List.nodup_cons.2 ⟨fun hx => ?_, ih hp.2 (fun y hy => hb y (List.mem_cons_of_mem _ hy))⟩
    have := hp.1 x hx
    have := hb x (List.mem_cons_self _ _)
    omega

/-! ## Operations on the picture -/

theorem Lists_congr {m m1 : Mem} {base : Nat} {FB : List (Nat × Nat)}
    {L : Nat → List (Nat × Nat)} (hL : Lists m base FB L)
    (hh : ∀ a, base ≤ a → a < base + 80 → m1 a = m a)
    (hf : ∀ y, y ∈ FB → ∀ a, y.1 ≤ a → a < y.1 + 8 → m1 a = m a) : Lists m1 base FB L := by
  refine ⟨fun i hi => ?_, fun i hi => ?_, hL.mem_iff, hL.nodup, hL.sorted⟩
  · rw [← hL.head i hi]
    simp only [SEGLIST_CNT] at hi
    exact GET_congr (fun a h1 h2 => hh a (by omega) (by omega))
  · exact Links_congr (hL.links i hi) (fun y hy => hf y (hL.mem_FB hi hy))

theorem flist_length {m : Mem} {bp : Nat} {bl : List Blk} (h : Tiles m bp bl) :
    16 * (flist bp bl).length ≤ total bl := by
  induction bl generalizing bp with
  | nil => simp [flist, total]
  | cons b t ih =>
    obtain ⟨-, h16, -, -, ht⟩ := h
    have := ih ht
    simp only [flist, total]
    split
    · simp only [List.length_cons]; omega
    · omega

theorem flist_mid (bp : Nat) (pre post : List Blk) (sz : Nat) :
    flist bp (pre ++ (sz, Tag.F) :: post) =
      flist bp pre ++ (bp + total pre, sz) :: flist (bp + total pre + sz) post := by
  rw [flist_append]
  simp [flist]

theorem flist_mid_U (bp : Nat) (pre post : List Blk) (sz : Nat) :
    flist bp (pre ++ (sz, Tag.U) :: post) =
      flist bp pre ++ flist (bp + total pre + sz) post := by
  rw [flist_append]
  simp [flist]

theorem flist_mid_A (bp : Nat) (pre post : List Blk) (sz : Nat) :
    flist bp (pre ++ (sz, Tag.A) :: post) =
      flist bp pre ++ flist (bp + total pre + sz) post := by
  rw [flist_append]
  simp [flist]

/-- The memory part of `Rep` survives every change that is confined to the list
heads and the link fields of blocks. -/
theorem Rep.frame_links {s s1 : Heap} {bl bl1 : List Blk} {L L1 : Nat → List (Nat × Nat)}
    (h : Rep s bl L) (hb : s1.base = s.base) (hk : s1.brk = s.brk) (hl : s1.limit = s.limit)
    (hs : s1.seg_free_lists = s.seg_free_lists)
    (hf : ∀ a, (a < s.base ∨ s.base + 80 ≤ a) →
      (∀ y, y ∈ blist (s.base + 96) bl → a < y.1 ∨ y.1 + 8 ≤ a) → s1.mem a = s.mem a)
    (ht : Tiles s.mem (s.base + 96) bl → Tiles s.mem (s.base + 96) bl1)
    (hbl : blist (s.base + 96) bl1 = blist (s.base + 96) bl) (htot : total bl1 = total bl)
    (hL : Lists s1.mem s.base (flist (s.base + 96) bl1) L1) : Rep s1 bl1 L1 := by
  have hbd := fun y hy => h.bounds (x := y) hy
  have hsz := h.size
  refine ⟨by rw [hs, hb, h.seg], by rw [hb]; exact h.base_al, by rw [hb, hl]; exact h.fits,
    by rw [hk, hl]; exact h.brk_le, ?_, ?_, ?_, by rw [hk, htot]; exact h.size, ?_,
    by rw [hb]; exact hL⟩
  · rw [hb, ← h.prol_hdr]
    refine GET_congr (fun a h1 h2 => hf a (by omega) (fun y hy => ?_))
    have := hbd y hy; omega
  · rw [hb, ← h.prol_ftr]
    refine GET_congr (fun a h1 h2 => hf a (by omega) (fun y hy => ?_))
    have := hbd y hy; omega
  · rw [hb]
    refine Tiles_frame_links (by omega) (ht h.tiles) (fun a h1 h2 => hf a (by omega) ?_)
    rw [hbl] at h2
    exact h2
  · rw [hb, hk, ← h.epi]
    refine GET_congr (fun a h1 h2 => hf a (by omega) (fun y hy => ?_))
    have := hbd y hy; omega

/-- Unlinking a listed free block. -/
theorem Rep.delete {s : Heap} {pre post : List Blk} {sz : Nat} {L : Nat → List (Nat × Nat)}
    (h : Rep s (pre ++ (sz, Tag.F) :: post) L) :
    Rep (delete_node s (s.base + 96 + total pre)) (pre ++ (sz, Tag.U) :: post)
      (Function.update L (get_list_index sz)
        ((L (get_list_index sz)).erase (s.base + 96 + total pre, sz))) ∧
    (∀ a, (a < s.base ∨ s.base + 80 ≤ a) →
      (∀ y, y ∈ flist (s.base + 96) (pre ++ (sz, Tag.U) :: post) → a < y.1 ∨ y.1 + 8 ≤ a) →
      (delete_node s (s.base + 96 + total pre)).mem a = s.mem a) := by
  have hxm : ((s.base + 96 + total pre, sz) : Nat × Nat) ∈
      flist (s.base + 96) (pre ++ (sz, Tag.F) :: post) := by
    rw [flist_mid]; simp
  have hS : Sep s.seg_free_lists (flist (s.base + 96) (pre ++ (sz, Tag.F) :: post)) := by
    rw [h.seg]; exact h.sep (fun y hy => flist_sub_blist hy)
  have hL : Lists s.mem s.seg_free_lists (flist (s.base + 96) (pre ++ (sz, Tag.F) :: post)) L := by
    rw [h.seg]; exact h.lists
  have hnd := flist_nodup h.tiles
  have hFB : ∀ y, y ∈ flist (s.base + 96) (pre ++ (sz, Tag.U) :: post) ↔
      y ∈ flist (s.base + 96) (pre ++ (sz, Tag.F) :: post) ∧
        y ≠ (s.base + 96 + total pre, sz) := by
    intro y
    rw [flist_mid] at hnd ⊢
    rw [flist_mid_U]
    have hn := List.nodup_append.1 hnd
    simp only [List.mem_append, List.mem_cons]
    constructor
    · rintro (hy | hy)
      · exact ⟨Or.inl hy, fun he => hn.2.2 hy (he ▸ List.mem_cons_self _ _)⟩
      · exact ⟨Or.inr (Or.inr hy), fun he => (List.nodup_cons.1 hn.2.1).1 (he ▸ hy)⟩
    · rintro ⟨hy | hy | hy, hne⟩
      · exact Or.inl hy
      · exact absurd hy hne
      · exact Or.inr hy
  have hfr : ∀ a, (a < s.base ∨ s.base + 80 ≤ a) →
      (∀ y, y ∈ flist (s.base + 96) (pre ++ (sz, Tag.U) :: post) → a < y.1 ∨ y.1 + 8 ≤ a) →
      (delete_node s (s.base + 96 + total pre)).mem a = s.mem a := by
    intro a ha hz
    refine delete_node_frame (x := (s.base + 96 + total pre, sz)) hL hS hxm (h.hdr _ hxm) a
      (by rw [h.seg]; exact ha) (fun z hz1 hz2 => hz z ((hFB z).2 ⟨hz1, hz2⟩))
  refine ⟨?_, hfr⟩
  refine h.frame_links (by simp) (by simp) (by simp) (by simp) ?_
    (fun ht => Tiles_retag ht rfl) (blist_retag _ _ _ _ _ _) (total_retag _ _ _ _ _) ?_
  · intro a ha hz
    exact hfr a ha (fun y hy => hz y (by
      rw [blist_retag _ _ _ _ Tag.F Tag.U]; exact flist_sub_blist hy))
  · have := delete_node_lists (x := (s.base + 96 + total pre, sz)) hL hS hxm (h.hdr _ hxm) hFB
    rw [h.seg] at this
    exact this

/-- Linking an unlisted free block. -/
theorem Rep.insert {s : Heap} {pre post : List Blk} {sz : Nat} {L : Nat → List (Nat × Nat)}
    (h : Rep s (pre ++ (sz, Tag.U) :: post) L) {fuel : Nat} (hfuel : s.brk ≤ fuel) :
    ∃ s1, insert_node fuel s (s.base + 96 + total pre) sz = some s1 ∧ s1.base = s.base ∧
      s1.brk = s.brk ∧ s1.limit = s.limit ∧
      Rep s1 (pre ++ (sz, Tag.F) :: post)
        (Function.update L (get_list_index sz)
          ((L (get_list_index sz)).takeWhile (fun y => decide (y.2 < sz)) ++
            (s.base + 96 + total pre, sz) ::
              (L (get_list_index sz)).dropWhile (fun y => decide (y.2 < sz)))) ∧
      (∀ a, (a < s.base ∨ s.base + 80 ≤ a) →
        (∀ y, y ∈ flist (s.base + 96) (pre ++ (sz, Tag.F) :: post) → a < y.1 ∨ y.1 + 8 ≤ a) →
        s1.mem a = s.mem a) := by
  have hxb : ((s.base + 96 + total pre, sz) : Nat × Nat) ∈
      blist (s.base + 96) (pre ++ (sz, Tag.U) :: post) := mem_blist_mid _ _ _ (sz, Tag.U)
  have hTF : Tiles s.mem (s.base + 96) (pre ++ (sz, Tag.F) :: post) := Tiles_retag h.tiles rfl
  have hnd := flist_nodup hTF
  have hsubF : ∀ y, y ∈ flist (s.base + 96) (pre ++ (sz, Tag.F) :: post) →
      y ∈ blist (s.base + 96) (pre ++ (sz, Tag.U) :: post) := fun y hy => by
    rw [blist_retag _ _ _ _ Tag.U Tag.F]; exact flist_sub_blist hy
  have hFB : ∀ y, y ∈ flist (s.base + 96) (pre ++ (sz, Tag.F) :: post) ↔
      y = (s.base + 96 + total pre, sz) ∨ y ∈ flist (s.base + 96) (pre ++ (sz, Tag.U) :: post) := by
    intro y
    rw [flist_mid, flist_mid_U]
    simp only [List.mem_append, List.mem_cons]
    tauto
  have hxn : ((s.base + 96 + total pre, sz) : Nat × Nat) ∉
      flist (s.base + 96) (pre ++ (sz, Tag.U) :: post) := by
    rw [flist_mid] at hnd
    rw [flist_mid_U]
    have hn := List.nodup_append.1 hnd
    intro hx
    rcases List.mem_append.1 hx with hx | hx
    · exact hn.2.2 hx (List.mem_cons_self _ _)
    · exact (List.nodup_cons.1 hn.2.1).1 hx
  have hS : Sep s.seg_free_lists ((s.base + 96 + total pre, sz) ::
      flist (s.base + 96) (pre ++ (sz, Tag.U) :: post)) := by
    rw [h.seg]
    refine h.sep (fun y hy => ?_)
    rcases List.mem_cons.1 hy with rfl | hy
    · exact hxb
    · exact flist_sub_blist hy
  have hL : Lists s.mem s.seg_free_lists (flist (s.base + 96) (pre ++ (sz, Tag.U) :: post)) L := by
    rw [h.seg]; exact h.lists
  have hlen : (flist (s.base + 96) (pre ++ (sz, Tag.U) :: post)).length < fuel := by
    have := flist_length h.tiles
    have := h.size
    omega
  obtain ⟨s1, hres, hb, hk, hl, hsg, hL1, hfr⟩ :=
    insert_node_lists (x := (s.base + 96 + total pre, sz)) hL hS hxn h.hdr hlen hFB
  rw [h.seg] at hL1 hfr
  have hfr1 : ∀ a, (a < s.base ∨ s.base + 80 ≤ a) →
      (∀ y, y ∈ flist (s.base + 96) (pre ++ (sz, Tag.F) :: post) → a < y.1 ∨ y.1 + 8 ≤ a) →
      s1.mem a = s.mem a := by
    intro a ha hz
    refine hfr a ha (fun z hz1 => hz z ((hFB z).2 ?_))
    rcases List.mem_cons.1 hz1 with rfl | hz1
    · exact Or.inl rfl
    · exact Or.inr hz1
  refine ⟨s1, hres, hb, hk, hl, ?_, hfr1⟩
  refine h.frame_links hb hk hl hsg ?_ (fun ht => Tiles_retag ht rfl)
    (blist_retag _ _ _ _ _ _) (total_retag _ _ _ _ _) hL1
  intro a ha hz
  exact hfr1 a ha (fun y hy => hz y (hsubF y hy))

/-- Rewriting the boundary tags inside a run of unlisted blocks. -/
theorem Rep.window {s : Heap} {pre mid mid1 post : List Blk} {L : Nat → List (Nat × Nat)}
    (h : Rep s (pre ++ mid ++ post) L) (hm : ∀ b, b ∈ mid → b.2 ≠ Tag.F)
    (hm1 : ∀ b, b ∈ mid1 → b.2 ≠ Tag.F) (ht : total mid1 = total mid) {m1 : Mem}
    (hfr : ∀ a, a + 4 < s.base + 96 + total pre ∨ s.base + 96 + total pre + total mid ≤ a + 4 →
      m1 a = s.mem a)
    (htl : Tiles m1 (s.base + 96 + total pre) mid1) :
    Rep { s with mem := m1 } (pre ++ mid1 ++ post) L := by
  have hT := h.tiles
  rw [Tiles_append, Tiles_append] at hT
  obtain ⟨⟨hT1, hT2⟩, hT3⟩ := hT
  have hsz := h.size
  rw [total_append, total_append] at hsz
  have hmod := Tiles_total_mod hT2
  refine ⟨h.seg, h.base_al, h.fits, h.brk_le, ?_, ?_, ?_, ?_, ?_, ?_⟩
  · show GET m1 (s.base + 84) = 9
    rw [← h.prol_hdr]
    exact GET_congr (fun a h1 h2 => hfr a (by omega))
  · show GET m1 (s.base + 88) = 9
    rw [← h.prol_ftr]
    exact GET_congr (fun a h1 h2 => hfr a (by omega))
  · show Tiles m1 (s.base + 96) (pre ++ mid1 ++ post)
    rw [Tiles_append, Tiles_append]
    refine ⟨⟨Tiles_frame (by omega) hT1 (fun a h1 h2 => hfr a (by omega)), htl⟩, ?_⟩
    rw [total_append, ht, ← total_append]
    refine Tiles_frame (by omega) hT3 (fun a h1 h2 => hfr a ?_)
    rw [total_append] at h1
    omega
  · show 96 + total (pre ++ mid1 ++ post) = s.brk
    rw [total_append, total_append, ht]
    exact hsz
  · show GET m1 (s.base + s.brk - 4) = 1
    rw [← h.epi]
    exact GET_congr (fun a h1 h2 => hfr a (by omega))
  · show Lists m1 s.base (flist (s.base + 96) (pre ++ mid1 ++ post)) L
    have hfl : flist (s.base + 96) (pre ++ mid1 ++ post) =
        flist (s.base + 96) (pre ++ mid ++ post) := by
      rw [flist_append, flist_append, flist_append _ (pre ++ mid), flist_append,
        flist_eq_nil hm, flist_eq_nil hm1, total_append, total_append, ht]
    rw [hfl]
    refine Lists_congr h.lists (fun a h1 h2 => hfr a (by omega)) ?_
    intro y hy a h1 h2
    rw [flist_append, flist_append, flist_eq_nil hm] at hy
    simp only [List.append_nil, List.mem_append] at hy
    rcases hy with hy | hy
    · have := flist_bounds hT1 hy
      exact hfr a (by omega)
    · have := flist_bounds hT3 hy
      rw [total_append] at this
      exact hfr a (by omega)

/-- A fresh block at the end of the region, behind the old epilogue. -/
theorem Rep.extend {s : Heap} {bl : List Blk} {L : Nat → List (Nat × Nat)} (h : Rep s bl L)
    {size : Nat} (h8 : size % 8 = 0) (h16 : 16 ≤ size) (hlim : s.brk + size ≤ s.limit)
    {m1 : Mem} (hfr : ∀ a, a + 4 < s.base + s.brk → m1 a = s.mem a)
    (hh : GET m1 (s.base + s.brk - 4) = size)
    (hf : GET m1 (s.base + s.brk + size - 8) = size)
    (he : GET m1 (s.base + s.brk + size - 4) = 1) :
    Rep { s with mem := m1, brk := s.brk + size } (bl ++ [(size, Tag.U)]) L := by
  have hsz := h.size
  refine ⟨h.seg, h.base_al, h.fits, hlim, ?_, ?_, ?_, ?_, ?_, ?_⟩
  · show GET m1 (s.base + 84) = 9
    rw [← h.prol_hdr]
    exact GET_congr (fun a h1 h2 => hfr a (by omega))
  · show GET m1 (s.base + 88) = 9
    rw [← h.prol_ftr]
    exact GET_congr (fun a h1 h2 => hfr a (by omega))
  · show Tiles m1 (s.base + 96) (bl ++ [(size, Tag.U)])
    rw [Tiles_append]
    refine ⟨Tiles_frame (by omega) h.tiles (fun a h1 h2 => hfr a (by omega)), h8, h16, ?_, ?_,
      trivial⟩
    · show GET m1 (s.base + 96 + total bl - 4) = size + abit Tag.U
      rw [abit_U, Nat.add_zero, ← hh]
      congr 1
      omega
    · show GET m1 (s.base + 96 + total bl + size - 8) = size + abit Tag.U
      rw [abit_U, Nat.add_zero, ← hf]
      congr 1
      omega
  · show 96 + total (bl ++ [(size, Tag.U)]) = s.brk + size
    rw [total_append]
    simp only [total]
    omega
  · show GET m1 (s.base + (s.brk + size) - 4) = 1
    rw [← he]
    congr 1
    omega
  · show Lists m1 s.base (flist (s.base + 96) (bl ++ [(size, Tag.U)])) L
    have hfl : flist (s.base + 96) (bl ++ [(size, Tag.U)]) = flist (s.base + 96) bl := by
      rw [flist_append]
      simp [flist]
    rw [hfl]
    refine Lists_congr h.lists (fun a h1 h2 => hfr a (by omega)) ?_
    intro y hy a h1 h2
    have := flist_bounds h.tiles hy
    exact hfr a (by omega)

/-- What the picture says about the words of one block. -/
theorem Rep.block {s : Heap} {pre post : List Blk} {b : Blk} {L : Nat → List (Nat × Nat)}
    (h : Rep s (pre ++ b :: post) L) :
    b.1 % 8 = 0 ∧ 16 ≤ b.1 ∧ s.base + 96 + total pre + b.1 + total post = s.base + s.brk ∧
      s.base + s.brk ≤ 2 ^ 32 ∧
      GET s.mem (s.base + 96 + total pre - 4) = b.1 + abit b.2 ∧
      GET s.mem (s.base + 96 + total pre + b.1 - 8) = b.1 + abit b.2 := by
  have hT := h.tiles
  rw [Tiles_append] at hT
  obtain ⟨-, h8, h16, hh, hf, -⟩ := hT
  have hsz := h.size
  rw [total_append] at hsz
  simp only [total] at hsz
  have := h.fits
  have := h.brk_le
  exact ⟨h8, h16, by omega, by omega, hh, hf⟩

theorem size_of_word {m : Mem} {p sz : Nat} {t : Tag} (h : GET m p = sz + abit t)
    (h8 : sz % 8 = 0) : GET_SIZE m p = sz ∧ GET_ALLOC m p = abit t := by
  rw [GET_SIZE_eq, GET_ALLOC_eq, h]
  have := abit_le t
  omega

/-- The word just before a block: the footer of its predecessor, or of the
prologue. -/
theorem Rep.prev_word {s : Heap} {pre post : List Blk} {b : Blk}
    {L : Nat → List (Nat × Nat)} (h : Rep s (pre ++ b :: post) L) :
    (pre = [] ∧ GET s.mem (s.base + 96 + total pre - 8) = 9 ∧
        GET s.mem (s.base + 96 + total pre - 8 - 4) = 9) ∨
      (∃ pre1 c, pre = pre1 ++ [c] ∧ c.1 % 8 = 0 ∧ 16 ≤ c.1 ∧
        GET s.mem (s.base + 96 + total pre - 8) = c.1 + abit c.2 ∧
        GET s.mem (s.base + 96 + total pre - c.1 - 4) = c.1 + abit c.2) := by
  rcases List.eq_nil_or_concat pre with rfl | ⟨pre1, c, hpc⟩
  · left
    refine ⟨rfl, ?_, ?_⟩
    · simp only [total]; exact h.prol_ftr
    · simp only [total]; exact h.prol_hdr
  · right
    rw [List.concat_eq_append] at hpc
    subst hpc
    have h1 : Rep s (pre1 ++ c :: (b :: post)) L := by
      simpa [List.append_assoc] using h
    obtain ⟨h8, h16, -, -, hh, hf⟩ := h1.block
    refine ⟨pre1, c, rfl, h8, h16, ?_, ?_⟩
    · rw [← hf, total_append]
      simp only [total]
      congr 1
      omega
    · rw [← hh, total_append]
      simp only [total]
      congr 1
      omega

/-- The word just behind a block: the header of its successor, or the epilogue. -/
theorem Rep.next_word {s : Heap} {pre post : List Blk} {b : Blk}
    {L : Nat → List (Nat × Nat)} (h : Rep s (pre ++ b :: post) L) :
    (post = [] ∧ GET s.mem (s.base + 96 + total pre + b.1 - 4) = 1) ∨
      (∃ c post1, post = c :: post1 ∧ c.1 % 8 = 0 ∧ 16 ≤ c.1 ∧
        GET s.mem (s.base + 96 + total pre + b.1 - 4) = c.1 + abit c.2) := by
  cases post with
  | nil =>
    left
    obtain ⟨-, -, hsz, -, -, -⟩ := h.block
    refine ⟨rfl, ?_⟩
    rw [← h.epi]
    simp only [total] at hsz
    congr 1
    omega
  | cons c post1 =>
    right
    have h1 : Rep s ((pre ++ [b]) ++ c :: post1) L := by
      simpa [List.append_assoc] using h
    obtain ⟨h8, h16, -, -, hh, -⟩ := h1.block
    refine ⟨c, post1, rfl, h8, h16, ?_⟩
    rw [← hh, total_append]
    simp only [total]
    congr 1
    omega

/-! ## Frames -/

theorem nlist_append (bp : Nat) (l1 l2 : List Blk) :
    nlist bp (l1 ++ l2) = nlist bp l1 ++ nlist (bp + total l1) l2 := by
  induction l1 generalizing bp with
  | nil => simp [nlist, total]
  | cons b t ih =>
    show (if b.2 = Tag.A then nlist (bp + b.1) (t ++ l2)
        else (bp, b.1) :: nlist (bp + b.1) (t ++ l2)) =
      (if b.2 = Tag.A then nlist (bp + b.1) t else (bp, b.1) :: nlist (bp + b.1) t) ++
        nlist (bp + (b.1 + total t)) l2
    rw [ih, Nat.add_assoc]
    split <;> simp

theorem nlist_sub_blist {bp : Nat} {bl : List Blk} {x : Nat × Nat} (h : x ∈ nlist bp bl) :
    x ∈ blist bp bl := by
  induction bl generalizing bp with
  | nil => simp [nlist] at h
  | cons b t ih =>
    simp only [nlist] at h
    simp only [blist]
    split at h
    · exact List.mem_cons_of_mem _ (ih h)
    · rcases List.mem_cons.1 h with rfl | h
      · exact List.mem_cons_self _ _
      · exact List.mem_cons_of_mem _ (ih h)

theorem flist_sub_nlist {bp : Nat} {bl : List Blk} {x : Nat × Nat} (h : x ∈ flist bp bl) :
    x ∈ nlist bp bl := by
  induction bl generalizing bp with
  | nil => simp [flist] at h
  | cons b t ih =>
    simp only [flist] at h
    simp only [nlist]
    split at h
    · rename_i hb
      simp only [hb, reduceCtorEq, if_false]
      rcases List.mem_cons.1 h with rfl | h
      · exact List.mem_cons_self _ _
      · exact List.mem_cons_of_mem _ (ih h)
    · split
      · exact ih h
      · exact List.mem_cons_of_mem _ (ih h)

theorem nlist_mid (bp : Nat) (pre post : List Blk) (sz : Nat) (t : Tag) (ht : t ≠ Tag.A) :
    nlist bp (pre ++ (sz, t) :: post) =
      nlist bp pre ++ (bp + total pre, sz) :: nlist (bp + total pre + sz) post := by
  rw [nlist_append]
  simp [nlist, ht]

theorem nlist_mid_A (bp : Nat) (pre post : List Blk) (sz : Nat) :
    nlist bp (pre ++ (sz, Tag.A) :: post) =
      nlist bp pre ++ nlist (bp + total pre + sz) post := by
  rw [nlist_append]
  simp [nlist]

theorem Step.refl (s : Heap) (bl : List Blk) : Step s bl s bl :=
  ⟨rfl, rfl, Nat.le_refl _, fun _ _ => rfl, fun _ h => h⟩

theorem Step.trans {s s1 s2 : Heap} {bl bl1 bl2 : List Blk} (h1 : Step s bl s1 bl1)
    (h2 : Step s1 bl1 s2 bl2) : Step s bl s2 bl2 :=
  ⟨h2.base.trans h1.base, h2.limit.trans h1.limit, Nat.le_trans h1.brk h2.brk,
    fun a ha => (h2.frame a (fun ho => ha (h1.owned a ho))).trans (h1.frame a ha),
    fun a ha => h1.owned a (h2.owned a ha)⟩

/-- Link fields of free blocks belong to the allocator. -/
theorem Rep.owned_link {s : Heap} {bl : List Blk} {L : Nat → List (Nat × Nat)} (h : Rep s bl L)
    {y : Nat × Nat} (hy : y ∈ nlist (s.base + 96) bl) {a : Nat} (h1 : y.1 ≤ a)
    (h2 : a < y.1 + 8) : Owned s bl a := by
  have := h.bounds (nlist_sub_blist hy)
  exact Or.inr (Or.inr ⟨y, hy, by omega, by omega⟩)

theorem Rep.delete_step {s : Heap} {pre post : List Blk} {sz : Nat}
    {L : Nat → List (Nat × Nat)} (h : Rep s (pre ++ (sz, Tag.F) :: post) L) :
    Step s (pre ++ (sz, Tag.F) :: post) (delete_node s (s.base + 96 + total pre))
      (pre ++ (sz, Tag.U) :: post) := by
  have hn : nlist (s.base + 96) (pre ++ (sz, Tag.U) :: post) =
      nlist (s.base + 96) (pre ++ (sz, Tag.F) :: post) := by
    rw [nlist_mid _ _ _ _ _ (by simp), nlist_mid _ _ _ _ _ (by simp)]
  refine ⟨by simp, by simp, by simp, ?_, ?_⟩
  · intro a ha
    refine h.delete.2 a ?_ ?_
    · by_contra hc
      exact ha (Or.inl (by omega))
    · intro y hy
      by_contra hc
      refine ha (h.owned_link (y := y) ?_ (by omega) (by omega))
      rw [← hn]
      exact flist_sub_nlist hy
  · intro a ha
    simp only [Owned, delete_node_base, delete_node_brk, hn] at ha
    exact ha

/-- Linking an unlisted free block, with its frame. -/
theorem Rep.insert_step {s : Heap} {pre post : List Blk} {sz : Nat}
    {L : Nat → List (Nat × Nat)} (h : Rep s (pre ++ (sz, Tag.U) :: post) L) {fuel : Nat}
    (hfuel : s.brk ≤ fuel) :
    ∃ s1, insert_node fuel s (s.base + 96 + total pre) sz = some s1 ∧
      Rep s1 (pre ++ (sz, Tag.F) :: post) (insertL L (s.base + 96 + total pre, sz)) ∧
      Step s (pre ++ (sz, Tag.U) :: post) s1 (pre ++ (sz, Tag.F) :: post) ∧
      s1.brk = s.brk := by
  obtain ⟨s1, hres, hb, hk, hl, hR, hfr⟩ := h.insert hfuel
  have hn : nlist (s.base + 96) (pre ++ (sz, Tag.U) :: post) =
      nlist (s.base + 96) (pre ++ (sz, Tag.F) :: post) := by
    rw [nlist_mid _ _ _ _ _ (by simp), nlist_mid _ _ _ _ _ (by simp)]
  refine ⟨s1, hres, hR, ⟨hb, hl, by omega, ?_, ?_⟩, hk⟩
  · intro a ha
    refine hfr a ?_ ?_
    · by_contra hc
      exact ha (Or.inl (by omega))
    · intro y hy
      by_contra hc
      refine ha (h.owned_link (y := y) ?_ (by omega) (by omega))
      rw [hn]
      exact flist_sub_nlist hy
  · intro a ha
    simp only [Owned, hb, hk, ← hn] at ha
    exact ha

/-- A window rewrite is a step when it stays inside what the allocator owns
and leaves no new unallocated bytes. -/
theorem Rep.window_step {s : Heap} {pre mid mid1 post : List Blk} (ht : total mid1 = total mid)
    {m1 : Mem} (hfr : ∀ a, ¬ Owned s (pre ++ mid ++ post) a → m1 a = s.mem a)
    (hext : ∀ y, y ∈ nlist (s.base + 96 + total pre) mid1 →
      ∃ z, z ∈ nlist (s.base + 96 + total pre) mid ∧ z.1 ≤ y.1 ∧ y.1 + y.2 ≤ z.1 + z.2) :
    Step s (pre ++ mid ++ post) { s with mem := m1 } (pre ++ mid1 ++ post) := by
  refine ⟨rfl, rfl, Nat.le_refl _, hfr, ?_⟩
  intro a ha
  rcases ha with ha | ha | ⟨y, hy, h1, h2⟩
  · exact Or.inl ha
  · exact Or.inr (Or.inl ha)
  · refine Or.inr (Or.inr ?_)
    rw [nlist_append, nlist_append, total_append, ht] at hy
    rw [nlist_append, nlist_append, total_append]
    simp only [List.mem_append] at hy ⊢
    rcases hy with (hy | hy) | hy
    · exact ⟨y, Or.inl (Or.inl hy), h1, h2⟩
    · obtain ⟨z, hz, hz1, hz2⟩ := hext y hy
      exact ⟨z, Or.inl (Or.inr hz), by omega, by omega⟩
    · exact ⟨y, Or.inr hy, h1, h2⟩

theorem Rep.extend_step {s : Heap} {bl : List Blk} {L : Nat → List (Nat × Nat)}
    (h : Rep s bl L) {size : Nat} {m1 : Mem} {t : Tag}
    (hfr : ∀ a, a + 4 < s.base + s.brk → m1 a = s.mem a) :
    Step s bl { s with mem := m1, brk := s.brk + size } (bl ++ [(size, t)]) := by
  have hsz := h.size
  refine ⟨rfl, rfl, Nat.le_add_right _ _, ?_, ?_⟩
  · intro a ha
    refine hfr a ?_
    by_contra hc
    exact ha (Or.inr (Or.inl (by omega)))
  · intro a ha
    rcases ha with ha | ha | ⟨y, hy, h1, h2⟩
    · exact Or.inl ha
    · exact Or.inr (Or.inl (by simp only at ha; omega))
    · rw [nlist_append] at hy
      rcases List.mem_append.1 hy with hy | hy
      · exact Or.inr (Or.inr ⟨y, hy, h1, h2⟩)
      · refine Or.inr (Or.inl ?_)
        simp only [nlist] at hy
        split at hy
        · simp at hy
        · simp only [List.mem_singleton] at hy
          subst hy
          simp only at h1
          omega

/-- Payload bytes of an allocated block do not belong to the allocator. -/
theorem Rep.not_owned {s : Heap} {bl : List Blk} {L : Nat → List (Nat × Nat)} (h : Rep s bl L)
    {y : Nat × Nat} (hy : y ∈ alist (s.base + 96) bl) {a : Nat} (h1 : y.1 ≤ a)
    (h2 : a + 8 < y.1 + y.2) : ¬ Owned s bl a := by
  have hb := h.bounds (alist_sub_blist hy)
  rintro (ho | ho | ⟨z, hz, hz1, hz2⟩)
  · omega
  · omega
  · have hzb := h.bounds (nlist_sub_blist hz)
    rcases blist_sep h.tiles (alist_sub_blist hy) (nlist_sub_blist hz) with h3 | h3 | h3
    · subst h3
      obtain ⟨pre, post, hbl, hp⟩ := mem_alist.1 hy
      rw [hbl, nlist_mid_A] at hz
      have hT := h.tiles
      rw [hbl, Tiles_append] at hT
      rcases List.mem_append.1 hz with hz | hz
      · have := blist_bounds hT.1 (nlist_sub_blist hz)
        omega
      · have := blist_bounds hT.2.2.2.2.2 (nlist_sub_blist hz)
        simp only at this
        omega
    · omega
    · omega

/-! ## `coalesce` -/

theorem coalesce_case1 (s : Heap) (bp : Nat)
    (hp : GET_ALLOC s.mem (HDRP (PREV_BLKP s.mem bp)) = 1)
    (hn : GET_ALLOC s.mem (HDRP (NEXT_BLKP s.mem bp)) = 1) : coalesce s bp = (s, bp) := by
  unfold coalesce
  simp [hp, hn]

theorem coalesce_case2 (s : Heap) (bp : Nat)
    (hp : GET_ALLOC s.mem (HDRP (PREV_BLKP s.mem bp)) = 1)
    (hn : GET_ALLOC s.mem (HDRP (NEXT_BLKP s.mem bp)) = 0) :
    coalesce s bp =
      (put (put (delete_node s (NEXT_BLKP s.mem bp)) (HDRP bp)
          (PACK ((GET_SIZE s.mem (HDRP bp) +
            GET_SIZE (delete_node s (NEXT_BLKP s.mem bp)).mem (HDRP (NEXT_BLKP s.mem bp))) % WORD) 0))
        (FTRP (put (delete_node s (NEXT_BLKP s.mem bp)) (HDRP bp)
          (PACK ((GET_SIZE s.mem (HDRP bp) +
            GET_SIZE (delete_node s (NEXT_BLKP s.mem bp)).mem (HDRP (NEXT_BLKP s.mem bp))) % WORD) 0)).mem bp)
        (PACK ((GET_SIZE s.mem (HDRP bp) +
            GET_SIZE (delete_node s (NEXT_BLKP s.mem bp)).mem (HDRP (NEXT_BLKP s.mem bp))) % WORD) 0),
        bp) := by
  unfold coalesce
  simp [hp, hn]

theorem coalesce_case3 (s : Heap) (bp : Nat)
    (hp : GET_ALLOC s.mem (HDRP (PREV_BLKP s.mem bp)) = 0)
    (hn : GET_ALLOC s.mem (HDRP (NEXT_BLKP s.mem bp)) = 1) :
    coalesce s bp =
      (put (put (delete_node s (PREV_BLKP s.mem bp)) (FTRP (delete_node s (PREV_BLKP s.mem bp)).mem bp)
          (PACK ((GET_SIZE s.mem (HDRP bp) +
            GET_SIZE (delete_node s (PREV_BLKP s.mem bp)).mem (HDRP (PREV_BLKP s.mem bp))) % WORD) 0))
        (HDRP (PREV_BLKP (put (delete_node s (PREV_BLKP s.mem bp))
          (FTRP (delete_node s (PREV_BLKP s.mem bp)).mem bp)
          (PACK ((GET_SIZE s.mem (HDRP bp) +
            GET_SIZE (delete_node s (PREV_BLKP s.mem bp)).mem (HDRP (PREV_BLKP s.mem bp))) % WORD) 0)).mem bp))
        (PACK ((GET_SIZE s.mem (HDRP bp) +
            GET_SIZE (delete_node s (PREV_BLKP s.mem bp)).mem (HDRP (PREV_BLKP s.mem bp))) % WORD) 0),
        PREV_BLKP s.mem bp) := by
  unfold coalesce
  simp [hp, hn]

theorem coalesce_case4 (s : Heap) (bp : Nat)
    (hp : GET_ALLOC s.mem (HDRP (PREV_BLKP s.mem bp)) = 0)
    (hn : GET_ALLOC s.mem (HDRP (NEXT_BLKP s.mem bp)) = 0) :
    coalesce s bp =
      (put (put (delete_node (delete_node s (PREV_BLKP s.mem bp)) (NEXT_BLKP s.mem bp))
          (HDRP (PREV_BLKP s.mem bp))
          (PACK ((GET_SIZE s.mem (HDRP bp) +
            (GET_SIZE (delete_node (delete_node s (PREV_BLKP s.mem bp)) (NEXT_BLKP s.mem bp)).mem
                (HDRP (PREV_BLKP s.mem bp)) +
              GET_SIZE (delete_node (delete_node s (PREV_BLKP s.mem bp)) (NEXT_BLKP s.mem bp)).mem
                (HDRP (NEXT_BLKP s.mem bp))) % WORD) % WORD) 0))
        (FTRP (put (delete_node (delete_node s (PREV_BLKP s.mem bp)) (NEXT_BLKP s.mem bp))
          (HDRP (PREV_BLKP s.mem bp))
          (PACK ((GET_SIZE s.mem (HDRP bp) +
            (GET_SIZE (delete_node (delete_node s (PREV_BLKP s.mem bp)) (NEXT_BLKP s.mem bp)).mem
                (HDRP (PREV_BLKP s.mem bp)) +
              GET_SIZE (delete_node (delete_node s (PREV_BLKP s.mem bp)) (NEXT_BLKP s.mem bp)).mem
                (HDRP (NEXT_BLKP s.mem bp))) % WORD) % WORD) 0)).mem (NEXT_BLKP s.mem bp))
        (PACK ((GET_SIZE s.mem (HDRP bp) +
            (GET_SIZE (delete_node (delete_node s (PREV_BLKP s.mem bp)) (NEXT_BLKP s.mem bp)).mem
                (HDRP (PREV_BLKP s.mem bp)) +
              GET_SIZE (delete_node (delete_node s (PREV_BLKP s.mem bp)) (NEXT_BLKP s.mem bp)).mem
                (HDRP (NEXT_BLKP s.mem bp))) % WORD) % WORD) 0),
        PREV_BLKP s.mem bp) := by
  unfold coalesce
  simp [hp, hn]

/-- The macros evaluated on a block of the picture. -/
theorem Rep.read {s : Heap} {pre post : List Blk} {b : Blk} {L : Nat → List (Nat × Nat)}
    (h : Rep s (pre ++ b :: post) L) :
    GET_SIZE s.mem (HDRP (s.base + 96 + total pre)) = b.1 ∧
      GET_ALLOC s.mem (HDRP (s.base + 96 + total pre)) = abit b.2 ∧
      FTRP s.mem (s.base + 96 + total pre) = s.base + 96 + total pre + b.1 - 8 ∧
      NEXT_BLKP s.mem (s.base + 96 + total pre) = s.base + 96 + total pre + b.1 := by
  obtain ⟨h8, h16, -, -, hh, -⟩ := h.block
  have h1 := size_of_word hh h8
  simp only [HDRP, FTRP, NEXT_BLKP, WSIZE, DSIZE]
  rw [h1.1, h1.2]
  exact ⟨rfl, rfl, rfl, rfl⟩

theorem prevFree_concat (pre1 : List Blk) (c : Blk) :
    prevFree (pre1 ++ [c]) = (if c.2 = Tag.F then c.1 else 0) ∧
      preKeep (pre1 ++ [c]) = (if c.2 = Tag.F then pre1 else pre1 ++ [c]) := by
  obtain ⟨sz, t⟩ := c
  cases t <;> simp [prevFree, preKeep]

theorem Rep.prev_cases {s : Heap} {pre post : List Blk} {b : Blk}
    {L : Nat → List (Nat × Nat)} (h : Rep s (pre ++ b :: post) L)
    (hpre : ∀ c, c ∈ pre → c.2 ≠ Tag.U) :
    (prevFree pre = 0 ∧ preKeep pre = pre ∧
        GET_ALLOC s.mem (HDRP (PREV_BLKP s.mem (s.base + 96 + total pre))) = 1) ∨
      (∃ pre1 psz, pre = pre1 ++ [(psz, Tag.F)] ∧ prevFree pre = psz ∧ preKeep pre = pre1 ∧
        PREV_BLKP s.mem (s.base + 96 + total pre) = s.base + 96 + total pre1 ∧
        GET_ALLOC s.mem (HDRP (PREV_BLKP s.mem (s.base + 96 + total pre))) = 0) := by
  rcases h.prev_word with ⟨rfl, h1, h2⟩ | ⟨pre1, c, rfl, h8, h16, h1, h2⟩
  · left
    refine ⟨rfl, rfl, ?_⟩
    simp only [HDRP, PREV_BLKP, WSIZE, DSIZE]
    rw [GET_SIZE_eq, h1, GET_ALLOC_eq]
    norm_num
    rw [h2]
  · have hs := size_of_word h1 h8
    have hP : PREV_BLKP s.mem (s.base + 96 + total (pre1 ++ [c])) = s.base + 96 + total pre1 := by
      simp only [PREV_BLKP, DSIZE]
      rw [hs.1, total_append]
      simp only [total]
      omega
    have hA : GET_ALLOC s.mem (HDRP (PREV_BLKP s.mem (s.base + 96 + total (pre1 ++ [c])))) =
        abit c.2 := by
      rw [hP]
      have h3 : GET s.mem (s.base + 96 + total pre1 - 4) = c.1 + abit c.2 := by
        rw [← h2, total_append]
        simp only [total]
        congr 1
        omega
      exact (size_of_word h3 h8).2
    have hc := hpre c (by simp)
    obtain ⟨csz, ct⟩ := c
    cases ct with
    | A =>
      left
      exact ⟨by simp [prevFree], by simp [preKeep], by rw [hA]; rfl⟩
    | F =>
      right
      exact ⟨pre1, csz, rfl, by simp [prevFree], by simp [preKeep], hP, by rw [hA]; rfl⟩
    | U => exact absurd rfl hc

theorem Rep.next_cases {s : Heap} {pre post : List Blk} {b : Blk}
    {L : Nat → List (Nat × Nat)} (h : Rep s (pre ++ b :: post) L)
    (hpost : ∀ c, c ∈ post → c.2 ≠ Tag.U) :
    (nextFree post = 0 ∧ postKeep post = post ∧
        GET_ALLOC s.mem (HDRP (NEXT_BLKP s.mem (s.base + 96 + total pre))) = 1) ∨
      (∃ nsz post1, post = (nsz, Tag.F) :: post1 ∧ nextFree post = nsz ∧
        postKeep post = post1 ∧
        GET_ALLOC s.mem (HDRP (NEXT_BLKP s.mem (s.base + 96 + total pre))) = 0) := by
  have hN := h.read.2.2.2
  rw [hN]
  simp only [HDRP, WSIZE]
  rcases h.next_word with ⟨rfl, h1⟩ | ⟨c, post1, rfl, h8, h16, h1⟩
  · left
    refine ⟨rfl, rfl, ?_⟩
    rw [GET_ALLOC_eq, h1]
  · have hs := size_of_word h1 h8
    have hc := hpost c (by simp)
    obtain ⟨csz, ct⟩ := c
    cases ct with
    | A =>
      left
      exact ⟨rfl, rfl, by rw [hs.2]; rfl⟩
    | F =>
      right
      exact ⟨csz, post1, rfl, rfl, rfl, by rw [hs.2]; rfl⟩
    | U => exact absurd rfl hc

theorem GET_PUT_PACK (m : Mem) (p v a : Nat) (h8 : v % 8 = 0) (hv : v + 8 ≤ 2 ^ 32)
    (ha : a ≤ 1) :
    GET (PUT m p (PACK v a)) p = v + a ∧ GET_SIZE (PUT m p (PACK v a)) p = v := by
  have h1 : GET (PUT m p (PACK v a)) p = v + a := by
    rw [PACK_eq v a h8 ha]
    exact GET_PUT_same m p _ (by omega)
  refine ⟨h1, ?_⟩
  rw [GET_SIZE_eq, h1]
  omega

theorem nlist_cover {bp : Nat} {mid : List Blk} (hU : ∀ b, b ∈ mid → b.2 ≠ Tag.A) {a : Nat}
    (h1 : bp ≤ a + 4) (h2 : a + 4 < bp + total mid) :
    ∃ z, z ∈ nlist bp mid ∧ z.1 ≤ a + 4 ∧ a + 4 < z.1 + z.2 := by
  induction mid generalizing bp with
  | nil => simp only [total] at h2; omega
  | cons b t ih =>
    have hb := hU b (List.mem_cons_self _ _)
    simp only [nlist, hb, if_false]
    simp only [total] at h2
    by_cases hc : a + 4 < bp + b.1
    · exact ⟨(bp, b.1), List.mem_cons_self _ _, h1, hc⟩
    · obtain ⟨z, hz, hz1, hz2⟩ := ih
        (fun c hc => hU c (List.mem_cons_of_mem _ hc)) (show bp + b.1 ≤ a + 4 by omega)
        (by omega)
      exact ⟨z, List.mem_cons_of_mem _ hz, hz1, hz2⟩

theorem nlist_within {m : Mem} {bp : Nat} {mid : List Blk} (hT : Tiles m bp mid)
    {z : Nat × Nat} (hz : z ∈ nlist bp mid) : bp ≤ z.1 ∧ z.1 + z.2 ≤ bp + total mid := by
  have := blist_bounds hT (nlist_sub_blist hz)
  omega

/-- A window rewrite as a step, stated bytewise. -/
theorem Rep.window_step2 {s : Heap} {pre mid mid1 post : List Blk}
    (ht : total mid1 = total mid) {m1 : Mem}
    (hfr : ∀ a, ¬ Owned s (pre ++ mid ++ post) a → m1 a = s.mem a)
    (hext : ∀ a, (∃ y, y ∈ nlist (s.base + 96 + total pre) mid1 ∧ y.1 ≤ a + 4 ∧ a + 4 < y.1 + y.2) →
      ∃ z, z ∈ nlist (s.base + 96 + total pre) mid ∧ z.1 ≤ a + 4 ∧ a + 4 < z.1 + z.2) :
    Step s (pre ++ mid ++ post) { s with mem := m1 } (pre ++ mid1 ++ post) := by
  refine ⟨rfl, rfl, Nat.le_refl _, hfr, ?_⟩
  intro a ha
  rcases ha with ha | ha | ⟨y, hy, h1, h2⟩
  · exact Or.inl ha
  · exact Or.inr (Or.inl ha)
  · refine Or.inr (Or.inr ?_)
    rw [nlist_append, nlist_append, total_append, ht] at hy
    rw [nlist_append, nlist_append, total_append]
    simp only [List.mem_append] at hy ⊢
    rcases hy with (hy | hy) | hy
    · exact ⟨y, Or.inl (Or.inl hy), h1, h2⟩
    · obtain ⟨z, hz, hz1, hz2⟩ := hext a ⟨y, hy, h1, h2⟩
      exact ⟨z, Or.inl (Or.inr hz), hz1, hz2⟩
    · exact ⟨y, Or.inr hy, h1, h2⟩

/-- Bytes in the extent of a run of unallocated blocks belong to the allocator. -/
theorem owned_mid {s : Heap} {pre mid post : List Blk} (hU : ∀ b, b ∈ mid → b.2 ≠ Tag.A)
    {a : Nat} (h1 : s.base + 96 + total pre ≤ a + 4)
    (h2 : a + 4 < s.base + 96 + total pre + total mid) : Owned s (pre ++ mid ++ post) a := by
  obtain ⟨z, hz, hz1, hz2⟩ := nlist_cover hU h1 h2
  refine Or.inr (Or.inr ⟨z, ?_, hz1, hz2⟩)
  rw [nlist_append, nlist_append]
  exact List.mem_append_left _ (List.mem_append_right _ hz)

/-- Merging a run of unlisted free blocks into one by writing its header and
footer. -/
theorem Rep.merge {s : Heap} {pre mid post : List Blk} {L : Nat → List (Nat × Nat)}
    (h : Rep s (pre ++ mid ++ post) L) (hU : ∀ b, b ∈ mid → b.2 = Tag.U) (hne : mid ≠ [])
    {m1 : Mem}
    (hfr : ∀ a, (a + 4 < s.base + 96 + total pre ∨ s.base + 96 + total pre ≤ a) →
      (a + 8 < s.base + 96 + total pre + total mid ∨
        s.base + 96 + total pre + total mid ≤ a + 4) → m1 a = s.mem a)
    (hh : GET m1 (s.base + 96 + total pre - 4) = total mid)
    (hf : GET m1 (s.base + 96 + total pre + total mid - 8) = total mid) :
    Rep { s with mem := m1 } (pre ++ [(total mid, Tag.U)] ++ post) L ∧
      Step s (pre ++ mid ++ post) { s with mem := m1 } (pre ++ [(total mid, Tag.U)] ++ post) := by
  have hT := h.tiles
  rw [Tiles_append, Tiles_append] at hT
  have hmod := Tiles_total_mod hT.1.2
  have h16 : 16 ≤ total mid := by
    obtain ⟨b, t, rfl⟩ := List.exists_cons_of_ne_nil hne
    have := (Tiles_size hT.1.2 b (List.mem_cons_self _ _)).2
    simp only [total]
    omega
  have hUF : ∀ b, b ∈ mid → b.2 ≠ Tag.F := fun b hb => by rw [hU b hb]; simp
  have hUA : ∀ b, b ∈ mid → b.2 ≠ Tag.A := fun b hb => by rw [hU b hb]; simp
  have ht : total [((total mid, Tag.U) : Blk)] = total mid := by simp [total]
  constructor
  · refine h.window hUF (by simp) ht (fun a ha => hfr a (by omega) (by omega)) ?_
    exact ⟨hmod, h16, by rw [abit_U]; exact hh, by rw [abit_U]; exact hf, trivial⟩
  · refine Rep.window_step2 ht ?_ ?_
    · intro a ha
      refine hfr a ?_ ?_
      · by_contra hc
        exact ha (owned_mid hUA (by omega) (by omega))
      · by_contra hc
        exact ha (owned_mid hUA (by omega) (by omega))
    · rintro a ⟨y, hy, hy1, hy2⟩
      simp only [nlist, reduceCtorEq, if_false, List.mem_singleton] at hy
      subst hy
      exact nlist_cover hUA hy1 hy2

theorem Rep.lt_word {s : Heap} {bl : List Blk} {L : Nat → List (Nat × Nat)} (h : Rep s bl L) :
    s.base + 96 + total bl ≤ 2 ^ 32 := by
  have := h.size
  have := h.fits
  have := h.brk_le
  omega

/-- Merging a run of unlisted free blocks by storing the header first. -/
theorem Rep.merge_hf {s : Heap} {pre mid post : List Blk} {L : Nat → List (Nat × Nat)}
    (h : Rep s (pre ++ mid ++ post) L) (hU : ∀ b, b ∈ mid → b.2 = Tag.U) (hne : mid ≠ [])
    {w T : Nat} (hw : w = s.base + 96 + total pre) (hT : T = total mid) :
    Rep (put (put s (w - 4) (PACK T 0)) (w + T - 8) (PACK T 0))
        (pre ++ [(T, Tag.U)] ++ post) L ∧
      Step s (pre ++ mid ++ post) (put (put s (w - 4) (PACK T 0)) (w + T - 8) (PACK T 0))
        (pre ++ [(T, Tag.U)] ++ post) := by
  subst hw hT
  have hlt := h.lt_word
  rw [total_append, total_append] at hlt
  have hT := h.tiles
  rw [Tiles_append, Tiles_append] at hT
  have hmod := Tiles_total_mod hT.1.2
  have h16 : 16 ≤ total mid := by
    obtain ⟨b, t, rfl⟩ := List.exists_cons_of_ne_nil hne
    have := (Tiles_size hT.1.2 b (List.mem_cons_self _ _)).2
    simp only [total]
    omega
  clear hT
  have e1 := (GET_PUT_PACK s.mem (s.base + 96 + total pre - 4) (total mid) 0 hmod (by omega)
    (by omega)).1
  have e2 := (GET_PUT_PACK (PUT s.mem (s.base + 96 + total pre - 4) (PACK (total mid) 0))
    (s.base + 96 + total pre + total mid - 8) (total mid) 0 hmod (by omega) (by omega)).1
  refine h.merge hU hne ?_ ?_ ?_
  · intro a ha1 ha2
    show PUT (PUT s.mem _ _) _ _ a = s.mem a
    rw [PUT_other _ _ _ _ (by omega), PUT_other _ _ _ _ (by omega)]
  · show GET (PUT (PUT s.mem _ _) _ _) _ = _
    rw [GET_PUT_ne _ _ _ _ (by omega)]
    exact e1
  · exact e2

/-- Merging a run of unlisted free blocks by storing the footer first. -/
theorem Rep.merge_fh {s : Heap} {pre mid post : List Blk} {L : Nat → List (Nat × Nat)}
    (h : Rep s (pre ++ mid ++ post) L) (hU : ∀ b, b ∈ mid → b.2 = Tag.U) (hne : mid ≠ [])
    {w T : Nat} (hw : w = s.base + 96 + total pre) (hT : T = total mid) :
    Rep (put (put s (w + T - 8) (PACK T 0)) (w - 4) (PACK T 0))
        (pre ++ [(T, Tag.U)] ++ post) L ∧
      Step s (pre ++ mid ++ post) (put (put s (w + T - 8) (PACK T 0)) (w - 4) (PACK T 0))
        (pre ++ [(T, Tag.U)] ++ post) := by
  subst hw hT
  have hlt := h.lt_word
  rw [total_append, total_append] at hlt
  have hT := h.tiles
  rw [Tiles_append, Tiles_append] at hT
  have hmod := Tiles_total_mod hT.1.2
  have h16 : 16 ≤ total mid := by
    obtain ⟨b, t, rfl⟩ := List.exists_cons_of_ne_nil hne
    have := (Tiles_size hT.1.2 b (List.mem_cons_self _ _)).2
    simp only [total]
    omega
  clear hT
  have e1 := (GET_PUT_PACK s.mem (s.base + 96 + total pre + total mid - 8) (total mid) 0 hmod
    (by omega) (by omega)).1
  have e2 := (GET_PUT_PACK (PUT s.mem (s.base + 96 + total pre + total mid - 8)
    (PACK (total mid) 0)) (s.base + 96 + total pre - 4) (total mid) 0 hmod (by omega)
    (by omega)).1
  refine h.merge hU hne ?_ ?_ ?_
  · intro a ha1 ha2
    show PUT (PUT s.mem _ _) _ _ a = s.mem a
    rw [PUT_other _ _ _ _ (by omega), PUT_other _ _ _ _ (by omega)]
  · exact e2
  · show GET (PUT (PUT s.mem _ _) _ _) _ = _
    rw [GET_PUT_ne _ _ _ _ (by omega)]
    exact e1

/-! ### Evaluating the branches of `coalesce` -/

theorem coalesce_eval2 (s : Heap) (bp sz nsz : Nat)
    (hp : GET_ALLOC s.mem (HDRP (PREV_BLKP s.mem bp)) = 1)
    (hn : GET_ALLOC s.mem (HDRP (NEXT_BLKP s.mem bp)) = 0)
    (hsz : GET_SIZE s.mem (HDRP bp) = sz) (hnb : NEXT_BLKP s.mem bp = bp + sz)
    (hnsz : GET_SIZE (delete_node s (bp + sz)).mem (HDRP (bp + sz)) = nsz)
    (h8 : (sz + nsz) % 8 = 0) (hlt : sz + nsz + 8 ≤ 2 ^ 32) :
    coalesce s bp =
      (put (put (delete_node s (bp + sz)) (bp - 4) (PACK (sz + nsz) 0))
        (bp + (sz + nsz) - 8) (PACK (sz + nsz) 0), bp) := by
  have hv : (sz + nsz) % WORD = sz + nsz := Nat.mod_eq_of_lt (by simp only [WORD]; omega)
  have hP := (GET_PUT_PACK (delete_node s (bp + sz)).mem (bp - 4) (sz + nsz) 0 h8 hlt
    (by omega)).2
  rw [coalesce_case2 s _ hp hn, hnb, hsz, hnsz, hv]
  simp only [FTRP, HDRP, WSIZE, DSIZE, put_mem, hP]

theorem coalesce_eval3 (s : Heap) (bp sz psz : Nat)
    (hp : GET_ALLOC s.mem (HDRP (PREV_BLKP s.mem bp)) = 0)
    (hn : GET_ALLOC s.mem (HDRP (NEXT_BLKP s.mem bp)) = 1)
    (hsz : GET_SIZE s.mem (HDRP bp) = sz) (hpb : PREV_BLKP s.mem bp = bp - psz)
    (hpsz : GET_SIZE (delete_node s (bp - psz)).mem (HDRP (bp - psz)) = psz)
    (hsz1 : GET_SIZE (delete_node s (bp - psz)).mem (HDRP bp) = sz)
    (hpf : GET_SIZE (delete_node s (bp - psz)).mem (bp - 8) = psz)
    (h16 : 16 ≤ sz) (hbp : 8 ≤ bp) :
    coalesce s bp =
      (put (put (delete_node s (bp - psz)) (bp + sz - 8) (PACK ((sz + psz) % WORD) 0))
        (bp - psz - 4) (PACK ((sz + psz) % WORD) 0), bp - psz) := by
  rw [coalesce_case3 s _ hp hn, hpb, hsz, hpsz]
  have e0 : FTRP (delete_node s (bp - psz)).mem bp = bp + sz - 8 := by
    simp only [FTRP, DSIZE, hsz1]
  rw [e0]
  have e1 : PREV_BLKP (put (delete_node s (bp - psz)) (bp + sz - 8)
      (PACK ((sz + psz) % WORD) 0)).mem bp = bp - psz := by
    simp only [PREV_BLKP, DSIZE, put_mem, GET_SIZE]
    rw [GET_PUT_ne _ _ _ _ (by omega)]
    have := hpf
    simp only [GET_SIZE] at this
    rw [this]
  rw [e1]
  simp only [HDRP, WSIZE]

theorem coalesce_eval4 (s : Heap) (bp sz psz nsz : Nat)
    (hp : GET_ALLOC s.mem (HDRP (PREV_BLKP s.mem bp)) = 0)
    (hn : GET_ALLOC s.mem (HDRP (NEXT_BLKP s.mem bp)) = 0)
    (hsz : GET_SIZE s.mem (HDRP bp) = sz) (hpb : PREV_BLKP s.mem bp = bp - psz)
    (hnb : NEXT_BLKP s.mem bp = bp + sz)
    (hpsz : GET_SIZE (delete_node (delete_node s (bp - psz)) (bp + sz)).mem (HDRP (bp - psz)) = psz)
    (hnsz : GET_SIZE (delete_node (delete_node s (bp - psz)) (bp + sz)).mem (HDRP (bp + sz)) = nsz)
    (h16 : 16 ≤ psz) (hle : psz + 8 ≤ bp) :
    coalesce s bp =
      (put (put (delete_node (delete_node s (bp - psz)) (bp + sz)) (bp - psz - 4)
          (PACK ((sz + (psz + nsz) % WORD) % WORD) 0))
        (bp + sz + nsz - 8) (PACK ((sz + (psz + nsz) % WORD) % WORD) 0), bp - psz) := by
  rw [coalesce_case4 s _ hp hn, hpb, hnb, hsz, hpsz, hnsz]
  have e1 : FTRP (put (delete_node (delete_node s (bp - psz)) (bp + sz)) (HDRP (bp - psz))
      (PACK ((sz + (psz + nsz) % WORD) % WORD) 0)).mem (bp + sz) = bp + sz + nsz - 8 := by
    simp only [FTRP, HDRP, WSIZE, DSIZE, put_mem, GET_SIZE]
    rw [GET_PUT_ne _ _ _ _ (by omega)]
    have := hnsz
    simp only [GET_SIZE, HDRP, WSIZE] at this
    rw [this]
  rw [e1]
  simp only [HDRP, WSIZE]

theorem total_snoc (pre : List Blk) (b : Blk) : total (pre ++ [b]) = total pre + b.1 := by
  rw [total_append]; simp [total]

theorem coalesce_next {s : Heap} {pre post1 : List Blk} {sz nsz : Nat}
    {L : Nat → List (Nat × Nat)} (h : Rep s (pre ++ (sz, Tag.U) :: (nsz, Tag.F) :: post1) L)
    (hpa : GET_ALLOC s.mem (HDRP (PREV_BLKP s.mem (s.base + 96 + total pre))) = 1)
    (hna : GET_ALLOC s.mem (HDRP (NEXT_BLKP s.mem (s.base + 96 + total pre))) = 0) :
    ∃ s1, MM.coalesce s (s.base + 96 + total pre) = (s1, s.base + 96 + total pre) ∧
      Rep s1 (pre ++ (sz + nsz, Tag.U) :: post1) (eraseL L (s.base + 96 + total pre + sz, nsz)) ∧
      Step s (pre ++ (sz, Tag.U) :: (nsz, Tag.F) :: post1) s1
        (pre ++ (sz + nsz, Tag.U) :: post1) ∧
      s1.brk = s.brk := by
  have hrd := h.read
  have h1 : Rep s ((pre ++ [(sz, Tag.U)]) ++ (nsz, Tag.F) :: post1) L := by
    simpa [List.append_assoc] using h
  have ha : s.base + 96 + total (pre ++ [(sz, Tag.U)]) = s.base + 96 + total pre + sz := by
    rw [total_snoc]; omega
  have hd : Rep (delete_node s (s.base + 96 + total pre + sz))
      ((pre ++ [(sz, Tag.U)]) ++ (nsz, Tag.U) :: post1)
      (eraseL L (s.base + 96 + total pre + sz, nsz)) := by
    have := h1.delete.1
    rw [ha] at this
    exact this
  have hds : Step s (pre ++ (sz, Tag.U) :: (nsz, Tag.F) :: post1)
      (delete_node s (s.base + 96 + total pre + sz))
      (pre ++ [(sz, Tag.U), (nsz, Tag.U)] ++ post1) := by
    have := h1.delete_step
    rw [ha] at this
    simpa [List.append_assoc] using this
  have hnsz : GET_SIZE (delete_node s (s.base + 96 + total pre + sz)).mem
      (HDRP (s.base + 96 + total pre + sz)) = nsz := by
    have := hd.read.1
    rw [delete_node_base, ha] at this
    exact this
  have hb := hd.block
  have hlt := hd.lt_word
  rw [total_append, total_snoc] at hlt
  simp only [total, delete_node_base] at hlt hb
  have hb0 := h.block
  simp only at hb0
  have hd2 : Rep (delete_node s (s.base + 96 + total pre + sz))
      (pre ++ [(sz, Tag.U), (nsz, Tag.U)] ++ post1)
      (eraseL L (s.base + 96 + total pre + sz, nsz)) := by
    simpa [List.append_assoc] using hd
  have hev := coalesce_eval2 s (s.base + 96 + total pre) sz nsz hpa hna hrd.1 hrd.2.2.2 hnsz
    (by omega) (by omega)
  have hm := hd2.merge_hf (w := s.base + 96 + total pre)
    (T := sz + nsz) (by simp) (by simp) (by simp) (by simp [total])
  refine ⟨_, hev, ?_, ?_, by simp⟩
  · simpa [List.append_assoc] using hm.1
  · have := hds.trans hm.2
    simpa [List.append_assoc] using this

theorem coalesce_prev {s : Heap} {pre1 post : List Blk} {sz psz : Nat}
    {L : Nat → List (Nat × Nat)}
    (h : Rep s ((pre1 ++ [(psz, Tag.F)]) ++ (sz, Tag.U) :: post) L)
    (hpb : PREV_BLKP s.mem (s.base + 96 + total (pre1 ++ [(psz, Tag.F)])) =
      s.base + 96 + total pre1)
    (hpa : GET_ALLOC s.mem (HDRP (PREV_BLKP s.mem
      (s.base + 96 + total (pre1 ++ [(psz, Tag.F)])))) = 0)
    (hna : GET_ALLOC s.mem (HDRP (NEXT_BLKP s.mem
      (s.base + 96 + total (pre1 ++ [(psz, Tag.F)])))) = 1) :
    ∃ s1, MM.coalesce s (s.base + 96 + total (pre1 ++ [(psz, Tag.F)])) =
        (s1, s.base + 96 + total pre1) ∧
      Rep s1 (pre1 ++ (psz + sz, Tag.U) :: post) (eraseL L (s.base + 96 + total pre1, psz)) ∧
      Step s ((pre1 ++ [(psz, Tag.F)]) ++ (sz, Tag.U) :: post) s1
        (pre1 ++ (psz + sz, Tag.U) :: post) ∧
      s1.brk = s.brk := by
  have hrd := h.read
  have hb0 := h.block
  generalize hbp : s.base + 96 + total (pre1 ++ [(psz, Tag.F)]) = bp at hpb hpa hna hrd hb0 ⊢
  have hbp1 : bp = s.base + 96 + total pre1 + psz := by
    rw [← hbp, total_snoc]; omega
  have h1 : Rep s (pre1 ++ (psz, Tag.F) :: ((sz, Tag.U) :: post)) L := by
    simpa [List.append_assoc] using h
  have hd := h1.delete.1
  have hds := h1.delete_step
  have hd1 : Rep (delete_node s (s.base + 96 + total pre1))
      ((pre1 ++ [(psz, Tag.U)]) ++ (sz, Tag.U) :: post)
      (eraseL L (s.base + 96 + total pre1, psz)) := by
    simpa [List.append_assoc] using hd
  have ha : (delete_node s (s.base + 96 + total pre1)).base + 96 +
      total (pre1 ++ [(psz, Tag.U)]) = bp := by
    rw [total_snoc, delete_node_base, hbp1]; omega
  have hpsz := hd.read.1
  have hsz1 := hd1.read.1
  have hb1 := hd.block
  rw [ha] at hsz1
  rw [delete_node_base] at hpsz
  simp only [delete_node_base] at hb1
  have hlt := hd.lt_word
  rw [total_append] at hlt
  simp only [total, delete_node_base] at hlt
  simp only at hb0
  have hpf : GET_SIZE (delete_node s (s.base + 96 + total pre1)).mem (bp - 8) = psz := by
    have := (size_of_word hb1.2.2.2.2.2 hb1.1).1
    rw [hbp1]
    exact this
  have hsub : s.base + 96 + total pre1 = bp - psz := by omega
  rw [hsub] at hpsz hsz1 hpf hpb
  have hev := coalesce_eval3 s bp sz psz hpa hna hrd.1 hpb hpsz hsz1 hpf (by omega) (by omega)
  have hv : (sz + psz) % WORD = psz + sz := by
    rw [Nat.add_comm]; exact Nat.mod_eq_of_lt (by simp only [WORD]; omega)
  rw [hv] at hev
  have hd2 : Rep (delete_node s (s.base + 96 + total pre1))
      (pre1 ++ [(psz, Tag.U), (sz, Tag.U)] ++ post)
      (eraseL L (s.base + 96 + total pre1, psz)) := by
    simpa [List.append_assoc] using hd
  have hm := hd2.merge_fh (w := s.base + 96 + total pre1)
    (T := psz + sz) (by simp) (by simp) (by simp) (by simp [total])
  have e1 : s.base + 96 + total pre1 + (psz + sz) - 8 = bp + sz - 8 := by omega
  rw [e1] at hm
  rw [← hsub] at hev
  refine ⟨_, hev, ?_, ?_, by simp⟩
  · simpa [List.append_assoc] using hm.1
  · have h3 : Step s ((pre1 ++ [(psz, Tag.F)]) ++ (sz, Tag.U) :: post)
        (delete_node s (s.base + 96 + total pre1))
        (pre1 ++ [(psz, Tag.U), (sz, Tag.U)] ++ post) := by
      simpa [List.append_assoc] using hds
    have := h3.trans hm.2
    simpa [List.append_assoc] using this

theorem coalesce_both {s : Heap} {pre1 post1 : List Blk} {sz psz nsz : Nat}
    {L : Nat → List (Nat × Nat)}
    (h : Rep s ((pre1 ++ [(psz, Tag.F)]) ++ (sz, Tag.U) :: (nsz, Tag.F) :: post1) L)
    (hpb : PREV_BLKP s.mem (s.base + 96 + total (pre1 ++ [(psz, Tag.F)])) =
      s.base + 96 + total pre1)
    (hpa : GET_ALLOC s.mem (HDRP (PREV_BLKP s.mem
      (s.base + 96 + total (pre1 ++ [(psz, Tag.F)])))) = 0)
    (hna : GET_ALLOC s.mem (HDRP (NEXT_BLKP s.mem
      (s.base + 96 + total (pre1 ++ [(psz, Tag.F)])))) = 0) :
    ∃ s1, MM.coalesce s (s.base + 96 + total (pre1 ++ [(psz, Tag.F)])) =
        (s1, s.base + 96 + total pre1) ∧
      Rep s1 (pre1 ++ (psz + sz + nsz, Tag.U) :: post1)
        (eraseL (eraseL L (s.base + 96 + total pre1, psz))
          (s.base + 96 + total pre1 + psz + sz, nsz)) ∧
      Step s ((pre1 ++ [(psz, Tag.F)]) ++ (sz, Tag.U) :: (nsz, Tag.F) :: post1) s1
        (pre1 ++ (psz + sz + nsz, Tag.U) :: post1) ∧
      s1.brk = s.brk := by
  have hrd := h.read
  have hb0 := h.block
  generalize hbp : s.base + 96 + total (pre1 ++ [(psz, Tag.F)]) = bp at hpb hpa hna hrd hb0 ⊢
  have hbp1 : bp = s.base + 96 + total pre1 + psz := by
    rw [← hbp, total_snoc]; omega
  have h1 : Rep s (pre1 ++ (psz, Tag.F) :: ((sz, Tag.U) :: (nsz, Tag.F) :: post1)) L := by
    simpa [List.append_assoc] using h
  have hd := h1.delete.1
  have hds := h1.delete_step
  have hd1 : Rep (delete_node s (s.base + 96 + total pre1))
      ((pre1 ++ [(psz, Tag.U), (sz, Tag.U)]) ++ (nsz, Tag.F) :: post1)
      (eraseL L (s.base + 96 + total pre1, psz)) := by
    simpa [List.append_assoc] using hd
  have ha : (delete_node s (s.base + 96 + total pre1)).base + 96 +
      total (pre1 ++ [(psz, Tag.U), (sz, Tag.U)]) = bp + sz := by
    rw [total_append, delete_node_base, hbp1]; simp only [total]; omega
  have he := hd1.delete.1
  have hes := hd1.delete_step
  rw [ha] at he hes
  have hsub : s.base + 96 + total pre1 = bp - psz := by omega
  have he1 : Rep (delete_node (delete_node s (s.base + 96 + total pre1)) (bp + sz))
      (pre1 ++ (psz, Tag.U) :: ((sz, Tag.U) :: (nsz, Tag.U) :: post1))
      (eraseL (eraseL L (s.base + 96 + total pre1, psz)) (bp + sz, nsz)) := by
    simpa [List.append_assoc] using he
  have hpsz := he1.read.1
  have hnsz := he.read.1
  have hb1 := he1.block
  have hb2 := he.block
  rw [delete_node_base, ha] at hnsz
  simp only [delete_node_base] at hpsz hb1 hb2
  have hlt := he1.lt_word
  rw [total_append] at hlt
  simp only [total, delete_node_base] at hlt
  simp only at hb0
  rw [hsub] at hpsz hnsz hpb
  have hev := coalesce_eval4 s bp sz psz nsz hpa hna hrd.1 hpb hrd.2.2.2 hpsz hnsz
    (by omega) (by omega)
  have hv : (sz + (psz + nsz) % WORD) % WORD = psz + sz + nsz := by
    rw [Nat.mod_eq_of_lt (a := psz + nsz) (by simp only [WORD]; omega),
      Nat.mod_eq_of_lt (by simp only [WORD]; omega)]
    omega
  rw [hv, ← hsub] at hev
  have he2 : Rep (delete_node (delete_node s (s.base + 96 + total pre1)) (bp + sz))
      (pre1 ++ [(psz, Tag.U), (sz, Tag.U), (nsz, Tag.U)] ++ post1)
      (eraseL (eraseL L (s.base + 96 + total pre1, psz)) (bp + sz, nsz)) := by
    simpa [List.append_assoc] using he1
  have hm := he2.merge_hf
    (w := s.base + 96 + total pre1) (T := psz + sz + nsz) (by simp) (by simp) (by simp)
    (by simp [total]; omega)
  have e1 : s.base + 96 + total pre1 + (psz + sz + nsz) - 8 = bp + sz + nsz - 8 := by omega
  have e2 : s.base + 96 + total pre1 + psz + sz = bp + sz := by omega
  rw [e1] at hm
  rw [e2]
  refine ⟨_, hev, ?_, ?_, by simp⟩
  · simpa [List.append_assoc] using hm.1
  · have h3 : Step s ((pre1 ++ [(psz, Tag.F)]) ++ (sz, Tag.U) :: (nsz, Tag.F) :: post1)
        (delete_node s (s.base + 96 + total pre1))
        ((pre1 ++ [(psz, Tag.U), (sz, Tag.U)]) ++ (nsz, Tag.F) :: post1) := by
      simpa [List.append_assoc] using hds
    have h4 : Step s ((pre1 ++ [(psz, Tag.F)]) ++ (sz, Tag.U) :: (nsz, Tag.F) :: post1)
        (delete_node (delete_node s (s.base + 96 + total pre1)) (bp + sz))
        (pre1 ++ [(psz, Tag.U), (sz, Tag.U), (nsz, Tag.U)] ++ post1) := by
      have := h3.trans hes
      simpa [List.append_assoc] using this
    have := h4.trans hm.2
    simpa [List.append_assoc] using this

/-- The effect of `coalesce` on a block that has just become free: the listed
free neighbours are unlinked and their bytes merged into the block. -/
theorem Rep.coalesce_spec {s : Heap} {pre post : List Blk} {sz : Nat}
    {L : Nat → List (Nat × Nat)} (h : Rep s (pre ++ (sz, Tag.U) :: post) L)
    (hpre : ∀ c, c ∈ pre → c.2 ≠ Tag.U) (hpost : ∀ c, c ∈ post → c.2 ≠ Tag.U) :
    ∃ s1, MM.coalesce s (s.base + 96 + total pre) =
        (s1, s.base + 96 + total (preKeep pre)) ∧
      Rep s1 (preKeep pre ++ (prevFree pre + sz + nextFree post, Tag.U) :: postKeep post)
        (coalesceL L (s.base + 96 + total pre) pre sz post) ∧
      Step s (pre ++ (sz, Tag.U) :: post) s1
        (preKeep pre ++ (prevFree pre + sz + nextFree post, Tag.U) :: postKeep post) ∧
      s1.brk = s.brk := by
  rcases h.prev_cases hpre with ⟨hp0, hpk, hpa⟩ | ⟨pre1, psz, rfl, hp0, hpk, hpb, hpa⟩ <;>
    rcases h.next_cases hpost with ⟨hn0, hnk, hna⟩ | ⟨nsz, post1, rfl, hn0, hnk, hna⟩
  · refine ⟨s, ?_, ?_, ?_, rfl⟩
    · rw [coalesce_case1 s _ hpa hna, hpk]
    · simp only [hp0, hn0, hpk, hnk, coalesceL, if_true, Nat.zero_add, Nat.add_zero]
      exact h
    · simp only [hp0, hn0, hpk, hnk, Nat.zero_add, Nat.add_zero]
      exact Step.refl _ _
  · obtain ⟨s1, h1, h2, h3, h4⟩ := coalesce_next h hpa hna
    have hne : nsz ≠ 0 := by
      have hb := (Tiles_size h.tiles (nsz, Tag.F) (by simp)).2
      simp only at hb; omega
    refine ⟨s1, by rw [hpk]; exact h1, ?_, ?_, h4⟩
    · simp only [hp0, hn0, hpk, hnk, coalesceL, if_true, Nat.zero_add, hne, if_false]
      exact h2
    · simp only [hp0, hn0, hpk, hnk, Nat.zero_add]
      exact h3
  · obtain ⟨s1, h1, h2, h3, h4⟩ := coalesce_prev h hpb hpa hna
    have hne : psz ≠ 0 := by
      have hb := (Tiles_size h.tiles (psz, Tag.F) (by simp)).2
      simp only at hb; omega
    have e : s.base + 96 + total (pre1 ++ [(psz, Tag.F)]) - psz = s.base + 96 + total pre1 := by
      rw [total_snoc]; simp only; omega
    refine ⟨s1, by rw [hpk]; exact h1, ?_, ?_, h4⟩
    · simp only [hp0, hn0, hpk, hnk, coalesceL, if_true, Nat.add_zero, hne, if_false, e]
      exact h2
    · simp only [hp0, hn0, hpk, hnk, Nat.add_zero]
      exact h3
  · obtain ⟨s1, h1, h2, h3, h4⟩ := coalesce_both h hpb hpa hna
    have hne : psz ≠ 0 := by
      have hb := (Tiles_size h.tiles (psz, Tag.F) (by simp)).2
      simp only at hb; omega
    have hne2 : nsz ≠ 0 := by
      have hb := (Tiles_size h.tiles (nsz, Tag.F) (by simp)).2
      simp only at hb; omega
    have e : s.base + 96 + total (pre1 ++ [(psz, Tag.F)]) - psz = s.base + 96 + total pre1 := by
      rw [total_snoc]; simp only; omega
    have e2 : s.base + 96 + total (pre1 ++ [(psz, Tag.F)]) + sz =
        s.base + 96 + total pre1 + psz + sz := by
      rw [total_snoc]; simp only; omega
    refine ⟨s1, by rw [hpk]; exact h1, ?_, ?_, h4⟩
    · simp only [hp0, hn0, hpk, hnk, coalesceL, hne, hne2, if_false, e, e2]
      exact h2
    · simp only [hp0, hn0, hpk, hnk]
      exact h3

/-! ## Rewriting boundary tags -/

/-- Rewriting the tags of a run of blocks, as a step relative to a picture
`midO` in which the whole run belongs to the allocator. -/
theorem Rep.retile {s : Heap} {pre mid N O post : List Blk}
    {L : Nat → List (Nat × Nat)} (h : Rep s (pre ++ mid ++ post) L)
    (hm : ∀ b, b ∈ mid → b.2 ≠ Tag.F) (hM : ∀ b, b ∈ N → b.2 ≠ Tag.F)
    (hO : ∀ b, b ∈ O → b.2 ≠ Tag.A) (ht : total N = total mid)
    (htO : total O = total mid) {M : Mem}
    (hfr : ∀ a, a + 4 < s.base + 96 + total pre ∨ s.base + 96 + total pre + total mid ≤ a + 4 →
      M a = s.mem a)
    (htl : Tiles M (s.base + 96 + total pre) N) :
    Rep { s with mem := M } (pre ++ N ++ post) L ∧
      Step s (pre ++ O ++ post) { s with mem := M } (pre ++ N ++ post) := by
  refine ⟨h.window hm hM ht hfr htl, rfl, rfl, Nat.le_refl _, ?_, ?_⟩
  · intro a ha
    refine hfr a ?_
    by_contra hc
    exact ha (owned_mid hO (by omega) (by omega))
  · intro a ha
    rcases ha with ha | ha | ⟨y, hy, h1, h2⟩
    · exact Or.inl ha
    · exact Or.inr (Or.inl ha)
    · rw [nlist_append, nlist_append] at hy
      simp only [List.mem_append] at hy
      rcases hy with (hy | hy) | hy
      · refine Or.inr (Or.inr ⟨y, ?_, h1, h2⟩)
        rw [nlist_append, nlist_append]
        exact List.mem_append_left _ (List.mem_append_left _ hy)
      · have := nlist_within htl hy
        exact owned_mid hO (by omega) (by omega)
      · refine Or.inr (Or.inr ⟨y, ?_, h1, h2⟩)
        rw [nlist_append, nlist_append, total_append, htO]
        rw [total_append, ht] at hy
        exact List.mem_append_right _ hy

theorem Tiles_one {m : Mem} {w T : Nat} {t : Tag} (h8 : T % 8 = 0) (h16 : 16 ≤ T)
    (hlt : w + T ≤ 2 ^ 32) (hw : 4 ≤ w) :
    Tiles (PUT (PUT m (w - 4) (PACK T (abit t))) (w + T - 8) (PACK T (abit t))) w [(T, t)] := by
  have ha := abit_le t
  refine ⟨h8, h16, ?_, ?_, trivial⟩
  · show GET (PUT (PUT m _ _) _ _) _ = _
    rw [GET_PUT_ne _ _ _ _ (by omega)]
    exact (GET_PUT_PACK m (w - 4) T (abit t) h8 (by omega) ha).1
  · exact (GET_PUT_PACK _ (w + T - 8) T (abit t) h8 (by omega) ha).1

theorem Tiles_two {m : Mem} {w a b : Nat} {t1 t2 : Tag} (ha8 : a % 8 = 0) (ha16 : 16 ≤ a)
    (hb8 : b % 8 = 0) (hb16 : 16 ≤ b) (hlt : w + a + b ≤ 2 ^ 32) (hw : 4 ≤ w) :
    Tiles (PUT (PUT (PUT (PUT m (w - 4) (PACK a (abit t1))) (w + a - 8) (PACK a (abit t1)))
      (w + a - 4) (PACK b (abit t2))) (w + a + b - 8) (PACK b (abit t2))) w
      [(a, t1), (b, t2)] := by
  have h1 := abit_le t1
  have h2 := abit_le t2
  refine ⟨ha8, ha16, ?_, ?_, hb8, hb16, ?_, ?_, trivial⟩
  · show GET (PUT (PUT (PUT (PUT m _ _) _ _) _ _) _ _) _ = _
    rw [GET_PUT_ne _ _ _ _ (by omega), GET_PUT_ne _ _ _ _ (by omega),
      GET_PUT_ne _ _ _ _ (by omega)]
    exact (GET_PUT_PACK m (w - 4) a (abit t1) ha8 (by omega) h1).1
  · show GET (PUT (PUT (PUT (PUT m _ _) _ _) _ _) _ _) _ = _
    rw [GET_PUT_ne _ _ _ _ (by omega), GET_PUT_ne _ _ _ _ (by omega)]
    exact (GET_PUT_PACK _ (w + a - 8) a (abit t1) ha8 (by omega) h1).1
  · show GET (PUT (PUT (PUT (PUT m _ _) _ _) _ _) _ _) _ = _
    rw [GET_PUT_ne _ _ _ _ (by omega)]
    exact (GET_PUT_PACK _ (w + a - 4) b (abit t2) hb8 (by omega) h2).1
  · exact (GET_PUT_PACK _ (w + a + b - 8) b (abit t2) hb8 (by omega) h2).1

/-- Storing a header and a footer over a block that is not listed. -/
theorem Rep.retag {s : Heap} {pre post : List Blk} {S : Nat} {t0 t : Tag}
    {L : Nat → List (Nat × Nat)} (h : Rep s (pre ++ (S, t0) :: post) L) (ht0 : t0 ≠ Tag.F)
    (ht : t ≠ Tag.F) {w : Nat} (hw : w = s.base + 96 + total pre) :
    Rep (put (put s (w - 4) (PACK S (abit t))) (w + S - 8) (PACK S (abit t)))
        (pre ++ (S, t) :: post) L ∧
      Step s (pre ++ (S, Tag.U) :: post)
        (put (put s (w - 4) (PACK S (abit t))) (w + S - 8) (PACK S (abit t)))
        (pre ++ (S, t) :: post) := by
  subst hw
  have hb := h.block
  simp only at hb
  have h1 : Rep s (pre ++ [(S, t0)] ++ post) L := by simpa [List.append_assoc] using h
  have := h1.retile (N := [(S, t)]) (O := [(S, Tag.U)])
    (by simpa using ht0) (by simpa using ht) (by simp) (by simp [total]) (by simp [total])
    (by
      intro a ha
      simp only [total, Nat.add_zero] at ha
      rw [PUT_other _ _ _ _ (by omega), PUT_other _ _ _ _ (by omega)])
    (Tiles_one hb.1 hb.2.1 (by omega) (by omega))
  simpa [List.append_assoc] using this

/-- Splitting an unlisted block in two by storing both pairs of tags. -/
theorem Rep.split {s : Heap} {pre post : List Blk} {a b : Nat} {p q : Tag}
    {L : Nat → List (Nat × Nat)} (h : Rep s (pre ++ (a + b, Tag.U) :: post) L)
    (hp : p ≠ Tag.F) (hq : q ≠ Tag.F) (ha8 : a % 8 = 0) (ha16 : 16 ≤ a) (hb16 : 16 ≤ b)
    {w : Nat} (hw : w = s.base + 96 + total pre) :
    Rep (put (put (put (put s (w - 4) (PACK a (abit p))) (w + a - 8) (PACK a (abit p)))
          (w + a - 4) (PACK b (abit q))) (w + a + b - 8) (PACK b (abit q)))
        (pre ++ (a, p) :: (b, q) :: post) L ∧
      Step s (pre ++ (a + b, Tag.U) :: post)
        (put (put (put (put s (w - 4) (PACK a (abit p))) (w + a - 8) (PACK a (abit p)))
          (w + a - 4) (PACK b (abit q))) (w + a + b - 8) (PACK b (abit q)))
        (pre ++ (a, p) :: (b, q) :: post) := by
  subst hw
  have hb := h.block
  simp only at hb
  have h1 : Rep s (pre ++ [(a + b, Tag.U)] ++ post) L := by simpa [List.append_assoc] using h
  have := h1.retile (N := [(a, p), (b, q)]) (O := [(a + b, Tag.U)])
    (by simp) (by simp [hp, hq]) (by simp) (by simp [total]) (by simp [total])
    (by
      intro x hx
      simp only [total, Nat.add_zero] at hx
      rw [PUT_other _ _ _ _ (by omega), PUT_other _ _ _ _ (by omega),
        PUT_other _ _ _ _ (by omega), PUT_other _ _ _ _ (by omega)])
    (Tiles_two ha8 ha16 (by omega) hb16 (by omega) (by omega))
  simpa [List.append_assoc] using this

/-! ## `place` -/

theorem place_eval1 (fuel : Nat) (s : Heap) (bp asize S : Nat)
    (hS : GET_SIZE s.mem (HDRP bp) = S) (h8 : S % 8 = 0) (hlt : S + 8 ≤ 2 ^ 32)
    (hle : asize ≤ S) (hr : S - asize < 16) :
    place fuel s bp asize =
      some (put (put (delete_node s bp) (bp - 4) (PACK S 1)) (bp + S - 8) (PACK S 1), bp) := by
  have hrem : (S + WORD - asize) % WORD = S - asize := by
    simp only [WORD]; omega
  have hP := (GET_PUT_PACK (delete_node s bp).mem (bp - 4) S 1 h8 hlt (by omega)).2
  simp only [HDRP, WSIZE] at hS
  unfold place
  simp only [hS, hrem, DSIZE, hr, if_true, Nat.reduceMul, FTRP, HDRP, WSIZE, put_mem, hP]

theorem place_eval2 (fuel : Nat) (s : Heap) (bp asize S : Nat)
    (hS : GET_SIZE s.mem (HDRP bp) = S) (h8 : S % 8 = 0) (hlt : S + 8 ≤ 2 ^ 32)
    (ha8 : asize % 8 = 0) (hle : asize ≤ S) (hr : 16 ≤ S - asize) (hr2 : S - asize ≤ 340)
    (hbp : 4 ≤ bp) :
    ∀ s6, insert_node fuel
        (put (put (put (put (delete_node s bp) (bp - 4) (PACK (S - asize) 0))
          (bp + (S - asize) - 8) (PACK (S - asize) 0))
          (bp + (S - asize) - 4) (PACK asize 1))
          (bp + (S - asize) + asize - 8) (PACK asize 1)) bp (S - asize) = some s6 →
      place fuel s bp asize = some (s6, bp + (S - asize)) := by
  intro s6 h6
  have hrem : (S + WORD - asize) % WORD = S - asize := by
    simp only [WORD]; omega
  have hP1 := (GET_PUT_PACK (delete_node s bp).mem (bp - 4) (S - asize) 0 (by omega) (by omega)
    (by omega)).2
  have hP2 : GET_SIZE (PUT (PUT (delete_node s bp).mem (bp - 4) (PACK (S - asize) 0))
      (bp + (S - asize) - 8) (PACK (S - asize) 0)) (bp - 4) = S - asize := by
    simp only [GET_SIZE]
    rw [GET_PUT_ne _ _ _ _ (by omega)]
    exact hP1
  have hP3 := (GET_PUT_PACK (PUT (PUT (delete_node s bp).mem (bp - 4) (PACK (S - asize) 0))
      (bp + (S - asize) - 8) (PACK (S - asize) 0)) (bp + (S - asize) - 4) asize 1 ha8
      (by omega) (by omega)).2
  have hn : ¬ S - asize < 16 := by omega
  simp only [HDRP, WSIZE] at hS
  unfold place
  simp only [hS, hrem, DSIZE, hn, hr2, if_true, if_false, Nat.reduceMul, FTRP, HDRP, WSIZE,
    put_mem, hP1, NEXT_BLKP, hP2, hP3, h6]

theorem place_eval3 (fuel : Nat) (s : Heap) (bp asize S : Nat)
    (hS : GET_SIZE s.mem (HDRP bp) = S) (h8 : S % 8 = 0) (hlt : S + 8 ≤ 2 ^ 32)
    (ha8 : asize % 8 = 0) (ha16 : 16 ≤ asize) (hle : asize ≤ S) (hr2 : 340 < S - asize)
    (hbp : 4 ≤ bp) :
    ∀ s6, insert_node fuel
        (put (put (put (put (delete_node s bp) (bp - 4) (PACK asize 1))
          (bp + asize - 8) (PACK asize 1))
          (bp + asize - 4) (PACK (S - asize) 0))
          (bp + asize + (S - asize) - 8) (PACK (S - asize) 0)) (bp + asize) (S - asize) =
        some s6 →
      place fuel s bp asize = some (s6, bp) := by
  intro s6 h6
  have hrem : (S + WORD - asize) % WORD = S - asize := by
    simp only [WORD]; omega
  have hP1 := (GET_PUT_PACK (delete_node s bp).mem (bp - 4) asize 1 ha8 (by omega)
    (by omega)).2
  have hP2 : GET_SIZE (PUT (PUT (delete_node s bp).mem (bp - 4) (PACK asize 1))
      (bp + asize - 8) (PACK asize 1)) (bp - 4) = asize := by
    simp only [GET_SIZE]
    rw [GET_PUT_ne _ _ _ _ (by omega)]
    exact hP1
  have hP3 := (GET_PUT_PACK (PUT (PUT (delete_node s bp).mem (bp - 4) (PACK asize 1))
      (bp + asize - 8) (PACK asize 1)) (bp + asize - 4) (S - asize) 0 (by omega)
      (by omega) (by omega)).2
  have hn : ¬ S - asize < 16 := by omega
  have hn2 : ¬ S - asize ≤ 340 := by omega
  simp only [HDRP, WSIZE] at hS
  unfold place
  simp only [hS, hrem, DSIZE, hn, hn2, if_false, Nat.reduceMul, FTRP, HDRP, WSIZE,
    put_mem, hP1, NEXT_BLKP, hP2, hP3, h6]

theorem place_whole {s : Heap} {pre post : List Blk} {S asize : Nat}
    {L : Nat → List (Nat × Nat)} (h : Rep s (pre ++ (S, Tag.F) :: post) L) (fuel : Nat)
    (hle : asize ≤ S) (hr : S - asize < 16) :
    ∃ s1, place fuel s (s.base + 96 + total pre) asize = some (s1, s.base + 96 + total pre) ∧
      Rep s1 (pre ++ (S, Tag.A) :: post) (eraseL L (s.base + 96 + total pre, S)) ∧
      Step s (pre ++ (S, Tag.F) :: post) s1 (pre ++ (S, Tag.A) :: post) ∧ s1.brk = s.brk := by
  have hb := h.block
  simp only at hb
  have hev := place_eval1 fuel s (s.base + 96 + total pre) asize S h.read.1 hb.1 (by omega) hle hr
  have hd := h.delete.1
  have hds := h.delete_step
  have hr := hd.retag (t := Tag.A) (w := s.base + 96 + total pre) (by simp) (by simp) (by simp)
  rw [abit_A] at hr
  exact ⟨_, hev, hr.1, hds.trans hr.2, by simp⟩

theorem place_low {s : Heap} {pre post : List Blk} {S asize : Nat}
    {L : Nat → List (Nat × Nat)} (h : Rep s (pre ++ (S, Tag.F) :: post) L) {fuel : Nat}
    (hfuel : s.brk ≤ fuel) (ha8 : asize % 8 = 0) (ha16 : 16 ≤ asize) (hle : asize ≤ S)
    (hr : 16 ≤ S - asize) (hr2 : S - asize ≤ 340) :
    ∃ s1, place fuel s (s.base + 96 + total pre) asize =
        some (s1, s.base + 96 + total pre + (S - asize)) ∧
      Rep s1 (pre ++ (S - asize, Tag.F) :: (asize, Tag.A) :: post)
        (insertL (eraseL L (s.base + 96 + total pre, S)) (s.base + 96 + total pre, S - asize)) ∧
      Step s (pre ++ (S, Tag.F) :: post) s1
        (pre ++ (S - asize, Tag.F) :: (asize, Tag.A) :: post) ∧ s1.brk = s.brk := by
  have hb := h.block
  simp only at hb
  have hd := h.delete.1
  have hds := h.delete_step
  have hd1 : Rep (delete_node s (s.base + 96 + total pre))
      (pre ++ ((S - asize) + asize, Tag.U) :: post) (eraseL L (s.base + 96 + total pre, S)) := by
    have e : S - asize + asize = S := by omega
    rw [e]; exact hd
  have hs := hd1.split (p := Tag.U) (q := Tag.A) (w := s.base + 96 + total pre)
    (by simp) (by simp) (by omega) hr ha16 (by simp)
  rw [abit_A, abit_U] at hs
  have e : S - asize + asize = S := by omega
  rw [e] at hs
  have hf6 : (put (put (put (put (delete_node s (s.base + 96 + total pre))
      (s.base + 96 + total pre - 4) (PACK (S - asize) 0))
      (s.base + 96 + total pre + (S - asize) - 8) (PACK (S - asize) 0))
      (s.base + 96 + total pre + (S - asize) - 4) (PACK asize 1))
      (s.base + 96 + total pre + (S - asize) + asize - 8) (PACK asize 1)).brk ≤ fuel := by
    simpa using hfuel
  obtain ⟨s6, h6, hR6, hS6, hk6⟩ := hs.1.insert_step hf6
  simp only [put_base, delete_node_base, put_brk, delete_node_brk] at h6 hR6 hk6
  have hev := place_eval2 fuel s (s.base + 96 + total pre) asize S h.read.1 hb.1 (by omega)
    ha8 hle hr hr2 (by omega) s6 h6
  exact ⟨s6, hev, hR6, (hds.trans hs.2).trans hS6, hk6⟩

theorem place_high {s : Heap} {pre post : List Blk} {S asize : Nat}
    {L : Nat → List (Nat × Nat)} (h : Rep s (pre ++ (S, Tag.F) :: post) L) {fuel : Nat}
    (hfuel : s.brk ≤ fuel) (ha8 : asize % 8 = 0) (ha16 : 16 ≤ asize) (hle : asize ≤ S)
    (hr2 : 340 < S - asize) :
    ∃ s1, place fuel s (s.base + 96 + total pre) asize = some (s1, s.base + 96 + total pre) ∧
      Rep s1 (pre ++ (asize, Tag.A) :: (S - asize, Tag.F) :: post)
        (insertL (eraseL L (s.base + 96 + total pre, S))
          (s.base + 96 + total pre + asize, S - asize)) ∧
      Step s (pre ++ (S, Tag.F) :: post) s1
        (pre ++ (asize, Tag.A) :: (S - asize, Tag.F) :: post) ∧ s1.brk = s.brk := by
  have hb := h.block
  simp only at hb
  have hd := h.delete.1
  have hds := h.delete_step
  have e : asize + (S - asize) = S := by omega
  have hd1 : Rep (delete_node s (s.base + 96 + total pre))
      (pre ++ (asize + (S - asize), Tag.U) :: post) (eraseL L (s.base + 96 + total pre, S)) := by
    rw [e]; exact hd
  have hs := hd1.split (p := Tag.A) (q := Tag.U) (w := s.base + 96 + total pre)
    (by simp) (by simp) ha8 ha16 (by omega) (by simp)
  rw [abit_A, abit_U, e] at hs
  have hs1 : Rep (put (put (put (put (delete_node s (s.base + 96 + total pre))
      (s.base + 96 + total pre - 4) (PACK asize 1)) (s.base + 96 + total pre + asize - 8)
      (PACK asize 1)) (s.base + 96 + total pre + asize - 4) (PACK (S - asize) 0))
      (s.base + 96 + total pre + asize + (S - asize) - 8) (PACK (S - asize) 0))
      ((pre ++ [(asize, Tag.A)]) ++ (S - asize, Tag.U) :: post)
      (eraseL L (s.base + 96 + total pre, S)) := by
    simpa [List.append_assoc] using hs.1
  have hf6 : (put (put (put (put (delete_node s (s.base + 96 + total pre))
      (s.base + 96 + total pre - 4) (PACK asize 1)) (s.base + 96 + total pre + asize - 8)
      (PACK asize 1)) (s.base + 96 + total pre + asize - 4) (PACK (S - asize) 0))
      (s.base + 96 + total pre + asize + (S - asize) - 8) (PACK (S - asize) 0)).brk ≤ fuel := by
    simpa using hfuel
  obtain ⟨s6, h6, hR6, hS6, hk6⟩ := hs1.insert_step hf6
  have ea : s.base + 96 + total (pre ++ [(asize, Tag.A)]) = s.base + 96 + total pre + asize := by
    rw [total_snoc]; simp only; omega
  simp only [put_base, delete_node_base, put_brk, delete_node_brk, ea] at h6 hR6 hk6
  have hev := place_eval3 fuel s (s.base + 96 + total pre) asize S h.read.1 hb.1 (by omega)
    ha8 ha16 hle hr2 (by omega) s6 h6
  refine ⟨s6, hev, by simpa [List.append_assoc] using hR6, ?_, hk6⟩
  have := (hds.trans hs.2).trans (by simpa [List.append_assoc] using hS6)
  simpa [List.append_assoc] using this

/-- The effect of `place` on a listed free block that is large enough. -/
theorem Rep.place_spec {s : Heap} {pre post : List Blk} {S asize : Nat}
    {L : Nat → List (Nat × Nat)} (h : Rep s (pre ++ (S, Tag.F) :: post) L) {fuel : Nat}
    (hfuel : s.brk ≤ fuel) (ha8 : asize % 8 = 0) (ha16 : 16 ≤ asize) (hle : asize ≤ S) :
    ∃ s1, place fuel s (s.base + 96 + total pre) asize =
        some (s1, placePtr (s.base + 96 + total pre) S asize) ∧
      Rep s1 (placeBlocks pre S asize post) (placeL L (s.base + 96 + total pre) S asize) ∧
      Step s (pre ++ (S, Tag.F) :: post) s1 (placeBlocks pre S asize post) ∧
      s1.brk = s.brk := by
  by_cases hr : S - asize < 16
  · simp only [placePtr, placeBlocks, placeL, hr, if_true]
    exact place_whole h fuel hle hr
  · by_cases hr2 : S - asize ≤ 340
    · simp only [placePtr, placeBlocks, placeL, hr, hr2, if_true, if_false]
      exact place_low h hfuel ha8 ha16 hle (by omega) hr2
    · simp only [placePtr, placeBlocks, placeL, hr, hr2, if_false]
      exact place_high h hfuel ha8 ha16 hle (by omega)

/-! ## `find_fit` -/

theorem find_fit_list_spec {m : Mem} {asize : Nat} {l : List (Nat × Nat)} {prev : Nat}
    (hk : Links m prev l 0) (hnz : ∀ y, y ∈ l → y.1 ≠ 0)
    (hsz : ∀ y, y ∈ l → GET_SIZE m (HDRP y.1) = y.2) (fuel : Nat) (hf : l.length < fuel) :
    find_fit_list m asize fuel (nextOf l 0) =
      some (ptrOf (l.find? (fun y => decide (asize ≤ y.2)))) := by
  induction l generalizing prev fuel with
  | nil =>
    obtain ⟨f, rfl⟩ : ∃ f, fuel = f + 1 := ⟨fuel - 1, by simp at hf; omega⟩
    simp [find_fit_list, nextOf, ptrOf]
  | cons y t ih =>
    obtain ⟨f, rfl⟩ : ∃ f, fuel = f + 1 := ⟨fuel - 1, by simp at hf; omega⟩
    obtain ⟨-, h2, h3⟩ := hk
    have hy := hnz y (List.mem_cons_self _ _)
    have hs := hsz y (List.mem_cons_self _ _)
    simp only [find_fit_list, nextOf, hs, hy, if_false]
    by_cases hge : asize ≤ y.2
    · simp [hge, ptrOf]
    · have hlt : ¬ y.2 ≥ asize := hge
      simp only [hlt, if_false, h2, List.find?_cons, hge, decide_False]
      exact ih h3 (fun z hz => hnz z (List.mem_cons_of_mem _ hz))
        (fun z hz => hsz z (List.mem_cons_of_mem _ hz)) f (by simp at hf; omega)

theorem find_fit_from_spec {s : Heap} {bl : List Blk} {L : Nat → List (Nat × Nat)}
    (h : Rep s bl L) {fuel : Nat} (hfuel : s.brk ≤ fuel) (asize n i : Nat)
    (hi : i + n ≤ SEGLIST_CNT) :
    find_fit_from fuel s asize n i = some (ptrOf (findFitL L asize n i)) := by
  induction n generalizing i with
  | zero => rfl
  | succ n ih =>
    have hi1 : i < SEGLIST_CNT := by omega
    have hS := h.sep (fun y hy => flist_sub_blist hy)
    have hsubL : ∀ y, y ∈ L i → y ∈ flist (s.base + 96) bl := fun y hy => h.lists.mem_FB hi1 hy
    have hlen : (L i).length < fuel := by
      have h1 := nodup_length_le (h.lists.nodup i hi1) hsubL
      have h2 := flist_length h.tiles
      have := h.size
      omega
    have hl : find_fit_list s.mem asize fuel (nextOf (L i) 0) = _ :=
      find_fit_list_spec (h.lists.links i hi1)
      (fun y hy => by have := hS.lo y (hsubL y hy); omega)
      (fun y hy => h.hdr y (hsubL y hy)) fuel hlen
    rw [← h.lists.head i hi1] at hl
    have hg : getHead s i = GET s.mem (s.base + 4 * i) := by
      rw [getHead_eq, h.seg]
    simp only [find_fit_from, hg, hl, findFitL]
    cases hfind : (L i).find? (fun y => decide (asize ≤ y.2)) with
    | none =>
      simp only [ptrOf, ne_eq, not_true_eq_false, if_false]
      exact ih (i + 1) (by omega)
    | some y =>
      have hy := hS.lo y (hsubL y (List.mem_of_find?_eq_some hfind))
      have : y.1 ≠ 0 := by omega
      simp [ptrOf, this]

theorem findFitL_some {L : Nat → List (Nat × Nat)} {asize n i : Nat} {y : Nat × Nat}
    (h : findFitL L asize n i = some y) : ∃ j, i ≤ j ∧ j < i + n ∧ y ∈ L j ∧ asize ≤ y.2 := by
  induction n generalizing i with
  | zero => simp [findFitL] at h
  | succ n ih =>
    simp only [findFitL] at h
    cases hfind : (L i).find? (fun y => decide (asize ≤ y.2)) with
    | none =>
      rw [hfind] at h
      obtain ⟨j, h1, h2, h3⟩ := ih h
      exact ⟨j, by omega, by omega, h3⟩
    | some z =>
      rw [hfind] at h
      simp only [Option.some.injEq] at h
      subst h
      have := List.find?_some hfind
      exact ⟨i, Nat.le_refl _, by omega, List.mem_of_find?_eq_some hfind, by simpa using this⟩

theorem findFitL_none {L : Nat → List (Nat × Nat)} {asize n i : Nat}
    (h : findFitL L asize n i = none) : ∀ j, i ≤ j → j < i + n → ∀ y, y ∈ L j → y.2 < asize := by
  induction n generalizing i with
  | zero => intro j h1 h2; omega
  | succ n ih =>
    simp only [findFitL] at h
    cases hfind : (L i).find? (fun y => decide (asize ≤ y.2)) with
    | none =>
      rw [hfind] at h
      intro j h1 h2 y hy
      by_cases hj : j = i
      · subst hj
        have := List.find?_eq_none.1 hfind y hy
        simpa using this
      · exact ih h j (by omega) (by omega) y hy
    | some z =>
      rw [hfind] at h
      simp at h

/-- `find_fit` returns the first fitting node of the table, scanning the
classes from that of `asize` upwards; it returns `NULL` exactly when no
listed free block has `asize` bytes. -/
theorem Rep.find_fit_spec {s : Heap} {bl : List Blk} {L : Nat → List (Nat × Nat)}
    (h : Rep s bl L) {fuel : Nat} (hfuel : s.brk ≤ fuel) (asize : Nat) :
    find_fit fuel s asize =
        some (ptrOf (findFitL L asize (SEGLIST_CNT - get_list_index asize)
          (get_list_index asize))) ∧
      ((∃ y, findFitL L asize (SEGLIST_CNT - get_list_index asize) (get_list_index asize) =
          some y ∧ y ∈ flist (s.base + 96) bl ∧ asize ≤ y.2) ∨
        (findFitL L asize (SEGLIST_CNT - get_list_index asize) (get_list_index asize) = none ∧
          ∀ y, y ∈ flist (s.base + 96) bl → y.2 < asize)) := by
  have hlt := get_list_index_lt asize
  refine ⟨find_fit_from_spec h hfuel asize _ _ (by omega), ?_⟩
  cases hf : findFitL L asize (SEGLIST_CNT - get_list_index asize) (get_list_index asize) with
  | none =>
    right
    refine ⟨rfl, fun y hy => ?_⟩
    by_contra hc
    have hge : asize ≤ y.2 := by omega
    have hm := get_list_index_mono hge
    have hj := get_list_index_lt y.2
    have := findFitL_none hf (get_list_index y.2) hm (by omega) y (h.lists.mem_self hy)
    omega
  | some y =>
    left
    obtain ⟨j, h1, h2, h3, h4⟩ := findFitL_some hf
    exact ⟨y, rfl, h.lists.mem_FB (by omega) h3, h4⟩

/-! ## `extend_heap` -/

theorem mem_sbrk_some {s : Heap} {incr : Nat} (h1 : incr < 2 ^ 31)
    (h2 : s.brk + incr ≤ s.limit) :
    mem_sbrk s incr = some (s.base + s.brk, { s with brk := s.brk + incr }) := by
  unfold mem_sbrk
  rw [if_pos ⟨h1, h2⟩]

theorem mem_sbrk_none {s : Heap} {incr : Nat} (h : ¬ (incr < 2 ^ 31 ∧ s.brk + incr ≤ s.limit)) :
    mem_sbrk s incr = none := by
  unfold mem_sbrk
  simp only [h, if_false]

theorem extend_heap_fail (fuel : Nat) (s : Heap) (words : Nat)
    (h : mem_sbrk s (extSize words) = none) : extend_heap fuel s words = some (s, 0) := by
  unfold extend_heap
  simp only [extSize] at h
  simp only [h]

theorem extend_heap_eval (fuel : Nat) (s : Heap) (words size : Nat) (hsz : extSize words = size)
    (h1 : size < 2 ^ 31) (h2 : s.brk + size ≤ s.limit) (h8 : size % 8 = 0) (h16 : 16 ≤ size)
    (hb : 4 ≤ s.base + s.brk) (s4 s5 : Heap) (cbp : Nat)
    (hco : coalesce { s with brk := s.brk + size, mem := PUT (PUT (PUT s.mem
          (s.base + s.brk - 4) (PACK size 0))
          (s.base + s.brk + size - 8) (PACK size 0)) (s.base + s.brk + size - 4) (PACK 0 1) }
        (s.base + s.brk) = (s4, cbp))
    (hin : insert_node fuel s4 cbp (GET_SIZE s4.mem (HDRP cbp)) = some s5) :
    extend_heap fuel s words = some (s5, cbp) := by
  have hP1 := (GET_PUT_PACK s.mem (s.base + s.brk - 4) size 0 h8 (by omega) (by omega)).2
  have hP2 : GET_SIZE (PUT (PUT s.mem (s.base + s.brk - 4) (PACK size 0))
      (s.base + s.brk + size - 8) (PACK size 0)) (s.base + s.brk - 4) = size := by
    simp only [GET_SIZE]
    rw [GET_PUT_ne _ _ _ _ (by omega)]
    exact hP1
  have hsb := mem_sbrk_some (s := s) h1 h2
  unfold extend_heap
  simp only [extSize] at hsz
  simp only [hsz, hsb]
  simp only [FTRP, HDRP, NEXT_BLKP, WSIZE, DSIZE, put_mem, hP1, hP2]
  have e : (put (put (put { s with brk := s.brk + size } (s.base + s.brk - 4) (PACK size 0))
      (s.base + s.brk + size - 8) (PACK size 0)) (s.base + s.brk + size - 4) (PACK 0 1)) =
      { s with brk := s.brk + size, mem := PUT (PUT (PUT s.mem
          (s.base + s.brk - 4) (PACK size 0))
          (s.base + s.brk + size - 8) (PACK size 0)) (s.base + s.brk + size - 4) (PACK 0 1) } :=
    rfl
  rw [e, hco]
  simp only [HDRP, WSIZE] at hin
  simp only [hin]

theorem prevFree_keep (m : Mem) (bp : Nat) (bl : List Blk) (h : Tiles m bp bl) :
    total (preKeep bl) + prevFree bl = total bl ∧ (prevFree bl = 0 ∨ 16 ≤ prevFree bl) ∧
      prevFree bl % 8 = 0 := by
  rcases List.eq_nil_or_concat bl with rfl | ⟨pre1, c, hc⟩
  · simp [preKeep, prevFree, total]
  · rw [List.concat_eq_append] at hc
    subst hc
    have hs := Tiles_size h c (by simp)
    have := prevFree_concat pre1 c
    rw [this.1, this.2, total_snoc]
    split
    · exact ⟨rfl, Or.inr hs.2, hs.1⟩
    · exact ⟨by rw [total_snoc]; omega, Or.inl rfl, rfl⟩

/-- Growing the region: the new bytes become a free block, merged with a free
block that ended at the old epilogue, and listed. -/
theorem Rep.extend_heap_spec {s : Heap} {bl : List Blk} {L : Nat → List (Nat × Nat)}
    (h : Rep s bl L) (hU : ∀ c, c ∈ bl → c.2 ≠ Tag.U) {fuel : Nat} {words size : Nat}
    (hsz : extSize words = size) (h1 : size < 2 ^ 31) (h2 : s.brk + size ≤ s.limit)
    (h8 : size % 8 = 0) (h16 : 16 ≤ size) (hfuel : s.brk + size ≤ fuel) :
    ∃ s1, extend_heap fuel s words = some (s1, s.base + 96 + total (preKeep bl)) ∧
      Rep s1 (preKeep bl ++ [(prevFree bl + size, Tag.F)])
        (insertL (coalesceL L (s.base + s.brk) bl size [])
          (s.base + 96 + total (preKeep bl), prevFree bl + size)) ∧
      Step s bl s1 (preKeep bl ++ [(prevFree bl + size, Tag.F)]) ∧
      s1.brk = s.brk + size := by
  have hsize := h.size
  have hfits := h.fits
  have hfr : ∀ a, a + 4 < s.base + s.brk →
      PUT (PUT (PUT s.mem (s.base + s.brk - 4) (PACK size 0))
          (s.base + s.brk + size - 8) (PACK size 0)) (s.base + s.brk + size - 4) (PACK 0 1) a =
        s.mem a := by
    intro a ha
    rw [PUT_other _ _ _ _ (by omega), PUT_other _ _ _ _ (by omega), PUT_other _ _ _ _ (by omega)]
  have hP0 : PACK 0 1 = 1 := by decide
  have hR := h.extend h8 h16 h2 hfr
    (by
      rw [GET_PUT_ne _ _ _ _ (by omega), GET_PUT_ne _ _ _ _ (by omega)]
      simpa using (GET_PUT_PACK s.mem (s.base + s.brk - 4) size 0 h8 (by omega) (by omega)).1)
    (by
      rw [GET_PUT_ne _ _ _ _ (by omega)]
      simpa using (GET_PUT_PACK (PUT s.mem (s.base + s.brk - 4) (PACK size 0))
        (s.base + s.brk + size - 8) size 0 h8 (by omega) (by omega)).1)
    (by
      rw [hP0]
      exact GET_PUT_same _ _ _ (by omega))
  have hS : Step s bl { s with brk := s.brk + size, mem := PUT (PUT (PUT s.mem
          (s.base + s.brk - 4) (PACK size 0))
          (s.base + s.brk + size - 8) (PACK size 0)) (s.base + s.brk + size - 4) (PACK 0 1) }
      (bl ++ [(size, Tag.U)]) := h.extend_step hfr
  have e : s.base + 96 + total bl = s.base + s.brk := by omega
  obtain ⟨s4, hco, hR4, hS4, hk4⟩ := Rep.coalesce_spec hR hU (by simp)
  simp only [nextFree, postKeep, Nat.add_zero, e] at hco hR4 hS4
  have hf4 : s4.brk ≤ fuel := by rw [hk4]; exact hfuel
  obtain ⟨s5, hin, hR5, hS5, hk5⟩ := hR4.insert_step hf4
  have hb4 : s4.base = s.base := hS4.base
  rw [hb4] at hin hR5
  have hrd := hR4.read.1
  rw [hb4] at hrd
  simp only at hrd
  rw [← hrd] at hin
  have hev := extend_heap_eval fuel s words size hsz h1 h2 h8 h16 (by omega) s4 s5 _ hco hin
  exact ⟨s5, hev, hR5, (hS.trans hS4).trans hS5, by rw [hk5, hk4]⟩

/-! ## Stability of pictures -/

theorem Stable_mid_iff {P Q : List Blk} {x : Nat} {t : Tag} :
    Stable (P ++ (x, t) :: Q) ↔
      Stable P ∧ Stable Q ∧ t ≠ Tag.U ∧ (t = Tag.A ∨ (endsA P ∧ startsA Q)) := by
  unfold Stable endsA startsA
  rw [List.chain'_split, List.chain'_append]
  constructor
  · rintro ⟨hU, ⟨hP, -, hl⟩, hQ⟩
    refine ⟨⟨fun b hb => hU b (by simp [hb]), hP⟩,
      ⟨fun b hb => hU b (by simp [hb]), hQ.tail⟩, hU (x, t) (by simp), ?_⟩
    by_cases ht : t = Tag.A
    · exact Or.inl ht
    · right
      constructor
      · intro y hy
        rcases hl y hy (x, t) (by simp) with h | h
        · exact h
        · exact absurd h ht
      · intro y hy
        cases Q with
        | nil => simp at hy
        | cons q Q =>
          simp only [List.head?_cons, Option.mem_def, Option.some.injEq] at hy
          subst hy
          rcases (List.chain'_cons.1 hQ).1 with h | h
          · exact absurd h ht
          · exact h
  · rintro ⟨⟨hUP, hP⟩, ⟨hUQ, hQ⟩, htU, ht⟩
    refine ⟨?_, ⟨hP, List.chain'_singleton _, ?_⟩, ?_⟩
    · intro b hb
      simp only [List.mem_append, List.mem_cons] at hb
      rcases hb with hb | rfl | hb
      · exact hUP b hb
      · exact htU
      · exact hUQ b hb
    · intro y hy z hz
      simp only [List.head?_cons, Option.mem_def, Option.some.injEq] at hz
      subst hz
      rcases ht with h | h
      · exact Or.inr h
      · exact Or.inl (h.1 y hy)
    · refine hQ.cons' ?_
      intro y hy
      rcases ht with h | h
      · exact Or.inl h
      · exact Or.inr (h.2 y hy)

theorem Stable_nil : Stable [] := by
  constructor
  · intro b hb; simp at hb
  · exact List.chain'_nil

theorem endsA_nil : endsA [] := by
  intro x hx; simp at hx

theorem startsA_nil : startsA [] := by
  intro x hx; simp at hx

theorem endsA_snoc (P : List Blk) (b : Blk) : endsA (P ++ [b]) ↔ b.2 = Tag.A := by
  unfold endsA
  simp

theorem startsA_cons (b : Blk) (Q : List Blk) : startsA (b :: Q) ↔ b.2 = Tag.A := by
  unfold startsA
  simp

theorem Stable_cons {x : Nat} {t : Tag} {Q : List Blk} :
    Stable ((x, t) :: Q) ↔ Stable Q ∧ t ≠ Tag.U ∧ (t = Tag.A ∨ startsA Q) := by
  have := Stable_mid_iff (P := []) (Q := Q) (x := x) (t := t)
  simp only [List.nil_append] at this
  rw [this]
  simp [Stable_nil, endsA_nil]

theorem Stable_snoc {x : Nat} {t : Tag} {P : List Blk} :
    Stable (P ++ [(x, t)]) ↔ Stable P ∧ t ≠ Tag.U ∧ (t = Tag.A ∨ endsA P) := by
  rw [Stable_mid_iff]
  simp [Stable_nil, startsA_nil]

theorem Stable.preKeep {P : List Blk} (h : Stable P) : Stable (preKeep P) ∧ endsA (preKeep P) := by
  rcases List.eq_nil_or_concat P with rfl | ⟨P1, c, hc⟩
  · exact ⟨by simpa [MM.preKeep] using Stable_nil, by simpa [MM.preKeep] using endsA_nil⟩
  · rw [List.concat_eq_append] at hc
    subst hc
    obtain ⟨x, t⟩ := c
    have h1 := Stable_snoc.1 h
    rw [(prevFree_concat P1 (x, t)).2]
    cases t with
    | A => exact ⟨by simpa using h, by simpa using (endsA_snoc P1 (x, Tag.A)).2 rfl⟩
    | F =>
      simp only [if_true]
      rcases h1.2.2 with h2 | h2
      · exact absurd h2 (by simp)
      · exact ⟨h1.1, h2⟩
    | U => exact absurd rfl h1.2.1

theorem Stable.postKeep {Q : List Blk} (h : Stable Q) :
    Stable (postKeep Q) ∧ startsA (postKeep Q) := by
  cases Q with
  | nil => exact ⟨by simpa [MM.postKeep] using Stable_nil, by simpa [MM.postKeep] using startsA_nil⟩
  | cons c Q =>
    obtain ⟨x, t⟩ := c
    have h1 := Stable_cons.1 h
    cases t with
    | A => exact ⟨by simpa [MM.postKeep] using h, by simp [MM.postKeep, startsA_cons]⟩
    | F =>
      simp only [MM.postKeep]
      rcases h1.2.2 with h2 | h2
      · exact absurd h2 (by simp)
      · exact ⟨h1.1, h2⟩
    | U => exact absurd rfl h1.2.1

/-- A free block with merged neighbours fits between what the merge kept. -/
theorem Stable.merged {P Q : List Blk} (hP : Stable P) (hQ : Stable Q) (x : Nat) :
    Stable (MM.preKeep P ++ (x, Tag.F) :: MM.postKeep Q) :=
  Stable_mid_iff.2 ⟨hP.preKeep.1, hQ.postKeep.1, by simp, Or.inr ⟨hP.preKeep.2, hQ.postKeep.2⟩⟩

theorem Stable.placeBlocks {P Q : List Blk} {S : Nat} (h : Stable (P ++ (S, Tag.F) :: Q))
    (asize : Nat) : Stable (MM.placeBlocks P S asize Q) := by
  obtain ⟨hP, hQ, -, h3⟩ := Stable_mid_iff.1 h
  have h4 : endsA P ∧ startsA Q := by
    rcases h3 with h3 | h3
    · exact absurd h3 (by simp)
    · exact h3
  unfold MM.placeBlocks
  split
  · exact Stable_mid_iff.2 ⟨hP, hQ, by simp, Or.inl rfl⟩
  · split
    · refine Stable_mid_iff.2 ⟨hP, Stable_cons.2 ⟨hQ, by simp, Or.inl rfl⟩, by simp,
        Or.inr ⟨h4.1, by simp [startsA_cons]⟩⟩
    · have : P ++ (asize, Tag.A) :: (S - asize, Tag.F) :: Q =
          (P ++ [(asize, Tag.A)]) ++ (S - asize, Tag.F) :: Q := by simp
      rw [this]
      refine Stable_mid_iff.2 ⟨Stable_snoc.2 ⟨hP, by simp, Or.inl rfl⟩, hQ, by simp,
        Or.inr ⟨by simp [endsA_snoc], h4.2⟩⟩

/-! ## `mm_free` -/

theorem mm_free_eval (fuel : Nat) (s : Heap) (bp sz : Nat) (hbp : 4 ≤ bp)
    (hsz : GET_SIZE s.mem (HDRP bp) = sz) (h8 : sz % 8 = 0) (hlt : sz + 8 ≤ 2 ^ 32)
    (s3 : Heap) (m : Nat)
    (hco : coalesce (put (put s (bp - 4) (PACK sz 0)) (bp + sz - 8) (PACK sz 0)) bp = (s3, m)) :
    mm_free fuel s bp = insert_node fuel s3 m (GET_SIZE s3.mem (HDRP m)) := by
  have hP1 := (GET_PUT_PACK s.mem (bp - 4) sz 0 h8 hlt (by omega)).2
  unfold mm_free
  rw [if_neg (by omega)]
  simp only [HDRP, WSIZE] at hsz
  simp only [FTRP, HDRP, WSIZE, DSIZE, put_mem, hsz, hP1, hco]

/-- Freeing an allocated block: it is merged with its free neighbours and the
merged block is listed. -/
theorem Rep.free_spec {s : Heap} {pre post : List Blk} {sz : Nat}
    {L : Nat → List (Nat × Nat)} (h : Rep s (pre ++ (sz, Tag.A) :: post) L)
    (hpre : ∀ c, c ∈ pre → c.2 ≠ Tag.U) (hpost : ∀ c, c ∈ post → c.2 ≠ Tag.U)
    {fuel : Nat} (hfuel : s.brk ≤ fuel) :
    ∃ s1, mm_free fuel s (s.base + 96 + total pre) = some s1 ∧
      Rep s1 (preKeep pre ++ (prevFree pre + sz + nextFree post, Tag.F) :: postKeep post)
        (insertL (coalesceL L (s.base + 96 + total pre) pre sz post)
          (s.base + 96 + total (preKeep pre), prevFree pre + sz + nextFree post)) ∧
      Step s (pre ++ (sz, Tag.U) :: post) s1
        (preKeep pre ++ (prevFree pre + sz + nextFree post, Tag.F) :: postKeep post) ∧
      s1.brk = s.brk := by
  obtain ⟨h8, h16, htot, hle, -, -⟩ := h.block
  have hrd := h.read.1
  simp only at hrd h8 h16 hle htot
  have hfits := h.fits
  have hbl := h.brk_le
  obtain ⟨hR2, hS2⟩ := h.retag (t := Tag.U) (by simp) (by simp) rfl
  have hab : abit Tag.U = 0 := by decide
  rw [hab] at hR2 hS2
  obtain ⟨s3, hco, hR3, hS3, hk3⟩ := Rep.coalesce_spec hR2 hpre hpost
  simp only [put_base, put_brk] at hco hR3 hS3 hk3
  have hf3 : s3.brk ≤ fuel := by rw [hk3]; exact hfuel
  obtain ⟨s4, hin, hR4, hS4, hk4⟩ := hR3.insert_step hf3
  have hb3 : s3.base = s.base := hS3.base
  rw [hb3] at hin hR4
  have hrd3 := hR3.read.1
  rw [hb3] at hrd3
  simp only at hrd3
  rw [← hrd3] at hin
  have hev := mm_free_eval fuel s (s.base + 96 + total pre) sz (by omega) hrd h8 (by omega)
    s3 _ hco
  exact ⟨s4, by rw [hev]; exact hin, hR4, hS2.trans (hS3.trans hS4), by rw [hk4, hk3]⟩

/-! ## The adjusted size -/

theorem ALIGN_eq (x : Nat) (h : x + 8 ≤ 2 ^ 32) : ALIGN x = x + 7 - (x + 7) % 8 := by
  unfold ALIGN
  have h1 : (x + (ALIGNMENT - 1)) % WORD = x + 7 := by
    simp only [ALIGNMENT, WORD]
    omega
  rw [h1]
  exact and_MASK _ (by omega)

theorem adjust_size_spec {size : Nat} (h0 : 0 < size) (hr : InRange size) :
    adjust_size size % 8 = 0 ∧ 16 ≤ adjust_size size ∧ size + 8 ≤ adjust_size size ∧
      adjust_size size < size + 16 ∧ adjust_size size + 8 ≤ 2 ^ 32 := by
  unfold InRange WORD at hr
  unfold adjust_size
  simp only [DSIZE]
  split
  · omega
  · have h1 : (size + 8) % WORD = size + 8 := by
      simp only [WORD]
      omega
    rw [h1, ALIGN_eq _ (by omega)]
    omega

theorem MAX_spec (a : Nat) (h8 : a % 8 = 0) :
    a ≤ MAX a CHUNKSIZE ∧ 1024 ≤ MAX a CHUNKSIZE ∧ MAX a CHUNKSIZE % 8 = 0 ∧
      (MAX a CHUNKSIZE = a ∨ MAX a CHUNKSIZE = 1024) := by
  have hc : CHUNKSIZE = 1024 := by decide
  unfold MAX
  rw [hc]
  split <;> omega

theorem extSize_words (eb : Nat) (h8 : eb % 8 = 0) (hlt : eb < 2 ^ 32) :
    extSize (eb / WSIZE) = eb := by
  unfold extSize
  simp only [WSIZE, WORD]
  have : eb / 4 % 2 = 0 := by omega
  rw [if_neg (by omega)]
  omega

/-! ## The segregated search picks the best fit of the lowest class -/

theorem find_sorted {l : List (Nat × Nat)} {asize : Nat} {y : Nat × Nat}
    (hs : l.Pairwise (fun x y => x.2 ≤ y.2))
    (h : l.find? (fun y => decide (asize ≤ y.2)) = some y) :
    ∀ z, z ∈ l → asize ≤ z.2 → y.2 ≤ z.2 := by
  induction l with
  | nil => simp at h
  | cons a t ih =>
    rw [List.pairwise_cons] at hs
    intro z hz hfit
    by_cases ha : asize ≤ a.2
    · have : y = a := by
        rw [List.find?_cons_of_pos _ (by simpa using ha)] at h
        exact (Option.some.inj h).symm
      subst this
      rcases List.mem_cons.1 hz with rfl | hz
      · exact Nat.le_refl _
      · exact hs.1 z hz
    · rw [List.find?_cons_of_neg _ (by simpa using ha)] at h
      rcases List.mem_cons.1 hz with rfl | hz
      · exact absurd hfit ha
      · exact ih hs.2 h z hz hfit

theorem findFitL_first {L : Nat → List (Nat × Nat)} {asize n i : Nat} {y : Nat × Nat}
    (hs : ∀ j, j < i + n → (L j).Pairwise (fun x y => x.2 ≤ y.2))
    (h : findFitL L asize n i = some y) :
    ∃ j, i ≤ j ∧ j < i + n ∧ y ∈ L j ∧ asize ≤ y.2 ∧
      (∀ k, i ≤ k → k < j → ∀ z, z ∈ L k → z.2 < asize) ∧
      ∀ z, z ∈ L j → asize ≤ z.2 → y.2 ≤ z.2 := by
  induction n generalizing i with
  | zero => simp [findFitL] at h
  | succ n ih =>
    simp only [findFitL] at h
    cases hfind : (L i).find? (fun y => decide (asize ≤ y.2)) with
    | none =>
      rw [hfind] at h
      obtain ⟨j, h1, h2, h3, h4, h5, h6⟩ := ih (fun j hj => hs j (by omega)) h
      refine ⟨j, by omega, by omega, h3, h4, ?_, h6⟩
      intro k hk1 hk2 z hz
      by_cases hki : k = i
      · subst hki
        have := List.find?_eq_none.1 hfind z hz
        simpa using this
      · exact h5 k (by omega) hk2 z hz
    | some z =>
      rw [hfind] at h
      simp only [Option.some.injEq] at h
      subst h
      have := List.find?_some hfind
      exact ⟨i, Nat.le_refl _, by omega, List.mem_of_find?_eq_some hfind, by simpa using this,
        fun k hk1 hk2 => by omega, find_sorted (hs i (by omega)) hfind⟩

theorem Lists.bestFit {m : Mem} {base : Nat} {FB : List (Nat × Nat)}
    {L : Nat → List (Nat × Nat)} (h : Lists m base FB L) {asize : Nat} {y : Nat × Nat}
    (hy : findFitL L asize (SEGLIST_CNT - get_list_index asize) (get_list_index asize) = some y) :
    BestFit FB asize y := by
  have hlt := get_list_index_lt asize
  obtain ⟨j, h1, h2, h3, h4, h5, h6⟩ := findFitL_first
    (fun j hj => h.sorted j (by omega)) hy
  have hj : j < SEGLIST_CNT := by omega
  have hyj := (h.mem_iff j hj y).1 h3
  refine ⟨hyj.1, h4, ?_⟩
  intro z hz hfit
  have hk := get_list_index_lt z.2
  have hzk := (h.mem_iff _ hk z).2 ⟨hz, rfl⟩
  have hmono := get_list_index_mono hfit
  rw [hyj.2]
  by_cases hkj : get_list_index z.2 < j
  · have := h5 _ hmono hkj z hzk
    omega
  · by_cases hkj2 : get_list_index z.2 = j
    · right
      rw [hkj2] at hzk
      exact ⟨hkj2, h6 z hzk hfit⟩
    · left
      omega

/-! ## `mm_malloc` -/

theorem mm_malloc_fit {fuel : Nat} {s : Heap} {size bp : Nat} (h0 : size ≠ 0)
    (hff : find_fit fuel s (adjust_size size) = some bp) (hbp : bp ≠ 0) :
    mm_malloc fuel s size = place fuel s bp (adjust_size size) := by
  unfold mm_malloc
  rw [if_neg h0]
  simp only [hff, if_neg hbp]

theorem mm_malloc_grow {fuel : Nat} {s s1 : Heap} {size bp1 : Nat} (h0 : size ≠ 0)
    (hff : find_fit fuel s (adjust_size size) = some 0)
    (hex : extend_heap fuel s (MAX (adjust_size size) CHUNKSIZE / WSIZE) = some (s1, bp1))
    (hbp : bp1 ≠ 0) :
    mm_malloc fuel s size = place fuel s1 bp1 (adjust_size size) := by
  unfold mm_malloc
  rw [if_neg h0]
  simp only [hff, if_true, hex, if_neg hbp]

theorem mm_malloc_fail {fuel : Nat} {s s1 : Heap} {size : Nat} (h0 : size ≠ 0)
    (hff : find_fit fuel s (adjust_size size) = some 0)
    (hex : extend_heap fuel s (MAX (adjust_size size) CHUNKSIZE / WSIZE) = some (s1, 0)) :
    mm_malloc fuel s size = some (s1, 0) := by
  unfold mm_malloc
  rw [if_neg h0]
  simp only [hff, if_true, hex]

/-- `mm_malloc` when the search finds a node: the block is carved out of it. -/
theorem Rep.malloc_fit {s : Heap} {bl : List Blk} {L : Nat → List (Nat × Nat)}
    (h : Rep s bl L) {fuel : Nat} (hfuel : s.brk ≤ fuel) {size : Nat} (h0 : 0 < size)
    (hr : InRange size) {y : Nat × Nat}
    (hy : findFitL L (adjust_size size) (SEGLIST_CNT - get_list_index (adjust_size size))
      (get_list_index (adjust_size size)) = some y) :
    ∃ pre post s1, bl = pre ++ (y.2, Tag.F) :: post ∧ y.1 = s.base + 96 + total pre ∧
      BestFit (flist (s.base + 96) bl) (adjust_size size) y ∧
      mm_malloc fuel s size = some (s1, placePtr y.1 y.2 (adjust_size size)) ∧
      Rep s1 (placeBlocks pre y.2 (adjust_size size) post)
        (placeL L y.1 y.2 (adjust_size size)) ∧
      Step s bl s1 (placeBlocks pre y.2 (adjust_size size) post) ∧ s1.brk = s.brk := by
  obtain ⟨ha8, ha16, -, -, -⟩ := adjust_size_spec h0 hr
  have hbf := h.lists.bestFit hy
  obtain ⟨hff, -⟩ := h.find_fit_spec hfuel (adjust_size size)
  rw [hy] at hff
  simp only [ptrOf] at hff
  obtain ⟨pre, post, hbl, hy1⟩ := mem_flist.1 hbf.1
  subst hbl
  have hne : y.1 ≠ 0 := by omega
  obtain ⟨s1, hpl, hR1, hS1, hk1⟩ := h.place_spec hfuel ha8 ha16 hbf.2.1
  rw [← hy1] at hpl hR1
  exact ⟨pre, post, s1, rfl, hy1, hbf, by rw [mm_malloc_fit (by omega) hff hne, hpl], hR1, hS1,
    hk1⟩

/-- `mm_malloc` when no listed block fits and the provider has no room: the
call returns `NULL` and leaves the state as it was. -/
theorem Rep.malloc_fail {s : Heap} {bl : List Blk} {L : Nat → List (Nat × Nat)}
    (h : Rep s bl L) {fuel : Nat} (hfuel : s.brk ≤ fuel) {size : Nat} (h0 : 0 < size)
    (hr : InRange size)
    (hy : findFitL L (adjust_size size) (SEGLIST_CNT - get_list_index (adjust_size size))
      (get_list_index (adjust_size size)) = none)
    (hno : ¬ (MAX (adjust_size size) CHUNKSIZE < 2 ^ 31 ∧
      s.brk + MAX (adjust_size size) CHUNKSIZE ≤ s.limit)) :
    mm_malloc fuel s size = some (s, 0) := by
  obtain ⟨ha8, ha16, -, -, halt⟩ := adjust_size_spec h0 hr
  obtain ⟨hm1, hm2, hm8, hm⟩ := MAX_spec (adjust_size size) ha8
  obtain ⟨hff, -⟩ := h.find_fit_spec hfuel (adjust_size size)
  rw [hy] at hff
  simp only [ptrOf] at hff
  have hsz := extSize_words (MAX (adjust_size size) CHUNKSIZE) hm8 (by omega)
  have hsb : mem_sbrk s (extSize (MAX (adjust_size size) CHUNKSIZE / WSIZE)) = none := by
    rw [hsz]
    exact mem_sbrk_none hno
  exact mm_malloc_fail (by omega) hff (extend_heap_fail fuel s _ hsb)

/-- `mm_malloc` when no listed block fits and the provider has room: the region
grows by `max(asize, CHUNKSIZE)` bytes and the block is carved out of the free
block at its end. -/
theorem Rep.malloc_grow {s : Heap} {bl : List Blk} {L : Nat → List (Nat × Nat)}
    (h : Rep s bl L) (hU : ∀ c, c ∈ bl → c.2 ≠ Tag.U) {fuel : Nat} (hfuel : s.limit ≤ fuel)
    {size : Nat} (h0 : 0 < size) (hr : InRange size)
    (hy : findFitL L (adjust_size size) (SEGLIST_CNT - get_list_index (adjust_size size))
      (get_list_index (adjust_size size)) = none)
    (h1 : MAX (adjust_size size) CHUNKSIZE < 2 ^ 31)
    (h2 : s.brk + MAX (adjust_size size) CHUNKSIZE ≤ s.limit) :
    ∃ s1 L1, mm_malloc fuel s size = some (s1, placePtr (s.base + 96 + total (preKeep bl))
        (prevFree bl + MAX (adjust_size size) CHUNKSIZE) (adjust_size size)) ∧
      Rep s1 (placeBlocks (preKeep bl) (prevFree bl + MAX (adjust_size size) CHUNKSIZE)
        (adjust_size size) []) L1 ∧
      Step s bl s1 (placeBlocks (preKeep bl) (prevFree bl + MAX (adjust_size size) CHUNKSIZE)
        (adjust_size size) []) ∧
      s1.brk = s.brk + MAX (adjust_size size) CHUNKSIZE := by
  obtain ⟨ha8, ha16, -, -, halt⟩ := adjust_size_spec h0 hr
  obtain ⟨hm1, hm2, hm8, hm⟩ := MAX_spec (adjust_size size) ha8
  have hbl := h.brk_le
  obtain ⟨hff, -⟩ := h.find_fit_spec (Nat.le_trans hbl hfuel) (adjust_size size)
  rw [hy] at hff
  simp only [ptrOf] at hff
  have hsz := extSize_words (MAX (adjust_size size) CHUNKSIZE) hm8 (by omega)
  have hfe : s.brk + MAX (adjust_size size) CHUNKSIZE ≤ fuel := by omega
  obtain ⟨s1, hex, hR1, hS1, hk1⟩ := h.extend_heap_spec hU hsz h1 h2 hm8 (by omega) hfe
  have hb1 : s1.base = s.base := hS1.base
  have hl1 : s1.limit = s.limit := hS1.limit
  have hf1 : s1.brk ≤ fuel := by omega
  obtain ⟨s2, hpl, hR2, hS2, hk2⟩ := hR1.place_spec hf1 ha8 ha16
    (Nat.le_trans hm1 (Nat.le_add_left _ _))
  rw [hb1] at hpl hR2
  have hne : s.base + 96 + total (preKeep bl) ≠ 0 := by omega
  refine ⟨s2, _, ?_, hR2, hS1.trans hS2, by rw [hk2, hk1]⟩
  rw [mm_malloc_grow (by omega) hff hex hne, hpl]

/-! ## `mm_init` -/

theorem init_heads_fields (n : Nat) (s : Heap) :
    (init_heads n s).base = s.base ∧ (init_heads n s).brk = s.brk ∧
      (init_heads n s).limit = s.limit ∧
      (init_heads n s).seg_free_lists = s.seg_free_lists := by
  induction n generalizing s with
  | zero => exact ⟨rfl, rfl, rfl, rfl⟩
  | succ n ih =>
    have := ih (setHead s (SEGLIST_CNT - (n + 1)) 0)
    simpa [init_heads] using this

theorem init_heads_frame (n : Nat) (s : Heap) (hn : n ≤ 20) (a : Nat)
    (ha : a < s.seg_free_lists + 4 * (20 - n) ∨ s.seg_free_lists + 80 ≤ a) :
    (init_heads n s).mem a = s.mem a := by
  induction n generalizing s with
  | zero => rfl
  | succ n ih =>
    simp only [init_heads]
    rw [ih _ (by omega) (by simp only [setHead_seg]; omega)]
    simp only [setHead_mem, SEGLIST_CNT]
    exact PUT_other _ _ _ _ (by omega)

theorem init_heads_get (n : Nat) (s : Heap) (hn : n ≤ 20) (i : Nat) (h1 : 20 - n ≤ i)
    (h2 : i < 20) : GET (init_heads n s).mem (s.seg_free_lists + 4 * i) = 0 := by
  induction n generalizing s with
  | zero => omega
  | succ n ih =>
    simp only [init_heads]
    by_cases hi : i = 20 - (n + 1)
    · have : GET (init_heads n (setHead s (SEGLIST_CNT - (n + 1)) 0)).mem
          (s.seg_free_lists + 4 * i) =
          GET (setHead s (SEGLIST_CNT - (n + 1)) 0).mem (s.seg_free_lists + 4 * i) :=
        GET_congr (fun a ha1 ha2 => init_heads_frame n _ (by omega) a
          (by simp only [setHead_seg]; omega))
      rw [this]
      simp only [setHead_mem, SEGLIST_CNT]
      rw [hi]
      exact GET_PUT_same _ _ _ (by omega)
    · have := ih (setHead s (SEGLIST_CNT - (n + 1)) 0) (by omega) (by omega)
      simpa using this

theorem mm_init_eval (fuel : Nat) (s : Heap) (h : s.brk + 96 ≤ s.limit) :
    mm_init fuel s =
      match extend_heap fuel (initState s) (CHUNKSIZE / WSIZE) with
      | none => none
      | some (s7, p) => if p = 0 then some (s7, -1) else some (s7, 0) := by
  have hsb : mem_sbrk s ((SEGLIST_CNT + 4) * PTRSIZE) =
      some (s.base + s.brk, { s with brk := s.brk + 96 }) :=
    mem_sbrk_some (by decide) h
  unfold mm_init
  rw [hsb]
  rfl

theorem mm_init_nomem (fuel : Nat) (s : Heap) (h : ¬ s.brk + 96 ≤ s.limit) :
    mm_init fuel s = some (s, -1) := by
  have hsb : mem_sbrk s ((SEGLIST_CNT + 4) * PTRSIZE) = none :=
    mem_sbrk_none (by
      intro hc
      exact h hc.2)
  unfold mm_init
  rw [hsb]

theorem initState_fields (s : Heap) :
    (initState s).base = s.base ∧ (initState s).brk = s.brk + 96 ∧
      (initState s).limit = s.limit ∧ (initState s).seg_free_lists = s.base + s.brk := by
  have := init_heads_fields SEGLIST_CNT
    { s with brk := s.brk + 96, seg_free_lists := s.base + s.brk }
  simp only [initState, put_base, put_brk, put_limit, put_seg]
  exact this

theorem initState_frame (s : Heap) (a : Nat) (ha : a < s.base + s.brk ∨ s.base + s.brk + 96 ≤ a) :
    (initState s).mem a = s.mem a := by
  simp only [initState, put_mem, SEGLIST_CNT, PTRSIZE, WSIZE]
  rw [PUT_other _ _ _ _ (by omega), PUT_other _ _ _ _ (by omega), PUT_other _ _ _ _ (by omega),
    PUT_other _ _ _ _ (by omega)]
  exact init_heads_frame 20 _ (by omega) a (by simp only; omega)

/-- Before it extends the heap, `mm_init` has laid out empty lists, the
prologue and the epilogue: the state represents the empty picture. -/
theorem initState_rep (s : Heap) (h0 : s.brk = 0) (hal : s.base % 8 = 0)
    (hfits : s.base + s.limit ≤ 2 ^ 32) (hlim : 96 ≤ s.limit) :
    Rep (initState s) [] (fun _ => []) := by
  obtain ⟨hb, hk, hl, hsg⟩ := initState_fields s
  have hP9 : PACK DSIZE 1 = 9 := by decide
  have hP1 : PACK 0 1 = 1 := by decide
  have hm : (initState s).mem = PUT (PUT (PUT (PUT
      (init_heads SEGLIST_CNT { s with brk := s.brk + 96, seg_free_lists := s.base + s.brk }).mem
      (s.base + 80) 0) (s.base + 84) 9) (s.base + 88) 9) (s.base + 92) 1 := by
    simp only [initState, put_mem, SEGLIST_CNT, PTRSIZE, WSIZE, hP9, hP1, h0]
  refine ⟨by rw [hsg, hb, h0]; rfl, by rw [hb]; exact hal, by rw [hb, hl]; exact hfits,
    by rw [hk, hl]; omega, ?_, ?_, trivial, by rw [hk, h0]; rfl, ?_, ?_⟩
  · rw [hb, hm, GET_PUT_ne _ _ _ _ (by omega), GET_PUT_ne _ _ _ _ (by omega)]
    exact GET_PUT_same _ _ _ (by omega)
  · rw [hb, hm, GET_PUT_ne _ _ _ _ (by omega)]
    exact GET_PUT_same _ _ _ (by omega)
  · rw [hb, hk, hm, h0]
    exact GET_PUT_same _ _ _ (by omega)
  · refine ⟨?_, fun i _ => trivial, fun i _ x => by simp [flist], fun i _ => List.nodup_nil,
      fun i _ => List.Pairwise.nil⟩
    intro i hi
    simp only [SEGLIST_CNT] at hi
    rw [hb, hm, GET_PUT_ne _ _ _ _ (by omega), GET_PUT_ne _ _ _ _ (by omega),
      GET_PUT_ne _ _ _ _ (by omega), GET_PUT_ne _ _ _ _ (by omega)]
    have := init_heads_get 20 { s with brk := s.brk + 96, seg_free_lists := s.base + s.brk }
      (by omega) i (by omega) hi
    simp only [h0, Nat.add_zero] at this
    simpa [nextOf, SEGLIST_CNT, h0] using this

/-- A provider with room for the table, the prologue and the first chunk:
`mm_init` succeeds and leaves one free block of `CHUNKSIZE` bytes. -/
theorem mm_init_spec (fuel : Nat) (s : Heap) (h0 : s.brk = 0) (hal : s.base % 8 = 0)
    (hfits : s.base + s.limit ≤ 2 ^ 32) (hlim : 1120 ≤ s.limit) (hfuel : 1120 ≤ fuel) :
    ∃ s1 L1, mm_init fuel s = some (s1, 0) ∧ Rep s1 [(1024, Tag.F)] L1 ∧ s1.brk = 1120 ∧
      s1.base = s.base ∧ s1.limit = s.limit := by
  obtain ⟨hb, hk, hl, hsg⟩ := initState_fields s
  have hR := initState_rep s h0 hal hfits (by omega)
  have hsz : extSize (CHUNKSIZE / WSIZE) = 1024 := by decide
  have hfe : (initState s).brk + 1024 ≤ fuel := by omega
  obtain ⟨s1, hex, hR1, hS1, hk1⟩ := hR.extend_heap_spec (by simp) hsz (by omega)
    (by omega) (by omega) (by omega) hfe
  simp only [preKeep, prevFree, List.getLast?_nil, List.nil_append, Nat.zero_add] at hex hR1
  refine ⟨s1, _, ?_, hR1, by omega, by rw [hS1.base, hb], by rw [hS1.limit, hl]⟩
  rw [mm_init_eval fuel s (by omega), hex]
  simp only [total, Nat.add_zero]
  rw [if_neg (by omega)]

/-- A provider without that room: `mm_init` reports failure. -/
theorem mm_init_fail (fuel : Nat) (s : Heap) (h0 : s.brk = 0) (hlim : ¬ 1120 ≤ s.limit) :
    ∃ s1, mm_init fuel s = some (s1, -1) := by
  by_cases h96 : s.brk + 96 ≤ s.limit
  · obtain ⟨hb, hk, hl, hsg⟩ := initState_fields s
    have hsb : mem_sbrk (initState s) (extSize (CHUNKSIZE / WSIZE)) = none := by
      have hsz : extSize (CHUNKSIZE / WSIZE) = 1024 := by decide
      rw [hsz]
      exact mem_sbrk_none (by omega)
    refine ⟨initState s, ?_⟩
    rw [mm_init_eval fuel s h96, extend_heap_fail fuel _ _ hsb]
    rfl
  · exact ⟨s, mm_init_nomem fuel s h96⟩

/-! ## Allocated blocks of a picture -/

theorem alist_mid_F (bp : Nat) (pre post : List Blk) (sz : Nat) :
    alist bp (pre ++ (sz, Tag.F) :: post) = alist bp pre ++ alist (bp + total pre + sz) post := by
  rw [alist_append]
  simp [alist]

theorem alist_mid_U (bp : Nat) (pre post : List Blk) (sz : Nat) :
    alist bp (pre ++ (sz, Tag.U) :: post) = alist bp pre ++ alist (bp + total pre + sz) post := by
  rw [alist_append]
  simp [alist]

theorem alist_mid_A (bp : Nat) (pre post : List Blk) (sz : Nat) :
    alist bp (pre ++ (sz, Tag.A) :: post) =
      alist bp pre ++ (bp + total pre, sz) :: alist (bp + total pre + sz) post := by
  rw [alist_append]
  simp [alist]

theorem alist_placeBlocks (bp : Nat) (pre post : List Blk) (S asize : Nat) (hle : asize ≤ S) :
    alist bp (placeBlocks pre S asize post) =
      alist bp pre ++ (placePtr (bp + total pre) S asize, placeSize S asize) ::
        alist (bp + total pre + S) post := by
  unfold placeBlocks placePtr placeSize
  split
  · exact alist_mid_A bp pre post S
  · split
    · rw [alist_mid_F]
      have e : bp + total pre + (S - asize) + asize = bp + total pre + S := by omega
      simp [alist, e]
    · rw [alist_mid_A]
      have e : bp + total pre + asize + (S - asize) = bp + total pre + S := by omega
      simp [alist, e]

theorem alist_snoc_F (bp : Nat) (pre : List Blk) (sz : Nat) :
    alist bp (pre ++ [(sz, Tag.F)]) = alist bp pre := by
  rw [alist_mid_F]
  simp [alist]

theorem alist_preKeep (bp : Nat) (bl : List Blk) : alist bp (preKeep bl) = alist bp bl := by
  rcases List.eq_nil_or_concat bl with rfl | ⟨pre1, c, hc⟩
  · rfl
  · rw [List.concat_eq_append] at hc
    subst hc
    obtain ⟨x, t⟩ := c
    rw [(prevFree_concat pre1 (x, t)).2]
    cases t with
    | A => rfl
    | F => simp only [if_true]; rw [alist_snoc_F]
    | U => rfl

theorem alist_pairwise {m : Mem} {bp : Nat} {bl : List Blk} (h : Tiles m bp bl) :
    (alist bp bl).Pairwise (fun x y => x.1 + x.2 ≤ y.1) := by
  induction bl generalizing bp with
  | nil => exact List.Pairwise.nil
  | cons b t ih =>
    obtain ⟨h8, h16, -, -, ht⟩ := h
    have hrest := ih ht
    show (if b.2 = Tag.A then (bp, b.1) :: alist (bp + b.1) t else alist (bp + b.1) t).Pairwise _
    split
    · refine List.pairwise_cons.2 ⟨?_, hrest⟩
      intro y hy
      have := blist_bounds ht (alist_sub_blist hy)
      exact this.1
    · exact hrest

/-- A new allocated block at `q` joins the allocated blocks and no allocated
block was at `q` before. -/
theorem alist_insert {m : Mem} {bp : Nat} {bl1 : List Blk} (h : Tiles m bp bl1)
    {A1 A2 : List (Nat × Nat)} {q S : Nat} (hS : 16 ≤ S) (he : alist bp bl1 = A1 ++ (q, S) :: A2) :
    (∀ x, x ∈ alist bp bl1 ↔ x = (q, S) ∨ x ∈ A1 ++ A2) ∧ ∀ x, x ∈ A1 ++ A2 → x.1 ≠ q := by
  have hp := alist_pairwise h
  rw [he] at hp
  constructor
  · intro x
    rw [he]
    simp only [List.mem_append, List.mem_cons]
    tauto
  · intro x hx
    rw [List.pairwise_append] at hp
    obtain ⟨-, hp2, hp3⟩ := hp
    rw [List.pairwise_cons] at hp2
    rcases List.mem_append.1 hx with hx | hx
    · have := hp3 x hx (q, S) (by simp)
      have hx16 : 16 ≤ x.2 := by
        have : x ∈ alist bp bl1 := by rw [he]; simp [hx]
        exact (blist_bounds h (alist_sub_blist this)).2.2.1
      simp only at this
      omega
    · have := hp2.1 x hx
      simp only at this
      omega

theorem placeSize_spec {S asize : Nat} (hle : asize ≤ S) (ha16 : 16 ≤ asize) :
    asize ≤ placeSize S asize ∧ placeSize S asize ≤ S ∧ 16 ≤ placeSize S asize := by
  unfold placeSize
  split <;> omega

theorem placePtr_mod {p S asize : Nat} (hp : p % 8 = 0) (hS : S % 8 = 0) (ha : asize % 8 = 0) :
    placePtr p S asize % 8 = 0 := by
  unfold placePtr
  split
  · exact hp
  · split <;> omega

theorem placePtr_ge (p S asize : Nat) : p ≤ placePtr p S asize := by
  unfold placePtr
  split
  · exact Nat.le_refl _
  · split <;> omega

theorem Rep.placed {s s1 : Heap} {pre post : List Blk} {S asize : Nat}
    {L L1 : Nat → List (Nat × Nat)} (h : Rep s (pre ++ (S, Tag.F) :: post) L)
    (hst : Stable (pre ++ (S, Tag.F) :: post))
    (hR1 : Rep s1 (placeBlocks pre S asize post) L1) (hb : s1.base = s.base)
    (hS1 : Step s (pre ++ (S, Tag.F) :: post) s1 (placeBlocks pre S asize post))
    (ha8 : asize % 8 = 0) (ha16 : 16 ≤ asize) (hle : asize ≤ S) :
    Allocated s (pre ++ (S, Tag.F) :: post) s1 (placeBlocks pre S asize post)
      (placePtr (s.base + 96 + total pre) S asize) (placeSize S asize) := by
  obtain ⟨h8, h16, -, -, -, -⟩ := h.block
  simp only at h8 h16
  have hT := h.tiles
  rw [Tiles_append] at hT
  have hpm := Tiles_total_mod hT.1
  have hal := h.base_al
  have hge := placePtr_ge (s.base + 96 + total pre) S asize
  have hT1 := hR1.tiles
  rw [hb] at hT1
  have hi := alist_insert hT1 (placeSize_spec hle ha16).2.2
    (alist_placeBlocks (s.base + 96) pre post S asize hle)
  rw [← alist_mid_F] at hi
  exact ⟨by omega, placePtr_mod (by omega) h8 ha8, hst.placeBlocks asize, hS1, hi.1, hi.2⟩

/-- The contract of `mm_malloc` on a well-formed heap, for a request whose
adjusted size does not wrap: either no listed block fits and the provider has
no room, and then the call returns `NULL` and changes nothing; or it returns
a block of at least the adjusted size, taken from a listed block that fits
(the region keeps its size) or, when none fits, from the grown region. -/
theorem Rep.malloc_spec {s : Heap} {bl : List Blk} {L : Nat → List (Nat × Nat)}
    (h : Rep s bl L) (hst : Stable bl) {fuel : Nat} (hfuel : s.limit ≤ fuel) {size : Nat}
    (h0 : 0 < size) (hr : InRange size) :
    (mm_malloc fuel s size = some (s, 0) ∧
        (∀ y, y ∈ flist (s.base + 96) bl → y.2 < adjust_size size) ∧
        mem_sbrk s (MAX (adjust_size size) CHUNKSIZE) = none) ∨
      ∃ s1 bl1 q S, mm_malloc fuel s size = some (s1, q) ∧ WF s1 bl1 ∧
        Allocated s bl s1 bl1 q S ∧ adjust_size size ≤ S ∧
        ((s1.brk = s.brk ∧ ∃ y, BestFit (flist (s.base + 96) bl) (adjust_size size) y ∧
            q = placePtr y.1 y.2 (adjust_size size) ∧ S = placeSize y.2 (adjust_size size)) ∨
          (s1.brk = s.brk + MAX (adjust_size size) CHUNKSIZE ∧
            ∀ y, y ∈ flist (s.base + 96) bl → y.2 < adjust_size size)) := by
  obtain ⟨ha8, ha16, -, -, halt⟩ := adjust_size_spec h0 hr
  obtain ⟨hm1, hm2, hm8, hm⟩ := MAX_spec (adjust_size size) ha8
  have hbl := h.brk_le
  have hf : s.brk ≤ fuel := Nat.le_trans hbl hfuel
  obtain ⟨-, hcase⟩ := h.find_fit_spec hf (adjust_size size)
  rcases hcase with ⟨y, hy, -, -⟩ | ⟨hnone, hall⟩
  · right
    obtain ⟨pre, post, s1, hbl1, hy1, hbf, hmm, hR1, hS1, hk1⟩ := h.malloc_fit hf h0 hr hy
    subst hbl1
    have hA := h.placed hst hR1 hS1.base hS1 ha8 ha16 hbf.2.1
    rw [← hy1] at hA
    exact ⟨s1, _, _, _, hmm, ⟨hA.stable, _, hR1⟩, hA, (placeSize_spec hbf.2.1 ha16).1,
      Or.inl ⟨hk1, y, hbf, rfl, rfl⟩⟩
  · by_cases hroom : MAX (adjust_size size) CHUNKSIZE < 2 ^ 31 ∧
        s.brk + MAX (adjust_size size) CHUNKSIZE ≤ s.limit
    · right
      obtain ⟨s1, L1, hmm, hR1, hS1, hk1⟩ := h.malloc_grow hst.1 hfuel h0 hr hnone hroom.1
        hroom.2
      have hpk := prevFree_keep s.mem (s.base + 96) bl h.tiles
      -- the picture of the grown region, before the block is carved out
      have hle : adjust_size size ≤ prevFree bl + MAX (adjust_size size) CHUNKSIZE := by omega
      have hT1 := hR1.tiles
      rw [hS1.base] at hT1
      have hi := alist_insert hT1 (placeSize_spec hle ha16).2.2
        (alist_placeBlocks (s.base + 96) (preKeep bl)
          [] (prevFree bl + MAX (adjust_size size) CHUNKSIZE) (adjust_size size) hle)
      simp only [alist, List.append_nil] at hi
      rw [alist_preKeep] at hi
      have hTk : total (preKeep bl) % 8 = 0 := by
        have := Tiles_total_mod h.tiles
        omega
      have hal := h.base_al
      have hge := placePtr_ge (s.base + 96 + total (preKeep bl))
        (prevFree bl + MAX (adjust_size size) CHUNKSIZE) (adjust_size size)
      have hstk : Stable (preKeep bl ++ [(prevFree bl + MAX (adjust_size size) CHUNKSIZE,
          Tag.F)]) := by
        have := hst.merged Stable_nil (prevFree bl + MAX (adjust_size size) CHUNKSIZE)
        simpa [postKeep] using this
      exact ⟨s1, _, _, _, hmm, ⟨hstk.placeBlocks _, _, hR1⟩,
        ⟨by omega, placePtr_mod (by omega) (by omega) ha8, hstk.placeBlocks _, hS1, hi.1, hi.2⟩,
        (placeSize_spec hle ha16).1, Or.inr ⟨hk1, hall⟩⟩
    · left
      exact ⟨h.malloc_fail hf h0 hr hnone hroom, hall, mem_sbrk_none hroom⟩

/-! ## `mm_realloc` -/

theorem mm_realloc_same {fuel : Nat} {s : Heap} {bp size : Nat} (h0 : size ≠ 0) (hbp : bp ≠ 0)
    (hle : adjust_size size ≤ GET_SIZE s.mem (HDRP bp)) :
    mm_realloc fuel s bp size = some (s, bp) := by
  unfold mm_realloc
  rw [if_neg h0, if_neg hbp]
  simp only [hle, if_true]

theorem mm_realloc_grow (fuel : Nat) {s : Heap} {bp size old nsz : Nat} (h0 : size ≠ 0)
    (hbp : 4 ≤ bp) (hold : GET_SIZE s.mem (HDRP bp) = old) (hgt : ¬ adjust_size size ≤ old)
    (hna : GET_ALLOC s.mem (HDRP (bp + old)) = 0)
    (hns : GET_SIZE s.mem (HDRP (bp + old)) = nsz) (h8 : (old + nsz) % 8 = 0)
    (hlt : old + nsz + 8 ≤ 2 ^ 32) (hfit : adjust_size size ≤ old + nsz) :
    mm_realloc fuel s bp size =
      some (put (put (delete_node s (bp + old)) (bp - 4) (PACK (old + nsz) 1))
        (bp + (old + nsz) - 8) (PACK (old + nsz) 1), bp) := by
  have hP1 := (GET_PUT_PACK (delete_node s (bp + old)).mem (bp - 4) (old + nsz) 1 h8 hlt
    (by omega)).2
  have hmod : (old + nsz) % WORD = old + nsz := by
    simp only [WORD]
    omega
  unfold mm_realloc
  rw [if_neg h0, if_neg (by omega)]
  simp only [HDRP, WSIZE] at hold hna hns
  simp only [NEXT_BLKP, HDRP, FTRP, WSIZE, DSIZE, hold, hna, hns, hgt, if_false, hmod, put_mem,
    hP1]
  simp only [ne_eq, not_true_eq_false, if_false, true_and, ge_iff_le, hmod, hfit, if_true, hP1]

theorem mm_realloc_move_fail {fuel : Nat} {s s1 : Heap} {bp size old : Nat} (h0 : size ≠ 0)
    (hbp : bp ≠ 0) (hold : GET_SIZE s.mem (HDRP bp) = old) (hgt : ¬ adjust_size size ≤ old)
    (hno : ¬ (GET_ALLOC s.mem (HDRP (bp + old)) = 0 ∧
      adjust_size size ≤ (old + GET_SIZE s.mem (HDRP (bp + old))) % WORD))
    (hm : mm_malloc fuel s size = some (s1, 0)) :
    mm_realloc fuel s bp size = some (s1, 0) := by
  unfold mm_realloc
  rw [if_neg h0, if_neg hbp]
  simp only [HDRP, WSIZE] at hold hno
  simp only [NEXT_BLKP, HDRP, WSIZE, hold, hgt, if_false, hm]
  by_cases hna : GET_ALLOC s.mem (bp + old - 4) = 0
  · have hno2 : ¬ adjust_size size ≤ (old + GET_SIZE s.mem (bp + old - 4)) % WORD :=
      fun hc => hno ⟨hna, hc⟩
    simp [hna, hno2]
  · simp [hna]

theorem mm_realloc_move_ok {fuel : Nat} {s s1 s3 : Heap} {bp size old q : Nat} (h0 : size ≠ 0)
    (hbp : bp ≠ 0) (hold : GET_SIZE s.mem (HDRP bp) = old) (hgt : ¬ adjust_size size ≤ old)
    (hno : ¬ (GET_ALLOC s.mem (HDRP (bp + old)) = 0 ∧
      adjust_size size ≤ (old + GET_SIZE s.mem (HDRP (bp + old))) % WORD))
    (hm : mm_malloc fuel s size = some (s1, q)) (hq : q ≠ 0)
    (hf : mm_free fuel { s1 with mem := memcpy s1.mem q bp (copy_bytes old size) } bp =
      some s3) :
    mm_realloc fuel s bp size = some (s3, q) := by
  unfold mm_realloc
  rw [if_neg h0, if_neg hbp]
  simp only [HDRP, WSIZE] at hold hno
  simp only [copy_bytes] at hf
  simp only [NEXT_BLKP, HDRP, WSIZE, hold, hgt, if_false, hm]
  by_cases hna : GET_ALLOC s.mem (bp + old - 4) = 0
  · have hno2 : ¬ adjust_size size ≤ (old + GET_SIZE s.mem (bp + old - 4)) % WORD :=
      fun hc => hno ⟨hna, hc⟩
    simp [hna, hno2, hq, hf]
  · simp [hna, hq, hf]

/-- `mm_realloc` when the block is already large enough: nothing changes. -/
theorem Rep.realloc_same {s : Heap} {pre post : List Blk} {old : Nat}
    {L : Nat → List (Nat × Nat)} (h : Rep s (pre ++ (old, Tag.A) :: post) L) (fuel : Nat)
    {size : Nat} (h0 : size ≠ 0) (hle : adjust_size size ≤ old) :
    mm_realloc fuel s (s.base + 96 + total pre) size = some (s, s.base + 96 + total pre) := by
  have hrd := h.read.1
  simp only at hrd
  exact mm_realloc_same h0 (by omega) (by rw [hrd]; exact hle)

/-- `mm_realloc` when the block is too small and the free block behind it
makes up for the difference: that block is unlinked and absorbed whole; the
bytes of the caller, those of the old payload among them, stay as they are. -/
theorem Rep.realloc_grow {s : Heap} {pre post1 : List Blk} {old nsz : Nat}
    {L : Nat → List (Nat × Nat)}
    (h : Rep s (pre ++ (old, Tag.A) :: (nsz, Tag.F) :: post1) L) (fuel : Nat) {size : Nat}
    (h0 : size ≠ 0) (hgt : old < adjust_size size) (hfit : adjust_size size ≤ old + nsz) :
    ∃ s1, mm_realloc fuel s (s.base + 96 + total pre) size =
        some (s1, s.base + 96 + total pre) ∧
      Rep s1 (pre ++ (old + nsz, Tag.A) :: post1)
        (eraseL L (s.base + 96 + total pre + old, nsz)) ∧
      s1.base = s.base ∧ s1.brk = s.brk ∧ s1.limit = s.limit ∧
      ∀ a, ¬ Owned s (pre ++ (old, Tag.A) :: (nsz, Tag.F) :: post1) a →
        (a + 4 < s.base + 96 + total pre ∨ s.base + 96 + total pre ≤ a) → s1.mem a = s.mem a := by
  have hrd := h.read.1
  simp only at hrd
  have e1 : pre ++ (old, Tag.A) :: (nsz, Tag.F) :: post1 =
      (pre ++ [(old, Tag.A)]) ++ (nsz, Tag.F) :: post1 := by simp
  have h' : Rep s ((pre ++ [(old, Tag.A)]) ++ (nsz, Tag.F) :: post1) L := by
    rw [← e1]; exact h
  have et : total (pre ++ [(old, Tag.A)]) = total pre + old := by
    rw [total_append]; simp [total]
  obtain ⟨hn1, hn2, -, -⟩ := h'.read
  obtain ⟨hb8, hb16, htot, hle32, -, -⟩ := h.block
  obtain ⟨hn8, hn16, htot', -, -, -⟩ := h'.block
  rw [et] at hn1 hn2 htot'
  simp only at hn1 hn2 hb8 hb16 hn8 hn16 htot htot' hle32
  have hab : abit Tag.F = 0 := by decide
  rw [hab] at hn2
  rw [← Nat.add_assoc] at hn1 hn2
  have hev := mm_realloc_grow fuel h0 (by omega) hrd (by omega) hn2 hn1
    (by omega) (by omega) hfit
  obtain ⟨hR1, -⟩ := h'.delete
  have hS1 := h'.delete_step
  rw [et, ← Nat.add_assoc] at hR1 hS1
  have e2 : (pre ++ [(old, Tag.A)]) ++ (nsz, Tag.U) :: post1 =
      pre ++ [(old, Tag.A), (nsz, Tag.U)] ++ post1 := by simp
  rw [e2] at hR1
  have hA1 : abit Tag.A = 1 := by decide
  have htl := Tiles_one (m := (delete_node s (s.base + 96 + total pre + old)).mem)
    (w := s.base + 96 + total pre) (T := old + nsz) (t := Tag.A) (by omega) (by omega)
    (by omega) (by omega)
  rw [hA1] at htl
  have hm1 : ∀ b, b ∈ [((old + nsz, Tag.A) : Blk)] → b.2 ≠ Tag.F := by simp
  have ht : total [((old + nsz, Tag.A) : Blk)] = total [(old, Tag.A), (nsz, Tag.U)] := by
    simp [total, Nat.add_assoc]
  have hfr : ∀ a, a + 4 < (delete_node s (s.base + 96 + total pre + old)).base + 96 + total pre ∨
      (delete_node s (s.base + 96 + total pre + old)).base + 96 + total pre +
        total [((old, Tag.A) : Blk), (nsz, Tag.U)] ≤ a + 4 →
      PUT (PUT (delete_node s (s.base + 96 + total pre + old)).mem (s.base + 96 + total pre - 4)
        (PACK (old + nsz) 1)) (s.base + 96 + total pre + (old + nsz) - 8) (PACK (old + nsz) 1) a =
        (delete_node s (s.base + 96 + total pre + old)).mem a := by
    intro a ha
    simp only [total, delete_node_base] at ha
    rw [PUT_other _ _ _ _ (by omega), PUT_other _ _ _ _ (by omega)]
  have hR2 := hR1.window (by simp) hm1 ht hfr (by simpa using htl)
  have e3 : pre ++ [((old + nsz, Tag.A) : Blk)] ++ post1 = pre ++ (old + nsz, Tag.A) :: post1 := by
    simp
  rw [e3] at hR2
  refine ⟨_, hev, hR2, by simp, by simp, by simp, ?_⟩
  intro a hno ha
  have hnot : ¬ (s.base + 96 + total pre + old ≤ a + 4 ∧
      a + 4 < s.base + 96 + total pre + old + nsz) := by
    intro hc
    apply hno
    rw [e1]
    have hU : ∀ b, b ∈ [((nsz, Tag.F) : Blk)] → b.2 ≠ Tag.A := by simp
    have h1' : s.base + 96 + total (pre ++ [(old, Tag.A)]) ≤ a + 4 := by rw [et]; omega
    have h2' : a + 4 < s.base + 96 + total (pre ++ [(old, Tag.A)]) +
        total [((nsz, Tag.F) : Blk)] := by rw [et]; simp [total]; omega
    have hO : Owned s (pre ++ [(old, Tag.A)] ++ [((nsz, Tag.F) : Blk)] ++ post1) a :=
      owned_mid hU h1' h2'
    simpa using hO
  show PUT (PUT _ _ _) _ _ a = _
  rw [PUT_other _ _ _ _ (by omega), PUT_other _ _ _ _ (by omega)]
  rw [e1] at hno
  exact hS1.frame a hno

theorem alist_postKeep (bp : Nat) (post : List Blk) :
    alist (bp + nextFree post) (postKeep post) = alist bp post := by
  cases post with
  | nil => rfl
  | cons c t =>
    obtain ⟨x, tg⟩ := c
    cases tg with
    | A => rfl
    | F => simp [nextFree, postKeep, alist]
    | U => rfl

/-- Copying into the payload of an allocated block leaves the heap well
formed. -/
theorem Rep.memcpy {s : Heap} {bl : List Blk} {L : Nat → List (Nat × Nat)} (h : Rep s bl L)
    {q S : Nat} (hq : (q, S) ∈ alist (s.base + 96) bl) (src : Nat) {n : Nat} (hn : n + 8 ≤ S) :
    Rep { s with mem := MM.memcpy s.mem q src n } bl L := by
  obtain ⟨P, Q, hbl, hq1⟩ := mem_alist.1 hq
  simp only at hbl hq1
  subst hbl
  obtain ⟨h8, h16, -, hle, hh, hf⟩ := h.block
  simp only at h8 h16 hh hf
  rw [← hq1] at hh hf
  have e : P ++ (S, Tag.A) :: Q = P ++ [((S, Tag.A) : Blk)] ++ Q := by simp
  rw [e] at h ⊢
  have hm1 : ∀ b, b ∈ [((S, Tag.A) : Blk)] → b.2 ≠ Tag.F := by simp
  have hfr : ∀ a, a + 4 < s.base + 96 + total P ∨
      s.base + 96 + total P + total [((S, Tag.A) : Blk)] ≤ a + 4 →
      MM.memcpy s.mem q src n a = s.mem a := by
    intro a ha
    simp only [total] at ha
    unfold MM.memcpy
    rw [if_neg (by omega)]
  have htl : Tiles (MM.memcpy s.mem q src n) (s.base + 96 + total P) [((S, Tag.A) : Blk)] := by
    rw [← hq1]
    refine ⟨h8, h16, ?_, ?_, trivial⟩
    · rw [← hh]
      refine GET_congr (fun a h1 h2 => ?_)
      unfold MM.memcpy
      rw [if_neg (by omega)]
    · rw [← hf]
      refine GET_congr (fun a h1 h2 => ?_)
      unfold MM.memcpy
      simp only at h1 h2
      rw [if_neg (by omega)]
  exact h.window hm1 hm1 rfl hfr htl

/-- The contract of `mm_free` on a well-formed heap: the block leaves the
allocated blocks, the others stay, the heap stays well formed and keeps its
size, and the caller's other bytes are left alone. -/
theorem Rep.free_wf {s : Heap} {pre post : List Blk} {sz : Nat}
    {L : Nat → List (Nat × Nat)} (h : Rep s (pre ++ (sz, Tag.A) :: post) L)
    (hst : Stable (pre ++ (sz, Tag.A) :: post)) {fuel : Nat} (hfuel : s.brk ≤ fuel) :
    ∃ s1, mm_free fuel s (s.base + 96 + total pre) = some s1 ∧
      WF s1 (preKeep pre ++ (prevFree pre + sz + nextFree post, Tag.F) :: postKeep post) ∧
      Step s (pre ++ (sz, Tag.U) :: post) s1
        (preKeep pre ++ (prevFree pre + sz + nextFree post, Tag.F) :: postKeep post) ∧
      s1.brk = s.brk ∧
      ∀ x, x ∈ alist (s.base + 96)
          (preKeep pre ++ (prevFree pre + sz + nextFree post, Tag.F) :: postKeep post) ↔
        x ∈ alist (s.base + 96) (pre ++ (sz, Tag.A) :: post) ∧ x.1 ≠ s.base + 96 + total pre := by
  obtain ⟨hP, hQ, -, -⟩ := Stable_mid_iff.1 hst
  obtain ⟨s1, hfr, hR1, hS1, hk1⟩ := h.free_spec hP.1 hQ.1 hfuel
  refine ⟨s1, hfr, ⟨hP.merged hQ _, _, hR1⟩, hS1, hk1, ?_⟩
  have hT := h.tiles
  have hi := alist_insert hT (h.block.2.1) (alist_mid_A (s.base + 96) pre post sz)
  rw [Tiles_append] at hT
  have hpk := prevFree_keep s.mem (s.base + 96) pre hT.1
  have e : alist (s.base + 96)
      (preKeep pre ++ (prevFree pre + sz + nextFree post, Tag.F) :: postKeep post) =
      alist (s.base + 96) pre ++ alist (s.base + 96 + total pre + sz) post := by
    rw [alist_mid_F, alist_preKeep]
    have e2 : s.base + 96 + total (preKeep pre) + (prevFree pre + sz + nextFree post) =
        s.base + 96 + total pre + sz + nextFree post := by omega
    rw [e2, alist_postKeep]
  intro x
  rw [e, hi.1]
  constructor
  · intro hx
    exact ⟨Or.inr hx, hi.2 x hx⟩
  · rintro ⟨hx | hx, hne⟩
    · subst hx
      exact absurd rfl hne
    · exact hx

theorem copy_bytes_eq {old size : Nat} (h16 : 16 ≤ old) (hlt : old ≤ 2 ^ 32) :
    copy_bytes old size = if size < old - 8 then size else old - 8 := by
  unfold copy_bytes
  have : (old + WORD - DSIZE) % WORD = old - 8 := by
    simp only [WORD, DSIZE]
    omega
  rw [this]

theorem copy_bytes_le {old size : Nat} (h16 : 16 ≤ old) (hlt : old ≤ 2 ^ 32) :
    copy_bytes old size ≤ size ∧ copy_bytes old size + 8 ≤ old := by
  rw [copy_bytes_eq h16 hlt]
  split <;> omega

/-- Neither staying nor growing in place is possible: what `mm_realloc` reads
in the heap sends it to the fallback. -/
theorem Rep.realloc_no_grow {s : Heap} {pre post : List Blk} {old : Nat}
    {L : Nat → List (Nat × Nat)} (h : Rep s (pre ++ (old, Tag.A) :: post) L)
    (hpost : ∀ c, c ∈ post → c.2 ≠ Tag.U) {new : Nat}
    (hno : nextFree post = 0 ∨ old + nextFree post < new) :
    ¬ (GET_ALLOC s.mem (HDRP (s.base + 96 + total pre + old)) = 0 ∧
      new ≤ (old + GET_SIZE s.mem (HDRP (s.base + 96 + total pre + old))) % WORD) := by
  have hnb := h.read.2.2.2
  simp only at hnb
  rcases h.next_cases hpost with ⟨-, -, hal⟩ | ⟨nsz, post1, hp, hnf, -, -⟩
  · rw [hnb] at hal
    rintro ⟨hc, -⟩
    omega
  · subst hp
    have e1 : pre ++ (old, Tag.A) :: (nsz, Tag.F) :: post1 =
        (pre ++ [(old, Tag.A)]) ++ (nsz, Tag.F) :: post1 := by simp
    rw [e1] at h
    obtain ⟨hn1, -, -, -⟩ := h.read
    obtain ⟨hn8, hn16, htot, hle, -, -⟩ := h.block
    rw [total_snoc] at hn1 htot
    simp only at hn1 hn8 hn16 htot hle
    rw [← Nat.add_assoc] at hn1
    rw [hn1]
    rw [hnf] at hno
    have hmod : (old + nsz) % WORD = old + nsz := by
      simp only [WORD]
      omega
    rw [hmod]
    rintro ⟨-, hc⟩
    omega

/-- The fallback of `mm_realloc`, once a new block has been allocated: the old
payload is copied and the old block freed. -/
theorem Rep.realloc_copy {s s1 : Heap} {bl bl1 : List Blk} {L L1 : Nat → List (Nat × Nat)}
    {p old q S : Nat} (h : Rep s bl L) (hp : (p, old) ∈ alist (s.base + 96) bl)
    (hR1 : Rep s1 bl1 L1) (hA : Allocated s bl s1 bl1 q S) {fuel : Nat}
    (hfuel : s.limit ≤ fuel) {n : Nat} (hn : n + 8 ≤ S) (hn2 : n + 8 ≤ old) :
    ∃ s3 bl3, mm_free fuel { s1 with mem := MM.memcpy s1.mem q p n } p = some s3 ∧
      WF s3 bl3 ∧ s3.base = s.base ∧ s3.limit = s.limit ∧ s3.brk = s1.brk ∧
      (∀ i, i < n → s3.mem (q + i) = s.mem (p + i)) ∧
      ∀ x, x ∈ alist (s.base + 96) bl3 ↔
        x = (q, S) ∨ (x ∈ alist (s.base + 96) bl ∧ x.1 ≠ p) := by
  have hb1 : s1.base = s.base := hA.step.base
  have hl1 : s1.limit = s.limit := hA.step.limit
  have hp1 : (p, old) ∈ alist (s1.base + 96) bl1 := by
    rw [hb1]; exact (hA.mem _).2 (Or.inr hp)
  have hq1 : (q, S) ∈ alist (s1.base + 96) bl1 := by
    rw [hb1]; exact (hA.mem _).2 (Or.inl rfl)
  have hpq : p ≠ q := hA.fresh (p, old) hp
  have hR2 := hR1.memcpy hq1 p hn
  have hst1 := hA.stable
  have hmem := hA.mem
  obtain ⟨P, Q, hbl1, hp2⟩ := mem_alist.1 hp1
  simp only at hbl1 hp2
  subst hbl1
  have hf2 : s1.brk ≤ fuel := by
    have := hR1.brk_le
    omega
  obtain ⟨s3, hfr, hWF3, hS3, hk3, hal3⟩ := hR2.free_wf hst1 hf2
  simp only at hfr hS3 hk3 hal3
  rw [← hp2] at hfr hal3
  refine ⟨s3, _, hfr, hWF3, by rw [hS3.base]; exact hb1, by rw [hS3.limit]; exact hl1, hk3, ?_, ?_⟩
  · intro i hi
    have hqU : (q, S) ∈ alist (s1.base + 96) (P ++ (old, Tag.U) :: Q) := by
      rw [alist_mid_U]
      rw [alist_mid_A] at hq1
      simp only [List.mem_append, List.mem_cons, Prod.mk.injEq] at hq1 ⊢
      rcases hq1 with hq1 | ⟨hq1, -⟩ | hq1
      · exact Or.inl hq1
      · exact absurd (hq1.trans hp2.symm).symm hpq
      · exact Or.inr hq1
    have hRU := (hR2.retag (t := Tag.U) (by simp) (by simp) rfl).1
    have hno : ¬ Owned { s1 with mem := MM.memcpy s1.mem q p n } (P ++ (old, Tag.U) :: Q)
        (q + i) := hRU.not_owned hqU (Nat.le_add_right q i) (by simp only; omega)
    rw [hS3.frame _ hno]
    show MM.memcpy s1.mem q p n (q + i) = _
    unfold MM.memcpy
    rw [if_pos ⟨by omega, by omega⟩, Nat.add_sub_cancel_left]
    exact hA.step.frame _ (h.not_owned hp (Nat.le_add_right p i) (by simp only; omega))
  · intro x
    rw [hb1] at hal3
    rw [hal3, hmem]
    constructor
    · rintro ⟨hx | hx, hne⟩
      · exact Or.inl hx
      · exact Or.inr ⟨hx, hne⟩
    · rintro (hx | ⟨hx, hne⟩)
      · subst hx
        exact ⟨Or.inl rfl, fun hc => hpq hc.symm⟩
      · exact ⟨Or.inr hx, hne⟩

/-- A request so large that its adjusted size wraps around is adjusted to at
most eight bytes. -/
theorem adjust_size_wrap {size : Nat} (hr : ¬ InRange size) (hlt : size < WORD) :
    adjust_size size ≤ 8 := by
  unfold InRange at hr
  simp only [WORD] at hr hlt
  unfold adjust_size ALIGN
  simp only [DSIZE, ALIGNMENT, WORD]
  rw [if_neg (by omega)]
  rw [and_MASK _ (Nat.mod_lt _ (by omega))]
  omega

/-- The allocated block at an address is unique. -/
theorem Rep.alist_unique {s : Heap} {bl : List Blk} {L : Nat → List (Nat × Nat)}
    (h : Rep s bl L) {p old : Nat} (hp : (p, old) ∈ alist (s.base + 96) bl) (x : Nat × Nat) :
    x ∈ alist (s.base + 96) bl ↔ x = (p, old) ∨ (x ∈ alist (s.base + 96) bl ∧ x.1 ≠ p) := by
  obtain ⟨P, Q, hbl, hp2⟩ := mem_alist.1 hp
  simp only at hbl hp2
  subst hbl
  have hi := alist_insert h.tiles h.block.2.1 (alist_mid_A (s.base + 96) P Q old)
  rw [← hp2] at hi
  constructor
  · intro hx
    rcases (hi.1 x).1 hx with hx1 | hx1
    · exact Or.inl hx1
    · exact Or.inr ⟨hx, hi.2 x hx1⟩
  · rintro (hx | hx)
    · rw [hx]; exact hp
    · exact hx.1

/-- The contract of `mm_realloc` on a live block of a well-formed heap, for a
non-zero size: the call returns; it returns `NULL` only when the fallback
`mm_malloc` does, and then nothing has changed; otherwise the heap stays well
formed, the block at the returned pointer has at least the adjusted size and
replaces the old one among the allocated blocks, and the bytes of the old
payload, up to the requested size, are at the returned pointer. -/
theorem Rep.realloc_spec {s : Heap} {bl : List Blk} {L : Nat → List (Nat × Nat)}
    (h : Rep s bl L) (hst : Stable bl) {p old : Nat} (hp : (p, old) ∈ alist (s.base + 96) bl)
    {fuel : Nat} (hfuel : s.limit ≤ fuel) {size : Nat} (h0 : 0 < size) (hlt : size < WORD) :
    ∃ s1 q, mm_realloc fuel s p size = some (s1, q) ∧
      ((q = 0 ∧ s1 = s ∧ mm_malloc fuel s size = some (s, 0)) ∨
        (q ≠ 0 ∧ q % 8 = 0 ∧ (q = p ∨ ∀ x, x ∈ alist (s.base + 96) bl → x.1 ≠ q) ∧
          s1.base = s.base ∧ s1.limit = s.limit ∧ s.brk ≤ s1.brk ∧
          (∀ i, i < size → i + 8 < old → s1.mem (q + i) = s.mem (p + i)) ∧
          ∃ bl1 S, WF s1 bl1 ∧ adjust_size size ≤ S ∧
            ∀ x, x ∈ alist (s.base + 96) bl1 ↔
              x = (q, S) ∨ (x ∈ alist (s.base + 96) bl ∧ x.1 ≠ p))) := by
  have hp' := hp
  obtain ⟨pre, post, hbl, hp2⟩ := mem_alist.1 hp
  simp only at hbl hp2
  subst hbl
  subst hp2
  obtain ⟨h8, h16, htot, hle32, -, -⟩ := h.block
  simp only at h8 h16 hle32 htot
  have hold32 : old ≤ 2 ^ 32 := by omega
  have hT := h.tiles
  rw [Tiles_append] at hT
  have hpm := Tiles_total_mod hT.1
  have hal := h.base_al
  have hrd := h.read.1
  simp only at hrd
  obtain ⟨hP, hQ, -, -⟩ := Stable_mid_iff.1 hst
  by_cases hle : adjust_size size ≤ old
  · exact ⟨s, _, h.realloc_same fuel (by omega) hle, Or.inr ⟨by omega, by omega, Or.inl rfl,
      rfl, rfl, Nat.le_refl _, fun _ _ _ => rfl, _, old, ⟨hst, L, h⟩, hle, h.alist_unique hp'⟩⟩
  · have hr : InRange size := by
      by_contra hc
      have := adjust_size_wrap hc hlt
      omega
    obtain ⟨-, -, hs8, -, -⟩ := adjust_size_spec h0 hr
    by_cases hg : ∃ nsz post1, post = (nsz, Tag.F) :: post1 ∧ adjust_size size ≤ old + nsz
    · obtain ⟨nsz, post1, hpost, hfit⟩ := hg
      subst hpost
      obtain ⟨s1, hev, hR1, hb1, hk1, hl1, hfr⟩ := h.realloc_grow fuel (by omega) (by omega) hfit
      refine ⟨s1, _, hev, Or.inr ⟨by omega, by omega, Or.inl rfl, hb1, hl1, by omega, ?_, _,
        old + nsz,
        ⟨Stable_mid_iff.2 ⟨hP, (Stable_cons.1 hQ).1, by simp, Or.inl rfl⟩, _, hR1⟩, hfit, ?_⟩⟩
      · intro i _ hi
        exact hfr _ (h.not_owned hp' (Nat.le_add_right _ i) (by simp only; omega))
          (Or.inr (Nat.le_add_right _ i))
      · have hT1 := hR1.tiles
        rw [hb1] at hT1
        have hi1 := alist_insert hT1 (by omega)
          (alist_mid_A (s.base + 96) pre post1 (old + nsz))
        have e : alist (s.base + 96 + total pre + old) ((nsz, Tag.F) :: post1) =
            alist (s.base + 96 + total pre + (old + nsz)) post1 := by
          simp [alist, Nat.add_assoc]
        have hi0 := alist_insert h.tiles h16
          ((alist_mid_A (s.base + 96) pre ((nsz, Tag.F) :: post1) old).trans (by rw [e]))
        intro x
        rw [hi1.1 x, hi0.1 x]
        constructor
        · rintro (hx | hx)
          · exact Or.inl hx
          · exact Or.inr ⟨Or.inr hx, hi1.2 x hx⟩
        · rintro (hx | ⟨hx | hx, hne⟩)
          · exact Or.inl hx
          · rw [hx] at hne
            exact absurd rfl hne
          · exact Or.inr hx
    · have hno : nextFree post = 0 ∨ old + nextFree post < adjust_size size := by
        cases post with
        | nil => exact Or.inl rfl
        | cons c t =>
          obtain ⟨x, tg⟩ := c
          cases tg with
          | A => exact Or.inl rfl
          | U => exact Or.inl rfl
          | F =>
            right
            have : ¬ adjust_size size ≤ old + x := fun hc => hg ⟨x, t, rfl, hc⟩
            simp only [nextFree]
            omega
      have hno' := h.realloc_no_grow hQ.1 hno
      rcases h.malloc_spec hst hfuel h0 hr with ⟨hm, -, -⟩ | ⟨s1, bl1, q, S, hm, hWF1, hA, hS, -⟩
      · exact ⟨s, 0, mm_realloc_move_fail (by omega) (by omega) hrd hle hno' hm,
          Or.inl ⟨rfl, rfl, hm⟩⟩
      · obtain ⟨hst1, L1, hR1⟩ := hWF1
        have hcb : copy_bytes old size ≤ size ∧ copy_bytes old size + 8 ≤ old :=
          copy_bytes_le h16 (by omega)
        obtain ⟨hc1, hc2⟩ := hcb
        obtain ⟨-, -, hs3, -, -⟩ := adjust_size_spec h0 hr
        obtain ⟨s3, bl3, hfr, hWF3, hb3, hl3, hk3, hpay, hal3⟩ :=
          h.realloc_copy hp' hR1 hA hfuel (show copy_bytes old size + 8 ≤ S by omega) hc2
        have hbrk := hA.step.brk
        refine ⟨s3, q, mm_realloc_move_ok (by omega) (by omega) hrd hle hno' hm hA.ne hfr,
          Or.inr ⟨hA.ne, hA.al, Or.inr hA.fresh, hb3, hl3, by omega, ?_, bl3, S, hWF3, hS,
            hal3⟩⟩
        intro i hi1 hi2
        refine hpay i ?_
        rw [copy_bytes_eq h16 (by omega)]
        split <;> omega

/-- A picture splits at a given offset in one way only. -/
theorem split_unique {m : Mem} {bp : Nat} {pre pre1 post post1 : List Blk} {b b1 : Blk}
    (hT : Tiles m bp (pre ++ b :: post)) (he : pre ++ b :: post = pre1 ++ b1 :: post1)
    (ht : total pre = total pre1) : pre = pre1 ∧ b = b1 ∧ post = post1 := by
  induction pre generalizing pre1 bp with
  | nil =>
    cases pre1 with
    | nil =>
      simp only [List.nil_append, List.cons.injEq] at he
      exact ⟨rfl, he.1, he.2⟩
    | cons c t =>
      simp only [List.nil_append, List.cons_append, List.cons.injEq] at he
      have h16 := hT.2.1
      rw [he.1] at h16
      simp only [total] at ht
      omega
  | cons a t ih =>
    cases pre1 with
    | nil =>
      have h16 := hT.2.1
      simp only [total] at ht
      omega
    | cons c t1 =>
      simp only [List.cons_append, List.cons.injEq] at he
      have hT1 : Tiles m (bp + a.1) (t ++ b :: post) := hT.2.2.2.2
      simp only [total] at ht
      rw [he.1] at ht
      obtain ⟨h1, h2, h3⟩ := ih hT1 he.2 (by omega)
      exact ⟨by rw [he.1, h1], h2, h3⟩

/-- `mm_malloc` when the search can only settle on the free block of size `S`
behind `pre`: the block is carved out of it and the region keeps its size. -/
theorem Rep.malloc_at {s : Heap} {pre post : List Blk} {S : Nat} {L : Nat → List (Nat × Nat)}
    (h : Rep s (pre ++ (S, Tag.F) :: post) L) {fuel : Nat} (hfuel : s.limit ≤ fuel)
    {size : Nat} (h0 : 0 < size) (hr : InRange size) (hfit : adjust_size size ≤ S)
    (hbest : ∀ y, BestFit (flist (s.base + 96) (pre ++ (S, Tag.F) :: post)) (adjust_size size) y →
      y = (s.base + 96 + total pre, S)) :
    ∃ s1 L1, mm_malloc fuel s size =
        some (s1, placePtr (s.base + 96 + total pre) S (adjust_size size)) ∧
      Rep s1 (placeBlocks pre S (adjust_size size) post) L1 ∧ s1.brk = s.brk ∧
      s1.base = s.base ∧ s1.limit = s.limit := by
  have hf : s.brk ≤ fuel := Nat.le_trans h.brk_le hfuel
  obtain ⟨-, hcase⟩ := h.find_fit_spec hf (adjust_size size)
  rcases hcase with ⟨y, hy, -, -⟩ | ⟨-, hall⟩
  · obtain ⟨pre1, post1, s1, hbl, hy1, hbf, hmm, hR1, hS1, hk1⟩ := h.malloc_fit hf h0 hr hy
    have hy2 := hbest y hbf
    subst hy2
    simp only at hbl hy1 hmm hR1
    obtain ⟨e1, -, e3⟩ := split_unique h.tiles hbl (by omega)
    subst e1
    subst e3
    exact ⟨s1, _, hmm, hR1, hk1, hS1.base, hS1.limit⟩
  · have := hall (s.base + 96 + total pre, S) (by rw [flist_mid]; simp)
    simp only at this
    omega

theorem placePtr_self {p S asize : Nat} (h : S - asize < 16 ∨ 340 < S - asize) :
    placePtr p S asize = p := by
  unfold placePtr
  split
  · rfl
  · rw [if_neg (by omega)]

theorem Stable_one_F (x : Nat) : Stable [(x, Tag.F)] := by
  have := Stable_cons (x := x) (t := Tag.F) (Q := [])
  exact this.2 ⟨Stable_nil, by simp, Or.inr startsA_nil⟩

/-- The scenario `a = mm_malloc(100); b = mm_malloc(200); mm_free(a);
c = mm_malloc(90)` on a freshly initialised heap, step by step: the blocks of
`a` and `b` have 112 and 208 bytes, 704 bytes stay free behind them, and the
last call hands out the block of `a` again without growing the region. -/
theorem scenario_run (s0 : Heap) (hF : Fresh s0) (hlim : 1120 ≤ s0.limit) {fuel : Nat}
    (hfuel : s0.limit ≤ fuel) :
    ∃ s1 s2 s3 s4 s5 L3 L5, mm_init fuel s0 = some (s1, 0) ∧
      mm_malloc fuel s1 100 = some (s2, s0.base + 96) ∧
      mm_malloc fuel s2 200 = some (s3, s0.base + 96 + 112) ∧
      Rep s3 [(112, Tag.A), (208, Tag.A), (704, Tag.F)] L3 ∧
      mm_free fuel s3 (s0.base + 96) = some s4 ∧
      mm_malloc fuel s4 90 = some (s5, s0.base + 96) ∧ s5.brk = s4.brk ∧
      Rep s5 [(112, Tag.A), (208, Tag.A), (704, Tag.F)] L5 ∧ s5.base = s0.base ∧
      s5.limit = s0.limit ∧ s3.base = s0.base ∧ s3.limit = s0.limit := by
  obtain ⟨hb0, hal, hfits⟩ := hF
  have h100 : adjust_size 100 = 112 := by decide
  have h200 : adjust_size 200 = 208 := by decide
  have h90 : adjust_size 90 = 104 := by decide
  obtain ⟨s1, L1, hinit, hR1, hk1, hb1, hl1⟩ := mm_init_spec fuel s0 hb0 hal hfits hlim
    (by omega)
  -- a = mm_malloc(100)
  have hR1' : Rep s1 ([] ++ (1024, Tag.F) :: []) L1 := hR1
  have hfu1 : s1.limit ≤ fuel := by omega
  have hp100 : 0 < 100 := by omega
  have hr100 : InRange 100 := by unfold InRange WORD; omega
  have hfit100 : adjust_size 100 ≤ 1024 := by rw [h100]; omega
  obtain ⟨s2, L2, hm2, hR2, hk2, hb2, hl2⟩ := hR1'.malloc_at hfu1 hp100 hr100 hfit100 (by
      intro y hy
      have := hy.1
      simpa [flist, total] using this)
  rw [h100] at hm2 hR2
  have e2 : placeBlocks [] 1024 112 [] = [(112, Tag.A)] ++ (912, Tag.F) :: [] := by decide
  rw [e2] at hR2
  rw [placePtr_self (by omega)] at hm2
  simp only [total, Nat.add_zero] at hm2
  -- b = mm_malloc(200)
  have hfu2 : s2.limit ≤ fuel := by omega
  have hp200 : 0 < 200 := by omega
  have hr200 : InRange 200 := by unfold InRange WORD; omega
  have hfit200 : adjust_size 200 ≤ 912 := by rw [h200]; omega
  obtain ⟨s3, L3, hm3, hR3, hk3, hb3, hl3⟩ := hR2.malloc_at hfu2 hp200 hr200 hfit200 (by
      intro y hy
      have := hy.1
      simpa [flist, total] using this)
  rw [h200] at hm3 hR3
  have e3 : placeBlocks [(112, Tag.A)] 912 208 [] =
      [] ++ (112, Tag.A) :: [(208, Tag.A), (704, Tag.F)] := by decide
  rw [e3] at hR3
  rw [placePtr_self (by omega)] at hm3
  simp only [total, Nat.add_zero] at hm3
  -- mm_free(a)
  have hfu3 : s3.brk ≤ fuel := by have := hR3.brk_le; omega
  obtain ⟨s4, hf4, hR4, hS4, hk4⟩ := hR3.free_spec (by simp) (by simp) hfu3
  have e4 : preKeep [] ++ (prevFree [] + 112 + nextFree [(208, Tag.A), (704, Tag.F)], Tag.F) ::
      postKeep [(208, Tag.A), (704, Tag.F)] =
      [] ++ (112, Tag.F) :: [(208, Tag.A), (704, Tag.F)] := by decide
  rw [e4] at hR4
  simp only [total, Nat.add_zero] at hf4
  -- c = mm_malloc(90)
  have hb4 : s4.base = s3.base := hS4.base
  have hl4 : s4.limit = s3.limit := hS4.limit
  have hfu4 : s4.limit ≤ fuel := by omega
  have hp90 : 0 < 90 := by omega
  have hr90 : InRange 90 := by unfold InRange WORD; omega
  have hfit90 : adjust_size 90 ≤ 112 := by rw [h90]; omega
  obtain ⟨s5, L5, hm5, hR5, hk5, hb5, hl5⟩ := hR4.malloc_at hfu4 hp90 hr90 hfit90 (by
      intro y hy
      obtain ⟨hy1, -, hy3⟩ := hy
      simp only [flist, total, List.nil_append, if_true, List.mem_cons, List.mem_singleton,
        List.not_mem_nil, or_false, reduceCtorEq, if_false] at hy1 hy3
      rcases hy1 with rfl | rfl
      · simp [total]
      · have hc : adjust_size 90 ≤ 112 := hfit90
        have := hy3 (s4.base + 96, 112) (Or.inl rfl) hc
        have h704 : get_list_index 704 = 9 := by decide
        have h112 : get_list_index 112 = 6 := by decide
        simp only [h704, h112] at this
        omega)
  rw [h90] at hm5 hR5
  have e5 : placeBlocks [] 112 104 [(208, Tag.A), (704, Tag.F)] =
      [(112, Tag.A), (208, Tag.A), (704, Tag.F)] := by decide
  rw [e5] at hR5
  rw [placePtr_self (by omega)] at hm5
  simp only [total, Nat.add_zero] at hm5
  refine ⟨s1, s2, s3, s4, s5, L3, L5, hinit, ?_, ?_, hR3, ?_, ?_, hk5, hR5, ?_, ?_, ?_, ?_⟩
  · rw [hm2, hb1]
  · rw [hm3, hb2, hb1]
  · rw [← hf4, hb3, hb2, hb1]
  · rw [hm5, hb4, hb3, hb2, hb1]
  · rw [hb5, hb4, hb3, hb2, hb1]
  · rw [hl5, hl4, hl3, hl2, hl1]
  · rw [hb3, hb2, hb1]
  · rw [hl3, hl2, hl1]

/-- Stores into the payload of an allocated block leave the heap well
formed. -/
theorem Rep.payload {s : Heap} {bl : List Blk} {L : Nat → List (Nat × Nat)} (h : Rep s bl L)
    {q S : Nat} (hq : (q, S) ∈ alist (s.base + 96) bl) {M : Mem}
    (hm : ∀ a, a < q ∨ q + S ≤ a + 8 → M a = s.mem a) : Rep { s with mem := M } bl L := by
  obtain ⟨P, Q, hbl, hq1⟩ := mem_alist.1 hq
  simp only at hbl hq1
  subst hbl
  obtain ⟨h8, h16, -, hle, hh, hf⟩ := h.block
  simp only at h8 h16 hh hf
  rw [← hq1] at hh hf
  have e : P ++ (S, Tag.A) :: Q = P ++ [((S, Tag.A) : Blk)] ++ Q := by simp
  rw [e] at h ⊢
  have hm1 : ∀ b, b ∈ [((S, Tag.A) : Blk)] → b.2 ≠ Tag.F := by simp
  have hfr : ∀ a, a + 4 < s.base + 96 + total P ∨
      s.base + 96 + total P + total [((S, Tag.A) : Blk)] ≤ a + 4 → M a = s.mem a := by
    intro a ha
    simp only [total] at ha
    exact hm a (by omega)
  have htl : Tiles M (s.base + 96 + total P) [((S, Tag.A) : Blk)] := by
    rw [← hq1]
    refine ⟨h8, h16, ?_, ?_, trivial⟩
    · rw [← hh]
      exact GET_congr (fun a h1 h2 => hm a (by omega))
    · rw [← hf]
      refine GET_congr (fun a h1 h2 => hm a ?_)
      simp only at h1 h2
      omega
  exact h.window hm1 hm1 rfl hfr htl

theorem Rep.size_at {s : Heap} {bl : List Blk} {L : Nat → List (Nat × Nat)} (h : Rep s bl L)
    {q S : Nat} (hq : (q, S) ∈ alist (s.base + 96) bl) :
    GET_SIZE s.mem (HDRP q) = S ∧ GET_ALLOC s.mem (HDRP q) = 1 ∧ S % 8 = 0 ∧ 16 ≤ S ∧
      q % 8 = 0 ∧ s.base + 96 ≤ q ∧ q + S ≤ s.base + s.brk := by
  obtain ⟨P, Q, hbl, hq1⟩ := mem_alist.1 hq
  simp only at hbl hq1
  subst hbl
  obtain ⟨h8, h16, htot, -, -, -⟩ := h.block
  obtain ⟨hr1, hr2, -, -⟩ := h.read
  simp only at h8 h16 htot hr1 hr2
  have hT := h.tiles
  rw [Tiles_append] at hT
  have := Tiles_total_mod hT.1
  have := h.base_al
  rw [← hq1] at hr1 hr2 htot
  exact ⟨hr1, hr2, h8, h16, by omega, by omega, by omega⟩

theorem Inv.init {fuel : Nat} {s0 s1 : Heap} (hF : Fresh s0) (hfuel : s0.limit ≤ fuel)
    (hi : mm_init fuel s0 = some (s1, 0)) : Inv fuel s1 [] ∧ s1.brk = 1120 := by
  have hlim : 1120 ≤ s0.limit := by
    by_contra hc
    obtain ⟨s2, h2⟩ := mm_init_fail fuel s0 hF.1 hc
    rw [hi] at h2
    simp at h2
  obtain ⟨s2, L1, h2, hR, hk, hb, hl⟩ := mm_init_spec fuel s0 hF.1 hF.2.1 hF.2.2 hlim
    (by omega)
  rw [hi] at h2
  simp only [Option.some.injEq, Prod.mk.injEq, and_true] at h2
  subst h2
  refine ⟨⟨by omega, List.nodup_nil, [(1024, Tag.F)], ⟨Stable_one_F 1024, L1, hR⟩, ?_, ?_⟩, hk⟩
  · intro p hp
    simp at hp
  · intro x hx
    simp [alist] at hx

theorem Inv.malloc {fuel : Nat} {s s1 : Heap} {live : List Nat} {size q : Nat}
    (hI : Inv fuel s live) (h0 : 0 < size) (hr : InRange size)
    (hm : mm_malloc fuel s size = some (s1, q)) :
    Inv fuel s1 (if q = 0 then live else q :: live) ∧ q % 8 = 0 := by
  obtain ⟨hfuel, hnd, bl, ⟨hst, L, hR⟩, hlive, hall⟩ := hI
  rcases hR.malloc_spec hst hfuel h0 hr with ⟨hm1, -, -⟩ | ⟨s2, bl1, q1, S, hm1, hWF, hA, -, -⟩
  · rw [hm] at hm1
    simp only [Option.some.injEq, Prod.mk.injEq] at hm1
    obtain ⟨e1, e2⟩ := hm1
    subst e1
    subst e2
    exact ⟨⟨hfuel, hnd, bl, ⟨hst, L, hR⟩, hlive, hall⟩, rfl⟩
  · rw [hm] at hm1
    simp only [Option.some.injEq, Prod.mk.injEq] at hm1
    obtain ⟨e1, e2⟩ := hm1
    subst e1
    subst e2
    rw [if_neg hA.ne]
    have hb : s1.base = s.base := hA.step.base
    refine ⟨⟨by rw [hA.step.limit]; exact hfuel, List.nodup_cons.2 ⟨?_, hnd⟩, bl1, hWF, ?_, ?_⟩,
      hA.al⟩
    · intro hq
      obtain ⟨S1, hS1⟩ := hlive q hq
      exact hA.fresh _ hS1 rfl
    · intro p hp
      rw [hb]
      rcases List.mem_cons.1 hp with rfl | hp
      · exact ⟨S, (hA.mem _).2 (Or.inl rfl)⟩
      · obtain ⟨S1, hS1⟩ := hlive p hp
        exact ⟨S1, (hA.mem _).2 (Or.inr hS1)⟩
    · intro x hx
      rw [hb] at hx
      rcases (hA.mem x).1 hx with rfl | hx
      · exact List.mem_cons_self _ _
      · exact List.mem_cons_of_mem _ (hall x hx)

theorem Inv.free {fuel : Nat} {s s1 : Heap} {live : List Nat} {p : Nat}
    (hI : Inv fuel s live) (hp : p ∈ live) (hf : mm_free fuel s p = some s1) :
    Inv fuel s1 (live.erase p) := by
  obtain ⟨hfuel, hnd, bl, ⟨hst, L, hR⟩, hlive, hall⟩ := hI
  obtain ⟨S, hS⟩ := hlive p hp
  obtain ⟨P, Q, hbl, hp1⟩ := mem_alist.1 hS
  simp only at hbl hp1
  subst hbl
  have hf0 : s.brk ≤ fuel := Nat.le_trans hR.brk_le hfuel
  obtain ⟨s2, hf2, hWF, hS2, hk2, hal⟩ := hR.free_wf hst hf0
  rw [← hp1, hf] at hf2
  simp only [Option.some.injEq] at hf2
  subst hf2
  rw [← hp1] at hal
  have hb : s1.base = s.base := hS2.base
  refine ⟨by rw [hS2.limit]; exact hfuel, hnd.erase p, _, hWF, ?_, ?_⟩
  · intro r hr
    have hr1 := List.mem_of_mem_erase hr
    have hne : r ≠ p := fun hc => by
      rw [hc] at hr
      exact (List.Nodup.not_mem_erase hnd) hr
    obtain ⟨S1, hS1⟩ := hlive r hr1
    rw [hb]
    exact ⟨S1, (hal _).2 ⟨hS1, hne⟩⟩
  · intro x hx
    rw [hb] at hx
    obtain ⟨hx1, hx2⟩ := (hal x).1 hx
    exact (List.mem_erase_of_ne hx2).2 (hall x hx1)

theorem Inv.realloc {fuel : Nat} {s s1 : Heap} {live : List Nat} {p size q : Nat}
    (hI : Inv fuel s live) (hp : p ∈ live) (h0 : 0 < size) (hr : InRange size)
    (hm : mm_realloc fuel s p size = some (s1, q)) :
    Inv fuel s1 (if q = 0 then live else q :: live.erase p) := by
  obtain ⟨hfuel, hnd, bl, ⟨hst, L, hR⟩, hlive, hall⟩ := hI
  obtain ⟨S, hS⟩ := hlive p hp
  have hlt : size < WORD := by
    unfold InRange at hr
    omega
  obtain ⟨s2, q2, hm2, hcase⟩ := hR.realloc_spec hst hS hfuel h0 hlt
  rw [hm] at hm2
  simp only [Option.some.injEq, Prod.mk.injEq] at hm2
  obtain ⟨e1, e2⟩ := hm2
  subst e1
  subst e2
  rcases hcase with ⟨hq, hs, -⟩ | ⟨hq, -, hfresh, hb, hl, -, -, bl1, S1, hWF, -, hal⟩
  · rw [if_pos hq, hs]
    exact ⟨hfuel, hnd, bl, ⟨hst, L, hR⟩, hlive, hall⟩
  · rw [if_neg hq]
    refine ⟨by rw [hl]; exact hfuel, List.nodup_cons.2 ⟨?_, hnd.erase p⟩, bl1, hWF, ?_, ?_⟩
    · intro hc
      have hc1 := List.mem_of_mem_erase hc
      rcases hfresh with rfl | hfresh
      · exact (List.Nodup.not_mem_erase hnd) hc
      · obtain ⟨S2, hS2⟩ := hlive q hc1
        exact hfresh _ hS2 rfl
    · intro r hr1
      rw [hb]
      rcases List.mem_cons.1 hr1 with rfl | hr1
      · exact ⟨S1, (hal _).2 (Or.inl rfl)⟩
      · have hr2 := List.mem_of_mem_erase hr1
        have hne : r ≠ p := fun hc => by
          rw [hc] at hr1
          exact (List.Nodup.not_mem_erase hnd) hr1
        obtain ⟨S2, hS2⟩ := hlive r hr2
        exact ⟨S2, (hal _).2 (Or.inr ⟨hS2, hne⟩)⟩
    · intro x hx
      rw [hb] at hx
      rcases (hal x).1 hx with rfl | ⟨hx1, hx2⟩
      · exact List.mem_cons_self _ _
      · exact List.mem_cons_of_mem _ ((List.mem_erase_of_ne hx2).2 (hall x hx1))

theorem Inv.write {fuel : Nat} {s : Heap} {live : List Nat} {p a v : Nat}
    (hI : Inv fuel s live) (hp : p ∈ live) (h1 : p ≤ a)
    (h2 : a + 8 < p + GET_SIZE s.mem (HDRP p)) :
    Inv fuel { s with mem := Function.update s.mem a v } live := by
  obtain ⟨hfuel, hnd, bl, ⟨hst, L, hR⟩, hlive, hall⟩ := hI
  obtain ⟨S, hS⟩ := hlive p hp
  rw [(hR.size_at hS).1] at h2
  refine ⟨hfuel, hnd, bl, ⟨hst, L, hR.payload hS (fun b hb => ?_)⟩, hlive, hall⟩
  exact Function.update_noteq (by omega) _ _

/-- Every reachable state satisfies the invariant. -/
theorem Reach.inv {fuel : Nat} {s : Heap} {live : List Nat} (h : Reach fuel s live) :
    Inv fuel s live := by
  induction h with
  | init hF hfuel hi => exact (Inv.init hF hfuel hi).1
  | malloc _ h0 hr hm ih => exact (ih.malloc h0 hr hm).1
  | free _ hp hf ih => exact ih.free hp hf
  | realloc _ hp h0 hr hm ih => exact ih.realloc hp h0 hr hm
  | write _ hp h1 h2 ih => exact ih.write hp h1 h2

/-! ## The size classes -/

theorem get_list_index_loop_log (n size idx : Nat) (h : idx + n = 19) :
    get_list_index_loop n size idx = idx + min n (Nat.log 2 size) := by
  induction n generalizing size idx with
  | zero => simp [get_list_index_loop]
  | succ n ih =>
    unfold get_list_index_loop
    by_cases hs : size > 1
    · rw [if_pos ⟨by simp only [SEGLIST_CNT]; omega, hs⟩, ih _ _ (by omega)]
      have e : size >>> 1 = size / 2 := by
        rw [Nat.shiftRight_eq_div_pow]
      rw [e, Nat.log_of_one_lt_of_le (by omega) (show 2 ≤ size by omega)]
      omega
    · rw [if_neg (fun hc => hs hc.2), Nat.log_of_lt (by omega)]
      simp

theorem get_list_index_log (size : Nat) : get_list_index size = min 19 (Nat.log 2 size) := by
  unfold get_list_index
  rw [get_list_index_loop_log _ _ _ (by simp [SEGLIST_CNT])]
  simp [SEGLIST_CNT]

theorem get_list_index_class {size i : Nat} (hi : i ≤ 18) (hs : 1 ≤ size) :
    get_list_index size = i ↔ 2 ^ i ≤ size ∧ size < 2 ^ (i + 1) := by
  rw [get_list_index_log]
  have h1 : Nat.log 2 size = i ↔ 2 ^ i ≤ size ∧ size < 2 ^ (i + 1) :=
    Nat.log_eq_iff (Or.inr ⟨by omega, by omega⟩)
  rw [← h1]
  omega

theorem get_list_index_top {size : Nat} :
    get_list_index size = 19 ↔ 2 ^ 19 ≤ size := by
  rw [get_list_index_log]
  have h1 : 19 ≤ Nat.log 2 size ↔ 2 ^ 19 ≤ size := by
    by_cases h0 : size = 0
    · subst h0
      simp
    · rw [← Nat.pow_le_iff_le_log (by omega) h0]
  rw [← h1]
  omega

theorem coalesceL_nil (L : Nat → List (Nat × Nat)) (bp sz : Nat) :
    coalesceL L bp [] sz [] = L := by
  simp [coalesceL, prevFree, nextFree]

/-- After a successful `mm_init` the picture is one listed free block of
`CHUNKSIZE` bytes and the table is empty but for that node. -/
theorem mm_init_layout (fuel : Nat) (s : Heap) (hF : Fresh s) (hlim : 1120 ≤ s.limit)
    (hfuel : 1120 ≤ fuel) :
    ∃ s1, mm_init fuel s = some (s1, 0) ∧
      Rep s1 [(1024, Tag.F)] (insertL (fun _ => []) (s.base + 96, 1024)) ∧ s1.brk = 1120 ∧
      s1.base = s.base ∧ s1.limit = s.limit := by
  obtain ⟨h0, hal, hfits⟩ := hF
  obtain ⟨hb, hk, hl, hsg⟩ := initState_fields s
  have hR := initState_rep s h0 hal hfits (by omega)
  have hsz : extSize (CHUNKSIZE / WSIZE) = 1024 := by decide
  have hfe : (initState s).brk + 1024 ≤ fuel := by omega
  obtain ⟨s1, hex, hR1, hS1, hk1⟩ := hR.extend_heap_spec (by simp) hsz (by omega)
    (by omega) (by omega) (by omega) hfe
  simp only [preKeep, prevFree, List.getLast?_nil, List.nil_append, Nat.zero_add, total,
    Nat.add_zero, coalesceL_nil, hb] at hex hR1
  refine ⟨s1, ?_, hR1, by omega, by rw [hS1.base, hb], by rw [hS1.limit, hl]⟩
  rw [mm_init_eval fuel s (by omega), hex]
  simp only
  rw [if_neg (by omega)]

theorem insertL_empty_at (x : Nat × Nat) :
    insertL (fun _ => []) x (get_list_index x.2) = [x] := by
  simp [insertL]

theorem insertL_empty_ne (x : Nat × Nat) {i : Nat} (hi : i ≠ get_list_index x.2) :
    insertL (fun _ => []) x i = [] := by
  simp [insertL, Function.update_noteq hi]

/-! ## Requests whose adjusted size wraps around -/

theorem adjust_size_mod (size : Nat) : adjust_size size % 8 = 0 := by
  unfold adjust_size ALIGN
  simp only [DSIZE, ALIGNMENT, WORD]
  split
  · rfl
  · rw [and_MASK _ (Nat.mod_lt _ (by omega))]
    omega

theorem flist_after_A {m : Mem} {bp : Nat} {post : List Blk} (hT : Tiles m bp post)
    (hs : startsA post) {y : Nat × Nat} (hy : y ∈ flist bp post) : bp + 16 ≤ y.1 := by
  cases post with
  | nil => simp [flist] at hy
  | cons c t =>
    have hc : c.2 = Tag.A := (startsA_cons c t).1 hs
    obtain ⟨-, h16, -, -, ht⟩ := hT
    have hy1 : y ∈ flist (bp + c.1) t := by
      simpa [flist, hc] using hy
    have := (flist_bounds ht hy1).1
    omega

/-- Linking a node that lies at the start of an unlisted free block goes
through even when the bytes of that block, the footer before it and the
header behind it have been written over. -/
theorem Rep.insert_scribbled {s : Heap} {pre post : List Blk} {S : Nat}
    {L : Nat → List (Nat × Nat)} (h : Rep s (pre ++ (S, Tag.U) :: post) L)
    (hpost : startsA post) {M : Mem}
    (hM : ∀ a, a + 8 < s.base + 96 + total pre ∨ s.base + 96 + total pre + S ≤ a →
      M a = s.mem a)
    {x : Nat × Nat} (hx1 : s.base + 96 + total pre ≤ x.1) (hx2 : x.1 ≤ s.base + 96 + total pre + 8)
    {fuel : Nat} (hfuel : s.brk ≤ fuel) :
    ∃ s6, insert_node fuel { s with mem := M } x.1 x.2 = some s6 := by
  obtain ⟨h8, h16, htot, hle, -, -⟩ := h.block
  simp only at h8 h16 htot hle
  have hT := h.tiles
  rw [Tiles_append] at hT
  obtain ⟨hTp, -, -, -, -, hTq⟩ := hT
  simp only at hTq
  have hgeo : ∀ y, y ∈ flist (s.base + 96) (pre ++ (S, Tag.U) :: post) →
      y.1 + 16 ≤ s.base + 96 + total pre ∨ s.base + 96 + total pre + S + 16 ≤ y.1 := by
    intro y hy
    rw [flist_mid_U] at hy
    rcases List.mem_append.1 hy with hy | hy
    · have := flist_bounds hTp hy
      left; omega
    · have := flist_after_A hTq hpost hy
      right; omega
  have hSep : Sep s.base (flist (s.base + 96) (pre ++ (S, Tag.U) :: post)) :=
    h.sep (fun y hy => flist_sub_blist hy)
  have hL : Lists M s.base (flist (s.base + 96) (pre ++ (S, Tag.U) :: post)) L := by
    refine Lists_congr h.lists (fun a h1 h2 => hM a (by omega)) (fun y hy a h1 h2 => ?_)
    rcases hgeo y hy with hg | hg
    · exact hM a (by omega)
    · exact hM a (by omega)
  have hsz : ∀ y, y ∈ flist (s.base + 96) (pre ++ (S, Tag.U) :: post) →
      GET_SIZE M (HDRP y.1) = y.2 := by
    intro y hy
    rw [← h.hdr y hy]
    simp only [GET_SIZE, HDRP, WSIZE]
    congr 1
    refine GET_congr (fun a h1 h2 => ?_)
    rcases hgeo y hy with hg | hg
    · exact hM a (by omega)
    · exact hM a (by omega)
  have hS2 : Sep s.base (x :: flist (s.base + 96) (pre ++ (S, Tag.U) :: post)) := by
    refine ⟨fun z hz => ?_, fun z hz => ?_, fun z w hz hw => ?_⟩
    · rcases List.mem_cons.1 hz with rfl | hz
      · omega
      · exact hSep.lo z hz
    · rcases List.mem_cons.1 hz with rfl | hz
      · omega
      · exact hSep.hi z hz
    · rcases List.mem_cons.1 hz with hzx | hz
      · rcases List.mem_cons.1 hw with hwx | hw
        · exact Or.inl (hzx.trans hwx.symm)
        · rw [hzx]
          rcases hgeo w hw with hg | hg
          · right; right; omega
          · right; left; omega
      · rcases List.mem_cons.1 hw with hwx | hw
        · rw [hwx]
          rcases hgeo z hz with hg | hg
          · right; left; omega
          · right; right; omega
        · exact hSep.apart z w hz hw
  have hxn : x ∉ flist (s.base + 96) (pre ++ (S, Tag.U) :: post) := by
    intro hx
    rcases hgeo x hx with hg | hg <;> omega
  have hlen : (flist (s.base + 96) (pre ++ (S, Tag.U) :: post)).length < fuel := by
    have := flist_length h.tiles
    have := h.size
    omega
  have hseg := h.seg
  have hL' : Lists ({ s with mem := M } : Heap).mem ({ s with mem := M } : Heap).seg_free_lists
      (flist (s.base + 96) (pre ++ (S, Tag.U) :: post)) L := by
    show Lists M s.seg_free_lists _ _
    rw [hseg]; exact hL
  have hS2' : Sep ({ s with mem := M } : Heap).seg_free_lists
      (x :: flist (s.base + 96) (pre ++ (S, Tag.U) :: post)) := by
    show Sep s.seg_free_lists _
    rw [hseg]; exact hS2
  have hFB : ∀ y, y ∈ x :: flist (s.base + 96) (pre ++ (S, Tag.U) :: post) ↔
      y = x ∨ y ∈ flist (s.base + 96) (pre ++ (S, Tag.U) :: post) := fun y => List.mem_cons
  obtain ⟨s6, hres, -⟩ := insert_node_lists hL' hS2' hxn hsz hlen hFB
  exact ⟨s6, hres⟩

theorem place_eval3w (fuel : Nat) (s : Heap) (bp asize S : Nat)
    (hS : GET_SIZE s.mem (HDRP bp) = S) (h8 : S % 8 = 0) (hlt : S + 8 ≤ 2 ^ 32)
    (ha8 : asize % 8 = 0) (hle : asize ≤ S) (hr2 : 340 < S - asize) (hbp : 8 ≤ bp) :
    ∀ s6, insert_node fuel
        (put (put (put (put (delete_node s bp) (bp - 4) (PACK asize 1))
          (bp + asize - 8) (PACK asize 1))
          (bp + asize - 4) (PACK (S - asize) 0))
          (bp + asize + (S - asize) - 8) (PACK (S - asize) 0)) (bp + asize) (S - asize) =
        some s6 →
      place fuel s bp asize = some (s6, bp) := by
  intro s6 h6
  have hrem : (S + WORD - asize) % WORD = S - asize := by
    simp only [WORD]; omega
  have hP1 := (GET_PUT_PACK (delete_node s bp).mem (bp - 4) asize 1 ha8 (by omega)
    (by omega)).2
  have hP2 : GET_SIZE (PUT (PUT (delete_node s bp).mem (bp - 4) (PACK asize 1))
      (bp + asize - 8) (PACK asize 1)) (bp - 4) = asize := by
    simp only [GET_SIZE]
    rw [GET_PUT_ne _ _ _ _ (by omega)]
    exact hP1
  have hP3 := (GET_PUT_PACK (PUT (PUT (delete_node s bp).mem (bp - 4) (PACK asize 1))
      (bp + asize - 8) (PACK asize 1)) (bp + asize - 4) (S - asize) 0 (by omega)
      (by omega) (by omega)).2
  have hn : ¬ S - asize < 16 := by omega
  have hn2 : ¬ S - asize ≤ 340 := by omega
  simp only [HDRP, WSIZE] at hS
  unfold place
  simp only [hS, hrem, DSIZE, hn, hn2, if_false, Nat.reduceMul, FTRP, HDRP, WSIZE,
    put_mem, hP1, NEXT_BLKP, hP2, hP3, h6]

/-- `place` with an adjusted size of at most eight bytes still returns, with a
pointer that is not `NULL`. -/
theorem Rep.place_small {s : Heap} {pre post : List Blk} {S asize : Nat}
    {L : Nat → List (Nat × Nat)} (h : Rep s (pre ++ (S, Tag.F) :: post) L)
    (hst : Stable (pre ++ (S, Tag.F) :: post)) {fuel : Nat} (hfuel : s.brk ≤ fuel)
    (ha8 : asize % 8 = 0) (hle : asize ≤ 8) :
    ∃ s1 q, place fuel s (s.base + 96 + total pre) asize = some (s1, q) ∧ q ≠ 0 := by
  obtain ⟨h8, h16, htot, hle32, -, -⟩ := h.block
  simp only at h8 h16 htot hle32
  have hrd := h.read.1
  simp only at hrd
  obtain ⟨-, -, -, hends⟩ := Stable_mid_iff.1 hst
  have hsA : startsA post := by
    rcases hends with hc | hc
    · exact absurd hc (by simp)
    · exact hc.2
  obtain ⟨hR1, -⟩ := h.delete
  have hf1 : (delete_node s (s.base + 96 + total pre)).brk ≤ fuel := by
    simpa using hfuel
  by_cases hr1 : S - asize < 16
  · exact ⟨_, _, place_eval1 fuel s _ asize S hrd h8 (by omega) (by omega) hr1, by omega⟩
  · by_cases hr2 : S - asize ≤ 340
    · have hM : ∀ a, a + 8 < (delete_node s (s.base + 96 + total pre)).base + 96 + total pre ∨
          (delete_node s (s.base + 96 + total pre)).base + 96 + total pre + S ≤ a →
          PUT (PUT (PUT (PUT (delete_node s (s.base + 96 + total pre)).mem
            (s.base + 96 + total pre - 4) (PACK (S - asize) 0))
            (s.base + 96 + total pre + (S - asize) - 8) (PACK (S - asize) 0))
            (s.base + 96 + total pre + (S - asize) - 4) (PACK asize 1))
            (s.base + 96 + total pre + (S - asize) + asize - 8) (PACK asize 1) a =
          (delete_node s (s.base + 96 + total pre)).mem a := by
        intro a ha
        simp only [delete_node_base] at ha
        rw [PUT_other _ _ _ _ (by omega), PUT_other _ _ _ _ (by omega),
          PUT_other _ _ _ _ (by omega), PUT_other _ _ _ _ (by omega)]
      obtain ⟨s6, h6⟩ := hR1.insert_scribbled hsA hM
        (x := (s.base + 96 + total pre, S - asize)) (by simp) (by simp) hf1
      exact ⟨s6, _, place_eval2 fuel s _ asize S hrd h8 (by omega) ha8 (by omega) (by omega) hr2
        (by omega) s6 h6, by omega⟩
    · have hM : ∀ a, a + 8 < (delete_node s (s.base + 96 + total pre)).base + 96 + total pre ∨
          (delete_node s (s.base + 96 + total pre)).base + 96 + total pre + S ≤ a →
          PUT (PUT (PUT (PUT (delete_node s (s.base + 96 + total pre)).mem
            (s.base + 96 + total pre - 4) (PACK asize 1))
            (s.base + 96 + total pre + asize - 8) (PACK asize 1))
            (s.base + 96 + total pre + asize - 4) (PACK (S - asize) 0))
            (s.base + 96 + total pre + asize + (S - asize) - 8) (PACK (S - asize) 0) a =
          (delete_node s (s.base + 96 + total pre)).mem a := by
        intro a ha
        simp only [delete_node_base] at ha
        rw [PUT_other _ _ _ _ (by omega), PUT_other _ _ _ _ (by omega),
          PUT_other _ _ _ _ (by omega), PUT_other _ _ _ _ (by omega)]
      obtain ⟨s6, h6⟩ := hR1.insert_scribbled hsA hM
        (x := (s.base + 96 + total pre + asize, S - asize)) (by simp) (by simp; omega) hf1
      exact ⟨s6, _, place_eval3w fuel s _ asize S hrd h8 (by omega) ha8 (by omega) (by omega)
        (by omega) s6 h6, by omega⟩

/-- `place` on a listed block that fits returns, with a pointer that is not
`NULL`, whatever the adjusted size. -/
theorem Rep.place_total {s : Heap} {pre post : List Blk} {S : Nat}
    {L : Nat → List (Nat × Nat)} (h : Rep s (pre ++ (S, Tag.F) :: post) L)
    (hst : Stable (pre ++ (S, Tag.F) :: post)) {fuel : Nat} (hfuel : s.brk ≤ fuel)
    {size : Nat} (h0 : 0 < size) (hlt : size < WORD) (hle : adjust_size size ≤ S) :
    ∃ s1 q, place fuel s (s.base + 96 + total pre) (adjust_size size) = some (s1, q) ∧
      q ≠ 0 := by
  by_cases hr : InRange size
  · obtain ⟨ha8, ha16, -, -, -⟩ := adjust_size_spec h0 hr
    obtain ⟨s1, hpl, -, -, -⟩ := h.place_spec hfuel ha8 ha16 hle
    have := placePtr_ge (s.base + 96 + total pre) S (adjust_size size)
    exact ⟨s1, _, hpl, by omega⟩
  · exact h.place_small hst hfuel (adjust_size_mod size) (adjust_size_wrap hr hlt)

/-- The contract of `mm_malloc` about `NULL`, on a well-formed heap and for
every request: the call returns, and it returns `NULL` exactly when the size
is zero, or no listed free block has the adjusted size and the provider cannot
supply `max(asize, CHUNKSIZE)` more bytes. -/
theorem Rep.malloc_null {s : Heap} {bl : List Blk} {L : Nat → List (Nat × Nat)}
    (h : Rep s bl L) (hst : Stable bl) {fuel : Nat} (hfuel : s.limit ≤ fuel) {size : Nat}
    (hlt : size < WORD) :
    ∃ s1 q, mm_malloc fuel s size = some (s1, q) ∧
      (q = 0 ↔ size = 0 ∨
        ((∀ y, y ∈ flist (s.base + 96) bl → y.2 < adjust_size size) ∧
          mem_sbrk s (MAX (adjust_size size) CHUNKSIZE) = none)) := by
  by_cases h0 : size = 0
  · refine ⟨s, 0, ?_, by simp [h0]⟩
    unfold mm_malloc
    rw [if_pos h0]
  have hpos : 0 < size := Nat.pos_of_ne_zero h0
  have hbl := h.brk_le
  have hf : s.brk ≤ fuel := Nat.le_trans hbl hfuel
  have ha8 := adjust_size_mod size
  obtain ⟨hm1, hm2, hm8, hm⟩ := MAX_spec (adjust_size size) ha8
  obtain ⟨hff, hcase⟩ := h.find_fit_spec hf (adjust_size size)
  rcases hcase with ⟨y, hy, hyF, hyle⟩ | ⟨hnone, hall⟩
  · rw [hy] at hff
    simp only [ptrOf] at hff
    obtain ⟨pre, post, hbl1, hy1⟩ := mem_flist.1 hyF
    subst hbl1
    have hne : y.1 ≠ 0 := by omega
    obtain ⟨s1, q, hpl, hq⟩ := h.place_total hst hf hpos hlt hyle
    rw [← hy1] at hpl
    refine ⟨s1, q, by rw [mm_malloc_fit h0 hff hne, hpl], ?_⟩
    constructor
    · intro hc
      exact absurd hc hq
    · rintro (hc | ⟨hc, -⟩)
      · exact absurd hc h0
      · have := hc y hyF
        omega
  · rw [hnone] at hff
    simp only [ptrOf] at hff
    by_cases hroom : MAX (adjust_size size) CHUNKSIZE < 2 ^ 31 ∧
        s.brk + MAX (adjust_size size) CHUNKSIZE ≤ s.limit
    · have hsz := extSize_words (MAX (adjust_size size) CHUNKSIZE) hm8 (by omega)
      have hfe : s.brk + MAX (adjust_size size) CHUNKSIZE ≤ fuel := by omega
      obtain ⟨s1, hex, hR1, hS1, hk1⟩ := h.extend_heap_spec hst.1 hsz hroom.1 hroom.2 hm8
        (by omega) hfe
      have hstk : Stable (preKeep bl ++ [(prevFree bl + MAX (adjust_size size) CHUNKSIZE,
          Tag.F)]) := by
        have := hst.merged Stable_nil (prevFree bl + MAX (adjust_size size) CHUNKSIZE)
        simpa [postKeep] using this
      have hf1 : s1.brk ≤ fuel := by omega
      obtain ⟨s2, q, hpl, hq⟩ := hR1.place_total hstk hf1 hpos hlt
        (Nat.le_trans hm1 (Nat.le_add_left _ _))
      rw [hS1.base] at hpl
      have hne : s.base + 96 + total (preKeep bl) ≠ 0 := by omega
      refine ⟨s2, q, by rw [mm_malloc_grow h0 hff hex hne, hpl], ?_⟩
      constructor
      · intro hc
        exact absurd hc hq
      · rintro (hc | ⟨-, hc⟩)
        · exact absurd hc h0
        · rw [mem_sbrk_some hroom.1 hroom.2] at hc
          simp at hc
    · have hsb := mem_sbrk_none hroom
      have hsb2 : mem_sbrk s (extSize (MAX (adjust_size size) CHUNKSIZE / WSIZE)) = none := by
        rcases hm with hm | hm
        · by_cases hlt32 : MAX (adjust_size size) CHUNKSIZE < 2 ^ 32
          · rw [extSize_words _ hm8 hlt32]; exact hsb
          · exfalso
            have : adjust_size size < 2 ^ 32 := by
              unfold adjust_size ALIGN
              simp only [DSIZE, ALIGNMENT, WORD]
              split
              · omega
              · rw [and_MASK _ (Nat.mod_lt _ (by omega))]
                have := Nat.mod_lt ((size + 8) % 2 ^ 32 + 7) (show 0 < 2 ^ 32 by omega)
                omega
            omega
        · rw [extSize_words _ hm8 (by omega)]; exact hsb
      exact ⟨s, 0, mm_malloc_fail h0 hff (extend_heap_fail fuel s _ hsb2),
        by simp only [true_iff]; exact Or.inr ⟨hall, hsb⟩⟩

/-! ## The claims about single calls -/

theorem Stable_abf (a b c : Nat) : Stable [(a, Tag.A), (b, Tag.A), (c, Tag.F)] :=
  Stable_cons.2 ⟨Stable_cons.2 ⟨Stable_one_F c, by simp, Or.inl rfl⟩, by simp, Or.inl rfl⟩

theorem Fresh_heap0 : Fresh heap0 := ⟨rfl, by decide, by decide⟩

/-- A well-formed heap with a live block, for the statements about one call:
the heap of the scenario after `a = mm_malloc(100); b = mm_malloc(200)`. -/
theorem heap_with_block :
    ∃ s, WF s [(112, Tag.A), (208, Tag.A), (704, Tag.F)] ∧ s.limit ≤ 1 <<< 20 ∧
      (s.base + 96, 112) ∈ alist (s.base + 96) [(112, Tag.A), (208, Tag.A), (704, Tag.F)] := by
  have hl : heap0.limit ≤ 1 <<< 20 := by decide
  obtain ⟨s1, s2, s3, s4, s5, L3, L5, -, -, -, hR3, -, -, -, -, -, -, -, hl3⟩ :=
    scenario_run heap0 Fresh_heap0 (by decide) hl
  exact ⟨s3, ⟨Stable_abf _ _ _, L3, hR3⟩, by rw [hl3]; exact hl, by simp [alist]⟩

/-- A reachable heap at the limit of its provider: the heap of the scenario
after `a = mm_malloc(100); b = mm_malloc(200)` on a provider of 1120 bytes. -/
theorem heap_at_limit :
    ∃ s, WF s [(112, Tag.A), (208, Tag.A), (704, Tag.F)] ∧ s.limit = 1120 ∧ s.brk = 1120 ∧
      (s.base + 96, 112) ∈ alist (s.base + 96) [(112, Tag.A), (208, Tag.A), (704, Tag.F)] ∧
      Reach 1120 s [s.base + 96 + 112, s.base + 96] := by
  have hF : Fresh heap1 := ⟨rfl, by decide, by decide⟩
  have hl1 : heap1.limit = 1120 := rfl
  obtain ⟨s1, s2, s3, s4, s5, L3, L5, h1, h2, h3, hR3, -, -, -, -, -, -, hb3, hl3⟩ :=
    scenario_run heap1 hF (Nat.le_of_eq hl1.symm) (Nat.le_of_eq hl1)
  have hk3 : s3.brk = 1120 := by
    have := hR3.size
    simp only [total] at this
    omega
  have hr100 : InRange 100 := by unfold InRange WORD; omega
  have hr200 : InRange 200 := by unfold InRange WORD; omega
  have hbase : heap1.base = 0x10000000 := rfl
  have r1 : Reach 1120 s1 [] := Reach.init hF (Nat.le_of_eq hl1) h1
  have r2 := Reach.malloc r1 (by omega) hr100 h2
  rw [if_neg (by omega)] at r2
  have r3 := Reach.malloc r2 (by omega) hr200 h3
  rw [if_neg (by omega)] at r3
  refine ⟨s3, ⟨Stable_abf _ _ _, L3, hR3⟩, by rw [hl3, hl1], hk3, by simp [alist], ?_⟩
  rw [hb3]
  exact r3

/-- C7 (amended): on a well-formed heap, and so in every reachable state
(requests whose adjusted size does not wrap), `mm_malloc(size)` returns for
every `size`, and it returns `NULL` if and only if `size == 0`, or no listed
free block has `adjust_size(size)` bytes and the heap provider cannot supply
`max(adjust_size(size), 1024)` more bytes.  A listed block that fits is handed
out whether or not the provider could still grow the region. -/
theorem malloc_null_iff :
    (∀ (s : Heap) (bl : List Blk) (fuel size : Nat), WF s bl → s.limit ≤ fuel → size < WORD →
      ∃ s1 q, mm_malloc fuel s size = some (s1, q) ∧
        (q = 0 ↔ size = 0 ∨
          ((∀ y, y ∈ flist (s.base + 96) bl → y.2 < adjust_size size) ∧
            mem_sbrk s (MAX (adjust_size size) CHUNKSIZE) = none))) ∧
      ∀ (fuel : Nat) (s : Heap) (live : List Nat) (size : Nat), Reach fuel s live →
        size < WORD →
        ∃ bl, WF s bl ∧ ∃ s1 q, mm_malloc fuel s size = some (s1, q) ∧
          (q = 0 ↔ size = 0 ∨
            ((∀ y, y ∈ flist (s.base + 96) bl → y.2 < adjust_size size) ∧
              mem_sbrk s (MAX (adjust_size size) CHUNKSIZE) = none)) := by
  refine ⟨fun s bl fuel size hwf hfuel hlt => ?_, fun fuel s live size hr hlt => ?_⟩
  · obtain ⟨hst, L, hR⟩ := hwf
    exact hR.malloc_null hst hfuel hlt
  · obtain ⟨hfuel, -, bl, hwf, -⟩ := hr.inv
    obtain ⟨hst, L, hR⟩ := hwf
    exact ⟨bl, ⟨hst, L, hR⟩, hR.malloc_null hst hfuel hlt⟩

/-- The amended C7 at a reachable heap whose provider is exhausted: a request
of 5000 bytes, for which no listed block is large enough, returns `NULL`; a
request of 100 bytes, which the listed block of 704 bytes serves, does not. -/
theorem malloc_null_iff_witness :
    ∃ s, Reach 1120 s [s.base + 96 + 112, s.base + 96] ∧
      WF s [(112, Tag.A), (208, Tag.A), (704, Tag.F)] ∧
      mem_sbrk s (MAX (adjust_size 5000) CHUNKSIZE) = none ∧
      mem_sbrk s (MAX (adjust_size 100) CHUNKSIZE) = none ∧
      (∃ s1, mm_malloc 1120 s 5000 = some (s1, 0)) ∧
      (∃ s1 q, mm_malloc 1120 s 100 = some (s1, q) ∧ q ≠ 0) ∧
      ∃ bl, WF s bl ∧ ∃ s1 q, mm_malloc 1120 s 5000 = some (s1, q) ∧
        (q = 0 ↔ 5000 = 0 ∨
          ((∀ y, y ∈ flist (s.base + 96) bl → y.2 < adjust_size 5000) ∧
            mem_sbrk s (MAX (adjust_size 5000) CHUNKSIZE) = none)) := by
  obtain ⟨s, hwf, hlim, hbrk, -, hreach⟩ := heap_at_limit
  have ha5 : adjust_size 5000 = 5008 := by decide
  have ha1 : adjust_size 100 = 112 := by decide
  have hm5 : MAX (adjust_size 5000) CHUNKSIZE = 5008 := by decide
  have hm1 : MAX (adjust_size 100) CHUNKSIZE = 1024 := by decide
  have hsb5 : mem_sbrk s (MAX (adjust_size 5000) CHUNKSIZE) = none :=
    mem_sbrk_none (by rw [hm5]; omega)
  have hsb1 : mem_sbrk s (MAX (adjust_size 100) CHUNKSIZE) = none :=
    mem_sbrk_none (by rw [hm1]; omega)
  have hfl : flist (s.base + 96) [(112, Tag.A), (208, Tag.A), (704, Tag.F)] =
      [(s.base + 96 + 112 + 208, 704)] := by simp [flist]
  obtain ⟨s5, q5, hmm5, hiff5⟩ := malloc_null_iff.1 s _ 1120 5000 hwf (by omega) (by decide)
  obtain ⟨s1, q1, hmm1, hiff1⟩ := malloc_null_iff.1 s _ 1120 100 hwf (by omega) (by decide)
  have hq5 : q5 = 0 := by
    refine hiff5.2 (Or.inr ⟨fun y hy => ?_, hsb5⟩)
    rw [hfl, List.mem_singleton] at hy
    rw [hy, ha5]
    simp
  have hq1 : q1 ≠ 0 := by
    intro hc
    rcases hiff1.1 hc with h0 | ⟨hall, -⟩
    · omega
    · have := hall (s.base + 96 + 112 + 208, 704) (by rw [hfl]; simp)
      rw [ha1] at this
      simp at this
  rw [hq5] at hmm5
  exact ⟨s, hreach, hwf, hsb5, hsb1, ⟨s5, hmm5⟩, ⟨s1, q1, hmm1, hq1⟩,
    malloc_null_iff.2 1120 s _ 5000 hreach (by decide)⟩

/-- C8: for a live block `p` of a well-formed heap and `size > 0`,
`mm_realloc(p, size)` returns; when it returns `NULL`, the fallback
`mm_malloc(size)` returns `NULL` on the same state and the state after the call
is the state before it: memory (the header, footer and payload of `p` and the
free lists among it) and the region are unchanged. -/
theorem realloc_null_unchanged {s : Heap} {bl : List Blk} (hwf : WF s bl) {p old : Nat}
    (hp : (p, old) ∈ alist (s.base + 96) bl) {fuel : Nat} (hfuel : s.limit ≤ fuel) {size : Nat}
    (h0 : 0 < size) (hlt : size < WORD) :
    ∃ s1 q, mm_realloc fuel s p size = some (s1, q) ∧
      (q = 0 → mm_malloc fuel s size = some (s, 0) ∧ s1 = s) := by
  obtain ⟨hst, L, hR⟩ := hwf
  obtain ⟨s1, q, hre, hcase⟩ := hR.realloc_spec hst hp hfuel h0 hlt
  refine ⟨s1, q, hre, fun hq => ?_⟩
  rcases hcase with ⟨-, hs, hm⟩ | ⟨hne, -⟩
  · exact ⟨hm, hs⟩
  · exact absurd hq hne

/-- C8 at a heap whose provider is exhausted: `mm_realloc(a, 5000)` on the
block of `a` falls back to `mm_malloc(5000)`, which returns `NULL`; so does
`mm_realloc`, and the state is the one before the call. -/
theorem realloc_null_unchanged_witness :
    ∃ s, WF s [(112, Tag.A), (208, Tag.A), (704, Tag.F)] ∧
      mm_realloc 1120 s (s.base + 96) 5000 = some (s, 0) ∧
      mm_malloc 1120 s 5000 = some (s, 0) := by
  obtain ⟨s, hwf, hlim, hbrk, hp, -⟩ := heap_at_limit
  have hl : s.limit ≤ 1120 := by omega
  have ha5 : adjust_size 5000 = 5008 := by decide
  obtain ⟨s1, q, hre, himp⟩ :=
    realloc_null_unchanged hwf hp hl (by decide : 0 < 5000) (by decide)
  obtain ⟨hst, L, hR⟩ := hwf
  have hq : q = 0 := by
    obtain ⟨s2, q2, hre2, hcase⟩ := hR.realloc_spec hst hp hl (by decide : 0 < 5000)
      (by decide)
    rw [hre] at hre2
    simp only [Option.some.injEq, Prod.mk.injEq] at hre2
    obtain ⟨hs, hqq⟩ := hre2
    subst hs hqq
    rcases hcase with ⟨h0, -, -⟩ | ⟨-, -, -, hb1, hl1, -, -, bl1, S, hwf1, hS, hal⟩
    · exact h0
    · exfalso
      obtain ⟨-, L1, hR1⟩ := hwf1
      have hqS : (q, S) ∈ alist (s1.base + 96) bl1 := by
        rw [hb1]
        exact (hal _).2 (Or.inl rfl)
      obtain ⟨-, -, -, -, -, hlo, hhi⟩ := hR1.size_at hqS
      have := hR1.brk_le
      rw [ha5] at hS
      omega
  obtain ⟨hm, hs⟩ := himp hq
  rw [hq, hs] at hre
  exact ⟨s, ⟨hst, L, hR⟩, hre, hm⟩

/-- C9: on a fresh provider with room for `mm_init` (1120 bytes: then and only
then `mm_init` succeeds), the calls `a = mm_malloc(100); b = mm_malloc(200);
mm_free(a); c = mm_malloc(90)` all return, `c == a`, and the region has the same
size after the last call as before it (no request to the provider). -/
theorem scenario_reuses_block (s0 : Heap) (hF : Fresh s0) (hlim : 1120 ≤ s0.limit) {fuel : Nat}
    (hfuel : s0.limit ≤ fuel) :
    ∃ s1 s2 s3 s4 s5 a b, mm_init fuel s0 = some (s1, 0) ∧
      mm_malloc fuel s1 100 = some (s2, a) ∧ a ≠ 0 ∧
      mm_malloc fuel s2 200 = some (s3, b) ∧ b ≠ 0 ∧
      mm_free fuel s3 a = some s4 ∧
      mm_malloc fuel s4 90 = some (s5, a) ∧ s5.brk = s4.brk := by
  obtain ⟨s1, s2, s3, s4, s5, L3, L5, h1, h2, h3, -, h4, h5, h6, -⟩ :=
    scenario_run s0 hF hlim hfuel
  exact ⟨s1, s2, s3, s4, s5, _, _, h1, h2, by omega, h3, by omega, h4, h5, h6⟩

/-- C9 on the provider `heap0`. -/
theorem scenario_reuses_block_witness :
    ∃ s1 s2 s3 s4 s5 a b, mm_init (1 <<< 20) heap0 = some (s1, 0) ∧
      mm_malloc (1 <<< 20) s1 100 = some (s2, a) ∧ a ≠ 0 ∧
      mm_malloc (1 <<< 20) s2 200 = some (s3, b) ∧ b ≠ 0 ∧
      mm_free (1 <<< 20) s3 a = some s4 ∧
      mm_malloc (1 <<< 20) s4 90 = some (s5, a) ∧ s5.brk = s4.brk :=
  scenario_reuses_block heap0 Fresh_heap0 (by decide) (by decide)

/-- C10 (amended): continuing the scenario with `mm_free(b); mm_free(c)`, the
heap ends as one single free block, so no free block has a free neighbour;
its size is `size(a) + size(b)` plus the 704 bytes of the free block that
followed `b`: 112 + 208 + 704 = 1024 bytes. -/
theorem scenario_coalesces_all (s0 : Heap) (hF : Fresh s0) (hlim : 1120 ≤ s0.limit)
    {fuel : Nat} (hfuel : s0.limit ≤ fuel) :
    ∃ s1 s2 s3 s4 s5 s6 s7 a b, mm_init fuel s0 = some (s1, 0) ∧
      mm_malloc fuel s1 100 = some (s2, a) ∧ mm_malloc fuel s2 200 = some (s3, b) ∧
      mm_free fuel s3 a = some s4 ∧ mm_malloc fuel s4 90 = some (s5, a) ∧
      mm_free fuel s5 b = some s6 ∧ mm_free fuel s6 a = some s7 ∧
      GET_SIZE s3.mem (HDRP a) = 112 ∧ GET_SIZE s3.mem (HDRP b) = 208 ∧
      GET_SIZE s3.mem (HDRP (NEXT_BLKP s3.mem b)) = 704 ∧
      WF s7 [(1024, Tag.F)] ∧ GET_SIZE s7.mem (HDRP a) = 1024 := by
  obtain ⟨s1, s2, s3, s4, s5, L3, L5, h1, h2, h3, hR3, h4, h5, -, hR5, hb5, hl5, hb3, -⟩ :=
    scenario_run s0 hF hlim hfuel
  -- the sizes after `b = mm_malloc(200)`
  have hR3a : Rep s3 ([] ++ (112, Tag.A) :: [(208, Tag.A), (704, Tag.F)]) L3 := hR3
  have hR3b : Rep s3 ([(112, Tag.A)] ++ (208, Tag.A) :: [(704, Tag.F)]) L3 := hR3
  have hR3c : Rep s3 ([(112, Tag.A), (208, Tag.A)] ++ (704, Tag.F) :: []) L3 := hR3
  have hsa := hR3a.read.1
  have hsb := hR3b.read
  have hsc := hR3c.read.1
  simp only [total, Nat.add_zero, hb3] at hsa hsb hsc
  -- `mm_free(b)`
  have hR5b : Rep s5 ([(112, Tag.A)] ++ (208, Tag.A) :: [(704, Tag.F)]) L5 := hR5
  have hf5 : s5.brk ≤ fuel := by have := hR5.brk_le; omega
  obtain ⟨s6, h6, hR6, hS6, hk6⟩ := hR5b.free_spec (by simp) (by simp) hf5
  have e6 : preKeep [(112, Tag.A)] ++
      (prevFree [(112, Tag.A)] + 208 + nextFree [(704, Tag.F)], Tag.F) ::
        postKeep [(704, Tag.F)] = [] ++ (112, Tag.A) :: [(912, Tag.F)] := by decide
  rw [e6] at hR6
  simp only [total, Nat.add_zero, hb5] at h6
  -- `mm_free(c)`
  have hb6 : s6.base = s0.base := by rw [hS6.base, hb5]
  have hf6 : s6.brk ≤ fuel := by omega
  obtain ⟨s7, h7, hR7, hS7, hk7⟩ := hR6.free_spec (by simp) (by simp) hf6
  have e7 : preKeep [] ++ (prevFree [] + 112 + nextFree [(912, Tag.F)], Tag.F) ::
      postKeep [(912, Tag.F)] = [] ++ (1024, Tag.F) :: [] := by decide
  rw [e7] at hR7
  simp only [total, Nat.add_zero, hb6] at h7
  have hb7 : s7.base = s0.base := by rw [hS7.base, hb6]
  have hs7 := hR7.read.1
  simp only [total, Nat.add_zero, hb7] at hs7
  refine ⟨s1, s2, s3, s4, s5, s6, s7, _, _, h1, h2, h3, h4, h5, h6, h7, hsa, hsb.1, ?_,
    ⟨Stable_one_F 1024, _, hR7⟩, hs7⟩
  rw [hsb.2.2.2]
  exact hsc

/-- The amended C10 on the provider `heap0`. -/
theorem scenario_coalesces_all_witness :
    ∃ s1 s2 s3 s4 s5 s6 s7 a b, mm_init (1 <<< 20) heap0 = some (s1, 0) ∧
      mm_malloc (1 <<< 20) s1 100 = some (s2, a) ∧ mm_malloc (1 <<< 20) s2 200 = some (s3, b) ∧
      mm_free (1 <<< 20) s3 a = some s4 ∧ mm_malloc (1 <<< 20) s4 90 = some (s5, a) ∧
      mm_free (1 <<< 20) s5 b = some s6 ∧ mm_free (1 <<< 20) s6 a = some s7 ∧
      GET_SIZE s3.mem (HDRP a) = 112 ∧ GET_SIZE s3.mem (HDRP b) = 208 ∧
      GET_SIZE s3.mem (HDRP (NEXT_BLKP s3.mem b)) = 704 ∧
      WF s7 [(1024, Tag.F)] ∧ GET_SIZE s7.mem (HDRP a) = 1024 :=
  scenario_coalesces_all heap0 Fresh_heap0 (by decide) (by decide)

/-! ## The claims about sizes and size classes -/

/-- C12: for `1 ≤ size ≤ 8` the adjusted size is 16; for `size > 8` with
`size + 15` below `2 ^ 32` it is the smallest multiple of 8 that is at least
`size + 8`; in both cases it is `max(16, ALIGN(size + 8))`, and the payload
capacity `adjust_size(size) - 8` is at least `size` and less than
`size + 8`. -/
theorem adjust_size_in_range :
    (∀ size, 1 ≤ size → size ≤ 8 → adjust_size size = 16) ∧
      (∀ size, 8 < size → size + 15 < WORD →
        adjust_size size % 8 = 0 ∧ size + 8 ≤ adjust_size size ∧
          ∀ m, m % 8 = 0 → size + 8 ≤ m → adjust_size size ≤ m) ∧
      ∀ size, 1 ≤ size → size + 15 < WORD →
        adjust_size size = max 16 (ALIGN (size + 8)) ∧ size ≤ adjust_size size - 8 ∧
          adjust_size size - 8 < size + 8 := by
  refine ⟨fun size h1 h8 => ?_, fun size h8 hlt => ?_, fun size h1 hlt => ?_⟩
  · unfold adjust_size
    rw [if_pos (by simp only [DSIZE]; omega)]
    rfl
  · have hr : InRange size := by unfold InRange; omega
    obtain ⟨ha8, -, hge, hlt2, -⟩ := adjust_size_spec (by omega) hr
    exact ⟨ha8, hge, fun m hm hle => by omega⟩
  · have hr : InRange size := by unfold InRange; omega
    obtain ⟨ha8, ha16, hge, hlt2, -⟩ := adjust_size_spec (by omega) hr
    simp only [WORD] at hlt
    have hA : ALIGN (size + 8) = size + 15 - (size + 15) % 8 := by
      rw [ALIGN_eq _ (by omega)]
    refine ⟨?_, by omega, by omega⟩
    unfold adjust_size
    simp only [DSIZE]
    split
    · rw [hA]
      omega
    · have hm : (size + 8) % WORD = size + 8 := by
        simp only [WORD]; omega
      rw [hm, hA]
      omega

/-- C12 at the sizes 5 and 100. -/
theorem adjust_size_in_range_witness :
    adjust_size 5 = 16 ∧ adjust_size 100 = 112 ∧ adjust_size 100 = max 16 (ALIGN (100 + 8)) ∧
      100 ≤ adjust_size 100 - 8 ∧ adjust_size 100 - 8 < 100 + 8 := by
  obtain ⟨h1, -, h3⟩ := adjust_size_in_range
  exact ⟨h1 5 (by decide) (by decide), by decide, (h3 100 (by decide) (by decide)).1,
    (h3 100 (by decide) (by decide)).2.1, (h3 100 (by decide) (by decide)).2.2⟩

/-- C14: `mm_realloc(NULL, n)` with `n > 0` is `mm_malloc(n)`, pointer and state;
`mm_realloc(p, 0)` is `mm_free(p)` with the result `NULL`, for every `p`. -/
theorem realloc_degenerate :
    (∀ fuel s n, 0 < n → mm_realloc fuel s 0 n = mm_malloc fuel s n) ∧
      ∀ fuel s p, mm_realloc fuel s p 0 = (mm_free fuel s p).map (fun s1 => (s1, 0)) := by
  constructor
  · intro fuel s n hn
    unfold mm_realloc
    rw [if_neg (by omega), if_pos rfl]
  · intro fuel s p
    unfold mm_realloc
    rw [if_pos rfl]
    cases mm_free fuel s p <;> rfl

/-- C17: `get_list_index(size)` is `min(19, floor(log2(size)))` for `size ≥ 1`
and `0` for `size = 0`; it is at most 19; class `i` with `1 ≤ i ≤ 18` is that
of the sizes in `[2 ^ i, 2 ^ (i + 1))` and class 19 that of the sizes from
`2 ^ 19` on; and it is monotone. -/
theorem get_list_index_classes :
    (∀ size, 1 ≤ size → get_list_index size = min 19 (Nat.log 2 size)) ∧
      get_list_index 0 = 0 ∧ (∀ size, get_list_index size ≤ 19) ∧
      (∀ size i, 1 ≤ i → i ≤ 18 →
        (get_list_index size = i ↔ 2 ^ i ≤ size ∧ size < 2 ^ (i + 1))) ∧
      (∀ size, get_list_index size = 19 ↔ 2 ^ 19 ≤ size) ∧
      ∀ a b, a ≤ b → get_list_index a ≤ get_list_index b := by
  refine ⟨fun size _ => get_list_index_log size, by decide, fun size => ?_,
    fun size i h1 h2 => ?_, fun size => get_list_index_top, fun a b h => get_list_index_mono h⟩
  · have := get_list_index_lt size
    simp only [SEGLIST_CNT] at this
    omega
  · by_cases hs : 1 ≤ size
    · exact get_list_index_class h2 hs
    · have h0 : size = 0 := by omega
      subst h0
      have hz : get_list_index 0 = 0 := by decide
      rw [hz]
      have : 0 < 2 ^ i := Nat.pow_pos (by omega)
      omega

/-! ## Reachable states -/

/-- In a state reached by requests whose adjusted size does not wrap, every
non-`NULL` pointer `mm_malloc` returns is a multiple of 8. -/
theorem Reach.malloc_aligned {fuel : Nat} {s s1 : Heap} {live : List Nat} {size q : Nat}
    (h : Reach fuel s live) (h0 : 0 < size) (hr : InRange size)
    (hm : mm_malloc fuel s size = some (s1, q)) : q % 8 = 0 :=
  (h.inv.malloc h0 hr hm).2

theorem Inv.apart {fuel : Nat} {s : Heap} {live : List Nat} (hI : Inv fuel s live) {p q : Nat}
    (hp : p ∈ live) (hq : q ∈ live) (hne : p ≠ q) : p + 16 ≤ q ∨ q + 16 ≤ p := by
  obtain ⟨-, -, bl, ⟨-, L, hR⟩, hlive, -⟩ := hI
  obtain ⟨S1, h1⟩ := hlive p hp
  obtain ⟨S2, h2⟩ := hlive q hq
  have hs1 := (hR.size_at h1).2.2.2.1
  have hs2 := (hR.size_at h2).2.2.2.1
  rcases pairwise_mem_cases (alist_pairwise hR.tiles) h1 h2 with h3 | h3 | h3
  · exact absurd (congrArg Prod.fst h3) hne
  · left; simp only at h3; omega
  · right; simp only at h3; omega

/-- The first two calls `p = mm_malloc(5); q = mm_malloc(8)` on a fresh heap. -/
theorem two_small_blocks (s0 : Heap) (hF : Fresh s0) (hlim : 1120 ≤ s0.limit) {fuel : Nat}
    (hfuel : s0.limit ≤ fuel) :
    ∃ s1 s2 s3 L3, mm_init fuel s0 = some (s1, 0) ∧
      mm_malloc fuel s1 5 = some (s2, s0.base + 96) ∧
      mm_malloc fuel s2 8 = some (s3, s0.base + 96 + 16) ∧
      Rep s3 [(16, Tag.A), (16, Tag.A), (992, Tag.F)] L3 ∧ s3.base = s0.base := by
  obtain ⟨hb0, hal, hfits⟩ := hF
  have h5 : adjust_size 5 = 16 := by decide
  have h8 : adjust_size 8 = 16 := by decide
  obtain ⟨s1, L1, hinit, hR1, hk1, hb1, hl1⟩ := mm_init_spec fuel s0 hb0 hal hfits hlim
    (by omega)
  have hR1' : Rep s1 ([] ++ (1024, Tag.F) :: []) L1 := hR1
  have hfu1 : s1.limit ≤ fuel := by omega
  have hp5 : 0 < 5 := by omega
  have hr5 : InRange 5 := by unfold InRange WORD; omega
  have hfit5 : adjust_size 5 ≤ 1024 := by rw [h5]; omega
  obtain ⟨s2, L2, hm2, hR2, hk2, hb2, hl2⟩ := hR1'.malloc_at hfu1 hp5 hr5 hfit5 (by
      intro y hy
      have := hy.1
      simpa [flist, total] using this)
  rw [h5] at hm2 hR2
  have e2 : placeBlocks [] 1024 16 [] = [(16, Tag.A)] ++ (1008, Tag.F) :: [] := by decide
  rw [e2] at hR2
  rw [placePtr_self (by omega)] at hm2
  simp only [total, Nat.add_zero] at hm2
  have hfu2 : s2.limit ≤ fuel := by omega
  have hp8 : 0 < 8 := by omega
  have hr8 : InRange 8 := by unfold InRange WORD; omega
  have hfit8 : adjust_size 8 ≤ 1008 := by rw [h8]; omega
  obtain ⟨s3, L3, hm3, hR3, hk3, hb3, hl3⟩ := hR2.malloc_at hfu2 hp8 hr8 hfit8 (by
      intro y hy
      have := hy.1
      simpa [flist, total] using this)
  rw [h8] at hm3 hR3
  have e3 : placeBlocks [(16, Tag.A)] 1008 16 [] =
      [(16, Tag.A), (16, Tag.A), (992, Tag.F)] := by decide
  rw [e3] at hR3
  rw [placePtr_self (by omega)] at hm3
  simp only [total, Nat.add_zero] at hm3
  refine ⟨s1, s2, s3, L3, hinit, ?_, ?_, hR3, ?_⟩
  · rw [hm2, hb1]
  · rw [hm3, hb2, hb1]
  · rw [hb3, hb2, hb1]

/-- C13: in every reachable state (requests whose adjusted size does not wrap)
two different live pointers are at least 16 bytes apart; and on a fresh heap
`p = mm_malloc(5); q = mm_malloc(8)` return blocks of exactly 16 bytes whose
pointers are exactly 16 bytes apart, in a reachable state where both are
live. -/
theorem live_pointers_apart :
    (∀ fuel s live p q, Reach fuel s live → p ∈ live → q ∈ live → p ≠ q →
        p + 16 ≤ q ∨ q + 16 ≤ p) ∧
      ∀ fuel s0, Fresh s0 → 1120 ≤ s0.limit → s0.limit ≤ fuel →
        ∃ s1 s2 s3 p q, mm_init fuel s0 = some (s1, 0) ∧ mm_malloc fuel s1 5 = some (s2, p) ∧
          mm_malloc fuel s2 8 = some (s3, q) ∧ GET_SIZE s3.mem (HDRP p) = 16 ∧
          GET_SIZE s3.mem (HDRP q) = 16 ∧ q = p + 16 ∧ Reach fuel s3 [q, p] := by
  refine ⟨fun fuel s live p q h hp hq hne => h.inv.apart hp hq hne,
    fun fuel s0 hF hlim hfuel => ?_⟩
  obtain ⟨s1, s2, s3, L3, h1, h2, h3, hR3, hb3⟩ := two_small_blocks s0 hF hlim hfuel
  have hRa : Rep s3 ([] ++ (16, Tag.A) :: [(16, Tag.A), (992, Tag.F)]) L3 := hR3
  have hRb : Rep s3 ([(16, Tag.A)] ++ (16, Tag.A) :: [(992, Tag.F)]) L3 := hR3
  have hsa := hRa.read.1
  have hsb := hRb.read.1
  simp only [total, Nat.add_zero, hb3] at hsa hsb
  have hr5 : InRange 5 := by unfold InRange WORD; omega
  have hr8 : InRange 8 := by unfold InRange WORD; omega
  have r1 : Reach fuel s1 [] := Reach.init hF hfuel h1
  have r2 := Reach.malloc r1 (by omega) hr5 h2
  rw [if_neg (by omega)] at r2
  have r3 := Reach.malloc r2 (by omega) hr8 h3
  rw [if_neg (by omega)] at r3
  exact ⟨s1, s2, s3, _, _, h1, h2, h3, hsa, hsb, rfl, r3⟩

/-- C13 on the provider `heap0`. -/
theorem live_pointers_apart_witness :
    ∃ s1 s2 s3 p q, mm_init (1 <<< 20) heap0 = some (s1, 0) ∧
      mm_malloc (1 <<< 20) s1 5 = some (s2, p) ∧ mm_malloc (1 <<< 20) s2 8 = some (s3, q) ∧
      GET_SIZE s3.mem (HDRP p) = 16 ∧ GET_SIZE s3.mem (HDRP q) = 16 ∧ q = p + 16 ∧
      Reach (1 <<< 20) s3 [q, p] ∧ (p + 16 ≤ q ∨ q + 16 ≤ p) := by
  obtain ⟨s1, s2, s3, p, q, h1, h2, h3, h4, h5, h6, h7⟩ :=
    live_pointers_apart.2 (1 <<< 20) heap0 Fresh_heap0 (by decide) (by decide)
  exact ⟨s1, s2, s3, p, q, h1, h2, h3, h4, h5, h6, h7,
    live_pointers_apart.1 _ _ _ p q h7 (by simp) (by simp) (by omega)⟩

/-- C16: on a fresh provider `mm_init` returns `0` or `-1`, and `-1` exactly
when one of its two requests to the provider fails (the first for the table
and the sentinels, the second, made by `extend_heap` in the state
`initState`, for the first chunk).  After a successful `mm_init` every list
head is `NULL` except that of list `get_list_index(1024) = 10`, whose only
node (no predecessor, no successor) is a free block of 1024 bytes with equal
header and footer; right before it lies the prologue, header and footer
`PACK(8, 1)`, and right behind it, in the last word of the region, the
epilogue header `PACK(0, 1)`. -/
theorem mm_init_contract (fuel : Nat) (s : Heap) (hF : Fresh s) (hfuel : 1120 ≤ fuel) :
    ∃ s1 r, mm_init fuel s = some (s1, r) ∧ (r = 0 ∨ r = -1) ∧
      (r = -1 ↔ mem_sbrk s ((SEGLIST_CNT + 4) * PTRSIZE) = none ∨
        mem_sbrk (initState s) (extSize (CHUNKSIZE / WSIZE)) = none) ∧
      (r = 0 →
        (∀ i, i < SEGLIST_CNT → getHead s1 i = if i = 10 then s.base + 96 else 0) ∧
        get_list_index 1024 = 10 ∧
        GET s1.mem (HDRP (s.base + 96)) = PACK 1024 0 ∧
        GET s1.mem (FTRP s1.mem (s.base + 96)) = PACK 1024 0 ∧
        PREV s1.mem (s.base + 96) = 0 ∧ NEXT s1.mem (s.base + 96) = 0 ∧
        PREV_BLKP s1.mem (s.base + 96) = s.base + 88 ∧
        GET s1.mem (HDRP (s.base + 88)) = PACK DSIZE 1 ∧
        GET s1.mem (s.base + 88) = PACK DSIZE 1 ∧
        HDRP (NEXT_BLKP s1.mem (s.base + 96)) = s1.base + s1.brk - WSIZE ∧
        GET s1.mem (s1.base + s1.brk - WSIZE) = PACK 0 1) := by
  have h96 : (SEGLIST_CNT + 4) * PTRSIZE = 96 := by decide
  have h1024 : extSize (CHUNKSIZE / WSIZE) = 1024 := by decide
  have hP9 : PACK DSIZE 1 = 9 := by decide
  have hP1 : PACK 0 1 = 1 := by decide
  have hP0 : PACK 1024 0 = 1024 := by decide
  have h10 : get_list_index 1024 = 10 := by decide
  obtain ⟨hb, hk, hl, -⟩ := initState_fields s
  have hbrk := hF.1
  rw [h96, h1024]
  by_cases hlim : 1120 ≤ s.limit
  · obtain ⟨s1, hinit, hR, hk1, hb1, hl1⟩ := mm_init_layout fuel s hF hlim hfuel
    have hs1 : mem_sbrk s 96 = some (s.base + s.brk, { s with brk := s.brk + 96 }) :=
      mem_sbrk_some (by omega) (by omega)
    have hs2 : mem_sbrk (initState s) 1024 ≠ none := by
      unfold mem_sbrk
      rw [if_pos ⟨by omega, by omega⟩]
      simp
    refine ⟨s1, 0, hinit, Or.inl rfl, ?_, fun _ => ?_⟩
    · rw [hs1]
      simp [hs2]
    · have hR' : Rep s1 ([] ++ (1024, Tag.F) :: []) (insertL (fun _ => []) (s.base + 96, 1024)) :=
        hR
      obtain ⟨-, -, -, -, hh, hf⟩ := hR'.block
      obtain ⟨hr1, -, hr3, hr4⟩ := hR'.read
      simp only [total, Nat.add_zero, hb1, abit_F] at hh hf hr1 hr3 hr4
      have hlk := hR.lists.links 10 (by decide)
      have e10 : insertL (fun _ => []) (s.base + 96, 1024) 10 = [(s.base + 96, 1024)] := by
        have := insertL_empty_at (s.base + 96, 1024)
        rwa [h10] at this
      rw [e10] at hlk
      obtain ⟨hprev, hnext, -⟩ := hlk
      simp only [nextOf] at hnext
      have hph := hR.prol_hdr
      have hpf := hR.prol_ftr
      have hep := hR.epi
      rw [hb1] at hph hpf
      refine ⟨fun i hi => ?_, h10, ?_, ?_, hprev, hnext, ?_, ?_, ?_, ?_, ?_⟩
      · have hhd := hR.lists.head i hi
        rw [getHead_eq, hR.seg, hhd]
        by_cases hi10 : i = 10
        · rw [hi10, e10, if_pos rfl]
          rfl
        · rw [insertL_empty_ne _ (by rw [h10]; exact hi10), if_neg hi10]
          rfl
      · rw [hP0]
        simpa [HDRP, WSIZE] using hh
      · rw [hP0, hr3]
        exact hf
      · simp only [PREV_BLKP, DSIZE]
        have e : s.base + 96 - 8 = s.base + 88 := by omega
        rw [e, GET_SIZE_eq, hpf]
        omega
      · rw [hP9]
        simpa [HDRP, WSIZE] using hph
      · rw [hP9]
        exact hpf
      · rw [hr4, hb1, hk1]
        simp only [HDRP, WSIZE]
      · rw [hP1]
        exact hep
  · by_cases hlim96 : s.brk + 96 ≤ s.limit
    · have hsb : mem_sbrk (initState s) (extSize (CHUNKSIZE / WSIZE)) = none := by
        rw [h1024]
        exact mem_sbrk_none (by omega)
      refine ⟨initState s, -1, ?_, Or.inr rfl, ?_, fun hc => by simp at hc⟩
      · rw [mm_init_eval fuel s hlim96, extend_heap_fail fuel _ _ hsb]
        rfl
      · rw [h1024] at hsb
        simp [hsb]
    · have hsb : mem_sbrk s 96 = none := mem_sbrk_none (fun hc => hlim96 hc.2)
      refine ⟨s, -1, mm_init_nomem fuel s hlim96, Or.inr rfl, ?_, fun hc => by simp at hc⟩
      simp [hsb]

/-- C16 on the provider `heap0`. -/
theorem mm_init_contract_witness :
    ∃ s1 r, mm_init (1 <<< 20) heap0 = some (s1, r) ∧ (r = 0 ∨ r = -1) ∧
      (r = -1 ↔ mem_sbrk heap0 ((SEGLIST_CNT + 4) * PTRSIZE) = none ∨
        mem_sbrk (initState heap0) (extSize (CHUNKSIZE / WSIZE)) = none) ∧
      (r = 0 →
        (∀ i, i < SEGLIST_CNT → getHead s1 i = if i = 10 then heap0.base + 96 else 0) ∧
        get_list_index 1024 = 10 ∧
        GET s1.mem (HDRP (heap0.base + 96)) = PACK 1024 0 ∧
        GET s1.mem (FTRP s1.mem (heap0.base + 96)) = PACK 1024 0 ∧
        PREV s1.mem (heap0.base + 96) = 0 ∧ NEXT s1.mem (heap0.base + 96) = 0 ∧
        PREV_BLKP s1.mem (heap0.base + 96) = heap0.base + 88 ∧
        GET s1.mem (HDRP (heap0.base + 88)) = PACK DSIZE 1 ∧
        GET s1.mem (heap0.base + 88) = PACK DSIZE 1 ∧
        HDRP (NEXT_BLKP s1.mem (heap0.base + 96)) = s1.base + s1.brk - WSIZE ∧
        GET s1.mem (s1.base + s1.brk - WSIZE) = PACK 0 1) :=
  mm_init_contract (1 <<< 20) heap0 Fresh_heap0 (by decide)

/-- C18: if the free lists are well formed (each sorted ascending by block
size) and the node `bp` of size `size` is in none of them, then
`insert_node(bp, size)` returns, the list `get_list_index(size)` becomes
`l1 ++ bp :: l2` where `l1 ++ l2` is the old list, every node of `l1` is
smaller than `size` and the first node of `l2`, if any, has at least `size`
bytes; the new list is sorted ascending and has no node twice, and every other
list is unchanged. -/
theorem insert_node_sorted {s : Heap} {FB : List (Nat × Nat)} {L : Nat → List (Nat × Nat)}
    (hL : Lists s.mem s.seg_free_lists FB L) {bp size : Nat}
    (hS : Sep s.seg_free_lists ((bp, size) :: FB)) (hx : (bp, size) ∉ FB)
    (hsz : ∀ y, y ∈ FB → GET_SIZE s.mem (HDRP y.1) = y.2) {fuel : Nat}
    (hf : FB.length < fuel) :
    ∃ s1 L1 l1 l2, insert_node fuel s bp size = some s1 ∧
      s1.seg_free_lists = s.seg_free_lists ∧
      Lists s1.mem s.seg_free_lists ((bp, size) :: FB) L1 ∧
      L (get_list_index size) = l1 ++ l2 ∧
      L1 (get_list_index size) = l1 ++ (bp, size) :: l2 ∧
      (∀ y, y ∈ l1 → y.2 < size) ∧ (∀ y, l2.head? = some y → size ≤ y.2) ∧
      (L1 (get_list_index size)).Pairwise (fun x y => x.2 ≤ y.2) ∧
      (L1 (get_list_index size)).Nodup ∧
      ∀ i, i ≠ get_list_index size → L1 i = L i := by
  have hFB : ∀ y, y ∈ (bp, size) :: FB ↔ y = (bp, size) ∨ y ∈ FB := fun y => List.mem_cons
  obtain ⟨s1, hres, -, -, -, hsg, hL1, -⟩ := insert_node_lists hL hS hx hsz hf hFB
  have hi := get_list_index_lt size
  refine ⟨s1, _, (L (get_list_index size)).takeWhile (fun y => decide (y.2 < size)),
    (L (get_list_index size)).dropWhile (fun y => decide (y.2 < size)), hres, hsg, hL1,
    (List.takeWhile_append_dropWhile _ _).symm, ?_, ?_, ?_, ?_, ?_, ?_⟩
  · exact Function.update_same _ _ _
  · intro y hy
    have := List.mem_takeWhile_imp hy
    simpa using this
  · intro y hy
    have := List.head?_dropWhile_not (fun y : Nat × Nat => decide (y.2 < size))
      (L (get_list_index size))
    rw [hy] at this
    simp only [Option.all_some, Bool.not_eq_true', decide_eq_false_iff_not, Nat.not_lt] at this
    exact this
  · exact hL1.sorted _ hi
  · exact hL1.nodup _ hi
  · intro i hne
    exact Function.update_noteq hne _ _

/-- C18 on the heap left by `mm_init`: a second node of 1024 bytes goes in
front of the one that list 10 already holds. -/
theorem insert_node_sorted_witness :
    ∃ s s1 L1, insert_node 64 s (s.base + 608) 1024 = some s1 ∧
      Lists s1.mem s.seg_free_lists [(s.base + 608, 1024), (s.base + 96, 1024)] L1 ∧
      L1 10 = [(s.base + 608, 1024), (s.base + 96, 1024)] := by
  obtain ⟨s, -, hR, -, hb, -⟩ := mm_init_layout 1120 heap0 Fresh_heap0 (by decide) (by decide)
  have hbase : s.base = 0x10000000 := by rw [hb]; rfl
  have hfl : flist (s.base + 96) [(1024, Tag.F)] = [(s.base + 96, 1024)] := by simp [flist]
  rw [← hb] at hR
  have hL : Lists s.mem s.seg_free_lists [(s.base + 96, 1024)]
      (insertL (fun _ => []) (s.base + 96, 1024)) := by
    rw [hR.seg, ← hfl]
    exact hR.lists
  have hS : Sep s.seg_free_lists [(s.base + 608, 1024), (s.base + 96, 1024)] := by
    rw [hR.seg]
    refine ⟨fun x hx => ?_, fun x hx => ?_, fun x y hx hy => ?_⟩
    · simp only [List.mem_cons, List.mem_singleton, List.not_mem_nil, or_false] at hx
      rcases hx with rfl | rfl <;> simp
    · simp only [List.mem_cons, List.mem_singleton, List.not_mem_nil, or_false] at hx
      rcases hx with rfl | rfl <;> simp only [hbase] <;> omega
    · simp only [List.mem_cons, List.mem_singleton, List.not_mem_nil, or_false] at hx hy
      rcases hx with rfl | rfl <;> rcases hy with rfl | rfl <;> simp
  have hx : ((s.base + 608, 1024) : Nat × Nat) ∉ [(s.base + 96, 1024)] := by simp
  have hsz : ∀ y, y ∈ [(s.base + 96, 1024)] → GET_SIZE s.mem (HDRP y.1) = y.2 := by
    intro y hy
    exact hR.hdr y (by rw [hfl]; exact hy)
  have h10 : get_list_index 1024 = 10 := by decide
  obtain ⟨s1, L1, l1, l2, hins, -, hL1, e1, e2, hlt, -, -, -, -⟩ :=
    insert_node_sorted hL hS hx hsz (by simp : [(s.base + 96, 1024)].length < 64)
  refine ⟨s, s1, L1, hins, hL1, ?_⟩
  rw [h10] at e1 e2
  have e0 : insertL (fun _ => []) (s.base + 96, 1024) 10 = [(s.base + 96, 1024)] := by
    have := insertL_empty_at (s.base + 96, 1024)
    rw [h10] at this
    exact this
  rw [e0] at e1
  cases l1 with
  | nil =>
    rw [List.nil_append] at e1 e2
    rw [e2, ← e1]
  | cons a t =>
    have ha : a = (s.base + 96, 1024) := by
      have := congrArg List.head? e1
      simpa using this.symm
    have := hlt a (List.mem_cons_self _ _)
    rw [ha] at this
    simp at this

/-- C11: for the request sizes `0xFFFFFFFF` and `0xFFFFFFF8` the adjusted size
computed in 32-bit arithmetic is 8 and 0: below the 16-byte minimum. -/
theorem adjust_size_wraps :
    adjust_size 0xFFFFFFFF = 8 ∧ adjust_size 0xFFFFFFF8 = 0 := by
  decide

set_option maxRecDepth 100000 in
/-- C1: after `x = mm_malloc(0xFFFFFFF8)`, stores of the caller into the
payload of `x`, and `y = mm_malloc(1000)`, the call `mm_malloc(56)` returns
`0x10000074`, which is 4 modulo 8. -/
theorem malloc_misaligned_after_wrap :
    runMisaligned = some (0x10000060, 0x10000070, 0x10000074) ∧ 0x10000074 % 8 = 4 := by
  decide

set_option maxRecDepth 100000 in
/-- C2: after `a = mm_malloc(8); x = mm_malloc(0xFFFFFFF8)` the block of `a`
has the header word 17 and the footer word 1. -/
theorem footer_clobbered_after_wrap :
    runFooter = some (0x10000060, 0x10000070, 17, 1) := by
  decide

set_option maxRecDepth 100000 in
/-- C3: after `f = mm_malloc(8); n = mm_malloc(8); mm_free(f)` the call
`mm_malloc(0xFFFFFFF8)` returns the live pointer `n` again and leaves a zero
size in its header, so the walk from the first block stops at `n` and not at
the end of the region. -/
theorem same_block_handed_out_twice :
    runTwice = some (0x10000070, 0x10000070, 1, some 0x10000070, 0x10000460) := by
  decide

set_option maxRecDepth 100000 in
/-- C4: after `a = mm_malloc(1); p = mm_malloc(0xFFFFFFFF); b = mm_malloc(1);
mm_free(p)` the block of `p` is free with size 8 and the word in the header of
`b`, the block right behind it, is 0: its allocated bit is clear as well. -/
theorem adjacent_free_after_wrap :
    runAdjacent = some (0x10000070, 0x10000078, 8, 0x10000078, 0) := by
  decide

set_option maxRecDepth 100000 in
/-- C5: in a state reached through `mm_malloc(0xFFFFFFF8)` and a store of the
caller into that payload, `p = mm_malloc(504); mm_free(p); mm_malloc(504)`
grows the region from 1120 to 2144 bytes in the last call. -/
theorem round_trip_grows_after_wrap :
    runRoundTrip = some (0x10000070, 0x10000080, 0x10000290, 1120, 2144) := by
  decide

set_option maxRecDepth 100000 in
/-- C6: with `p = mm_malloc(100)` holding the byte `0xAA` at `p + 4` and a
block `x = mm_malloc(0xFFFFFFF8)` whose first word the caller set to `p`,
`mm_realloc(p, 200)` returns `p` with the byte at `p + 4` turned to 0. -/
theorem realloc_loses_bytes_after_wrap :
    runRealloc = some (0x10000060, 0x100000D0, 0x10000060, 170, 0) := by
  decide

set_option maxRecDepth 100000 in
/-- C15: after `x = mm_malloc(0xFFFFFFF8); p = mm_malloc(1016)` the block of `p`
has 1024 bytes and the words of both neighbours carry the allocated bit, yet
after `mm_free(p)` its header holds the size 2048. -/
theorem free_doubles_size_after_wrap :
    runDouble = some (0x10000060, 0x10000060, 1025, 1, 1, 2048) := by
  decide

set_option maxRecDepth 100000 in
/-- C19: in a state reached through `mm_malloc(0xFFFFFFF8)` and a store of the
caller into that payload, `find_fit(2048)` returns `NULL` although the node at
the head of list 9 has a header of size 4096. -/
theorem find_fit_misses_after_wrap :
    runMiss = some (0x10000070, 0, 0x10000080, 4096) := by
  decide

set_option maxRecDepth 100000 in
/-- C7 as stated fails: on a provider with no room left after `mm_init`,
`mm_malloc(100)` returns the non-`NULL` pointer `0x10000060` although the
provider refuses the growth of `max(adjust_size(100), 1024)` bytes. -/
theorem malloc_fits_without_room :
    runNoRoom = some (0x10000060, true) := by
  decide

set_option maxRecDepth 100000 in
/-- C10 as stated fails: in the scenario the blocks of `a` and `b` have 112 and
208 bytes, and the free block at the end has 1024 bytes, not 320. -/
theorem scenario_merged_size :
    runScenario = some (112, 208, 1024) := by
  decide

/-! ## The claims about `mm_realloc` and the search -/

/-- C25: for a pointer `p` that is not `NULL` and `size > 0` with
`adjust_size(size)` at most the size in the header of `p`, `mm_realloc(p, size)`
returns `p` and the state after the call is the state before it: no byte of
memory is written and the region is not grown. -/
theorem realloc_in_place_unchanged (fuel : Nat) (s : Heap) (p size : Nat) (hp : p ≠ 0)
    (h0 : 0 < size) (hle : adjust_size size ≤ GET_SIZE s.mem (HDRP p)) :
    mm_realloc fuel s p size = some (s, p) :=
  mm_realloc_same (by omega) hp hle

/-- C25 at the heap of the scenario, the block of `a` (112 bytes) and a size of
50. -/
theorem realloc_in_place_unchanged_witness :
    ∃ s, WF s [(112, Tag.A), (208, Tag.A), (704, Tag.F)] ∧
      mm_realloc (1 <<< 20) s (s.base + 96) 50 = some (s, s.base + 96) := by
  obtain ⟨s, hwf, -, hp⟩ := heap_with_block
  obtain ⟨-, L, hR⟩ := hwf
  have hsz := (hR.size_at hp).1
  refine ⟨s, ⟨Stable_abf _ _ _, L, hR⟩, ?_⟩
  exact realloc_in_place_unchanged _ s _ 50 (by omega) (by decide)
    (by rw [hsz]; decide)

/-- The search is a global best fit on a well-formed heap (every free block in
the list of its size class, every list sorted ascending): `find_fit(asize)`
returns, and a block it returns is a listed free block of at least `asize`
bytes that is no larger than any block of at least `asize` bytes in any of the
twenty lists. -/
theorem find_fit_global_best {s : Heap} {bl : List Blk} {L : Nat → List (Nat × Nat)}
    (h : Rep s bl L) {fuel : Nat} (hfuel : s.brk ≤ fuel) (asize : Nat) :
    ∃ r, find_fit fuel s asize = some r ∧
      (r ≠ 0 → ∃ y, y.1 = r ∧ y ∈ L (get_list_index y.2) ∧
        GET_SIZE s.mem (HDRP r) = y.2 ∧ asize ≤ y.2 ∧
        ∀ i, i < SEGLIST_CNT → ∀ z, z ∈ L i → asize ≤ z.2 → y.2 ≤ z.2) := by
  obtain ⟨hres, -⟩ := h.find_fit_spec hfuel asize
  refine ⟨_, hres, fun hr => ?_⟩
  cases hf : findFitL L asize (SEGLIST_CNT - get_list_index asize) (get_list_index asize) with
  | none =>
    rw [hf] at hr
    exact absurd rfl hr
  | some y =>
    obtain ⟨hy, hfit, hbest⟩ := h.lists.bestFit hf
    refine ⟨y, rfl, h.lists.mem_self hy, h.hdr y hy, hfit, fun i hi z hz hzf => ?_⟩
    have hzF := h.lists.mem_FB hi hz
    rcases hbest z hzF hzf with hlt | ⟨-, hle⟩
    · by_contra hc
      have := get_list_index_mono (by omega : z.2 ≤ y.2)
      omega
    · exact hle

/-- The global best fit on the heap left by `mm_init`. -/
theorem find_fit_global_best_witness :
    ∃ s r, find_fit 1120 s 100 = some r ∧
      (r ≠ 0 → ∃ y, y.1 = r ∧
        y ∈ insertL (fun _ => []) (s.base + 96, 1024) (get_list_index y.2) ∧
        GET_SIZE s.mem (HDRP r) = y.2 ∧ 100 ≤ y.2 ∧
        ∀ i, i < SEGLIST_CNT → ∀ z, z ∈ insertL (fun _ => []) (s.base + 96, 1024) i →
          100 ≤ z.2 → y.2 ≤ z.2) := by
  obtain ⟨s, -, hR, hk, hb, -⟩ := mm_init_layout 1120 heap0 Fresh_heap0 (by decide) (by decide)
  rw [← hb] at hR
  obtain ⟨r, h1, h2⟩ := find_fit_global_best hR (by omega : s.brk ≤ 1120) 100
  exact ⟨s, r, h1, h2⟩

/-! ## `mm_malloc` when the search finds nothing -/

/-- Linking a node at the start of an unlisted free block whose bytes have
been written over goes through and leaves the bytes of that block alone, but
for the link fields of the node. -/
theorem Rep.insert_scribbled_frame {s : Heap} {pre post : List Blk} {S : Nat}
    {L : Nat → List (Nat × Nat)} (h : Rep s (pre ++ (S, Tag.U) :: post) L)
    (hpost : startsA post) {M : Mem}
    (hM : ∀ a, a + 8 < s.base + 96 + total pre ∨ s.base + 96 + total pre + S ≤ a →
      M a = s.mem a)
    {x : Nat × Nat} (hx1 : s.base + 96 + total pre ≤ x.1) (hx2 : x.1 ≤ s.base + 96 + total pre + 8)
    {fuel : Nat} (hfuel : s.brk ≤ fuel) :
    ∃ s6, insert_node fuel { s with mem := M } x.1 x.2 = some s6 ∧
      ∀ a, s.base + 80 ≤ a → (a < x.1 ∨ x.1 + 8 ≤ a) → s.base + 96 + total pre ≤ a + 8 →
        a < s.base + 96 + total pre + S → s6.mem a = M a := by
  obtain ⟨h8, h16, htot, hle, -, -⟩ := h.block
  simp only at h8 h16 htot hle
  have hT := h.tiles
  rw [Tiles_append] at hT
  obtain ⟨hTp, -, -, -, -, hTq⟩ := hT
  simp only at hTq
  have hgeo : ∀ y, y ∈ flist (s.base + 96) (pre ++ (S, Tag.U) :: post) →
      y.1 + 16 ≤ s.base + 96 + total pre ∨ s.base + 96 + total pre + S + 16 ≤ y.1 := by
    intro y hy
    rw [flist_mid_U] at hy
    rcases List.mem_append.1 hy with hy | hy
    · have := flist_bounds hTp hy
      left; omega
    · have := flist_after_A hTq hpost hy
      right; omega
  have hSep : Sep s.base (flist (s.base + 96) (pre ++ (S, Tag.U) :: post)) :=
    h.sep (fun y hy => flist_sub_blist hy)
  have hL : Lists M s.base (flist (s.base + 96) (pre ++ (S, Tag.U) :: post)) L := by
    refine Lists_congr h.lists (fun a h1 h2 => hM a (by omega)) (fun y hy a h1 h2 => ?_)
    rcases hgeo y hy with hg | hg
    · exact hM a (by omega)
    · exact hM a (by omega)
  have hsz : ∀ y, y ∈ flist (s.base + 96) (pre ++ (S, Tag.U) :: post) →
      GET_SIZE M (HDRP y.1) = y.2 := by
    intro y hy
    rw [← h.hdr y hy]
    simp only [GET_SIZE, HDRP, WSIZE]
    congr 1
    refine GET_congr (fun a h1 h2 => ?_)
    rcases hgeo y hy with hg | hg
    · exact hM a (by omega)
    · exact hM a (by omega)
  have hS2 : Sep s.base (x :: flist (s.base + 96) (pre ++ (S, Tag.U) :: post)) := by
    refine ⟨fun z hz => ?_, fun z hz => ?_, fun z w hz hw => ?_⟩
    · rcases List.mem_cons.1 hz with rfl | hz
      · omega
      · exact hSep.lo z hz
    · rcases List.mem_cons.1 hz with rfl | hz
      · omega
      · exact hSep.hi z hz
    · rcases List.mem_cons.1 hz with hzx | hz
      · rcases List.mem_cons.1 hw with hwx | hw
        · exact Or.inl (hzx.trans hwx.symm)
        · rw [hzx]
          rcases hgeo w hw with hg | hg
          · right; right; omega
          · right; left; omega
      · rcases List.mem_cons.1 hw with hwx | hw
        · rw [hwx]
          rcases hgeo z hz with hg | hg
          · right; left; omega
          · right; right; omega
        · exact hSep.apart z w hz hw
  have hxn : x ∉ flist (s.base + 96) (pre ++ (S, Tag.U) :: post) := by
    intro hx
    rcases hgeo x hx with hg | hg <;> omega
  have hlen : (flist (s.base + 96) (pre ++ (S, Tag.U) :: post)).length < fuel := by
    have := flist_length h.tiles
    have := h.size
    omega
  have hseg := h.seg
  have hL' : Lists ({ s with mem := M } : Heap).mem ({ s with mem := M } : Heap).seg_free_lists
      (flist (s.base + 96) (pre ++ (S, Tag.U) :: post)) L := by
    show Lists M s.seg_free_lists _ _
    rw [hseg]; exact hL
  have hS2' : Sep ({ s with mem := M } : Heap).seg_free_lists
      (x :: flist (s.base + 96) (pre ++ (S, Tag.U) :: post)) := by
    show Sep s.seg_free_lists _
    rw [hseg]; exact hS2
  have hFB : ∀ y, y ∈ x :: flist (s.base + 96) (pre ++ (S, Tag.U) :: post) ↔
      y = x ∨ y ∈ flist (s.base + 96) (pre ++ (S, Tag.U) :: post) := fun y => List.mem_cons
  obtain ⟨s6, hres, -, -, -, -, -, hfr⟩ := insert_node_lists hL' hS2' hxn hsz hlen hFB
  refine ⟨s6, hres, fun a ha1 ha2 ha3 ha4 => ?_⟩
  refine hfr a (Or.inr (by show s.seg_free_lists + 80 ≤ a; rw [hseg]; exact ha1))
    (fun z hz => ?_)
  rcases List.mem_cons.1 hz with hzx | hz
  · rw [hzx]
    exact ha2
  · rcases hgeo z hz with hg | hg
    · right; omega
    · left; omega

/-- `place` with an adjusted size of at most eight bytes: the pointer it
returns and the header of the leftover. -/
theorem Rep.place_small_ptr {s : Heap} {pre post : List Blk} {S asize : Nat}
    {L : Nat → List (Nat × Nat)} (h : Rep s (pre ++ (S, Tag.F) :: post) L)
    (hst : Stable (pre ++ (S, Tag.F) :: post)) {fuel : Nat} (hfuel : s.brk ≤ fuel)
    (ha8 : asize % 8 = 0) (hle : asize ≤ 8) :
    ∃ s1, place fuel s (s.base + 96 + total pre) asize =
        some (s1, placePtr (s.base + 96 + total pre) S asize) ∧
      (16 ≤ S - asize → S - asize ≤ 340 →
        GET s1.mem (HDRP (s.base + 96 + total pre)) = PACK (S - asize) 0) ∧
      (340 < S - asize →
        GET s1.mem (HDRP (s.base + 96 + total pre + asize)) = PACK (S - asize) 0) := by
  obtain ⟨h8, h16, htot, hle32, -, -⟩ := h.block
  simp only at h8 h16 htot hle32
  have hrd := h.read.1
  simp only at hrd
  obtain ⟨-, -, -, hends⟩ := Stable_mid_iff.1 hst
  have hsA : startsA post := by
    rcases hends with hc | hc
    · exact absurd hc (by simp)
    · exact hc.2
  obtain ⟨hR1, -⟩ := h.delete
  have hf1 : (delete_node s (s.base + 96 + total pre)).brk ≤ fuel := by
    simpa using hfuel
  have hpk : PACK (S - asize) 0 < 2 ^ 32 := by
    rw [PACK_eq _ _ (by omega) (by omega)]
    omega
  by_cases hr1 : S - asize < 16
  · have hev := place_eval1 fuel s _ asize S hrd h8 (by omega) (by omega) hr1
    rw [placePtr_self (Or.inl hr1)]
    exact ⟨_, hev, fun hc => by omega, fun hc => by omega⟩
  · by_cases hr2 : S - asize ≤ 340
    · have hM : ∀ a, a + 8 < (delete_node s (s.base + 96 + total pre)).base + 96 + total pre ∨
          (delete_node s (s.base + 96 + total pre)).base + 96 + total pre + S ≤ a →
          PUT (PUT (PUT (PUT (delete_node s (s.base + 96 + total pre)).mem
            (s.base + 96 + total pre - 4) (PACK (S - asize) 0))
            (s.base + 96 + total pre + (S - asize) - 8) (PACK (S - asize) 0))
            (s.base + 96 + total pre + (S - asize) - 4) (PACK asize 1))
            (s.base + 96 + total pre + (S - asize) + asize - 8) (PACK asize 1) a =
          (delete_node s (s.base + 96 + total pre)).mem a := by
        intro a ha
        simp only [delete_node_base] at ha
        rw [PUT_other _ _ _ _ (by omega), PUT_other _ _ _ _ (by omega),
          PUT_other _ _ _ _ (by omega), PUT_other _ _ _ _ (by omega)]
      obtain ⟨s6, h6, hfr⟩ := hR1.insert_scribbled_frame hsA hM
        (x := (s.base + 96 + total pre, S - asize)) (by simp) (by simp) hf1
      simp only [delete_node_base] at hfr
      refine ⟨s6, ?_, fun _ _ => ?_, fun hc => by omega⟩
      · simp only [placePtr, hr1, hr2, if_true, if_false]
        exact place_eval2 fuel s _ asize S hrd h8 (by omega) ha8 (by omega) (by omega) hr2
          (by omega) s6 h6
      · simp only [HDRP, WSIZE]
        have hg : GET s6.mem (s.base + 96 + total pre - 4) =
            GET (PUT (PUT (PUT (PUT (delete_node s (s.base + 96 + total pre)).mem
              (s.base + 96 + total pre - 4) (PACK (S - asize) 0))
              (s.base + 96 + total pre + (S - asize) - 8) (PACK (S - asize) 0))
              (s.base + 96 + total pre + (S - asize) - 4) (PACK asize 1))
              (s.base + 96 + total pre + (S - asize) + asize - 8) (PACK asize 1))
              (s.base + 96 + total pre - 4) :=
          GET_congr (fun a h1 h2 => hfr a (by omega) (Or.inl (by omega)) (by omega) (by omega))
        rw [hg, GET_PUT_ne _ _ _ _ (by omega), GET_PUT_ne _ _ _ _ (by omega),
          GET_PUT_ne _ _ _ _ (by omega), GET_PUT_same _ _ _ hpk]
    · have hM : ∀ a, a + 8 < (delete_node s (s.base + 96 + total pre)).base + 96 + total pre ∨
          (delete_node s (s.base + 96 + total pre)).base + 96 + total pre + S ≤ a →
          PUT (PUT (PUT (PUT (delete_node s (s.base + 96 + total pre)).mem
            (s.base + 96 + total pre - 4) (PACK asize 1))
            (s.base + 96 + total pre + asize - 8) (PACK asize 1))
            (s.base + 96 + total pre + asize - 4) (PACK (S - asize) 0))
            (s.base + 96 + total pre + asize + (S - asize) - 8) (PACK (S - asize) 0) a =
          (delete_node s (s.base + 96 + total pre)).mem a := by
        intro a ha
        simp only [delete_node_base] at ha
        rw [PUT_other _ _ _ _ (by omega), PUT_other _ _ _ _ (by omega),
          PUT_other _ _ _ _ (by omega), PUT_other _ _ _ _ (by omega)]
      obtain ⟨s6, h6, hfr⟩ := hR1.insert_scribbled_frame hsA hM
        (x := (s.base + 96 + total pre + asize, S - asize)) (by simp) (by simp; omega) hf1
      simp only [delete_node_base] at hfr
      refine ⟨s6, ?_, fun _ hc => absurd hc hr2, fun _ => ?_⟩
      · simp only [placePtr, hr1, hr2, if_false]
        exact place_eval3w fuel s _ asize S hrd h8 (by omega) ha8 (by omega) (by omega)
          (by omega) s6 h6
      · simp only [HDRP, WSIZE]
        have hg : GET s6.mem (s.base + 96 + total pre + asize - 4) =
            GET (PUT (PUT (PUT (PUT (delete_node s (s.base + 96 + total pre)).mem
              (s.base + 96 + total pre - 4) (PACK asize 1))
              (s.base + 96 + total pre + asize - 8) (PACK asize 1))
              (s.base + 96 + total pre + asize - 4) (PACK (S - asize) 0))
              (s.base + 96 + total pre + asize + (S - asize) - 8) (PACK (S - asize) 0))
              (s.base + 96 + total pre + asize - 4) :=
          GET_congr (fun a h1 h2 => hfr a (by omega) (Or.inl (by omega)) (by omega) (by omega))
        rw [hg, GET_PUT_ne _ _ _ _ (by omega), GET_PUT_same _ _ _ hpk]

/-- C22: for a listed free block `bp` of `S` bytes in a well-formed heap and a
size `asize ≤ S` (a multiple of 8), with `remainder = S - asize`:
`place(bp, asize)` returns `bp + remainder` when `16 ≤ remainder ≤ 340` and `bp`
when `remainder < 16` or `remainder > 340`; in the first case the header of
`bp` then is that of a free block of `remainder` bytes, in the last case the
header of `bp + asize` is. -/
theorem place_returns {s : Heap} {pre post : List Blk} {S asize : Nat}
    {L : Nat → List (Nat × Nat)} (h : Rep s (pre ++ (S, Tag.F) :: post) L)
    (hst : Stable (pre ++ (S, Tag.F) :: post)) {fuel : Nat} (hfuel : s.brk ≤ fuel)
    (ha8 : asize % 8 = 0) (hle : asize ≤ S) :
    ∃ s1 q, place fuel s (s.base + 96 + total pre) asize = some (s1, q) ∧
      GET_SIZE s.mem (HDRP (s.base + 96 + total pre)) = S ∧
      (16 ≤ S - asize → S - asize ≤ 340 → q = s.base + 96 + total pre + (S - asize)) ∧
      (S - asize < 16 ∨ 340 < S - asize → q = s.base + 96 + total pre) ∧
      (16 ≤ S - asize → S - asize ≤ 340 →
        GET s1.mem (HDRP (s.base + 96 + total pre)) = PACK (S - asize) 0) ∧
      (340 < S - asize →
        GET s1.mem (HDRP (s.base + 96 + total pre + asize)) = PACK (S - asize) 0) := by
  have hrd := h.read.1
  simp only at hrd
  obtain ⟨h8, h16, -, hle32, -, -⟩ := h.block
  simp only at h8 h16 hle32
  have hq1 : 16 ≤ S - asize → S - asize ≤ 340 →
      placePtr (s.base + 96 + total pre) S asize = s.base + 96 + total pre + (S - asize) := by
    intro h1 h2
    simp only [placePtr, if_neg (by omega : ¬ S - asize < 16), h2, if_true]
  have hq2 : S - asize < 16 ∨ 340 < S - asize →
      placePtr (s.base + 96 + total pre) S asize = s.base + 96 + total pre :=
    fun hc => placePtr_self hc
  by_cases ha16 : 16 ≤ asize
  · obtain ⟨s1, hpl, hR1, hS1, -⟩ := h.place_spec hfuel ha8 ha16 hle
    have hab : abit Tag.F = 0 := by decide
    refine ⟨s1, _, hpl, hrd, hq1, hq2, fun h1 h2 => ?_, fun h1 => ?_⟩
    · simp only [placeBlocks, if_neg (by omega : ¬ S - asize < 16), h2, if_true] at hR1
      obtain ⟨-, -, -, -, hhd, -⟩ := hR1.block
      simp only at hhd
      rw [hS1.base, hab] at hhd
      rw [PACK_eq _ _ (by omega) (by omega)]
      simp only [HDRP, WSIZE]
      exact hhd
    · simp only [placeBlocks, if_neg (by omega : ¬ S - asize < 16),
        if_neg (by omega : ¬ S - asize ≤ 340)] at hR1
      have e1 : pre ++ (asize, Tag.A) :: (S - asize, Tag.F) :: post =
          (pre ++ [(asize, Tag.A)]) ++ (S - asize, Tag.F) :: post := by simp
      rw [e1] at hR1
      obtain ⟨-, -, -, -, hhd, -⟩ := hR1.block
      rw [total_snoc] at hhd
      simp only at hhd
      rw [hS1.base, hab, ← Nat.add_assoc] at hhd
      rw [PACK_eq _ _ (by omega) (by omega)]
      simp only [HDRP, WSIZE]
      exact hhd
  · obtain ⟨s1, hpl, hl1, hl2⟩ := h.place_small_ptr hst hfuel ha8 (by omega : asize ≤ 8)
    exact ⟨s1, _, hpl, hrd, hq1, hq2, hl1, hl2⟩

/-- C22 on the heap left by `mm_init`: `place` of 112 bytes in the block of
1024 bytes leaves 912 bytes and returns the block itself, with the leftover
behind it. -/
theorem place_returns_witness :
    ∃ s s1 q, place 1120 s (s.base + 96) 112 = some (s1, q) ∧
      GET_SIZE s.mem (HDRP (s.base + 96)) = 1024 ∧ q = s.base + 96 ∧
      GET s1.mem (HDRP (s.base + 96 + 112)) = PACK 912 0 := by
  obtain ⟨s, -, hR, hk, hb, -⟩ := mm_init_layout 1120 heap0 Fresh_heap0 (by decide) (by decide)
  have hR' : Rep s ([] ++ (1024, Tag.F) :: []) _ := hR
  obtain ⟨s1, q, h1, h2, -, h4, -, h6⟩ :=
    place_returns hR' (Stable_one_F 1024) (by omega : s.brk ≤ 1120) (by decide : 112 % 8 = 0)
      (by decide)
  simp only [total, Nat.add_zero] at h1 h2 h4 h6
  exact ⟨s, s1, q, h1, h2, h4 (Or.inr (by decide)), h6 (by decide)⟩

/-! ## More runs with a request whose adjusted size wraps around -/

set_option maxRecDepth 100000 in
/-- C23: `mm_malloc(0xFFFFFFF8)` on the heap left by `mm_init` computes the
adjusted size 0 and calls `place(bp, 0)` on the listed free block `bp` of 1024
bytes; afterwards the returned block, `bp` itself, has the header word 1024
(free, 1024 bytes) and `bp` is at the head of list 10. -/
theorem place_leaves_block_listed_after_wrap :
    runPlace = some (0, 0x10000060, 1024, 0x10000060, 1024, 0x10000060) := by
  decide

set_option maxRecDepth 100000 in
/-- C29: after `a = mm_malloc(1); p = mm_malloc(0xFFFFFFFF); b = mm_malloc(1)`
the blocks of `p` and `b` are allocated (header words 9 and 17) and the only
listed block is the free block at the head of list 9; after `mm_free(p)` the
header word of `b` is 0, so its allocated flag is clear, and the lists are
list 3 with the one node `p` and list 9 with the one node it had: `b` is in no
list. -/
theorem table_invariant_broken_after_wrap :
    runTable = some ([0x10000070, 0x10000078, 9, 17, 0, 0, 0],
      [0, 0, 0, 0, 0, 0, 0, 0, 0, 0x10000088, 0, 0, 0, 0, 0, 0, 0, 0, 0, 0],
      [0, 0, 0, 0x10000070, 0, 0, 0, 0, 0, 0x10000088, 0, 0, 0, 0, 0, 0, 0, 0, 0, 0]) := by
  decide

set_option maxRecDepth 100000 in
/-- C30: with `a = mm_malloc(100)` holding the byte `0xAA` at `a + 4` and a
block `x = mm_malloc(0xFFFFFFF8)` whose first word the caller set to `a`, the
call `mm_malloc(8)` turns the byte at `a + 4`, in the payload of the allocated
block `a` (header word 113 before and after), to 0. -/
theorem malloc_writes_foreign_payload_after_wrap :
    runPayload = some (0x10000060, 0x100000D0, 0x100000D0, [113, 170], [113, 0]) := by
  decide

set_option maxRecDepth 100000 in
/-- C28: in a state reached through `mm_malloc(0xFFFFFFF8)` and a store of the
caller into that payload, `find_fit(600)` returns the node at the head of
list 9, whose header holds the size 4096, although the node of list 11 has
3016 bytes, which is enough and less. -/
theorem find_fit_not_best_after_wrap :
    runNotBest = some [0x10000080, 0x10000C48, 0x10000070, 0x10000C58, 0x10000080,
      0x10000C58, 4096, 3016] := by
  decide

end MM
